import Mathlib

/-! # Graph-Analysis-Tool: a shallow embedding of the algorithmic core

The graph store, `shortestPath`, `maxFlow`, `findMST`, `findCommunities` with `dfsUtil`,
and the isolated-node queries of `GraphAnalysisTool.cpp`, together with `UnionFind.cpp`,
`Timer.cpp`, and `generateScaleFreeGraph` and `generateSmallWorldGraph` of
`GraphGenerator.cpp`, are translated function by function.

* A C++ `int` is an `Int`; every `+`, `-`, `++` of the source on `int` values
  is followed by `wrap32`, the reduction to the 32-bit two's-complement range.
* A `std::vector<int>` is a `List Int`, read with `vget` and written with `vset`.
* `std::unordered_map` / `std::unordered_set` are association lists / lists kept
  in insertion order.  Where the source iterates over one and the order can
  influence the result, the iteration order is a parameter of the model.
* `std::priority_queue` with `std::greater<>` is the list of its entries; `top`
  is the lexicographically least pair.
* Loops whose termination is not structural take a `fuel : Nat` and return
  `none` when it runs out.
-/

namespace GraphAnalysis

/-! ## Machine integers and vectors -/

/-- Largest value of a 32-bit `int`, `std::numeric_limits<int>::max()`. -/
def INT_MAX : Int := 2147483647

/-- Reduction of an integer to the 32-bit two's-complement range. -/
def wrap32 (x : Int) : Int := (x + 2147483648) % 4294967296 - 2147483648

/-- Addition of two `int` values. -/
def add32 (a b : Int) : Int := wrap32 (a + b)

/-- Subtraction of two `int` values. -/
def sub32 (a b : Int) : Int := wrap32 (a - b)

/-- Read `a[i]` of a `std::vector<int>`; an index outside the vector reads `0`. -/
def vget (a : List Int) (i : Int) : Int :=
  if i < 0 then 0 else a.getD i.toNat 0

/-- Write `a[i] = v` of a `std::vector<int>`; an index outside the vector writes nothing. -/
def vset (a : List Int) (i : Int) (v : Int) : List Int :=
  if i < 0 then a else a.set i.toNat v

/-! ## Telemetry records -/

/-- Struct `PerformanceMetrics`; the execution time is kept as a tick count. -/
structure PerformanceMetrics where
  executionTime : Int
  nodesProcessed : Nat
  memoryUsed : Nat
deriving DecidableEq, Repr

/-- Modelled from the spec: the constructor `PerformanceMetrics::PerformanceMetrics()` is
declared in `PerformanceMetrics.h` and defined nowhere in the sources; a fresh telemetry
record has nothing measured yet. -/
def PerformanceMetrics.fresh : PerformanceMetrics :=
  { executionTime := 0, nodesProcessed := 0, memoryUsed := 0 }

/-- The map `metrics`, operation name to record. -/
abbrev Metrics := List (String × PerformanceMetrics)

/-- Lookup `metrics[op]` without insertion. -/
def metricsGet (m : Metrics) (op : String) : Option PerformanceMetrics :=
  (m.find? (fun e => e.1 == op)).map Prod.snd

/-- Update of `metrics[op]` by `f`; `operator[]` first inserts a fresh record when the key is absent. -/
def metricsModify (m : Metrics) (op : String) (f : PerformanceMetrics → PerformanceMetrics) : Metrics :=
  match m with
  | [] => [(op, f PerformanceMetrics.fresh)]
  | e :: rest => if e.1 == op then (e.1, f e.2) :: rest else e :: metricsModify rest op f

/-- Statement `metrics[op].nodesProcessed = n`. -/
def setNodesProcessed (m : Metrics) (op : String) (n : Nat) : Metrics :=
  metricsModify m op (fun r => { r with nodesProcessed := n })

/-- Statement `metrics[op].nodesProcessed++` on a `size_t`. -/
def incNodesProcessed (m : Metrics) (op : String) : Metrics :=
  metricsModify m op (fun r => { r with nodesProcessed := (r.nodesProcessed + 1) % 18446744073709551616 })

/-! ## Graph store -/

/-- The adjacency table: node id to its outgoing `(target, weight)` pairs. -/
abbrev AdjList := List (Int × List (Int × Int))

/-- Class `GraphAnalysisTool`: its data members. -/
structure GraphAnalysisTool where
  adjacencyList : AdjList
  nodes : List Int
  numNodes : Int
  numEdges : Int
  metrics : Metrics
deriving DecidableEq, Repr

/-- Constructor `GraphAnalysisTool::GraphAnalysisTool()`. -/
def GraphAnalysisTool.empty : GraphAnalysisTool :=
  { adjacencyList := [], nodes := [], numNodes := 0, numEdges := 0, metrics := [] }

/-- Test `adjacencyList.find(node) != adjacencyList.end()`. -/
def hasKey (al : AdjList) (node : Int) : Bool :=
  al.any (fun e => e.1 == node)

/-- The edge vector stored under `node`, empty when the key is absent. -/
def adjOf (al : AdjList) (node : Int) : List (Int × Int) :=
  match al with
  | [] => []
  | e :: rest => if e.1 = node then e.2 else adjOf rest node

/-- Effect of `adjacencyList[node]` on the table: an absent key is inserted with an empty vector. -/
def touch (al : AdjList) (node : Int) : AdjList :=
  if hasKey al node then al else al ++ [(node, [])]

/-- Statement `adjacencyList[node].push_back(e)`. -/
def pushEdge (al : AdjList) (node : Int) (e : Int × Int) : AdjList :=
  match al with
  | [] => [(node, [e])]
  | x :: rest => if x.1 = node then (x.1, x.2 ++ [e]) :: rest else x :: pushEdge rest node e

/-- Method `GraphAnalysisTool::addNode`. -/
def addNode (g : GraphAnalysisTool) (node : Int) : GraphAnalysisTool :=
  { g with
    nodes := if node ∈ g.nodes then g.nodes else g.nodes ++ [node]
    numNodes := max g.numNodes (add32 node 1)
    adjacencyList := if hasKey g.adjacencyList node then g.adjacencyList
                     else g.adjacencyList ++ [(node, [])] }

/-- Method `GraphAnalysisTool::addEdge`. -/
def addEdge (g : GraphAnalysisTool) (src dst weight : Int) : GraphAnalysisTool :=
  let g1 := addNode g src
  let g2 := addNode g1 dst
  { g2 with
    adjacencyList := pushEdge g2.adjacencyList src (dst, weight)
    numEdges := add32 g2.numEdges 1 }

/-- A mutation of the graph store. -/
inductive Op where
  | node (id : Int)
  | edge (src dst weight : Int)
deriving DecidableEq, Repr

/-- One mutator call. -/
def applyOp (g : GraphAnalysisTool) : Op → GraphAnalysisTool
  | Op.node id => addNode g id
  | Op.edge s d w => addEdge g s d w

/-- The graph store reached from the empty one by a sequence of mutator calls. -/
def build (ops : List Op) : GraphAnalysisTool :=
  ops.foldl applyOp GraphAnalysisTool.empty

/-- Ids used by a mutator call. -/
def Op.ids : Op → List Int
  | Op.node id => [id]
  | Op.edge s d _ => [s, d]

/-- Weights used by a mutator call. -/
def Op.weights : Op → List Int
  | Op.node _ => []
  | Op.edge _ _ w => [w]

/-- Every id of the calls is non-negative and `id + 1` is still an `int`. -/
def idsOk (ops : List Op) : Prop :=
  ∀ op ∈ ops, ∀ i ∈ op.ids, 0 ≤ i ∧ i < INT_MAX

/-- Every weight of the calls is non-negative. -/
def weightsNonneg (ops : List Op) : Prop :=
  ∀ op ∈ ops, ∀ w ∈ op.weights, 0 ≤ w

instance (ops : List Op) : Decidable (idsOk ops) := by
  unfold idsOk; infer_instance

instance (ops : List Op) : Decidable (weightsNonneg ops) := by
  unfold weightsNonneg; infer_instance

/-- Sum of the weights of all edges of the adjacency table. -/
def totalWeight (al : AdjList) : Int :=
  (al.map (fun e => (e.2.map Prod.snd).sum)).sum

/-! ## Shortest path (`GraphAnalysisTool::shortestPath`) -/

/-- Order of `std::pair<int,int>`: `a <= b` lexicographically. -/
def pairLe (a b : Int × Int) : Bool :=
  decide (a.1 < b.1) || (decide (a.1 = b.1) && decide (a.2 ≤ b.2))

/-- The entry `pq.top()` of the min-queue: the least pair, `none` on an empty queue. -/
def pqTop : List (Int × Int) → Option (Int × Int)
  | [] => none
  | x :: xs =>
    match pqTop xs with
    | none => some x
    | some m => if pairLe x m then some x else some m

/-- Locals of `shortestPath` together with the members it writes. -/
structure SPState where
  adjacencyList : AdjList
  metrics : Metrics
  distances : List Int
  previous : List Int
  pq : List (Int × Int)
deriving DecidableEq, Repr

/-- The `for` loop over the edges of `current`: one relaxation per edge. -/
def relax (current : Int) : List (Int × Int) → SPState → SPState
  | [], s => s
  | (next, weight) :: rest, s =>
    if add32 (vget s.distances current) weight < vget s.distances next then
      let distances := vset s.distances next (add32 (vget s.distances current) weight)
      relax current rest
        { s with
          distances := distances
          previous := vset s.previous next current
          pq := s.pq ++ [(vget distances next, next)] }
    else relax current rest s

/-- The `while (!pq.empty())` loop. -/
def spLoop : Nat → SPState → Option SPState
  | fuel, s =>
    match pqTop s.pq with
    | none => some s
    | some top =>
      match fuel with
      | 0 => none
      | fuel + 1 =>
        let current := top.2
        let dist := top.1
        let s1 : SPState :=
          { s with pq := s.pq.erase top, metrics := incNodesProcessed s.metrics "Shortest Path" }
        if dist > vget s1.distances current then spLoop fuel s1
        else
          let s2 : SPState := { s1 with adjacencyList := touch s1.adjacencyList current }
          spLoop fuel (relax current (adjOf s2.adjacencyList current) s2)

/-- The loop `for (int at = end; at != -1; at = previous[at]) path.push_back(at)`. -/
def walkBack (previous : List Int) : Nat → Int → List Int → Option (List Int)
  | fuel, node, path =>
    if node = -1 then some path
    else
      match fuel with
      | 0 => none
      | fuel + 1 => walkBack previous fuel (vget previous node) (path ++ [node])

/-- State of `shortestPath` when its main loop is entered. -/
def spInit (g : GraphAnalysisTool) (start : Int) : SPState :=
  { adjacencyList := g.adjacencyList
    metrics := setNodesProcessed g.metrics "Shortest Path" 0
    distances := vset (List.replicate g.numNodes.toNat INT_MAX) start 0
    previous := List.replicate g.numNodes.toNat (-1)
    pq := [(0, start)] }

/-- Method `GraphAnalysisTool::shortestPath`: the returned `(path, distance)` and the tool afterwards. -/
def shortestPath (g : GraphAnalysisTool) (start endNode : Int) (fuel : Nat) :
    Option ((List Int × Int) × GraphAnalysisTool) :=
  match spLoop fuel (spInit g start) with
  | none => none
  | some s =>
    let g1 : GraphAnalysisTool := { g with adjacencyList := s.adjacencyList, metrics := s.metrics }
    if vget s.distances endNode ≠ INT_MAX then
      match walkBack s.previous fuel endNode [] with
      | none => none
      | some path => some ((path.reverse, vget s.distances endNode), g1)
    else some (([], vget s.distances endNode), g1)

/-! ## Maximum flow (`GraphAnalysisTool::maxFlow`) -/

/-- The table `residualGraph`: node to (target to residual capacity). -/
abbrev Residual := List (Int × List (Int × Int))

/-- Read `m[v]` of an inner map of the residual table; an absent key reads `0`. -/
def capOf (row : List (Int × Int)) (v : Int) : Int :=
  match row with
  | [] => 0
  | e :: rest => if e.1 = v then e.2 else capOf rest v

/-- Write `m[v] = c` on an inner map: the entry is overwritten, or appended when absent. -/
def rowSet (row : List (Int × Int)) (v c : Int) : List (Int × Int) :=
  match row with
  | [] => [(v, c)]
  | e :: rest => if e.1 = v then (e.1, c) :: rest else e :: rowSet rest v c

/-- Read `residualGraph[u][v]`. -/
def resGet (r : Residual) (u v : Int) : Int := capOf (adjOf r u) v

/-- Write `residualGraph[u][v] = c`. -/
def resSet (r : Residual) (u v c : Int) : Residual :=
  match r with
  | [] => [(u, [(v, c)])]
  | e :: rest => if e.1 = u then (e.1, rowSet e.2 v c) :: rest else e :: resSet rest u v c

/-- The inner loop of the initialisation: `residualGraph[node][dest] = capacity` for each edge. -/
def initRow (node : Int) : List (Int × Int) → Residual → Residual
  | [], r => r
  | (dest, capacity) :: rest, r => initRow node rest (resSet r node dest capacity)

/-- The initialisation of `residualGraph` from the adjacency table.  The table is walked in
the order of the list; the rows obtained do not depend on that order, since a row is written
from the edge vector of its own node only. -/
def initResidual : AdjList → Residual → Residual
  | [], r => r
  | (node, edges) :: rest, r => initResidual rest (initRow node edges r)

/-- The `for` loop of the search over the entries of `residualGraph[current]`. -/
def bfsScan (current : Int) : List (Int × Int) → List Int × List Int → List Int × List Int
  | [], st => st
  | (next, capacity) :: rest, (parent, q) =>
    if vget parent next = -1 ∧ capacity > 0 then
      bfsScan current rest (vset parent next current, q ++ [next])
    else bfsScan current rest (parent, q)

/-- The loop `while (!q.empty() && parent[sink] == -1)`; `ord` is the order in which an
inner `unordered_map` hands out its entries, as a function of the row in insertion order.
The empty row that `residualGraph[current]` inserts for an absent key is left out: the
outer map is never iterated after its initialisation. -/
def bfsLoop (ord : List (Int × Int) → List (Int × Int)) (r : Residual) (sink : Int) :
    Nat → List Int × List Int → Option (List Int)
  | fuel, (parent, q) =>
    match q with
    | [] => some parent
    | current :: q1 =>
      if vget parent sink ≠ -1 then some parent
      else
        match fuel with
        | 0 => none
        | fuel + 1 => bfsLoop ord r sink fuel (bfsScan current (ord (adjOf r current)) (parent, q1))

/-- The loop `for (int v = sink; v != source; v = parent[v])` that collects the path and
its bottleneck. -/
def collectPath (r : Residual) (parent : List Int) (source : Int) :
    Nat → Int → List Int × Int → Option (List Int × Int)
  | fuel, v, (path, pathFlow) =>
    if v = source then some (path, pathFlow)
    else
      match fuel with
      | 0 => none
      | fuel + 1 =>
        collectPath r parent source fuel (vget parent v)
          (path ++ [v], min pathFlow (resGet r (vget parent v) v))

/-- The loop `for (int v = sink; v != source; v = parent[v])` that updates the residual table. -/
def augment (parent : List Int) (source pathFlow : Int) : Nat → Int → Residual → Option Residual
  | fuel, v, r =>
    if v = source then some r
    else
      match fuel with
      | 0 => none
      | fuel + 1 =>
        let u := vget parent v
        let r1 := resSet r u v (sub32 (resGet r u v) pathFlow)
        let r2 := resSet r1 v u (add32 (resGet r1 v u) pathFlow)
        augment parent source pathFlow fuel u r2

/-- Locals of `maxFlow` that live across iterations of its outer loop. -/
structure MFState where
  residualGraph : Residual
  flowPaths : List (List Int × Int)
  maxFlowValue : Int
deriving DecidableEq, Repr

/-- The loop `while (true)` of `maxFlow`; `inner` is the fuel handed to each inner loop. -/
def maxFlowLoop (ord : List (Int × Int) → List (Int × Int)) (numNodes source sink : Int)
    (inner : Nat) : Nat → MFState → Option MFState
  | 0, _ => none
  | fuel + 1, st =>
    match bfsLoop ord st.residualGraph sink inner
        (vset (List.replicate numNodes.toNat (-1)) source source, [source]) with
    | none => none
    | some parent =>
      if vget parent sink = -1 then some st
      else
        match collectPath st.residualGraph parent source inner sink ([], INT_MAX) with
        | none => none
        | some (path, pathFlow) =>
          match augment parent source pathFlow inner sink st.residualGraph with
          | none => none
          | some r =>
            maxFlowLoop ord numNodes source sink inner fuel
              { residualGraph := r
                flowPaths := st.flowPaths ++ [((path ++ [source]).reverse, pathFlow)]
                maxFlowValue := add32 st.maxFlowValue pathFlow }

/-- Method `GraphAnalysisTool::maxFlow`: the returned `(maxFlowValue, flowPaths)`.  The
telemetry counter it also writes is not part of the returned value and is left out. -/
def maxFlow (ord : List (Int × Int) → List (Int × Int)) (g : GraphAnalysisTool)
    (source sink : Int) (fuel : Nat) : Option (Int × List (List Int × Int)) :=
  match maxFlowLoop ord g.numNodes source sink fuel fuel
      { residualGraph := initResidual g.adjacencyList [], flowPaths := [], maxFlowValue := 0 } with
  | none => none
  | some st => some (st.maxFlowValue, st.flowPaths)

/-- An admissible iteration order of an `unordered_map`: every entry is handed out once. -/
def IsIterOrder (ord : List (Int × Int) → List (Int × Int)) : Prop :=
  ∀ row, (ord row).Perm row

/-! ## Specification vocabulary for shortest paths -/

/-- `Walk al p W`: the node sequence `p` is non-empty, every consecutive pair `(a, b)` of it
is joined by an edge `a -> b` of the adjacency table, and the weights of one such edge per
pair sum to `W`. -/
inductive Walk (al : AdjList) : List Int → Int → Prop
  | single (a : Int) : Walk al [a] 0
  | cons (a b : Int) (rest : List Int) (w W : Int) :
      (b, w) ∈ adjOf al a → Walk al (b :: rest) W → Walk al (a :: b :: rest) (w + W)

/-- A directed path `p` from `s` to `e` of total weight `W`. -/
def PathFromTo (al : AdjList) (s e : Int) (p : List Int) (W : Int) : Prop :=
  Walk al p W ∧ p.head? = some s ∧ p.getLast? = some e

/-- Node `e` can be reached from `s` along outgoing edges. -/
def Reachable (al : AdjList) (s e : Int) : Prop :=
  ∃ p W, PathFromTo al s e p W

/-- A walk from `s` listed backwards: the head of the list is the node reached. -/
inductive RWalk (al : AdjList) (s : Int) : List Int → Int → Prop
  | base : RWalk al s [s] 0
  | step (u v w : Int) (p : List Int) (W : Int) :
      RWalk al s (u :: p) W → (v, w) ∈ adjOf al u → RWalk al s (v :: u :: p) (W + w)

/-- Sum of the weights of the edges leaving `a`. -/
def outW (al : AdjList) (a : Int) : Int := ((adjOf al a).map Prod.snd).sum

/-- Sum of the weights of the edges leaving the nodes of `l`. -/
def outSum (al : AdjList) (l : List Int) : Int := (l.map (outW al)).sum

/-- The graph facts `shortestPath` relies on: edge targets are valid indices, weights are
non-negative and their total is an `int`. -/
structure GraphOK (al : AdjList) (n : Int) : Prop where
  tgt : ∀ u, ∀ e ∈ adjOf al u, 0 ≤ e.1 ∧ e.1 < n
  wt : ∀ u, ∀ e ∈ adjOf al u, 0 ≤ e.2
  row : ∀ x ∈ al, ∀ e ∈ x.2, 0 ≤ e.2
  total : totalWeight al ≤ INT_MAX

/-- The nodes whose edges have been relaxed, newest first: each was reached through an
older one (or is the start), no later one is nearer, and its distance is bounded by the
weights leaving the older ones. -/
def SettledOK (al : AdjList) (start : Int) (dist prev : List Int) : List Int → Prop
  | [] => True
  | u :: L =>
    u ∉ L ∧ vget dist u ≤ outSum al L ∧
    (u = start ∨ (vget prev u ∈ L ∧
      ∃ w, (u, w) ∈ adjOf al (vget prev u) ∧ vget dist u = vget dist (vget prev u) + w)) ∧
    (∀ x ∈ L, vget dist x ≤ vget dist u) ∧
    SettledOK al start dist prev L

/-- Loop invariant of `shortestPath`; `L` lists the settled nodes and `rest` the edges of
the newest one that the inner loop has not reached yet. -/
structure SPInv (al : AdjList) (n start : Int) (L : List Int) (rest : List (Int × Int))
    (s : SPState) : Prop where
  len_d : (s.distances.length : Int) = n
  len_p : (s.previous.length : Int) = n
  adj_eq : ∀ u, adjOf s.adjacencyList u = adjOf al u
  dist_lo : ∀ v, 0 ≤ vget s.distances v
  dist_hi : ∀ v, vget s.distances v ≤ INT_MAX
  start_d : vget s.distances start = 0
  start_p : vget s.previous start = -1
  pq_ok : ∀ e ∈ s.pq, 0 ≤ e.2 ∧ e.2 < n ∧ vget s.distances e.2 ≤ e.1 ∧ e.1 < INT_MAX
  live : ∀ v, 0 ≤ v → v < n → vget s.distances v < INT_MAX → v ∉ L →
    (vget s.distances v, v) ∈ s.pq
  settled : SettledOK al start s.distances s.previous L
  settled_rng : ∀ u ∈ L, 0 ≤ u ∧ u < n ∧ vget s.distances u < INT_MAX
  relaxed : ∀ u ∈ L, ∀ e ∈ adjOf al u,
    (L.head? = some u ∧ e ∈ rest) ∨ vget s.distances e.1 ≤ vget s.distances u + e.2
  settled_le : ∀ u ∈ L, ∀ e ∈ s.pq, vget s.distances u ≤ e.1
  tree : ∀ v, 0 ≤ v → v < n → v ∉ L → v ≠ start → vget s.distances v < INT_MAX →
    vget s.previous v ∈ L ∧ ∃ w, (v, w) ∈ adjOf al (vget s.previous v) ∧
      vget s.distances v = vget s.distances (vget s.previous v) + w
  unsettled_le : ∀ v, 0 ≤ v → v < n → v ∉ L → vget s.distances v < INT_MAX →
    vget s.distances v ≤ outSum al L

/-- Termination measure of the main loop of `shortestPath`. -/
def spMeasure (s : SPState) : Int := 2 * s.distances.sum + s.pq.length

/-- Every stored edge has a valid target index and a non-negative weight. -/
def RowsOK (g : GraphAnalysisTool) : Prop :=
  ∀ x ∈ g.adjacencyList, ∀ e ∈ x.2, 0 ≤ e.1 ∧ e.1 < g.numNodes ∧ 0 ≤ e.2

/-- The mutator calls of the first scenario of the specification:
edges `(0,1,4)`, `(0,2,3)`, `(1,2,1)`, `(1,3,5)`. -/
def scenarioPathOps : List Op :=
  [Op.edge 0 1 4, Op.edge 0 2 3, Op.edge 1 2 1, Op.edge 1 3 5]

/-! ## Specification vocabulary for maximum flow -/

/-- Capacity of the ordered pair `(u, v)`: the weight of the last inserted edge `u -> v`,
`0` when there is none. -/
def capacity (al : AdjList) (u v : Int) : Int := capOf (adjOf al u).reverse v

/-- The valid node ids `0, 1, ..., n - 1`. -/
def nodeIds (n : Int) : List Int := (List.range n.toNat).map Int.ofNat

/-- Capacity of the cut whose source side is `S`: the capacities of the pairs leaving `S`. -/
def cutCapacity (al : AdjList) (n : Int) (S : Int → Bool) : Int :=
  (((nodeIds n).filter S).map (fun u =>
    (((nodeIds n).filter (fun v => !S v)).map (fun v => capacity al u v)).sum)).sum

/-- Value `c` is the capacity of a minimum cut separating `source` from `sink`. -/
def IsMinCut (al : AdjList) (n source sink : Int) (c : Int) : Prop :=
  (∃ S : Int → Bool, S source = true ∧ S sink = false ∧ cutCapacity al n S = c) ∧
  ∀ S : Int → Bool, S source = true → S sink = false → c ≤ cutCapacity al n S

/-- Sum of all pair capacities. -/
def capTotal (al : AdjList) (n : Int) : Int :=
  ((nodeIds n).map (fun u => ((nodeIds n).map (fun v => capacity al u v)).sum)).sum

/-- Every key of the table occurs once. -/
def KeysNodup (al : AdjList) : Prop := (al.map Prod.fst).Nodup

/-- The rows of a residual table have distinct keys, all of them valid node ids. -/
def ResKeysOK (r : Residual) (n : Int) : Prop :=
  ∀ u, ((adjOf r u).map Prod.fst).Nodup ∧ ∀ e ∈ adjOf r u, 0 ≤ e.1 ∧ e.1 < n

/-- The stored residual values are `int` values. -/
def ResValsOK (r : Residual) : Prop :=
  ∀ u, ∀ e ∈ adjOf r u, -2147483648 ≤ e.2 ∧ e.2 ≤ INT_MAX

/-- One step of the update loop on the pair `u -> v`. -/
def pushEdgeFlow (r : Residual) (u v f : Int) : Residual :=
  let r1 := resSet r u v (sub32 (resGet r u v) f)
  resSet r1 v u (add32 (resGet r1 v u) f)

/-- The update loop along a path listed from the sink back to the source. -/
def pushPath (f : Int) : List Int → Residual → Residual
  | v :: u :: rest, r => pushPath f (u :: rest) (pushEdgeFlow r u v f)
  | _, r => r

/-- The bottleneck loop along a path listed from the sink back to the source. -/
def bottleneck (r : Residual) : List Int → Int → Int
  | v :: u :: rest, pf => bottleneck r (u :: rest) (min pf (resGet r u v))
  | _, pf => pf

/-- Every pair of a path listed from the sink back to the source has positive residual. -/
def PosPath (r : Residual) : List Int → Prop
  | v :: u :: rest => 0 < resGet r u v ∧ PosPath r (u :: rest)
  | _ => True

/-- The visited nodes of a search, newest first: each was entered from an older one through
a pair of positive residual capacity; the source is its own parent. -/
def BfsTree (r : Residual) (source : Int) (parent : List Int) : List Int → Prop
  | [] => True
  | v :: V =>
    v ∉ V ∧
    (if v = source then vget parent v = source
     else vget parent v ∈ V ∧ 0 < resGet r (vget parent v) v) ∧
    BfsTree r source parent V

/-- Invariant of the search; `V` lists the visited nodes, `cur` the node being scanned and
`rest` the entries of its row still to be scanned. -/
structure BfsInv (r : Residual) (n source : Int) (parent q V : List Int)
    (cur : Option Int) (rest : List (Int × Int)) : Prop where
  len : (parent.length : Int) = n
  vis : ∀ x, 0 ≤ x → x < n → (vget parent x ≠ -1 ↔ x ∈ V)
  rng : ∀ x ∈ V, 0 ≤ x ∧ x < n
  tree : BfsTree r source parent V
  src : source ∈ V
  qsub : ∀ x ∈ q, x ∈ V
  done : ∀ u ∈ V, u ∉ q → ∀ e ∈ adjOf r u, 0 < e.2 → (cur = some u ∧ e ∈ rest) ∨ e.1 ∈ V

/-- Termination measure of the outer loop of `maxFlow`: the positive residual capacity
leaving the source. -/
def sourceRoom (r : Residual) (source : Int) : Int :=
  ((adjOf r source).map (fun e => max e.2 0)).sum

/-- Every pair of a path listed from the sink back to the source has residual at least `f`. -/
def PathCap (r : Residual) (f : Int) : List Int → Prop
  | v :: u :: rest => f ≤ resGet r u v ∧ PathCap r f (u :: rest)
  | _ => True

/-- An augmenting path of the residual table `r`, listed from the sink back to the source,
with the flow `f` pushed along it. -/
structure AugPath (r : Residual) (n source sink : Int) (p : List Int) (f : Int) : Prop where
  head : p.head? = some sink
  last : p.getLast? = some source
  nodup : p.Nodup
  rng : ∀ x ∈ p, 0 ≤ x ∧ x < n
  cap : PathCap r f p
  pos : 0 < f
  le : f ≤ INT_MAX

/-- State of `maxFlow` after one more augmentation along `p` with flow `f`. -/
def mfNext (st : MFState) (p : List Int) (f : Int) : MFState :=
  { residualGraph := pushPath f p st.residualGraph
    flowPaths := st.flowPaths ++ [(p.reverse, f)]
    maxFlowValue := add32 st.maxFlowValue f }

/-- A node sequence whose consecutive pairs all have positive capacity. -/
def PosCapWalk (al : AdjList) : List Int → Prop
  | a :: b :: rest => 0 < capacity al a b ∧ PosCapWalk al (b :: rest)
  | _ => True

/-- Node `t` can be reached from `s` along pairs of positive capacity. -/
def CapReachable (al : AdjList) (s t : Int) : Prop :=
  ∃ p, p.head? = some s ∧ p.getLast? = some t ∧ PosCapWalk al p

/-- What holds of every recorded `(path, flow)` pair: the flow is positive, the path leads
from `source` to `sink` and repeats no node. -/
def FlowPathOK (source sink : Int) (e : List Int × Int) : Prop :=
  0 < e.2 ∧ e.1.head? = some source ∧ e.1.getLast? = some sink ∧ e.1.Nodup

/-- The recorded paths are well formed and the running total is the 32-bit sum of their flows. -/
def PathsInv (source sink : Int) (st : MFState) : Prop :=
  (∀ e ∈ st.flowPaths, FlowPathOK source sink e) ∧
  st.maxFlowValue = (st.flowPaths.map Prod.snd).foldl add32 0

/-- State of `maxFlow` when its outer loop is entered. -/
def mfInit (g : GraphAnalysisTool) : MFState :=
  { residualGraph := initResidual g.adjacencyList [], flowPaths := [], maxFlowValue := 0 }

/-- Every weight of the calls is an `int` value. -/
def weightsInt (ops : List Op) : Prop :=
  ∀ op ∈ ops, ∀ w ∈ op.weights, -2147483648 ≤ w ∧ w ≤ INT_MAX

instance (ops : List Op) : Decidable (weightsInt ops) := by
  unfold weightsInt; infer_instance

/-- Every stored edge has a valid target index and an `int` weight, and no key of the
adjacency table is repeated. -/
def EdgesOK (g : GraphAnalysisTool) : Prop :=
  KeysNodup g.adjacencyList ∧
  ∀ x ∈ g.adjacencyList, ∀ e ∈ x.2, 0 ≤ e.1 ∧ e.1 < g.numNodes ∧
    -2147483648 ≤ e.2 ∧ e.2 ≤ INT_MAX

/-- The consecutive node pairs of a path. -/
def pathPairs (p : List Int) : List (Int × Int) := p.zip p.tail

/-- Flow carried into node `x`: each recorded flow, once per pair of its path that ends in `x`. -/
def flowInto (paths : List (List Int × Int)) (x : Int) : Int :=
  (paths.map (fun e => (((pathPairs e.1).filter (fun pr => pr.2 = x)).length : Int) * e.2)).sum

/-- Flow carried out of node `x`: each recorded flow, once per pair of its path that starts in `x`. -/
def flowOutOf (paths : List (List Int × Int)) (x : Int) : Int :=
  (paths.map (fun e => (((pathPairs e.1).filter (fun pr => pr.1 = x)).length : Int) * e.2)).sum

/-- Four edges of capacity `INT_MAX` forming two disjoint paths from node 0 to node 3. -/
def overflowOps : List Op :=
  [Op.edge 0 1 2147483647, Op.edge 0 2 2147483647, Op.edge 1 3 2147483647,
   Op.edge 2 3 2147483647]

/-- The mutator calls of the maximum-flow scenario of the specification:
edges `(0,1,10)`, `(0,2,5)`, `(2,1,2)`. -/
def scenarioFlowOps : List Op :=
  [Op.edge 0 1 10, Op.edge 0 2 5, Op.edge 2 1 2]

/-- Sum of the residual capacities of the pairs `(x, y)` over the valid ids `y`. -/
def rowSum (r : Residual) (n x : Int) : Int :=
  ((nodeIds n).map (fun y => resGet r x y)).sum

/-- Sum of the capacities of the pairs `(x, y)` over the valid ids `y`. -/
def capRowSum (al : AdjList) (n x : Int) : Int :=
  ((nodeIds n).map (fun y => capacity al x y)).sum

/-- Invariant of the augmentation loop on non-negative capacities whose total is an `int`:
residuals stay non-negative, the two residuals of a pair keep the sum of its two
capacities, every node other than `source` and `sink` keeps its row sum, and the running
total is what the row of `source` has lost. -/
structure FlowInv (al : AdjList) (n source sink : Int) (st : MFState) : Prop where
  nonneg : ∀ x y, 0 ≤ resGet st.residualGraph x y
  pair : ∀ x y, x ≠ y → resGet st.residualGraph x y + resGet st.residualGraph y x
    = capacity al x y + capacity al y x
  diag : ∀ x, resGet st.residualGraph x x = capacity al x x
  cons : ∀ x, x ≠ source → x ≠ sink → rowSum st.residualGraph n x = capRowSum al n x
  value : st.maxFlowValue = capRowSum al n source - rowSum st.residualGraph n source
  sink_row : rowSum st.residualGraph n sink = capRowSum al n sink + st.maxFlowValue
  value_nonneg : 0 ≤ st.maxFlowValue

/-! ## Isolated nodes (`isNodeIsolated`, `getIsolatedNodes`) -/

/-- Method `GraphAnalysisTool::isNodeIsolated`: when the entry of `node` is absent or empty the
whole table is scanned for an edge whose target is `node`. -/
def isNodeIsolated (g : GraphAnalysisTool) (node : Int) : Bool :=
  if !hasKey g.adjacencyList node || (adjOf g.adjacencyList node).isEmpty then
    !(g.adjacencyList.any (fun x => x.2.any (fun e => e.1 == node)))
  else false

/-- An iteration order of the `std::unordered_set` of registered nodes: it lists the same
elements in some order. -/
def IsNodeOrder (nodeOrd : List Int → List Int) : Prop :=
  ∀ l, (nodeOrd l).Perm l

/-- Method `GraphAnalysisTool::getIsolatedNodes`; `nodeOrd` is the iteration order of `nodes`. -/
def getIsolatedNodes (nodeOrd : List Int → List Int) (g : GraphAnalysisTool) : List Int :=
  (nodeOrd g.nodes).filter (fun node => isNodeIsolated g node)

/-! ## Community detection (`dfsUtil`, `findCommunities`) -/

/-- What `dfsUtil` works on: the `std::set<int> visited`, the vector `component`, and the
telemetry map of the tool. -/
structure DfsState where
  visited : List Int
  component : List Int
  metrics : Metrics
deriving DecidableEq, Repr

/-- Statement `visited.insert(node)` on a `std::set<int>`. -/
def setInsert (s : List Int) (node : Int) : List Int :=
  if node ∈ s then s else s ++ [node]

/-- The `for` loop of `dfsUtil` over the edges of one node; `call` is the recursive call. -/
def dfsEdges (call : Int → DfsState → Option DfsState) :
    List (Int × Int) → DfsState → Option DfsState
  | [], st => some st
  | e :: rest, st =>
    if e.1 ∈ st.visited then dfsEdges call rest st
    else
      match call e.1 st with
      | none => none
      | some st1 => dfsEdges call rest st1

/-- Method `GraphAnalysisTool::dfsUtil`; `fuel` bounds the recursion depth.  The table is only
read: `adjacencyList[node]` inserts an empty entry when the key is absent, and the traversal
reads an absent entry as empty. -/
def dfsUtil (al : AdjList) : Nat → Int → DfsState → Option DfsState
  | 0, _, _ => none
  | fuel + 1, node, st =>
    dfsEdges (fun next s => dfsUtil al fuel next s) (adjOf al node)
      { visited := setInsert st.visited node, component := st.component ++ [node],
        metrics := incNodesProcessed st.metrics "Community Detection" }

/-- State of the first loop of `findCommunities`. -/
structure CommState where
  communities : List (List Int)
  visited : List Int
  metrics : Metrics
deriving DecidableEq, Repr

/-- The first loop of `findCommunities`, over the registered nodes in iteration order. -/
def communitiesLoop (g : GraphAnalysisTool) (fuel : Nat) : List Int → CommState → Option CommState
  | [], st => some st
  | node :: rest, st =>
    if node ∉ st.visited ∧ isNodeIsolated g node = false then
      match dfsUtil g.adjacencyList fuel node
          { visited := st.visited, component := [], metrics := st.metrics } with
      | none => none
      | some d =>
        communitiesLoop g fuel rest
          { communities := if d.component ≠ [] then st.communities ++ [d.component]
                           else st.communities,
            visited := d.visited, metrics := d.metrics }
    else communitiesLoop g fuel rest st

/-- Method `GraphAnalysisTool::findCommunities`: the returned communities and the tool
afterwards; `nodeOrd` is the iteration order of `nodes`. -/
def findCommunities (nodeOrd : List Int → List Int) (g : GraphAnalysisTool) (fuel : Nat) :
    Option (List (List Int) × GraphAnalysisTool) :=
  match communitiesLoop g fuel (nodeOrd g.nodes)
      { communities := [], visited := [],
        metrics := setNodesProcessed g.metrics "Community Detection" 0 } with
  | none => none
  | some st =>
    some (st.communities ++ (getIsolatedNodes nodeOrd g).map (fun node => [node]),
          { g with metrics := st.metrics })

/-! ## Union-find (`UnionFind.cpp`) -/

/-- Class `UnionFind`: the vectors `parent` and `rank`. -/
structure UnionFind where
  parent : List Int
  rank : List Int
deriving DecidableEq, Repr

/-- Constructor `UnionFind::UnionFind(int n)`: `parent[i] = i` and `rank[i] = 0` for `i < n`. -/
def UnionFind.init (n : Int) : UnionFind :=
  { parent := (List.range n.toNat).map Int.ofNat, rank := List.replicate n.toNat 0 }

/-- Method `UnionFind::find` with its path compression; `fuel` bounds the recursion depth.
The result is the returned value and the structure after the call. -/
def UnionFind.find : Nat → UnionFind → Int → Option (Int × UnionFind)
  | 0, _, _ => none
  | fuel + 1, uf, x =>
    if vget uf.parent x ≠ x then
      match UnionFind.find fuel uf (vget uf.parent x) with
      | none => none
      | some (r, uf1) =>
        some (vget (vset uf1.parent x r) x, { uf1 with parent := vset uf1.parent x r })
    else some (vget uf.parent x, uf)

/-- Method `UnionFind::unite`. -/
def UnionFind.unite (fuel : Nat) (uf : UnionFind) (x y : Int) : Option UnionFind :=
  match UnionFind.find fuel uf x with
  | none => none
  | some (px, uf1) =>
    match UnionFind.find fuel uf1 y with
    | none => none
    | some (py, uf2) =>
      if px = py then some uf2
      else if vget uf2.rank px < vget uf2.rank py then
        some { uf2 with parent := vset uf2.parent px py }
      else if vget uf2.rank px > vget uf2.rank py then
        some { uf2 with parent := vset uf2.parent py px }
      else
        some { parent := vset uf2.parent py px,
               rank := vset uf2.rank px (add32 (vget uf2.rank px) 1) }

/-! ## Minimum spanning tree (`GraphAnalysisTool::findMST`) -/

/-- A `std::tuple<int, int, int>`: source, target, weight. -/
abbrev Edge := Int × Int × Int

/-- An iteration order of the adjacency table: the same entries in some order. -/
def IsTableOrder (tableOrd : AdjList → AdjList) : Prop :=
  ∀ al, (tableOrd al).Perm al

/-- A possible outcome of `std::sort` with the comparator `get<2>(a) < get<2>(b)`: a
rearrangement of the input in which no later weight is smaller than an earlier one.  The
order among edges of equal weight is left open. -/
def IsWeightSort (sortOrd : List Edge → List Edge) : Prop :=
  ∀ l, (sortOrd l).Perm l ∧ (sortOrd l).Pairwise (fun a b => a.2.2 ≤ b.2.2)

/-- The edge collection loop of `findMST` over a table listed in iteration order. -/
def collectEdges (al : AdjList) : List Edge :=
  al.flatMap (fun x => x.2.map (fun e => (x.1, e.1, e.2)))

/-- State of the acceptance loop of `findMST`. -/
structure MSTState where
  uf : UnionFind
  mst : List Edge
  metrics : Metrics
deriving DecidableEq, Repr

/-- The acceptance loop of `findMST`.  The two `find` calls of the test are made left to
right. -/
def kruskalLoop (fuel : Nat) : List Edge → MSTState → Option MSTState
  | [], st => some st
  | e :: rest, st =>
    match UnionFind.find fuel st.uf e.1 with
    | none => none
    | some (rf, uf1) =>
      match UnionFind.find fuel uf1 e.2.1 with
      | none => none
      | some (rt, uf2) =>
        if rf ≠ rt then
          match UnionFind.unite fuel uf2 e.1 e.2.1 with
          | none => none
          | some uf3 =>
            kruskalLoop fuel rest
              { uf := uf3, mst := st.mst ++ [e],
                metrics := incNodesProcessed st.metrics "Minimum Spanning Tree" }
        else kruskalLoop fuel rest { st with uf := uf2 }

/-- Method `GraphAnalysisTool::findMST` without its `Timer`: the returned edges and the tool
afterwards.  `tableOrd` is the iteration order of the adjacency table, `sortOrd` the outcome
of `std::sort`, `fuel` bounds the depth of every `find`. -/
def findMST (tableOrd : AdjList → AdjList) (sortOrd : List Edge → List Edge)
    (g : GraphAnalysisTool) (fuel : Nat) : Option (List Edge × GraphAnalysisTool) :=
  match kruskalLoop fuel (sortOrd (collectEdges (tableOrd g.adjacencyList)))
      { uf := UnionFind.init g.numNodes, mst := [], metrics := g.metrics } with
  | none => none
  | some st => some (st.mst, { g with metrics := st.metrics })

/-- Insertion sort by weight, one outcome `std::sort` may produce. -/
def weightSort (l : List Edge) : List Edge :=
  l.insertionSort (fun a b => a.2.2 ≤ b.2.2)

/-! ## Specification vocabulary for the registry and for community detection -/

/-- The registry and the table agree: no id is registered twice, no key occurs twice, every
key and every edge target is registered, every registered node has an entry. -/
structure StoreOK (g : GraphAnalysisTool) : Prop where
  nodup : g.nodes.Nodup
  keysNodup : (g.adjacencyList.map Prod.fst).Nodup
  keys : ∀ x ∈ g.adjacencyList, x.1 ∈ g.nodes
  targets : ∀ x ∈ g.adjacencyList, ∀ e ∈ x.2, e.1 ∈ g.nodes
  entries : ∀ v ∈ g.nodes, hasKey g.adjacencyList v = true

/-- Every registered id is a valid index below `numNodes`, which is an `int`. -/
structure RangeOK (g : GraphAnalysisTool) : Prop where
  lo : ∀ v ∈ g.nodes, 0 ≤ v
  hi : ∀ v ∈ g.nodes, v < g.numNodes
  bound : g.numNodes ≤ INT_MAX

/-- The table has an edge from `u` to `v`. -/
def HasEdge (al : AdjList) (u v : Int) : Prop :=
  ∃ e ∈ adjOf al u, e.1 = v

/-- Node `v` is reached from `u` by following outgoing edges. -/
inductive DReach (al : AdjList) : Int → Int → Prop
  | refl (u : Int) : DReach al u u
  | step {u x v : Int} : DReach al u x → HasEdge al x v → DReach al u v

/-- What a traversal rooted at `root` adds between two states: the list `D` of newly visited
nodes is appended to both containers, holds no node twice and none visited before, every
new node is registered and reached from `root`, and every edge out of a new node leads to a
visited node. -/
structure DfsExt (al : AdjList) (N : List Int) (root : Int) (st st1 : DfsState)
    (D : List Int) : Prop where
  comp : st1.component = st.component ++ D
  vis : st1.visited = st.visited ++ D
  nodupD : D.Nodup
  fresh : ∀ x ∈ D, x ∉ st.visited
  inN : ∀ x ∈ D, x ∈ N
  sound : ∀ x ∈ D, DReach al root x
  closed : ∀ x ∈ D, ∀ y, HasEdge al x y → y ∈ st1.visited

/-- Each component of the list starts with a node and holds exactly the nodes reached from
that node that are neither in `W` nor in an earlier component of the list. -/
def CompsOK (al : AdjList) : List Int → List (List Int) → Prop
  | _, [] => True
  | W, c :: cs =>
    (∃ first rest, c = first :: rest ∧ ∀ x, x ∈ c ↔ (DReach al first x ∧ x ∉ W)) ∧
    CompsOK al (W ++ c) cs

/-- Invariant of the first loop of `findCommunities`. -/
structure CommInv (g : GraphAnalysisTool) (st : CommState) : Prop where
  nodupV : st.visited.Nodup
  flat : st.communities.flatten = st.visited
  nonempty : ∀ c ∈ st.communities, c ≠ []
  inN : ∀ x ∈ st.visited, x ∈ g.nodes
  closedW : ∀ x ∈ st.visited, ∀ y, HasEdge g.adjacencyList x y → y ∈ st.visited
  nonIso : ∀ x ∈ st.visited, isNodeIsolated g x = false
  comps : CompsOK g.adjacencyList [] st.communities

/-- The graph with isolated components of the demo in `main.cpp`: `addEdge(0,1,2)`,
`addEdge(1,2,3)`, `addEdge(2,0,4)`, `addEdge(4,5,1)`, `addNode(6)`, `addEdge(7,7,1)`; node `6`
is isolated. -/
def isolatedGraphOps : List Op :=
  [Op.edge 0 1 2, Op.edge 1 2 3, Op.edge 2 0 4, Op.edge 4 5 1, Op.node 6, Op.edge 7 7 1]

/-- Two edges into the same node: `addEdge(0, 2, 1)`, `addEdge(1, 2, 1)`. -/
def sharedTargetOps : List Op := [Op.edge 0 2 1, Op.edge 1 2 1]

/-! ## Specification vocabulary for union-find and spanning forests -/

/-- Following the parent links from `x` ends at the root `r`. -/
inductive UFRoot (uf : UnionFind) : Int → Int → Prop
  | root {r : Int} : vget uf.parent r = r → UFRoot uf r r
  | step {x r : Int} : vget uf.parent x ≠ x → UFRoot uf (vget uf.parent x) r → UFRoot uf x r

/-- A well-formed union-find over `0 .. n-1`: parents are valid indices, the rank grows
strictly along every parent link, and no rank exceeds `B`. -/
structure UFOK (uf : UnionFind) (n : Int) (B : Nat) : Prop where
  lenP : uf.parent.length = n.toNat
  lenR : uf.rank.length = n.toNat
  parentRange : ∀ x, 0 ≤ x → x < n → 0 ≤ vget uf.parent x ∧ vget uf.parent x < n
  rankStep : ∀ x, 0 ≤ x → x < n → vget uf.parent x ≠ x →
    vget uf.rank x < vget uf.rank (vget uf.parent x)
  rankRange : ∀ x, 0 ≤ x → x < n → 0 ≤ vget uf.rank x ∧ vget uf.rank x ≤ B

/-- Nodes `x` and `y` are joined by the edges of `E` read as undirected. -/
inductive Conn (E : List Edge) : Int → Int → Prop
  | refl (x : Int) : Conn E x x
  | edge {e : Edge} : e ∈ E → Conn E e.1 e.2.1
  | symm {x y : Int} : Conn E x y → Conn E y x
  | trans {x y z : Int} : Conn E x y → Conn E y z → Conn E x z

/-- An edge list without cycle: no edge joins two nodes that the other edges of the list
already join.  A self-loop and a second edge between the same two nodes are cycles. -/
def Acyclic (L : List Edge) : Prop :=
  ∀ A e B, L = A ++ e :: B → ¬ Conn (A ++ B) e.1 e.2.1

/-- No edge of the list joins two nodes that the edges after it already join. -/
def Forest : List Edge → Prop
  | [] => True
  | e :: L => ¬ Conn L e.1 e.2.1 ∧ Forest L

/-- The relation `R` splits the nodes of `U` into `k` classes: there are `k` representatives
in `U`, pairwise unrelated, and every node of `U` is related to one of them. -/
def IsComponentCount (U : List Int) (R : Int → Int → Prop) (k : Nat) : Prop :=
  ∃ reps : List Int, reps.Nodup ∧ (∀ r ∈ reps, r ∈ U) ∧ (∀ v ∈ U, ∃ r ∈ reps, R r v) ∧
    (∀ r1 ∈ reps, ∀ r2 ∈ reps, R r1 r2 → r1 = r2) ∧ reps.length = k

/-- Sum of the weights of an edge list. -/
def edgeWeight (L : List Edge) : Int :=
  (L.map (fun e => e.2.2)).sum

/-- Invariant of the acceptance loop of `findMST` after the edges `P` have been examined:
two valid nodes have the same root exactly when the accepted edges join them, the accepted
edges are a cycle-free sublist of `P`, and every examined edge is joined by the accepted
edges that are not heavier. -/
structure KruskalInv (n : Int) (P : List Edge) (st : MSTState) : Prop where
  ufok : UFOK st.uf n st.mst.length
  roots : ∀ x y, 0 ≤ x → x < n → 0 ≤ y → y < n →
    ((∃ r, UFRoot st.uf x r ∧ UFRoot st.uf y r) ↔ Conn st.mst x y)
  forest : Forest st.mst.reverse
  sub : st.mst.Sublist P
  span : ∀ e ∈ P, Conn (st.mst.filter (fun a => decide (a.2.2 ≤ e.2.2))) e.1 e.2.1

/-- The demo graph `simpleGraph` of `main.cpp`. -/
def simpleGraphOps : List Op :=
  [Op.edge 0 1 4, Op.edge 0 2 3, Op.edge 1 2 1, Op.edge 1 3 5, Op.edge 2 3 2]

/-! ## Specification vocabulary for the store counters -/

/-- The call is an `addEdge`. -/
def Op.isEdge : Op → Bool
  | Op.node _ => false
  | Op.edge _ _ _ => true

/-- Number of `addEdge` calls in a sequence of mutator calls. -/
def edgeCalls (ops : List Op) : Nat :=
  (ops.filter Op.isEdge).length

/-- Sum of the lengths of all adjacency lists. -/
def rowTotal (al : AdjList) : Nat :=
  (al.map (fun x => x.2.length)).sum

/-- The node bound is 0 on an empty registry and otherwise one more than a registered id. -/
def BoundOK (g : GraphAnalysisTool) : Prop :=
  (g.nodes = [] ∧ g.numNodes = 0) ∨ ∃ m ∈ g.nodes, g.numNodes = m + 1

/-! ## Specification vocabulary for the union-find contracts -/

/-- The states of a `UnionFind` of size `n` reached from the constructor by calls of `find`
and `unite` on indices in `[0, n)`. -/
inductive UFReach (n : Int) : UnionFind → Prop
  | init : UFReach n (UnionFind.init n)
  | find {uf uf1 : UnionFind} {fuel : Nat} {x r : Int} :
      UFReach n uf → 0 ≤ x → x < n → UnionFind.find fuel uf x = some (r, uf1) → UFReach n uf1
  | unite {uf uf1 : UnionFind} {fuel : Nat} {x y : Int} :
      UFReach n uf → 0 ≤ x → x < n → 0 ≤ y → y < n →
      UnionFind.unite fuel uf x y = some uf1 → UFReach n uf1

/-- Elements `u` and `v` have the same root. -/
def SameRoot (uf : UnionFind) (u v : Int) : Prop :=
  ∃ r, UFRoot uf u r ∧ UFRoot uf v r

/-- Number of roots among `0 .. n-1`. -/
def rootCount (uf : UnionFind) (n : Int) : Nat :=
  ((nodeIds n).filter (fun x => decide (vget uf.parent x = x))).length

/-! ## Specification vocabulary for the telemetry counters -/

/-- The units-processed counter stored under `op`, if the map has a record for it. -/
def counterOf (m : Metrics) (op : String) : Option Nat :=
  (metricsGet m op).map (fun r => r.nodesProcessed)

/-- The queue entries popped by the `while` loop of `shortestPath`, in the order of the
pops, each with the outcome of the test `dist > distances[current]`: `true` marks a stale
entry, which is skipped. -/
def spPops : Nat → SPState → Option (List ((Int × Int) × Bool))
  | fuel, s =>
    match pqTop s.pq with
    | none => some []
    | some top =>
      match fuel with
      | 0 => none
      | fuel + 1 =>
        let current := top.2
        let dist := top.1
        let s1 : SPState :=
          { s with pq := s.pq.erase top, metrics := incNodesProcessed s.metrics "Shortest Path" }
        if dist > vget s1.distances current then
          (spPops fuel s1).map (fun t => (top, true) :: t)
        else
          let s2 : SPState := { s1 with adjacencyList := touch s1.adjacencyList current }
          (spPops fuel (relax current (adjOf s2.adjacencyList current) s2)).map
            (fun t => (top, false) :: t)

/-- A graph on which `shortestPath(0, 1)` pops a stale entry: `addEdge(0, 1, 5)`,
`addEdge(0, 2, 1)`, `addEdge(2, 1, 1)`. -/
def staleOps : List Op := [Op.edge 0 1 5, Op.edge 0 2 1, Op.edge 2 1 1]

/-! ## Index uses of `shortestPath` -/

/-- The indices at which the inner `for` loop of `shortestPath` reads or writes `distances`
and `previous`, in the order of the accesses: `distances[current]` and `distances[next]` of
the test, then `distances[current]`, `distances[next]`, `previous[next]`, `distances[next]`
of an update.  The states passed along are those of `relax`. -/
def relaxIndices (current : Int) : List (Int × Int) → SPState → List Int
  | [], _ => []
  | (next, weight) :: rest, s =>
    if add32 (vget s.distances current) weight < vget s.distances next then
      let distances := vset s.distances next (add32 (vget s.distances current) weight)
      [current, next, current, next, next, next] ++
        relaxIndices current rest
          { s with
            distances := distances
            previous := vset s.previous next current
            pq := s.pq ++ [(vget distances next, next)] }
    else [current, next] ++ relaxIndices current rest s

/-- The indices used by the first `fuel` iterations of the `while` loop of `shortestPath`:
`distances[current]` of the stale test, then those of the inner loop. -/
def spIndices : Nat → SPState → List Int
  | fuel, s =>
    match pqTop s.pq with
    | none => []
    | some top =>
      match fuel with
      | 0 => []
      | fuel + 1 =>
        let current := top.2
        let dist := top.1
        let s1 : SPState :=
          { s with pq := s.pq.erase top, metrics := incNodesProcessed s.metrics "Shortest Path" }
        if dist > vget s1.distances current then current :: spIndices fuel s1
        else
          let s2 : SPState := { s1 with adjacencyList := touch s1.adjacencyList current }
          current :: (relaxIndices current (adjOf s2.adjacencyList current) s2 ++
            spIndices fuel (relax current (adjOf s2.adjacencyList current) s2))

/-- The indices `at` of the reads `previous[at]` made by the first `fuel` rounds of the loop
`for (int at = end; at != -1; at = previous[at])`. -/
def walkIndices (previous : List Int) : Nat → Int → List Int
  | fuel, node =>
    if node = -1 then []
    else
      match fuel with
      | 0 => []
      | fuel + 1 => node :: walkIndices previous fuel (vget previous node)

/-- Every index used by `shortestPath` into `distances` and `previous` within `fuel` rounds
of each of its loops: `distances[start]`, the main loop, and once that loop has ended
`distances[end]`, the walk back from `end`, and `distances[end]` of the `return`. -/
def shortestPathIndices (g : GraphAnalysisTool) (start endNode : Int) (fuel : Nat) : List Int :=
  start :: (spIndices fuel (spInit g start) ++
    match spLoop fuel (spInit g start) with
    | none => []
    | some s =>
      endNode :: ((if vget s.distances endNode ≠ INT_MAX then walkIndices s.previous fuel endNode
                   else []) ++ [endNode]))

/-- What keeps the indices of `shortestPath` valid, whatever the weights: `distances` and
`previous` have `n` elements, every edge target and every queued node is below `n`, and
every entry of `previous` is `-1` or below `n`. -/
structure IdxInv (n : Int) (s : SPState) : Prop where
  len_d : (s.distances.length : Int) = n
  len_p : (s.previous.length : Int) = n
  adj : ∀ u, ∀ e ∈ adjOf s.adjacencyList u, 0 ≤ e.1 ∧ e.1 < n
  pq : ∀ e ∈ s.pq, 0 ≤ e.2 ∧ e.2 < n
  prev : ∀ v, vget s.previous v = -1 ∨ (0 ≤ vget s.previous v ∧ vget s.previous v < n)

/-- A registry with a gap: `addNode(0)`, `addNode(2)`; id `1` lies below `numNodes` and was
never registered. -/
def gapOps : List Op := [Op.node 0, Op.node 2]

/-- The largest `int` as an id: `addNode(2147483647)`. -/
def maxIdNodeOps : List Op := [Op.node 2147483647]

/-- An edge into the largest `int`: `addEdge(0, 2147483647, 1)`. -/
def maxIdEdgeOps : List Op := [Op.edge 0 2147483647 1]

/-! ## Depth-first visit order -/

/-- Depth-first visit order, told from a work list: `work` holds the nodes still to be looked
at, nearest first, and `seen` the nodes visited so far.  A node already seen is dropped; a
new node is visited, and the targets of its edges, in stored order, are looked at before the
rest of the work list.  The result lists the nodes visited, in the order of the visits;
`fuel` bounds the number of nodes looked at. -/
def dfsOrder (al : AdjList) : Nat → List Int → List Int → Option (List Int)
  | _, [], _ => some []
  | 0, _ :: _, _ => none
  | fuel + 1, x :: work, seen =>
    if x ∈ seen then dfsOrder al fuel work seen
    else (dfsOrder al fuel ((adjOf al x).map Prod.fst ++ work) (seen ++ [x])).map (fun l => x :: l)

/-- Each component of the list is the depth-first visit order from its first node, the nodes
of `W` and of the earlier components counting as seen. -/
def VisitOK (al : AdjList) : List Int → List (List Int) → Prop
  | _, [] => True
  | W, c :: cs =>
    (∃ first rest k, c = first :: rest ∧ dfsOrder al k [first] W = some c) ∧
    VisitOK al (W ++ c) cs

/-! ## Union-find: parent chains -/

/-- The element reached from `x` by following the parent link `k` times. -/
def parentIter (uf : UnionFind) : Nat → Int → Int
  | 0, x => x
  | k + 1, x => parentIter uf k (vget uf.parent x)

/-! ## Timer (`Timer.cpp`) -/

/-- Class `Timer`: the operation name and the two readings its constructor takes.  The tool
it refers to is handed to the destructor; clock readings are tick counts. -/
structure Timer where
  operation : String
  start : Int
  initialMemory : Nat
deriving DecidableEq, Repr

/-- Constructor `Timer::Timer`; `now` is the reading of the clock and `mem` the value of
`MemoryTracker::getCurrentMemoryUsage()`, a `size_t`. -/
def Timer.create (op : String) (now : Int) (mem : Nat) : Timer :=
  { operation := op, start := now, initialMemory := mem }

/-- Destructor `Timer::~Timer`, acting on the telemetry table of the tool; `now` and `mem`
are the readings taken at destruction.  Both memory readings and the field `memoryUsed` are
`size_t`, so the subtraction is the unsigned one, modulo `2^64`. -/
def Timer.destroy (t : Timer) (m : Metrics) (now : Int) (mem : Nat) : Metrics :=
  metricsModify
    (metricsModify m t.operation (fun r => { r with executionTime := now - t.start }))
    t.operation
    (fun r => { r with
      memoryUsed := (mem + 18446744073709551616 - t.initialMemory) % 18446744073709551616 })

/-! ## Graph generators (`GraphGenerator.cpp`) -/

/-- The fields of `GraphOptions` read by `generateScaleFreeGraph` and
`generateSmallWorldGraph`; `weightRange` and `rewireProbability` only shape the random
draws, whose outcomes are inputs here. -/
structure GraphOptions where
  numNodes : Int
  directed : Bool
deriving DecidableEq, Repr

/-- The outcomes of the random draws of one run, per kind of draw and in the order drawn:
`weights` for `weightDist(rng)`, `coins` for the test
`rewireDist(rng) < options.rewireProbability`, `picks` for the calls
`std::uniform_int_distribution<>(a, b)(rng)`. -/
structure Draws where
  weights : List Int
  coins : List Bool
  picks : List Int
deriving DecidableEq, Repr

/-- The next outcome of `weightDist(rng)`; a run needing more draws than listed has no
result. -/
def nextWeight (d : Draws) : Option (Int × Draws) :=
  match d.weights with
  | [] => none
  | w :: ws => some (w, { d with weights := ws })

/-- The next outcome of the rewiring test. -/
def nextCoin (d : Draws) : Option (Bool × Draws) :=
  match d.coins with
  | [] => none
  | c :: cs => some (c, { d with coins := cs })

/-- The next outcome of a `std::uniform_int_distribution<>(a, b)(rng)` call. -/
def nextPick (d : Draws) : Option (Int × Draws) :=
  match d.picks with
  | [] => none
  | p :: ps => some (p, { d with picks := ps })

/-- The values `lo, lo + 1, ..., hi - 1` taken by the counter of
`for (int i = lo; i < hi; ++i)`. -/
def countUp (lo hi : Int) : List Int :=
  (List.range (hi - lo).toNat).map (fun k : Nat => lo + Int.ofNat k)

/-- A counted loop: `body` is run for each counter value in turn; the loop has no result
once a round has none. -/
def forEach {σ : Type} (body : Int → σ → Option σ) : List Int → σ → Option σ
  | [], s => some s
  | i :: rest, s =>
    match body i s with
    | none => none
    | some s1 => forEach body rest s1

/-- The statements `int weight = weightDist(rng); graph.addEdge(src, dst, weight);
if (!options.directed) graph.addEdge(dst, src, weight);`. -/
def addWeightedEdge (opts : GraphOptions) (src dst : Int) (s : GraphAnalysisTool × Draws) :
    Option (GraphAnalysisTool × Draws) :=
  match nextWeight s.2 with
  | none => none
  | some (weight, d) =>
    let g1 := addEdge s.1 src dst weight
    some (if opts.directed then g1 else addEdge g1 dst src weight, d)

/-- The loop `do newTarget = uniform(rng); while (newTarget == i || newTarget == oldTarget)`:
picks are drawn until one differs from both. -/
def drawNewTarget (i oldTarget : Int) : List Int → Option (Int × List Int)
  | [] => none
  | p :: ps => if p = i ∨ p = oldTarget then drawNewTarget i oldTarget ps else some (p, ps)

/-- One round `(i, j)` of the ring lattice loops of `generateSmallWorldGraph`. -/
def ringStep (opts : GraphOptions) (i j : Int) (s : GraphAnalysisTool × Draws) :
    Option (GraphAnalysisTool × Draws) :=
  addWeightedEdge opts i (Int.tmod (i + j) opts.numNodes) s

/-- One round `(i, j)` of the rewiring loops of `generateSmallWorldGraph`: when the test
succeeds a new target is drawn and `addEdge` is called for it; no other statement touches
the graph. -/
def rewireStep (opts : GraphOptions) (i j : Int) (s : GraphAnalysisTool × Draws) :
    Option (GraphAnalysisTool × Draws) :=
  match nextCoin s.2 with
  | none => none
  | some (rewire, d) =>
    if rewire then
      let oldTarget := Int.tmod (i + j) opts.numNodes
      match drawNewTarget i oldTarget d.picks with
      | none => none
      | some (newTarget, ps) =>
        match nextWeight { d with picks := ps } with
        | none => none
        | some (w1, d1) =>
          let g1 := addEdge s.1 i newTarget w1
          if opts.directed then some (g1, d1)
          else
            match nextWeight d1 with
            | none => none
            | some (w2, d2) => some (addEdge g1 newTarget i w2, d2)
    else some (s.1, d)

/-- Method `GraphGenerator::generateSmallWorldGraph`, the random draws being given. -/
def generateSmallWorldGraph (opts : GraphOptions) (draws : Draws) :
    Option (GraphAnalysisTool × Draws) :=
  match forEach (fun i s => forEach (fun j s1 => ringStep opts i j s1) [1, 2]
                  (addNode s.1 i, s.2))
      (countUp 0 opts.numNodes) (GraphAnalysisTool.empty, draws) with
  | none => none
  | some s =>
    forEach (fun i s1 => forEach (fun j s2 => rewireStep opts i j s2) [1, 2] s1)
      (countUp 0 opts.numNodes) s

/-- Locals of `generateScaleFreeGraph`: the graph, the draws left, the vector `degreeCount`,
and the record `accessed` of the indices at which `degreeCount` was read or written, in the
order of the accesses. -/
structure ScaleFreeState where
  graph : GraphAnalysisTool
  draws : Draws
  degreeCount : List Int
  accessed : List Int
deriving DecidableEq, Repr

/-- The loop `for (int j = 0; j < i; ++j) totalDegree += degreeCount[j]`: the sum and the
indices read. -/
def sumDegrees (degreeCount : List Int) : List Int → Int → List Int → Int × List Int
  | [], total, log => (total, log)
  | j :: rest, total, log =>
    sumDegrees degreeCount rest (add32 total (vget degreeCount j)) (log ++ [j])

/-- The search loop `for (int k = 0; k < i; ++k)` with its `break`: the target found, `0`
when the loop runs to its end, and the indices read. -/
def findTarget (degreeCount : List Int) (randomValue : Int) :
    List Int → Int → List Int → Int × List Int
  | [], _, log => (0, log)
  | k :: rest, accumDegree, log =>
    if add32 accumDegree (vget degreeCount k) > randomValue then (k, log ++ [k])
    else findTarget degreeCount randomValue rest (add32 accumDegree (vget degreeCount k))
      (log ++ [k])

/-- One round of the attachment loop `for (int j = 0; j < std::min(3, i); ++j)`. -/
def attachStep (opts : GraphOptions) (i : Int) (s : ScaleFreeState) : Option ScaleFreeState :=
  match nextPick s.draws with
  | none => none
  | some (randomValue, d) =>
    let found := findTarget s.degreeCount randomValue (countUp 0 i) 0 s.accessed
    let target := found.1
    match addWeightedEdge opts i target (s.graph, d) with
    | none => none
    | some (g1, d1) =>
      let dc1 := vset s.degreeCount i (add32 (vget s.degreeCount i) 1)
      let dc2 := vset dc1 target (add32 (vget dc1 target) 1)
      some { graph := g1, draws := d1, degreeCount := dc2,
             accessed := found.2 ++ [i, target] }

/-- One round of the loop `for (int i = initialNodes; i < options.numNodes; ++i)`. -/
def growStep (opts : GraphOptions) (i : Int) (s : ScaleFreeState) : Option ScaleFreeState :=
  let total := sumDegrees s.degreeCount (countUp 0 i) 0 s.accessed
  forEach (fun _ s1 => attachStep opts i s1) (countUp 0 (min 3 i))
    { s with graph := addNode s.graph i, accessed := total.2 }

/-- The loop `for (int i = 0; i < initialNodes; ++i) degreeCount[i] = initialNodes - 1`. -/
def initDegrees : List Int → List Int × List Int → List Int × List Int
  | [], s => s
  | i :: rest, s => initDegrees rest (vset s.1 i (3 - 1), s.2 ++ [i])

/-- Method `GraphGenerator::generateScaleFreeGraph`, the random draws being given; the
result keeps the record of the indices used into `degreeCount`, a vector of
`options.numNodes` elements. -/
def generateScaleFreeGraph (opts : GraphOptions) (draws : Draws) : Option ScaleFreeState :=
  match forEach (fun i s => forEach (fun j s1 => addWeightedEdge opts i j s1) (countUp 0 i)
                  (addNode s.1 i, s.2))
      (countUp 0 3) (GraphAnalysisTool.empty, draws) with
  | none => none
  | some (g, d) =>
    let dc := initDegrees (countUp 0 3) (List.replicate opts.numNodes.toNat 0, [])
    forEach (growStep opts) (countUp 3 opts.numNodes)
      { graph := g, draws := d, degreeCount := dc.1, accessed := dc.2 }

/-! # Proofs -/

/-! ## Machine integers and vectors: basic facts -/

theorem wrap32_of_range (x : Int) (h0 : -2147483648 ≤ x) (h1 : x ≤ 2147483647) : wrap32 x = x := by
  unfold wrap32
  rw [Int.emod_eq_of_lt (by omega) (by omega)]
  omega

theorem add32_of_range (a b : Int) (h0 : 0 ≤ a + b) (h1 : a + b ≤ INT_MAX) : add32 a b = a + b := by
  unfold INT_MAX at h1
  exact wrap32_of_range _ (by omega) h1

theorem sub32_of_range (a b : Int) (h0 : 0 ≤ a - b) (h1 : a - b ≤ INT_MAX) : sub32 a b = a - b := by
  unfold INT_MAX at h1
  exact wrap32_of_range _ (by omega) h1

theorem vset_length (a : List Int) (i v : Int) : (vset a i v).length = a.length := by
  unfold vset
  split <;> simp

theorem vget_vset_eq (a : List Int) (i v : Int) (h0 : 0 ≤ i) (h1 : i < a.length) :
    vget (vset a i v) i = v := by
  unfold vget vset
  have hlt : i.toNat < a.length := by omega
  simp [not_lt.mpr h0, List.getD_eq_getElem?_getD, List.getElem?_set_self, hlt]

theorem vget_vset_ne (a : List Int) (i j v : Int) (h : i ≠ j) :
    vget (vset a i v) j = vget a j := by
  unfold vget vset
  by_cases hi : i < 0
  · simp [hi]
  · by_cases hj : j < 0
    · simp [hj]
    · have hne : i.toNat ≠ j.toNat := by omega
      simp [hi, hj, List.getD_eq_getElem?_getD, List.getElem?_set_ne hne]

theorem sum_set_nat (a : List Int) (k : Nat) (v : Int) (h : k < a.length) :
    (a.set k v).sum = a.sum - a.getD k 0 + v := by
  induction a generalizing k with
  | nil => simp at h
  | cons x xs ih =>
    cases k with
    | zero => simp; ring
    | succ k =>
      simp only [List.set_cons_succ, List.sum_cons, List.getD_cons_succ]
      rw [ih k (by simpa using h)]
      ring

theorem sum_vset (a : List Int) (i v : Int) (h0 : 0 ≤ i) (h1 : i < a.length) :
    (vset a i v).sum = a.sum - vget a i + v := by
  unfold vget vset
  simp only [not_lt.mpr h0, if_false]
  exact sum_set_nat a i.toNat v (by omega)

theorem vget_replicate (n : Nat) (c i : Int) (h0 : 0 ≤ i) (h1 : i < n) :
    vget (List.replicate n c) i = c := by
  unfold vget
  have : i.toNat < n := by omega
  simp [not_lt.mpr h0, List.getD_eq_getElem?_getD, List.getElem?_replicate, this]

theorem vget_of_neg (a : List Int) (i : Int) (h : i < 0) : vget a i = 0 := by
  unfold vget; simp [h]

theorem vget_of_ge (a : List Int) (i : Int) (h : (a.length : Int) ≤ i) : vget a i = 0 := by
  unfold vget
  split
  · rfl
  · have : a.length ≤ i.toNat := by omega
    simp [List.getD_eq_getElem?_getD, List.getElem?_eq_none this]

/-! ## The priority queue -/

theorem pairLe_refl (a : Int × Int) : pairLe a a = true := by
  simp [pairLe]

theorem pairLe_trans (a b c : Int × Int) (h1 : pairLe a b = true) (h2 : pairLe b c = true) :
    pairLe a c = true := by
  simp only [pairLe, Bool.or_eq_true, Bool.and_eq_true, decide_eq_true_eq] at *
  omega

theorem pairLe_total (a b : Int × Int) (h : pairLe a b = false) : pairLe b a = true := by
  simp only [pairLe, Bool.or_eq_false_iff, Bool.and_eq_false_iff, Bool.or_eq_true,
    Bool.and_eq_true, decide_eq_true_eq, decide_eq_false_iff_not] at *
  omega

theorem pairLe_fst (a b : Int × Int) (h : pairLe a b = true) : a.1 ≤ b.1 := by
  simp only [pairLe, Bool.or_eq_true, Bool.and_eq_true, decide_eq_true_eq] at h
  omega

theorem pqTop_eq_none (q : List (Int × Int)) : pqTop q = none ↔ q = [] := by
  cases q with
  | nil => simp [pqTop]
  | cons x xs =>
    simp only [pqTop]
    cases pqTop xs with
    | none => simp
    | some m => by_cases h : pairLe x m = true <;> simp [h]

theorem pqTop_mem (q : List (Int × Int)) (m : Int × Int) (h : pqTop q = some m) : m ∈ q := by
  induction q generalizing m with
  | nil => simp [pqTop] at h
  | cons x xs ih =>
    simp only [pqTop] at h
    cases hx : pqTop xs with
    | none => rw [hx] at h; simp at h; simp [h]
    | some m1 =>
      rw [hx] at h
      by_cases hle : pairLe x m1 = true
      · simp [hle] at h; simp [h]
      · simp [hle] at h
        subst h
        exact List.mem_cons_of_mem _ (ih _ hx)

theorem pqTop_le (q : List (Int × Int)) (m : Int × Int) (h : pqTop q = some m) :
    ∀ y ∈ q, pairLe m y = true := by
  induction q generalizing m with
  | nil => simp [pqTop] at h
  | cons x xs ih =>
    simp only [pqTop] at h
    cases hx : pqTop xs with
    | none =>
      rw [hx] at h
      simp at h
      subst h
      have : xs = [] := (pqTop_eq_none xs).mp hx
      subst this
      intro y hy
      simp at hy
      subst hy
      exact pairLe_refl _
    | some m1 =>
      rw [hx] at h
      have ih1 := ih m1 hx
      by_cases hle : pairLe x m1 = true
      · simp [hle] at h
        subst h
        intro y hy
        rcases List.mem_cons.mp hy with rfl | hy
        · exact pairLe_refl _
        · exact pairLe_trans _ _ _ hle (ih1 y hy)
      · simp [hle] at h
        subst h
        intro y hy
        rcases List.mem_cons.mp hy with rfl | hy
        · exact pairLe_total _ _ (by simpa using hle)
        · exact ih1 y hy

/-! ## The adjacency table -/

theorem adjOf_append_empty (al : AdjList) (u v : Int) :
    adjOf (al ++ [(u, [])]) v = adjOf al v := by
  induction al with
  | nil => simp [adjOf]
  | cons e rest ih => simp [adjOf, ih]

theorem adjOf_touch (al : AdjList) (u v : Int) : adjOf (touch al u) v = adjOf al v := by
  unfold touch
  split
  · rfl
  · exact adjOf_append_empty al u v

theorem outW_nonneg (al : AdjList) (a : Int) (h : ∀ u, ∀ e ∈ adjOf al u, 0 ≤ e.2) :
    0 ≤ outW al a := by
  unfold outW
  apply List.sum_nonneg
  intro x hx
  obtain ⟨e, he, rfl⟩ := List.mem_map.mp hx
  exact h a e he

theorem outSum_nonneg (al : AdjList) (l : List Int) (h : ∀ u, ∀ e ∈ adjOf al u, 0 ≤ e.2) :
    0 ≤ outSum al l := by
  unfold outSum
  apply List.sum_nonneg
  intro x hx
  obtain ⟨a, _, rfl⟩ := List.mem_map.mp hx
  exact outW_nonneg al a h

theorem outSum_cons (al : AdjList) (a : Int) (l : List Int) :
    outSum al (a :: l) = outW al a + outSum al l := by
  simp [outSum]

theorem mem_le_outW (al : AdjList) (a : Int) (e : Int × Int) (he : e ∈ adjOf al a)
    (h : ∀ u, ∀ e ∈ adjOf al u, 0 ≤ e.2) : e.2 ≤ outW al a := by
  unfold outW
  exact List.single_le_sum (fun x hx => by
    obtain ⟨e1, he1, rfl⟩ := List.mem_map.mp hx
    exact h a e1 he1) _ (List.mem_map.mpr ⟨e, he, rfl⟩)

theorem rowSum_nonneg (row : List (Int × Int)) (h : ∀ e ∈ row, 0 ≤ e.2) :
    0 ≤ (row.map Prod.snd).sum := by
  apply List.sum_nonneg
  intro x hx
  obtain ⟨e, he, rfl⟩ := List.mem_map.mp hx
  exact h e he

theorem totalWeight_nonneg (al : AdjList) (h : ∀ x ∈ al, ∀ e ∈ x.2, 0 ≤ e.2) :
    0 ≤ totalWeight al := by
  unfold totalWeight
  apply List.sum_nonneg
  intro x hx
  obtain ⟨e, he, rfl⟩ := List.mem_map.mp hx
  exact rowSum_nonneg _ (h e he)

theorem outSum_perm (al : AdjList) (l1 l2 : List Int) (h : l1.Perm l2) :
    outSum al l1 = outSum al l2 := by
  unfold outSum
  exact (h.map _).sum_eq

theorem outSum_cons_of_not_mem (e : Int × List (Int × Int)) (rest : AdjList) (l : List Int)
    (h : e.1 ∉ l) : outSum (e :: rest) l = outSum rest l := by
  induction l with
  | nil => rfl
  | cons a l ih =>
    have ha : e.1 ≠ a := fun hh => h (by simp [hh])
    have hl : e.1 ∉ l := fun hh => h (List.mem_cons_of_mem _ hh)
    rw [outSum_cons, outSum_cons, ih hl]
    simp [outW, adjOf, ha]

theorem outSum_le_total (al : AdjList) (l : List Int) (hnd : l.Nodup)
    (h : ∀ x ∈ al, ∀ e ∈ x.2, 0 ≤ e.2) : outSum al l ≤ totalWeight al := by
  induction al generalizing l with
  | nil =>
    have : outSum [] l = 0 := by
      induction l with
      | nil => rfl
      | cons a l ih => rw [outSum_cons, ih (List.nodup_cons.mp hnd).2]; simp [outW, adjOf]
    rw [this]; simp [totalWeight]
  | cons e rest ih =>
    have hrest : ∀ x ∈ rest, ∀ e ∈ x.2, 0 ≤ e.2 := fun x hx => h x (List.mem_cons_of_mem _ hx)
    have he : 0 ≤ (e.2.map Prod.snd).sum := rowSum_nonneg _ (h e (List.mem_cons_self _ _))
    have htot : totalWeight (e :: rest) = (e.2.map Prod.snd).sum + totalWeight rest := by
      simp [totalWeight]
    by_cases hmem : e.1 ∈ l
    · have hperm := List.perm_cons_erase hmem
      rw [outSum_perm _ _ _ hperm, outSum_cons, htot]
      have hnd2 : (l.erase e.1).Nodup := hnd.erase _
      have hnot : e.1 ∉ l.erase e.1 := fun hh => (List.Nodup.mem_erase_iff hnd).mp hh |>.1 rfl
      rw [outSum_cons_of_not_mem e rest _ hnot]
      have := ih _ hnd2 hrest
      have h1 : outW (e :: rest) e.1 = (e.2.map Prod.snd).sum := by simp [outW, adjOf]
      omega
    · rw [outSum_cons_of_not_mem e rest _ hmem, htot]
      have := ih _ hnd hrest
      omega

/-! ## Shortest path: the settled list -/

theorem vget_vset (a : List Int) (i j v : Int) (h0 : 0 ≤ i) (h1 : i < a.length) :
    vget (vset a i v) j = if j = i then v else vget a j := by
  by_cases h : j = i
  · subst h; simp [vget_vset_eq a j v h0 h1]
  · simp [h, vget_vset_ne a i j v (Ne.symm h)]

theorem settledOK_congr (al : AdjList) (start : Int) (dist prev dist2 prev2 : List Int)
    (L : List Int) (h : SettledOK al start dist prev L)
    (hd : ∀ x ∈ L, vget dist2 x = vget dist x) (hp : ∀ x ∈ L, vget prev2 x = vget prev x) :
    SettledOK al start dist2 prev2 L := by
  induction L with
  | nil => trivial
  | cons u L ih =>
    obtain ⟨h1, h2, h3, h4, h5⟩ := h
    have hdu := hd u (List.mem_cons_self _ _)
    have hpu := hp u (List.mem_cons_self _ _)
    have hdL : ∀ x ∈ L, vget dist2 x = vget dist x := fun x hx => hd x (List.mem_cons_of_mem _ hx)
    have hpL : ∀ x ∈ L, vget prev2 x = vget prev x := fun x hx => hp x (List.mem_cons_of_mem _ hx)
    refine ⟨h1, by rw [hdu]; exact h2, ?_, ?_, ih h5 hdL hpL⟩
    · rcases h3 with h3 | ⟨hm, w, hw, he⟩
      · exact Or.inl h3
      · right
        rw [hpu, hdu, hdL _ hm]
        exact ⟨hm, w, hw, he⟩
    · intro x hx
      rw [hdu, hdL x hx]
      exact h4 x hx

theorem settledOK_nodup (al : AdjList) (start : Int) (dist prev : List Int) (L : List Int)
    (h : SettledOK al start dist prev L) : L.Nodup := by
  induction L with
  | nil => exact List.nodup_nil
  | cons u L ih => exact List.nodup_cons.mpr ⟨h.1, ih h.2.2.2.2⟩

theorem settledOK_bound (al : AdjList) (start : Int) (dist prev : List Int) (L : List Int)
    (hw : ∀ u, ∀ e ∈ adjOf al u, 0 ≤ e.2)
    (h : SettledOK al start dist prev L) (u : Int) (hu : u ∈ L) :
    vget dist u + outW al u ≤ outSum al L := by
  induction L with
  | nil => simp at hu
  | cons c L ih =>
    rw [outSum_cons]
    rcases List.mem_cons.mp hu with rfl | hm
    · have := h.2.1
      omega
    · have := ih h.2.2.2.2 hm
      have := outW_nonneg al c hw
      omega

theorem settledOK_head_max (al : AdjList) (start : Int) (dist prev : List Int) (c : Int)
    (L : List Int) (h : SettledOK al start dist prev (c :: L)) :
    ∀ x ∈ c :: L, vget dist x ≤ vget dist c := by
  intro x hx
  rcases List.mem_cons.mp hx with rfl | hm
  · exact le_refl _
  · exact h.2.2.2.1 x hm

/-! ## Shortest path: the relaxation loop -/

theorem relax_inv (al : AdjList) (n start : Int) (hg : GraphOK al n) (c : Int) (L : List Int) :
    ∀ (rest : List (Int × Int)) (s : SPState), SPInv al n start (c :: L) rest s →
      (∀ e ∈ rest, e ∈ adjOf al c) →
      SPInv al n start (c :: L) [] (relax c rest s) ∧ spMeasure (relax c rest s) ≤ spMeasure s := by
  intro rest
  induction rest with
  | nil => intro s hs _; exact ⟨hs, le_refl _⟩
  | cons e rest ih =>
    intro s hs hsub
    obtain ⟨v, w⟩ := e
    have hvw : (v, w) ∈ adjOf al c := hsub _ (List.mem_cons_self _ _)
    have hrest : ∀ e ∈ rest, e ∈ adjOf al c := fun e he => hsub e (List.mem_cons_of_mem _ he)
    have hcL : c ∈ c :: L := List.mem_cons_self _ _
    have hw0 : 0 ≤ w := hg.wt c _ hvw
    have hv := hg.tgt c _ hvw
    simp only at hv
    have hd0 := hs.dist_lo c
    have hbound := settledOK_bound al start _ _ _ hg.wt hs.settled c hcL
    have hle := mem_le_outW al c _ hvw hg.wt
    simp only at hle
    have htot := outSum_le_total al (c :: L) (settledOK_nodup _ _ _ _ _ hs.settled) hg.row
    have hT := hg.total
    have hsum : vget s.distances c + w ≤ outSum al (c :: L) := by omega
    have hadd : add32 (vget s.distances c) w = vget s.distances c + w :=
      add32_of_range _ _ (by omega) (by omega)
    have hmax := settledOK_head_max al start _ _ c L hs.settled
    have hlen : v < (s.distances.length : Int) := by rw [hs.len_d]; exact hv.2
    have hlenp : v < (s.previous.length : Int) := by rw [hs.len_p]; exact hv.2
    simp only [relax, hadd]
    by_cases hlt : vget s.distances c + w < vget s.distances v
    · simp only [hlt, if_true]
      have hvL : ∀ x ∈ c :: L, x ≠ v := by
        intro x hx hxv
        subst hxv
        have := hmax x hx
        omega
      have hvs : v ≠ start := by
        intro h
        rw [h, hs.start_d] at hlt
        omega
      have hnew : vget (vset s.distances v (vget s.distances c + w)) v = vget s.distances c + w :=
        vget_vset_eq _ _ _ hv.1 hlen
      have hdne : ∀ x, x ≠ v → vget (vset s.distances v (vget s.distances c + w)) x
          = vget s.distances x := fun x hx => vget_vset_ne _ _ _ _ (Ne.symm hx)
      have hpne : ∀ x, x ≠ v → vget (vset s.previous v c) x = vget s.previous x :=
        fun x hx => vget_vset_ne _ _ _ _ (Ne.symm hx)
      have hdle : ∀ x, vget (vset s.distances v (vget s.distances c + w)) x ≤ vget s.distances x := by
        intro x
        by_cases hx : x = v
        · subst hx; rw [hnew]; omega
        · rw [hdne x hx]
      have hinv : SPInv al n start (c :: L) rest
          { s with
            distances := vset s.distances v (vget s.distances c + w)
            previous := vset s.previous v c
            pq := s.pq ++ [(vget (vset s.distances v (vget s.distances c + w)) v, v)] } := by
        refine
          { len_d := by simp only [vset_length]; exact hs.len_d
            len_p := by simp only [vset_length]; exact hs.len_p
            adj_eq := hs.adj_eq
            dist_lo := ?_
            dist_hi := ?_
            start_d := by simp only []; rw [hdne _ (Ne.symm hvs)]; exact hs.start_d
            start_p := by simp only []; rw [hpne _ (Ne.symm hvs)]; exact hs.start_p
            pq_ok := ?_
            live := ?_
            settled := ?_
            settled_rng := ?_
            relaxed := ?_
            settled_le := ?_
            tree := ?_
            unsettled_le := ?_ }
        · intro x
          simp only []
          by_cases hx : x = v
          · subst hx; rw [hnew]; omega
          · rw [hdne x hx]; exact hs.dist_lo x
        · intro x
          exact le_trans (hdle x) (hs.dist_hi x)
        · intro e he
          simp only [] at he ⊢
          rcases List.mem_append.mp he with he | he
          · obtain ⟨h1, h2, h3, h4⟩ := hs.pq_ok e he
            exact ⟨h1, h2, le_trans (hdle _) h3, h4⟩
          · simp only [List.mem_singleton] at he
            subst he
            simp only [hnew]
            have := hs.dist_hi v
            exact ⟨hv.1, hv.2, le_refl _, by omega⟩
        · intro x hx0 hxn hfin hxL
          simp only [] at hfin ⊢
          by_cases hx : x = v
          · subst hx
            exact List.mem_append.mpr (Or.inr (by simp))
          · rw [hdne x hx] at hfin ⊢
            exact List.mem_append.mpr (Or.inl (hs.live x hx0 hxn hfin hxL))
        · exact settledOK_congr al start _ _ _ _ _ hs.settled
            (fun x hx => hdne x (hvL x hx)) (fun x hx => hpne x (hvL x hx))
        · intro u hu
          simp only []
          rw [hdne u (hvL u hu)]
          exact hs.settled_rng u hu
        · intro u hu e he
          simp only []
          rw [hdne u (hvL u hu)]
          rcases hs.relaxed u hu e he with ⟨hh, hm⟩ | hr
          · rcases List.mem_cons.mp hm with rfl | hm
            · right
              simp only [List.head?_cons, Option.some.injEq] at hh
              subst hh
              simp only [hnew]
              exact le_refl _
            · exact Or.inl ⟨hh, hm⟩
          · exact Or.inr (le_trans (hdle _) hr)
        · intro u hu e he
          simp only [] at he ⊢
          rw [hdne u (hvL u hu)]
          rcases List.mem_append.mp he with he | he
          · exact hs.settled_le u hu e he
          · simp only [List.mem_singleton] at he
            subst he
            simp only [hnew]
            have := hmax u hu
            omega
        · intro x hx0 hxn hxL hxs hfin
          simp only [] at hfin ⊢
          by_cases hx : x = v
          · subst hx
            rw [vget_vset_eq _ _ _ hv.1 hlenp, hnew, hdne c (hvL c hcL)]
            exact ⟨hcL, w, hvw, rfl⟩
          · rw [hdne x hx] at hfin
            obtain ⟨h1, w1, h2, h3⟩ := hs.tree x hx0 hxn hxL hxs hfin
            rw [hpne x hx, hdne x hx, hdne _ (hvL _ h1)]
            exact ⟨h1, w1, h2, h3⟩
        · intro x hx0 hxn hxL hfin
          simp only [] at hfin ⊢
          by_cases hx : x = v
          · subst hx; rw [hnew]; exact hsum
          · rw [hdne x hx] at hfin ⊢
            exact hs.unsettled_le x hx0 hxn hxL hfin
      obtain ⟨h1, h2⟩ := ih _ hinv hrest
      refine ⟨h1, le_trans h2 ?_⟩
      simp only [spMeasure, sum_vset _ _ _ hv.1 hlen, List.length_append, List.length_singleton]
      push_cast
      omega
    · simp only [hlt, if_false]
      have hinv : SPInv al n start (c :: L) rest s := by
        refine { hs with relaxed := ?_ }
        intro u hu e he
        rcases hs.relaxed u hu e he with ⟨hh, hm⟩ | hr
        · rcases List.mem_cons.mp hm with rfl | hm
          · right
            simp only [List.head?_cons, Option.some.injEq] at hh
            subst hh
            simp only
            omega
          · exact Or.inl ⟨hh, hm⟩
        · exact Or.inr hr
      exact ih _ hinv hrest

/-! ## Shortest path: the main loop -/

theorem sum_nonneg_of_vget (a : List Int) (h : ∀ v, 0 ≤ vget a v) : 0 ≤ a.sum := by
  apply List.sum_nonneg
  intro x hx
  obtain ⟨k, hk, rfl⟩ := List.mem_iff_getElem.mp hx
  have := h (k : Int)
  unfold vget at this
  simpa [List.getD_eq_getElem?_getD, List.getElem?_eq_getElem hk] using this

theorem relax_noop (c : Int) (rest : List (Int × Int)) (s : SPState)
    (h : ∀ e ∈ rest, ¬ (add32 (vget s.distances c) e.2 < vget s.distances e.1)) :
    relax c rest s = s := by
  induction rest with
  | nil => rfl
  | cons e rest ih =>
    obtain ⟨v, w⟩ := e
    have h1 := h (v, w) (List.mem_cons_self _ _)
    simp only at h1
    simp only [relax, h1, if_false]
    exact ih (fun e he => h e (List.mem_cons_of_mem _ he))

theorem sPInv_pop_keep (al : AdjList) (n start : Int) (L : List Int) (s : SPState)
    (hs : SPInv al n start L [] s) (top : Int × Int) (m : Metrics) (al2 : AdjList)
    (hadj : ∀ u, adjOf al2 u = adjOf al u)
    (hkeep : ∀ v, vget s.distances v < INT_MAX → v ∉ L → (vget s.distances v, v) ≠ top) :
    SPInv al n start L []
      { s with pq := s.pq.erase top, metrics := m, adjacencyList := al2 } :=
  { len_d := hs.len_d
    len_p := hs.len_p
    adj_eq := hadj
    dist_lo := hs.dist_lo
    dist_hi := hs.dist_hi
    start_d := hs.start_d
    start_p := hs.start_p
    pq_ok := fun e he => hs.pq_ok e (List.mem_of_mem_erase he)
    live := fun v h0 hn hfin hL =>
      (List.mem_erase_of_ne (hkeep v hfin hL)).mpr (hs.live v h0 hn hfin hL)
    settled := hs.settled
    settled_rng := hs.settled_rng
    relaxed := hs.relaxed
    settled_le := fun u hu e he => hs.settled_le u hu e (List.mem_of_mem_erase he)
    tree := hs.tree
    unsettled_le := hs.unsettled_le }

theorem sPInv_settle (al : AdjList) (n start : Int) (hg : GraphOK al n) (L : List Int)
    (s : SPState) (hs : SPInv al n start L [] s) (d c : Int) (m : Metrics) (al2 : AdjList)
    (hadj : ∀ u, adjOf al2 u = adjOf al u)
    (htop : pqTop s.pq = some (d, c)) (hd : d = vget s.distances c) (hc : c ∉ L) :
    SPInv al n start (c :: L) (adjOf al c)
      { s with pq := s.pq.erase (d, c), metrics := m, adjacencyList := al2 } := by
  have hmem := pqTop_mem _ _ htop
  have hmin := pqTop_le _ _ htop
  obtain ⟨hc0, hcn, _, hdfin⟩ := hs.pq_ok _ hmem
  simp only at hc0 hcn hdfin
  rw [hd] at hdfin
  refine
    { len_d := hs.len_d
      len_p := hs.len_p
      adj_eq := hadj
      dist_lo := hs.dist_lo
      dist_hi := hs.dist_hi
      start_d := hs.start_d
      start_p := hs.start_p
      pq_ok := fun e he => hs.pq_ok e (List.mem_of_mem_erase he)
      live := ?_
      settled := ?_
      settled_rng := ?_
      relaxed := ?_
      settled_le := ?_
      tree := ?_
      unsettled_le := ?_ }
  · intro v h0 hn hfin hL
    simp only [] at hfin ⊢
    have hvc : v ≠ c := fun h => hL (by simp [h])
    have hvL : v ∉ L := fun h => hL (List.mem_cons_of_mem _ h)
    refine (List.mem_erase_of_ne ?_).mpr (hs.live v h0 hn hfin hvL)
    intro h
    exact hvc (by simpa using congrArg Prod.snd h)
  · refine ⟨hc, hs.unsettled_le c hc0 hcn hc hdfin, ?_, ?_, hs.settled⟩
    · by_cases hcs : c = start
      · exact Or.inl hcs
      · exact Or.inr (hs.tree c hc0 hcn hc hcs hdfin)
    · intro x hx
      have := hs.settled_le x hx _ hmem
      simp only at this
      show vget s.distances x ≤ vget s.distances c
      omega
  · intro u hu
    rcases List.mem_cons.mp hu with rfl | hu
    · exact ⟨hc0, hcn, hdfin⟩
    · exact hs.settled_rng u hu
  · intro u hu e he
    rcases List.mem_cons.mp hu with rfl | hu
    · exact Or.inl ⟨rfl, he⟩
    · rcases hs.relaxed u hu e he with ⟨_, hm⟩ | hr
      · simp at hm
      · exact Or.inr hr
  · intro u hu e he
    have he2 := List.mem_of_mem_erase he
    rcases List.mem_cons.mp hu with rfl | hu
    · have := pairLe_fst _ _ (hmin e he2)
      simp only at this ⊢
      omega
    · exact hs.settled_le u hu e he2
  · intro v h0 hn hL hvs hfin
    have hvL : v ∉ L := fun h => hL (List.mem_cons_of_mem _ h)
    obtain ⟨h1, h2⟩ := hs.tree v h0 hn hvL hvs hfin
    exact ⟨List.mem_cons_of_mem _ h1, h2⟩
  · intro v h0 hn hL hfin
    have hvL : v ∉ L := fun h => hL (List.mem_cons_of_mem _ h)
    have := hs.unsettled_le v h0 hn hvL hfin
    have := outW_nonneg al c hg.wt
    rw [outSum_cons]
    simp only [] at *
    omega

theorem spLoop_inv (al : AdjList) (n start : Int) (hg : GraphOK al n) :
    ∀ (fuel : Nat) (s : SPState) (L : List Int), SPInv al n start L [] s →
      spMeasure s ≤ fuel →
      ∃ s2 L2, spLoop fuel s = some s2 ∧ SPInv al n start L2 [] s2 ∧ s2.pq = [] := by
  intro fuel
  induction fuel with
  | zero =>
    intro s L hs hm
    have hsum := sum_nonneg_of_vget _ hs.dist_lo
    have hpq : s.pq = [] := by
      unfold spMeasure at hm
      have : (s.pq.length : Int) ≤ 0 := by push_cast at hm; omega
      exact List.eq_nil_of_length_eq_zero (by omega)
    refine ⟨s, L, ?_, hs, hpq⟩
    unfold spLoop
    rw [(pqTop_eq_none _).mpr hpq]
  | succ f ih =>
    intro s L hs hm
    have hsum := sum_nonneg_of_vget _ hs.dist_lo
    unfold spLoop
    cases htop : pqTop s.pq with
    | none =>
      exact ⟨s, L, rfl, hs, (pqTop_eq_none _).mp htop⟩
    | some top =>
      obtain ⟨d, c⟩ := top
      have hmem := pqTop_mem _ _ htop
      obtain ⟨hc0, hcn, hdc, hdfin⟩ := hs.pq_ok _ hmem
      simp only at hc0 hcn hdc hdfin
      have hlen : (s.pq.erase (d, c)).length + 1 = s.pq.length := by
        rw [List.length_erase_of_mem hmem]
        have : 0 < s.pq.length := List.length_pos_of_mem hmem
        omega
      simp only []
      by_cases hstale : d > vget s.distances c
      · simp only [hstale, if_true]
        have hinv := sPInv_pop_keep al n start L s hs (d, c)
          (incNodesProcessed s.metrics "Shortest Path") s.adjacencyList hs.adj_eq
          (by
            intro v _ _ h
            have h1 := congrArg Prod.fst h
            have h2 := congrArg Prod.snd h
            simp only at h1 h2
            subst h2
            omega)
        apply ih _ L hinv
        unfold spMeasure at hm ⊢
        simp only []
        push_cast at hm ⊢
        omega
      · simp only [hstale, if_false]
        have hd : d = vget s.distances c := by omega
        have hadj : ∀ u, adjOf (touch s.adjacencyList c) u = adjOf al u := by
          intro u; rw [adjOf_touch]; exact hs.adj_eq u
        rw [hadj c]
        by_cases hcL : c ∈ L
        · have hinv := sPInv_pop_keep al n start L s hs (d, c)
            (incNodesProcessed s.metrics "Shortest Path") (touch s.adjacencyList c) hadj
            (by
              intro v _ hv h
              have h2 := congrArg Prod.snd h
              simp only at h2
              subst h2
              exact hv hcL)
          rw [relax_noop]
          · apply ih _ L hinv
            unfold spMeasure at hm ⊢
            simp only []
            push_cast at hm ⊢
            omega
          · intro e he
            simp only []
            have hb := settledOK_bound al start _ _ _ hg.wt hs.settled c hcL
            have hle := mem_le_outW al c e he hg.wt
            have htot := outSum_le_total al L (settledOK_nodup _ _ _ _ _ hs.settled) hg.row
            have hT := hg.total
            have hw := hg.wt c e he
            have hd0 := hs.dist_lo c
            rw [add32_of_range _ _ (by omega) (by omega)]
            rcases hs.relaxed c hcL e he with ⟨_, hm2⟩ | hr
            · simp at hm2
            · omega
        · have hinv := sPInv_settle al n start hg L s hs d c
            (incNodesProcessed s.metrics "Shortest Path") (touch s.adjacencyList c) hadj
            htop hd hcL
          obtain ⟨h1, h2⟩ := relax_inv al n start hg c L _ _ hinv (fun e he => he)
          apply ih _ (c :: L) h1
          refine le_trans h2 ?_
          unfold spMeasure at hm ⊢
          simp only []
          push_cast at hm ⊢
          omega

/-! ## Shortest path: entry and exit of the main loop -/

theorem vget_replicate_cases (k : Nat) (c v : Int) :
    vget (List.replicate k c) v = c ∨ vget (List.replicate k c) v = 0 := by
  by_cases h0 : v < 0
  · exact Or.inr (vget_of_neg _ _ h0)
  · by_cases h1 : v < k
    · exact Or.inl (vget_replicate k c v (by omega) h1)
    · exact Or.inr (vget_of_ge _ _ (by simp; omega))

theorem spInit_inv (g : GraphAnalysisTool) (start : Int) (h0 : 0 ≤ start)
    (h1 : start < g.numNodes) :
    SPInv g.adjacencyList g.numNodes start [] [] (spInit g start) := by
  have hlen : ((List.replicate g.numNodes.toNat INT_MAX).length : Int) = g.numNodes := by
    simp; omega
  have hs : start < ((List.replicate g.numNodes.toNat INT_MAX).length : Int) := by omega
  have hd : ∀ v, vget (vset (List.replicate g.numNodes.toNat INT_MAX) start 0) v
      = if v = start then 0 else vget (List.replicate g.numNodes.toNat INT_MAX) v :=
    fun v => vget_vset _ _ _ _ h0 hs
  have hfin : ∀ v, 0 ≤ v → v < g.numNodes →
      vget (vset (List.replicate g.numNodes.toNat INT_MAX) start 0) v < INT_MAX → v = start := by
    intro v hv0 hvn hlt
    by_contra hne
    rw [hd v, if_neg hne, vget_replicate _ _ _ hv0 (by omega)] at hlt
    omega
  refine
    { len_d := by simp only [spInit, vset_length]; exact hlen
      len_p := by simp [spInit]; omega
      adj_eq := fun _ => rfl
      dist_lo := ?_
      dist_hi := ?_
      start_d := by simp only [spInit]; rw [hd]; simp
      start_p := by simp only [spInit]; exact vget_replicate _ _ _ h0 (by omega)
      pq_ok := ?_
      live := ?_
      settled := trivial
      settled_rng := by intro u hu; simp at hu
      relaxed := by intro u hu; simp at hu
      settled_le := by intro u hu; simp at hu
      tree := ?_
      unsettled_le := ?_ }
  · intro v
    simp only [spInit]
    rw [hd]
    split
    · exact le_refl _
    · rcases vget_replicate_cases g.numNodes.toNat INT_MAX v with h | h <;> (first | (rw [h]; decide) | rw [h])
  · intro v
    simp only [spInit]
    rw [hd]
    split
    · simp [INT_MAX]
    · rcases vget_replicate_cases g.numNodes.toNat INT_MAX v with h | h <;> (first | (rw [h]; decide) | rw [h])
  · intro e he
    simp only [spInit, List.mem_singleton] at he
    subst he
    simp only [spInit]
    rw [hd]
    simp [h0, h1, INT_MAX]
  · intro v hv0 hvn hlt _
    simp only [spInit] at hlt ⊢
    have := hfin v hv0 hvn hlt
    subst this
    rw [hd]
    simp
  · intro v hv0 hvn _ hvs hlt
    simp only [spInit] at hlt
    exact absurd (hfin v hv0 hvn hlt) hvs
  · intro v hv0 hvn _ hlt
    simp only [spInit] at hlt ⊢
    have := hfin v hv0 hvn hlt
    subst this
    rw [hd]
    simp [outSum]

theorem rWalk_cast (al : AdjList) (s : Int) (p : List Int) (W W2 : Int)
    (h : RWalk al s p W) (hW : W = W2) : RWalk al s p W2 := hW ▸ h

theorem sPInv_settled_of_finite (al : AdjList) (n start : Int) (L : List Int) (s : SPState)
    (hs : SPInv al n start L [] s) (hpq : s.pq = []) (v : Int) (h0 : 0 ≤ v) (h1 : v < n)
    (hfin : vget s.distances v < INT_MAX) : v ∈ L := by
  by_contra hL
  have := hs.live v h0 h1 hfin hL
  rw [hpq] at this
  simp at this

theorem sPInv_closure (al : AdjList) (n start : Int) (hg : GraphOK al n) (L : List Int)
    (s : SPState) (hs : SPInv al n start L [] s) (hpq : s.pq = [])
    (h0 : 0 ≤ start) (h1 : start < n) (p : List Int) (W : Int) (hp : RWalk al start p W) :
    ∀ v rest, p = v :: rest → 0 ≤ v ∧ v < n ∧ vget s.distances v ≤ W := by
  induction hp with
  | base =>
    intro v rest h
    simp only [List.cons.injEq] at h
    obtain ⟨rfl, _⟩ := h
    exact ⟨h0, h1, le_of_eq hs.start_d⟩
  | step u v w p W _ hedge ih =>
    intro v2 rest h
    simp only [List.cons.injEq] at h
    obtain ⟨rfl, _⟩ := h
    obtain ⟨hu0, hun, hdu⟩ := ih u p rfl
    have ht := hg.tgt u _ hedge
    have hw := hg.wt u _ hedge
    simp only at ht hw
    refine ⟨ht.1, ht.2, ?_⟩
    by_cases hfin : vget s.distances u < INT_MAX
    · have huL := sPInv_settled_of_finite al n start L s hs hpq u hu0 hun hfin
      rcases hs.relaxed u huL _ hedge with ⟨_, hm⟩ | hr
      · simp at hm
      · simp only at hr
        omega
    · have := hs.dist_hi v
      omega

theorem walkBack_chain (al : AdjList) (start : Int) (dist prev : List Int) (L : List Int)
    (h : SettledOK al start dist prev L) (hs0 : 0 ≤ start) (hsd : vget dist start = 0)
    (hsp : vget prev start = -1) (hL0 : ∀ u ∈ L, 0 ≤ u) :
    ∀ u ∈ L, ∃ rest, RWalk al start (u :: rest) (vget dist u) ∧ (u :: rest).Nodup ∧
      (∀ x ∈ u :: rest, x ∈ L) ∧
      ∀ fuel acc, L.length ≤ fuel → walkBack prev fuel u acc = some (acc ++ u :: rest) := by
  induction L with
  | nil => intro u hu; simp at hu
  | cons c L ih =>
    obtain ⟨hcL, _, htree, _, hrest⟩ := h
    have ih2 := ih hrest (fun u hu => hL0 u (List.mem_cons_of_mem _ hu))
    have old : ∀ u ∈ L, ∃ rest, RWalk al start (u :: rest) (vget dist u) ∧ (u :: rest).Nodup ∧
        (∀ x ∈ u :: rest, x ∈ c :: L) ∧
        ∀ fuel acc, (c :: L).length ≤ fuel → walkBack prev fuel u acc = some (acc ++ u :: rest) := by
      intro u hu
      obtain ⟨rest, h1, h2, h3, h4⟩ := ih2 u hu
      refine ⟨rest, h1, h2, fun x hx => List.mem_cons_of_mem _ (h3 x hx), ?_⟩
      intro fuel acc hf
      exact h4 fuel acc (by simp at hf; omega)
    intro u hu
    by_cases huL : u ∈ L
    · exact old u huL
    · have huc : u = c := by
        rcases List.mem_cons.mp hu with h | h
        · exact h
        · exact absurd h huL
      subst huc
      have hu0 : 0 ≤ u := hL0 u hu
      by_cases hus : u = start
      · subst hus
        refine ⟨[], ?_, by simp, by simp, ?_⟩
        · rw [hsd]; exact RWalk.base
        · intro fuel acc hf
          cases fuel with
          | zero => simp at hf
          | succ f =>
            have hne : u ≠ -1 := by omega
            unfold walkBack
            simp only [hne, if_false]
            rw [hsp]
            unfold walkBack
            simp
      · rcases htree with h | ⟨hpm, w, hw, hd⟩
        · exact absurd h hus
        · obtain ⟨rest, h1, h2, h3, h4⟩ := ih2 _ hpm
          refine ⟨vget prev u :: rest, ?_, ?_, ?_, ?_⟩
          · rw [hd]
            exact RWalk.step _ _ _ _ _ h1 hw
          · refine List.nodup_cons.mpr ⟨?_, h2⟩
            intro hmem
            exact hcL (h3 u hmem)
          · intro x hx
            rcases List.mem_cons.mp hx with rfl | hx
            · exact hu
            · exact List.mem_cons_of_mem _ (h3 x hx)
          · intro fuel acc hf
            cases fuel with
            | zero => simp at hf
            | succ f =>
              have hne : u ≠ -1 := by omega
              unfold walkBack
              simp only [hne, if_false]
              rw [h4 f (acc ++ [u]) (by simp at hf; omega)]
              simp

/-! ## Walks, forwards and backwards -/

theorem walk_cast (al : AdjList) (p : List Int) (W W2 : Int)
    (h : Walk al p W) (hW : W = W2) : Walk al p W2 := hW ▸ h

theorem walk_snoc (al : AdjList) (p : List Int) (W : Int) (h : Walk al p W) :
    ∀ u v w, p.getLast? = some u → (v, w) ∈ adjOf al u → Walk al (p ++ [v]) (W + w) := by
  induction h with
  | single a =>
    intro u v w hu hv
    simp at hu
    subst hu
    exact walk_cast _ _ _ _ (Walk.cons a v [] w 0 hv (Walk.single v)) (by ring)
  | cons a b rest w1 W1 hab _ ih =>
    intro u v w hu hv
    have hu2 : (b :: rest).getLast? = some u := by
      rw [List.getLast?_cons_cons] at hu; exact hu
    have := ih u v w hu2 hv
    exact walk_cast _ _ _ _ (Walk.cons a b (rest ++ [v]) w1 (W1 + w) hab this) (by ring)

theorem rWalk_toWalk (al : AdjList) (s : Int) (p : List Int) (W : Int) (h : RWalk al s p W) :
    Walk al p.reverse W ∧ p.reverse.head? = some s := by
  induction h with
  | base => exact ⟨Walk.single s, rfl⟩
  | step u v w p W _ hedge ih =>
    obtain ⟨h1, h2⟩ := ih
    have hlast : (u :: p).reverse.getLast? = some u := by simp
    refine ⟨?_, ?_⟩
    · have := walk_snoc al _ _ h1 u v w hlast hedge
      simpa using this
    · rw [List.reverse_cons (a := v)]
      rw [List.head?_append_of_ne_nil _ (by simp)]
      exact h2

theorem rWalk_prepend (al : AdjList) (b : Int) (q : List Int) (W : Int) (h : RWalk al b q W) :
    ∀ a w, (b, w) ∈ adjOf al a → RWalk al a (q ++ [a]) (w + W) := by
  induction h with
  | base =>
    intro a w hw
    exact rWalk_cast _ _ _ _ _ (RWalk.step a b w [] 0 RWalk.base hw) (by ring)
  | step u v w1 p W1 _ hedge ih =>
    intro a w hw
    have := ih a w hw
    exact rWalk_cast _ _ _ _ _ (RWalk.step u v w1 (p ++ [a]) (w + W1) this hedge) (by ring)

theorem walk_toRWalk (al : AdjList) (p : List Int) (W : Int) (h : Walk al p W) :
    ∀ s, p.head? = some s → RWalk al s p.reverse W := by
  induction h with
  | single a =>
    intro s hs
    simp at hs
    subst hs
    exact RWalk.base
  | cons a b rest w W1 hab _ ih =>
    intro s hs
    simp at hs
    subst hs
    have := rWalk_prepend al b _ _ (ih b rfl) a w hab
    simpa using this

/-! ## Graphs built by the mutators -/

theorem adjOf_mem_row (al : AdjList) (u : Int) (e : Int × Int) (h : e ∈ adjOf al u) :
    ∃ x ∈ al, e ∈ x.2 := by
  induction al with
  | nil => simp [adjOf] at h
  | cons x rest ih =>
    simp only [adjOf] at h
    split at h
    · exact ⟨x, List.mem_cons_self _ _, h⟩
    · obtain ⟨y, hy, he⟩ := ih h
      exact ⟨y, List.mem_cons_of_mem _ hy, he⟩

theorem pushEdge_rows (al : AdjList) (node : Int) (e : Int × Int) :
    ∀ x ∈ pushEdge al node e, ∀ e2 ∈ x.2, e2 = e ∨ ∃ y ∈ al, e2 ∈ y.2 := by
  induction al with
  | nil =>
    intro x hx e2 he2
    simp only [pushEdge, List.mem_singleton] at hx
    subst hx
    simp at he2
    exact Or.inl he2
  | cons a rest ih =>
    intro x hx e2 he2
    simp only [pushEdge] at hx
    split at hx
    · rcases List.mem_cons.mp hx with rfl | hx
      · simp only [List.mem_append, List.mem_singleton] at he2
        rcases he2 with h | h
        · exact Or.inr ⟨a, List.mem_cons_self _ _, h⟩
        · exact Or.inl h
      · exact Or.inr ⟨x, List.mem_cons_of_mem _ hx, he2⟩
    · rcases List.mem_cons.mp hx with rfl | hx
      · exact Or.inr ⟨x, List.mem_cons_self _ _, he2⟩
      · rcases ih x hx e2 he2 with h | ⟨y, hy, h⟩
        · exact Or.inl h
        · exact Or.inr ⟨y, List.mem_cons_of_mem _ hy, h⟩

theorem addNode_numNodes_ge (g : GraphAnalysisTool) (node : Int) :
    g.numNodes ≤ (addNode g node).numNodes := by
  simp [addNode]

theorem addNode_numNodes_gt (g : GraphAnalysisTool) (node : Int) (h0 : 0 ≤ node)
    (h1 : node < INT_MAX) : node < (addNode g node).numNodes := by
  have : add32 node 1 = node + 1 := add32_of_range _ _ (by omega) (by omega)
  simp only [addNode, this]
  omega

theorem addNode_rowsOK (g : GraphAnalysisTool) (node : Int) (h : RowsOK g) :
    RowsOK (addNode g node) := by
  intro x hx e he
  have hge := addNode_numNodes_ge g node
  have hx2 : x ∈ g.adjacencyList ∨ x = (node, []) := by
    simp only [addNode] at hx
    split at hx
    · exact Or.inl hx
    · simpa using hx
  rcases hx2 with hx2 | rfl
  · obtain ⟨h1, h2, h3⟩ := h x hx2 e he
    exact ⟨h1, by omega, h3⟩
  · simp at he

theorem addEdge_rowsOK (g : GraphAnalysisTool) (s d w : Int) (h : RowsOK g)
    (hd0 : 0 ≤ d) (hd1 : d < INT_MAX) (hw : 0 ≤ w) : RowsOK (addEdge g s d w) := by
  have h2 := addNode_rowsOK _ d (addNode_rowsOK g s h)
  have hgt := addNode_numNodes_gt (addNode g s) d hd0 hd1
  intro x hx e he
  simp only [addEdge] at hx ⊢
  rcases pushEdge_rows _ _ _ x hx e he with rfl | ⟨y, hy, hey⟩
  · exact ⟨hd0, hgt, hw⟩
  · exact h2 y hy e hey

theorem foldl_rowsOK (ops : List Op) (hids : idsOk ops) (hw : weightsNonneg ops) :
    ∀ g, RowsOK g → RowsOK (ops.foldl applyOp g) := by
  induction ops with
  | nil => intro g hg; exact hg
  | cons op ops ih =>
    intro g hg
    have hids2 : idsOk ops := fun o ho => hids o (List.mem_cons_of_mem _ ho)
    have hw2 : weightsNonneg ops := fun o ho => hw o (List.mem_cons_of_mem _ ho)
    have h1 := hids op (List.mem_cons_self _ _)
    have h2 := hw op (List.mem_cons_self _ _)
    simp only [List.foldl_cons]
    apply ih hids2 hw2
    cases op with
    | node id => exact addNode_rowsOK g id hg
    | edge s d w =>
      have hd := h1 d (by simp [Op.ids])
      exact addEdge_rowsOK g s d w hg hd.1 hd.2 (h2 w (by simp [Op.weights]))

theorem build_rowsOK (ops : List Op) (hids : idsOk ops) (hw : weightsNonneg ops) :
    RowsOK (build ops) :=
  foldl_rowsOK ops hids hw _ (by intro x hx; simp [GraphAnalysisTool.empty] at hx)

theorem graphOK_of_rowsOK (g : GraphAnalysisTool) (h : RowsOK g)
    (htot : totalWeight g.adjacencyList ≤ INT_MAX) : GraphOK g.adjacencyList g.numNodes :=
  { tgt := fun u e he => by
      obtain ⟨x, hx, hex⟩ := adjOf_mem_row _ u e he
      exact ⟨(h x hx e hex).1, (h x hx e hex).2.1⟩
    wt := fun u e he => by
      obtain ⟨x, hx, hex⟩ := adjOf_mem_row _ u e he
      exact (h x hx e hex).2.2
    row := fun x hx e he => (h x hx e he).2.2
    total := htot }

/-! ## Cycle-free walks -/

theorem rWalk_suffix (al : AdjList) (s : Int) (hw : ∀ u, ∀ e ∈ adjOf al u, 0 ≤ e.2)
    (q : List Int) (W : Int) (h : RWalk al s q W) :
    ∀ v ∈ q, ∃ q2 W2, RWalk al s (v :: q2) W2 ∧ W2 ≤ W ∧ (v :: q2) <:+ q := by
  induction h with
  | base =>
    intro v hv
    simp only [List.mem_singleton] at hv
    subst hv
    exact ⟨[], 0, RWalk.base, le_refl _, List.suffix_refl _⟩
  | step u x w p W hprev hedge ih =>
    intro v hv
    rcases List.mem_cons.mp hv with rfl | hv
    · exact ⟨u :: p, W + w, RWalk.step _ _ _ _ _ hprev hedge, le_refl _, List.suffix_refl _⟩
    · obtain ⟨q2, W2, h1, h2, h3⟩ := ih v hv
      have := hw u _ hedge
      simp only at this
      exact ⟨q2, W2, h1, by omega, h3.trans (List.suffix_cons _ _)⟩

theorem rWalk_simple (al : AdjList) (s : Int) (hw : ∀ u, ∀ e ∈ adjOf al u, 0 ≤ e.2)
    (p : List Int) (W : Int) (h : RWalk al s p W) :
    ∀ v rest, p = v :: rest → ∃ q W2, RWalk al s (v :: q) W2 ∧ (v :: q).Nodup ∧ W2 ≤ W := by
  induction h with
  | base =>
    intro v rest hp
    simp only [List.cons.injEq] at hp
    obtain ⟨rfl, _⟩ := hp
    exact ⟨[], 0, RWalk.base, by simp, le_refl _⟩
  | step u x w p W _ hedge ih =>
    intro v rest hp
    simp only [List.cons.injEq] at hp
    obtain ⟨rfl, _⟩ := hp
    obtain ⟨q, W2, h1, h2, h3⟩ := ih u p rfl
    have hw0 := hw u _ hedge
    simp only at hw0
    by_cases hmem : x ∈ u :: q
    · obtain ⟨q2, W3, h4, h5, h6⟩ := rWalk_suffix al s hw _ _ h1 x hmem
      exact ⟨q2, W3, h4, (List.IsSuffix.sublist h6).nodup h2, by omega⟩
    · exact ⟨u :: q, W2 + w, RWalk.step _ _ _ _ _ h1 hedge,
        List.nodup_cons.mpr ⟨hmem, h2⟩, by omega⟩

theorem rWalk_weight_le_outSum (al : AdjList) (s : Int) (hw : ∀ u, ∀ e ∈ adjOf al u, 0 ≤ e.2)
    (p : List Int) (W : Int) (h : RWalk al s p W) : W ≤ outSum al p.tail := by
  induction h with
  | base => simp [outSum]
  | step u x w p W _ hedge ih =>
    have := mem_le_outW al u _ hedge hw
    simp only [List.tail_cons] at ih ⊢
    rw [outSum_cons]
    simp only at this
    omega

theorem rWalk_simple_le_total (al : AdjList) (n : Int) (hg : GraphOK al n) (s : Int)
    (p : List Int) (W : Int) (h : RWalk al s p W) (hnd : p.Nodup) : W ≤ totalWeight al := by
  have h1 := rWalk_weight_le_outSum al s hg.wt p W h
  have h2 := outSum_le_total al p.tail ((List.tail_sublist p).nodup hnd) hg.row
  omega

/-! ## Shortest path: the result -/

theorem nodup_length_le (L : List Int) (n : Int) (hnd : L.Nodup)
    (h : ∀ u ∈ L, 0 ≤ u ∧ u < n) : L.length ≤ n.toNat := by
  have h1 : (L.map Int.toNat).Nodup := by
    apply List.Nodup.map_on _ hnd
    intro x hx y hy hxy
    have := h x hx
    have := h y hy
    omega
  have h2 : L.map Int.toNat ⊆ List.range n.toNat := by
    intro k hk
    obtain ⟨u, hu, rfl⟩ := List.mem_map.mp hk
    have := h u hu
    exact List.mem_range.mpr (by omega)
  have := (List.Nodup.subperm h1 h2).length_le
  simpa using this

theorem pathFromTo_toRWalk (al : AdjList) (s e : Int) (p : List Int) (W : Int)
    (h : PathFromTo al s e p W) : ∃ rest, p.reverse = e :: rest ∧ RWalk al s (e :: rest) W := by
  obtain ⟨h1, h2, h3⟩ := h
  have hr := walk_toRWalk al p W h1 s h2
  have hh : p.reverse.head? = some e := by rw [List.head?_reverse]; exact h3
  cases hp : p.reverse with
  | nil => rw [hp] at hh; simp at hh
  | cons x rest =>
    rw [hp] at hh hr
    simp at hh
    subst hh
    exact ⟨rest, rfl, hr⟩

theorem rWalk_toPath (al : AdjList) (s e : Int) (rest : List Int) (W : Int)
    (h : RWalk al s (e :: rest) W) : PathFromTo al s e (e :: rest).reverse W := by
  obtain ⟨h1, h2⟩ := rWalk_toWalk al s _ W h
  exact ⟨h1, h2, by rw [List.getLast?_reverse]; rfl⟩

theorem shortestPath_core (g : GraphAnalysisTool) (start endNode : Int)
    (hg : GraphOK g.adjacencyList g.numNodes)
    (hs0 : 0 ≤ start) (hs1 : start < g.numNodes)
    (he0 : 0 ≤ endNode) (he1 : endNode < g.numNodes) :
    ∃ N, ∀ fuel, N ≤ fuel → ∃ s L path,
      spLoop fuel (spInit g start) = some s ∧
      SPInv g.adjacencyList g.numNodes start L [] s ∧ s.pq = [] ∧
      shortestPath g start endNode fuel = some ((path, vget s.distances endNode),
        { g with adjacencyList := s.adjacencyList, metrics := s.metrics }) ∧
      (vget s.distances endNode = INT_MAX → path = []) ∧
      (vget s.distances endNode ≠ INT_MAX → ∃ rest, path = (endNode :: rest).reverse ∧
        RWalk g.adjacencyList start (endNode :: rest) (vget s.distances endNode) ∧
        (endNode :: rest).Nodup) := by
  have hinit := spInit_inv g start hs0 hs1
  refine ⟨(spMeasure (spInit g start)).toNat + g.numNodes.toNat, ?_⟩
  intro fuel hfuel
  obtain ⟨s, L, hrun, hinv, hpq⟩ := spLoop_inv _ _ start hg fuel _ [] hinit (by omega)
  by_cases hd : vget s.distances endNode = INT_MAX
  · refine ⟨s, L, [], hrun, hinv, hpq, ?_, fun _ => rfl, fun h => absurd hd h⟩
    unfold shortestPath
    rw [hrun]
    simp [hd]
  · have hfin : vget s.distances endNode < INT_MAX := by
      have := hinv.dist_hi endNode
      omega
    have hL := sPInv_settled_of_finite _ _ _ L s hinv hpq endNode he0 he1 hfin
    obtain ⟨rest, h1, h2, _, h4⟩ := walkBack_chain _ start _ _ L hinv.settled hs0 hinv.start_d
      hinv.start_p (fun u hu => (hinv.settled_rng u hu).1) endNode hL
    have hlen := nodup_length_le L g.numNodes (settledOK_nodup _ _ _ _ _ hinv.settled)
      (fun u hu => ⟨(hinv.settled_rng u hu).1, (hinv.settled_rng u hu).2.1⟩)
    refine ⟨s, L, (endNode :: rest).reverse, hrun, hinv, hpq, ?_, fun h => absurd h hd,
      fun _ => ⟨rest, rfl, h1, h2⟩⟩
    unfold shortestPath
    rw [hrun]
    simp only [ne_eq, hd, not_false_eq_true, if_true]
    rw [h4 fuel [] (by omega)]
    simp

theorem shortestPath_spec (g : GraphAnalysisTool) (start endNode : Int)
    (hg : GraphOK g.adjacencyList g.numNodes)
    (hs0 : 0 ≤ start) (hs1 : start < g.numNodes)
    (he0 : 0 ≤ endNode) (he1 : endNode < g.numNodes) :
    ∃ N, ∀ fuel, N ≤ fuel → ∃ path d g1,
      shortestPath g start endNode fuel = some ((path, d), g1) ∧
      d ≤ INT_MAX ∧
      (∀ p W, PathFromTo g.adjacencyList start endNode p W → d ≤ W) ∧
      (d = INT_MAX → path = []) ∧
      (d ≠ INT_MAX → PathFromTo g.adjacencyList start endNode path d ∧ path.Nodup) ∧
      (Reachable g.adjacencyList start endNode →
        d ≤ totalWeight g.adjacencyList ∧ ∃ p, PathFromTo g.adjacencyList start endNode p d) := by
  obtain ⟨N, hN⟩ := shortestPath_core g start endNode hg hs0 hs1 he0 he1
  refine ⟨N, fun fuel hfuel => ?_⟩
  obtain ⟨s, L, path, _, hinv, hpq, hres, hinf, hfin⟩ := hN fuel hfuel
  have hlow : ∀ p W, PathFromTo g.adjacencyList start endNode p W →
      vget s.distances endNode ≤ W := by
    intro p W hp
    obtain ⟨rest, _, hr⟩ := pathFromTo_toRWalk _ _ _ _ _ hp
    exact (sPInv_closure _ _ start hg L s hinv hpq hs0 hs1 _ _ hr endNode rest rfl).2.2
  refine ⟨path, _, _, hres, hinv.dist_hi endNode, hlow, hinf, ?_, ?_⟩
  · intro hd
    obtain ⟨rest, hp, hr, hnd⟩ := hfin hd
    rw [hp]
    exact ⟨rWalk_toPath _ _ _ _ _ hr, List.nodup_reverse.mpr hnd⟩
  · rintro ⟨p, W, hp⟩
    obtain ⟨rest, _, hr⟩ := pathFromTo_toRWalk _ _ _ _ _ hp
    obtain ⟨q, W2, hq1, hq2, _⟩ := rWalk_simple _ start hg.wt _ _ hr endNode rest rfl
    have hq3 := rWalk_simple_le_total _ _ hg start _ _ hq1 hq2
    have hq4 := hlow _ _ (rWalk_toPath _ _ _ _ _ hq1)
    refine ⟨by omega, ?_⟩
    by_cases hd : vget s.distances endNode = INT_MAX
    · have hT := hg.total
      have : W2 = vget s.distances endNode := by omega
      rw [← this]
      exact ⟨_, rWalk_toPath _ _ _ _ _ hq1⟩
    · exact ⟨path, (by
        obtain ⟨rest2, hp2, hr2, _⟩ := hfin hd
        rw [hp2]
        exact rWalk_toPath _ _ _ _ _ hr2)⟩

/-! ## Shortest path: more fuel changes nothing -/

theorem spLoop_mono (f : Nat) : ∀ (s s2 : SPState), spLoop f s = some s2 →
    ∀ f2, f ≤ f2 → spLoop f2 s = some s2 := by
  induction f with
  | zero =>
    intro s s2 h f2 _
    unfold spLoop at h ⊢
    cases htop : pqTop s.pq with
    | none => rw [htop] at h; exact h
    | some top => rw [htop] at h; simp at h
  | succ f ih =>
    intro s s2 h f2 hf
    obtain ⟨k, rfl⟩ : ∃ k, f2 = k + 1 := ⟨f2 - 1, by omega⟩
    unfold spLoop at h ⊢
    cases htop : pqTop s.pq with
    | none => rw [htop] at h; exact h
    | some top =>
      rw [htop] at h
      simp only [] at h ⊢
      split
      · rename_i hst
        rw [if_pos hst] at h
        exact ih _ _ h k (by omega)
      · rename_i hst
        rw [if_neg hst] at h
        exact ih _ _ h k (by omega)

theorem walkBack_mono (prev : List Int) (f : Nat) : ∀ (node : Int) (acc p : List Int),
    walkBack prev f node acc = some p → ∀ f2, f ≤ f2 → walkBack prev f2 node acc = some p := by
  induction f with
  | zero =>
    intro node acc p h f2 _
    unfold walkBack at h ⊢
    split
    · rename_i hn; rw [if_pos hn] at h; exact h
    · rename_i hn; rw [if_neg hn] at h; simp at h
  | succ f ih =>
    intro node acc p h f2 hf
    obtain ⟨k, rfl⟩ : ∃ k, f2 = k + 1 := ⟨f2 - 1, by omega⟩
    unfold walkBack at h ⊢
    split
    · rename_i hn; rw [if_pos hn] at h; exact h
    · rename_i hn
      rw [if_neg hn] at h
      exact ih _ _ _ h k (by omega)

theorem shortestPath_mono (g : GraphAnalysisTool) (start endNode : Int) (f f2 : Nat)
    (r : (List Int × Int) × GraphAnalysisTool)
    (h : shortestPath g start endNode f = some r) (hf : f ≤ f2) :
    shortestPath g start endNode f2 = some r := by
  unfold shortestPath at h ⊢
  cases hrun : spLoop f (spInit g start) with
  | none => rw [hrun] at h; simp at h
  | some s =>
    rw [hrun] at h
    rw [spLoop_mono f _ _ hrun f2 hf]
    simp only [] at h ⊢
    split
    · rename_i hd
      rw [if_pos hd] at h
      cases hwb : walkBack s.previous f endNode [] with
      | none => rw [hwb] at h; simp at h
      | some p =>
        rw [hwb] at h
        rw [walkBack_mono _ f _ _ _ hwb f2 hf]
        exact h
    · rename_i hd
      rw [if_neg hd] at h
      exact h

theorem shortestPath_total (g : GraphAnalysisTool) (start endNode : Int)
    (hg : GraphOK g.adjacencyList g.numNodes)
    (hs0 : 0 ≤ start) (hs1 : start < g.numNodes)
    (he0 : 0 ≤ endNode) (he1 : endNode < g.numNodes) :
    (∃ N, ∀ fuel, N ≤ fuel → (shortestPath g start endNode fuel).isSome = true) ∧
    ∀ fuel r, shortestPath g start endNode fuel = some r →
      r.1.2 ≤ INT_MAX ∧
      (∀ p W, PathFromTo g.adjacencyList start endNode p W → r.1.2 ≤ W) ∧
      (r.1.2 = INT_MAX → r.1.1 = []) ∧
      (r.1.2 ≠ INT_MAX → PathFromTo g.adjacencyList start endNode r.1.1 r.1.2 ∧ r.1.1.Nodup) ∧
      (Reachable g.adjacencyList start endNode →
        r.1.2 ≤ totalWeight g.adjacencyList ∧
        ∃ p, PathFromTo g.adjacencyList start endNode p r.1.2) := by
  obtain ⟨N, hN⟩ := shortestPath_spec g start endNode hg hs0 hs1 he0 he1
  refine ⟨⟨N, fun fuel hf => ?_⟩, fun fuel r hr => ?_⟩
  · obtain ⟨path, d, g1, h, _⟩ := hN fuel hf
    rw [h]; rfl
  · obtain ⟨path, d, g1, h, hrest⟩ := hN (max fuel N) (le_max_right _ _)
    have := shortestPath_mono g start endNode fuel (max fuel N) r hr (le_max_left _ _)
    rw [this] at h
    cases h
    exact hrest

/-! ## Shortest path: the claims -/

/-- C2: under the hypotheses of C1 without reachability, whenever `shortestPath` returns a
non-empty path, the path begins with `start`, ends with `end`, each consecutive pair is
joined by an edge of the adjacency table, and weights of such edges sum to the returned
distance. -/
theorem shortestPath_path_valid (ops : List Op) (start endNode : Int)
    (hids : idsOk ops) (hw : weightsNonneg ops)
    (htot : totalWeight (build ops).adjacencyList ≤ INT_MAX)
    (hs : 0 ≤ start ∧ start < (build ops).numNodes)
    (he : 0 ≤ endNode ∧ endNode < (build ops).numNodes) :
    (∃ N, ∀ fuel, N ≤ fuel → (shortestPath (build ops) start endNode fuel).isSome = true) ∧
    ∀ fuel r, shortestPath (build ops) start endNode fuel = some r → r.1.1 ≠ [] →
      r.1.1.head? = some start ∧ r.1.1.getLast? = some endNode ∧
      Walk (build ops).adjacencyList r.1.1 r.1.2 := by
  have hg := graphOK_of_rowsOK _ (build_rowsOK ops hids hw) htot
  obtain ⟨h1, h2⟩ := shortestPath_total (build ops) start endNode hg hs.1 hs.2 he.1 he.2
  refine ⟨h1, fun fuel r hr hne => ?_⟩
  obtain ⟨_, _, hinf, hfin, _⟩ := h2 fuel r hr
  have hd : r.1.2 ≠ INT_MAX := fun h => hne (hinf h)
  obtain ⟨⟨hw1, hw2, hw3⟩, _⟩ := hfin hd
  exact ⟨hw2, hw3, hw1⟩

/-- C2, at the first scenario of the specification, from node 0 to node 3. -/
theorem shortestPath_path_valid_witness :
    (∃ N, ∀ fuel, N ≤ fuel → (shortestPath (build scenarioPathOps) 0 3 fuel).isSome = true) ∧
    ∀ fuel r, shortestPath (build scenarioPathOps) 0 3 fuel = some r → r.1.1 ≠ [] →
      r.1.1.head? = some 0 ∧ r.1.1.getLast? = some 3 ∧
      Walk (build scenarioPathOps).adjacencyList r.1.1 r.1.2 :=
  shortestPath_path_valid scenarioPathOps 0 3 (by decide) (by decide) (by decide)
    (by decide) (by decide)

theorem wrap32_range (x : Int) : -2147483648 ≤ wrap32 x ∧ wrap32 x ≤ INT_MAX := by
  unfold wrap32 INT_MAX
  have h1 := Int.emod_nonneg (x + 2147483648) (by decide : (4294967296 : Int) ≠ 0)
  have h2 := Int.emod_lt_of_pos (x + 2147483648) (by decide : (0 : Int) < 4294967296)
  omega

theorem capOf_rowSet (row : List (Int × Int)) (v c y : Int) :
    capOf (rowSet row v c) y = if y = v then c else capOf row y := by
  induction row with
  | nil =>
    simp only [rowSet, capOf]
    by_cases h : y = v
    · simp [h]
    · simp [h, Ne.symm h]
  | cons e rest ih =>
    simp only [rowSet]
    by_cases he : e.1 = v
    · simp only [he, if_true, capOf]
      by_cases h : y = v
      · simp [h]
      · simp [h, Ne.symm h]
    · simp only [he, if_false, capOf]
      by_cases h : y = v
      · subst h
        simp [he, ih]
      · by_cases h2 : e.1 = y
        · simp [h2, h]
        · simp [h2, h, ih]

theorem mem_rowSet (row : List (Int × Int)) (v c : Int) (e : Int × Int)
    (h : e ∈ rowSet row v c) : e = (v, c) ∨ e ∈ row := by
  induction row with
  | nil => simp [rowSet] at h; exact Or.inl h
  | cons x rest ih =>
    simp only [rowSet] at h
    split at h
    · rename_i hx
      rcases List.mem_cons.mp h with h | h
      · left; rw [h, hx]
      · exact Or.inr (List.mem_cons_of_mem _ h)
    · rcases List.mem_cons.mp h with h | h
      · right; rw [h]; exact List.mem_cons_self _ _
      · rcases ih h with h | h
        · exact Or.inl h
        · exact Or.inr (List.mem_cons_of_mem _ h)

theorem keys_rowSet (row : List (Int × Int)) (v c : Int) :
    (rowSet row v c).map Prod.fst =
      if v ∈ row.map Prod.fst then row.map Prod.fst else row.map Prod.fst ++ [v] := by
  induction row with
  | nil => simp [rowSet]
  | cons x rest ih =>
    simp only [rowSet]
    by_cases hx : x.1 = v
    · simp [hx]
    · simp only [hx, if_false, List.map_cons, ih, List.mem_cons]
      by_cases hm : v ∈ rest.map Prod.fst
      · simp [hm]
      · simp [hm, Ne.symm hx]

theorem nodup_keys_rowSet (row : List (Int × Int)) (v c : Int)
    (h : (row.map Prod.fst).Nodup) : ((rowSet row v c).map Prod.fst).Nodup := by
  rw [keys_rowSet]
  split
  · exact h
  · rename_i hm
    exact List.Nodup.append h (by simp) (by simpa using hm)

theorem capOf_of_mem (row : List (Int × Int)) (h : (row.map Prod.fst).Nodup)
    (e : Int × Int) (he : e ∈ row) : capOf row e.1 = e.2 := by
  induction row with
  | nil => simp at he
  | cons x rest ih =>
    simp only [List.map_cons, List.nodup_cons] at h
    rcases List.mem_cons.mp he with rfl | hm
    · simp [capOf]
    · have hne : x.1 ≠ e.1 := by
        intro hh
        exact h.1 (hh ▸ List.mem_map_of_mem Prod.fst hm)
      simp only [capOf, hne, if_false]
      exact ih h.2 hm

theorem mem_of_capOf_ne_zero (row : List (Int × Int)) (v : Int) (h : capOf row v ≠ 0) :
    (v, capOf row v) ∈ row := by
  induction row with
  | nil => simp [capOf] at h
  | cons x rest ih =>
    simp only [capOf] at h ⊢
    split
    · rename_i hx
      rw [← hx]
      exact List.mem_cons_self _ _
    · rename_i hx
      rw [if_neg hx] at h
      exact List.mem_cons_of_mem _ (ih h)

theorem capOf_of_not_mem (row : List (Int × Int)) (v : Int) (h : v ∉ row.map Prod.fst) :
    capOf row v = 0 := by
  by_contra hne
  exact h (List.mem_map_of_mem Prod.fst (mem_of_capOf_ne_zero row v hne))

theorem capOf_append (l1 l2 : List (Int × Int)) (v : Int) :
    capOf (l1 ++ l2) v = if v ∈ l1.map Prod.fst then capOf l1 v else capOf l2 v := by
  induction l1 with
  | nil => simp
  | cons x rest ih =>
    simp only [List.cons_append, capOf, List.map_cons, List.mem_cons]
    by_cases hx : x.1 = v
    · simp [hx]
    · have hx2 : ¬ v = x.1 := fun h => hx h.symm
      rw [if_neg hx]
      show capOf (rest ++ l2) v = _
      rw [ih]
      by_cases hm : v ∈ rest.map Prod.fst
      · rw [if_pos hm, if_pos (Or.inr hm), if_neg hx]
      · rw [if_neg hm, if_neg (by intro h; rcases h with h | h; exact hx2 h; exact hm h)]

theorem adjOf_resSet_ne (r : Residual) (u v c x : Int) (h : x ≠ u) :
    adjOf (resSet r u v c) x = adjOf r x := by
  induction r with
  | nil => simp [resSet, adjOf, Ne.symm h]
  | cons e rest ih =>
    simp only [resSet]
    by_cases he : e.1 = u
    · have : e.1 ≠ x := by rw [he]; exact Ne.symm h
      simp [he, adjOf, Ne.symm h]
    · rw [if_neg he]
      by_cases hx : e.1 = x
      · simp [adjOf, hx]
      · simp [adjOf, hx, ih]

theorem adjOf_resSet_eq (r : Residual) (u v c : Int) :
    adjOf (resSet r u v c) u = rowSet (adjOf r u) v c := by
  induction r with
  | nil => simp [resSet, adjOf, rowSet]
  | cons e rest ih =>
    simp only [resSet]
    by_cases he : e.1 = u
    · simp [he, adjOf]
    · simp [he, adjOf, ih]

theorem resGet_resSet (r : Residual) (u v c x y : Int) :
    resGet (resSet r u v c) x y = if x = u ∧ y = v then c else resGet r x y := by
  unfold resGet
  by_cases hx : x = u
  · subst hx
    rw [adjOf_resSet_eq, capOf_rowSet]
    simp
  · rw [adjOf_resSet_ne r u v c x hx]
    simp [hx]

theorem resKeysOK_resSet (r : Residual) (n u v c : Int) (h : ResKeysOK r n)
    (hv0 : 0 ≤ v) (hv1 : v < n) : ResKeysOK (resSet r u v c) n := by
  intro x
  by_cases hx : x = u
  · subst hx
    rw [adjOf_resSet_eq]
    refine ⟨nodup_keys_rowSet _ _ _ (h x).1, ?_⟩
    intro e he
    rcases mem_rowSet _ _ _ _ he with rfl | he
    · exact ⟨hv0, hv1⟩
    · exact (h x).2 e he
  · rw [adjOf_resSet_ne r u v c x hx]
    exact h x

theorem resValsOK_resSet (r : Residual) (u v c : Int) (h : ResValsOK r)
    (hc : -2147483648 ≤ c ∧ c ≤ INT_MAX) : ResValsOK (resSet r u v c) := by
  intro x e he
  by_cases hx : x = u
  · subst hx
    rw [adjOf_resSet_eq] at he
    rcases mem_rowSet _ _ _ _ he with rfl | he
    · exact hc
    · exact h x e he
  · rw [adjOf_resSet_ne r u v c x hx] at he
    exact h x e he

theorem resGet_ofRow (r : Residual) (n : Int) (h : ResKeysOK r n) (u : Int) (e : Int × Int)
    (he : e ∈ adjOf r u) : resGet r u e.1 = e.2 :=
  capOf_of_mem _ (h u).1 e he

theorem resGet_range (r : Residual) (h : ResValsOK r) (u v : Int) :
    -2147483648 ≤ resGet r u v ∧ resGet r u v ≤ INT_MAX := by
  by_cases h0 : resGet r u v = 0
  · rw [h0]; decide
  · exact h u _ (mem_of_capOf_ne_zero _ v h0)

theorem resGet_pos_target (r : Residual) (n : Int) (h : ResKeysOK r n) (u v : Int)
    (hp : 0 < resGet r u v) : 0 ≤ v ∧ v < n :=
  (h u).2 _ (mem_of_capOf_ne_zero _ v (by unfold resGet at hp; omega))

/-! ## Maximum flow: the breadth-first search -/

theorem bfsTree_congr (r : Residual) (source : Int) (parent parent2 : List Int) (V : List Int)
    (h : BfsTree r source parent V) (hp : ∀ x ∈ V, vget parent2 x = vget parent x) :
    BfsTree r source parent2 V := by
  induction V with
  | nil => trivial
  | cons v V ih =>
    obtain ⟨h1, h2, h3⟩ := h
    refine ⟨h1, ?_, ih h3 (fun x hx => hp x (List.mem_cons_of_mem _ hx))⟩
    rw [hp v (List.mem_cons_self _ _)]
    exact h2

theorem bfsTree_nodup (r : Residual) (source : Int) (parent : List Int) (V : List Int)
    (h : BfsTree r source parent V) : V.Nodup := by
  induction V with
  | nil => exact List.nodup_nil
  | cons v V ih => exact List.nodup_cons.mpr ⟨h.1, ih h.2.2⟩

theorem bfsInv_length_le (r : Residual) (n source : Int) (parent q V : List Int)
    (cur : Option Int) (rest : List (Int × Int)) (h : BfsInv r n source parent q V cur rest) :
    (V.length : Int) ≤ n := by
  have h1 := nodup_length_le V n (bfsTree_nodup _ _ _ _ h.tree) h.rng
  have h2 := h.rng source h.src
  omega

theorem bfsScan_inv (r : Residual) (n source cur : Int) (hr : ResKeysOK r n) :
    ∀ (rest : List (Int × Int)) (parent q V : List Int),
      BfsInv r n source parent q V (some cur) rest → cur ∈ V →
      (∀ e ∈ rest, e ∈ adjOf r cur) →
      ∃ p2 q2 V2, bfsScan cur rest (parent, q) = (p2, q2) ∧
        BfsInv r n source p2 q2 V2 (some cur) [] ∧
        (V2.length : Int) - q2.length = V.length - q.length := by
  intro rest
  induction rest with
  | nil =>
    intro parent q V h _ _
    exact ⟨parent, q, V, rfl, h, rfl⟩
  | cons e rest ih =>
    intro parent q V h hcur hsub
    obtain ⟨next, cap⟩ := e
    have hmem : (next, cap) ∈ adjOf r cur := hsub _ (List.mem_cons_self _ _)
    have hrest : ∀ e ∈ rest, e ∈ adjOf r cur := fun e he => hsub e (List.mem_cons_of_mem _ he)
    have hnext := (hr cur).2 _ hmem
    simp only at hnext
    have hcap : resGet r cur next = cap := resGet_ofRow r n hr cur _ hmem
    have hcur0 := (h.rng cur hcur).1
    simp only [bfsScan]
    by_cases hc : vget parent next = -1 ∧ cap > 0
    · simp only [hc, and_self, if_true]
      have hnV : next ∉ V := by
        intro hh
        exact ((h.vis next hnext.1 hnext.2).mpr hh) hc.1
      have hlen : next < (parent.length : Int) := by rw [h.len]; exact hnext.2
      have hne : ∀ x ∈ V, vget (vset parent next cur) x = vget parent x := by
        intro x hx
        exact vget_vset_ne _ _ _ _ (fun hh => hnV (hh ▸ hx))
      have hinv : BfsInv r n source (vset parent next cur) (q ++ [next]) (next :: V)
          (some cur) rest := by
        refine
          { len := by rw [vset_length]; exact h.len
            vis := ?_
            rng := ?_
            tree := ?_
            src := List.mem_cons_of_mem _ h.src
            qsub := ?_
            done := ?_ }
        · intro x hx0 hxn
          by_cases hx : x = next
          · subst hx
            rw [vget_vset_eq _ _ _ hx0 hlen]
            constructor
            · intro _; exact List.mem_cons_self _ _
            · intro _; omega
          · rw [vget_vset_ne _ _ _ _ (Ne.symm hx)]
            rw [h.vis x hx0 hxn]
            simp [hx]
        · intro x hx
          rcases List.mem_cons.mp hx with rfl | hx
          · exact hnext
          · exact h.rng x hx
        · refine ⟨hnV, ?_, bfsTree_congr _ _ _ _ _ h.tree hne⟩
          have hns : next ≠ source := fun hh => hnV (hh ▸ h.src)
          rw [if_neg hns, vget_vset_eq _ _ _ hnext.1 hlen, hcap]
          exact ⟨hcur, hc.2⟩
        · intro x hx
          rcases List.mem_append.mp hx with hx | hx
          · exact List.mem_cons_of_mem _ (h.qsub x hx)
          · simp only [List.mem_singleton] at hx
            subst hx
            exact List.mem_cons_self _ _
        · intro u hu huq e he hpos
          have huq1 : u ∉ q := fun hh => huq (List.mem_append.mpr (Or.inl hh))
          have hun : u ≠ next := fun hh => huq (List.mem_append.mpr (Or.inr (by simp [hh])))
          have huV : u ∈ V := by
            rcases List.mem_cons.mp hu with hh | hh
            · exact absurd hh hun
            · exact hh
          rcases h.done u huV huq1 e he hpos with ⟨h1, h2⟩ | h3
          · rcases List.mem_cons.mp h2 with rfl | h2
            · exact Or.inr (List.mem_cons_self _ _)
            · exact Or.inl ⟨h1, h2⟩
          · exact Or.inr (List.mem_cons_of_mem _ h3)
      obtain ⟨p2, q2, V2, h1, h2, h3⟩ := ih _ _ _ hinv (List.mem_cons_of_mem _ hcur) hrest
      refine ⟨p2, q2, V2, h1, h2, ?_⟩
      simp only [List.length_cons, List.length_append, List.length_singleton, List.length_nil] at h3
      push_cast at h3
      omega
    · simp only [hc, if_false]
      have hinv : BfsInv r n source parent q V (some cur) rest := by
        refine { h with done := ?_ }
        intro u hu huq e he hpos
        rcases h.done u hu huq e he hpos with ⟨h1, h2⟩ | h3
        · rcases List.mem_cons.mp h2 with rfl | h2
          · right
            simp only at hpos ⊢
            have : vget parent next ≠ -1 := fun hh => hc ⟨hh, hpos⟩
            exact (h.vis next hnext.1 hnext.2).mp this
          · exact Or.inl ⟨h1, h2⟩
        · exact Or.inr h3
      exact ih _ _ _ hinv hcur hrest

theorem bfsLoop_inv (ord : List (Int × Int) → List (Int × Int)) (hord : IsIterOrder ord)
    (r : Residual) (n source sink : Int) (hr : ResKeysOK r n) :
    ∀ (fuel : Nat) (parent q V : List Int), BfsInv r n source parent q V none [] →
      (n - V.length) + q.length ≤ fuel →
      ∃ p2 q2 V2, bfsLoop ord r sink fuel (parent, q) = some p2 ∧
        BfsInv r n source p2 q2 V2 none [] ∧ (q2 = [] ∨ vget p2 sink ≠ -1) := by
  intro fuel
  induction fuel with
  | zero =>
    intro parent q V h hm
    have hV := bfsInv_length_le _ _ _ _ _ _ _ _ h
    have hq : q = [] := List.eq_nil_of_length_eq_zero (by push_cast at hm; omega)
    subst hq
    exact ⟨parent, [], V, by simp [bfsLoop], h, Or.inl rfl⟩
  | succ f ih =>
    intro parent q V h hm
    have hV := bfsInv_length_le _ _ _ _ _ _ _ _ h
    cases q with
    | nil => exact ⟨parent, [], V, by simp [bfsLoop], h, Or.inl rfl⟩
    | cons cur q1 =>
      by_cases hs : vget parent sink ≠ -1
      · exact ⟨parent, cur :: q1, V, by simp [bfsLoop, hs], h, Or.inr hs⟩
      · have hcur : cur ∈ V := h.qsub cur (List.mem_cons_self _ _)
        have hinv : BfsInv r n source parent q1 V (some cur) (ord (adjOf r cur)) := by
          refine { h with qsub := fun x hx => h.qsub x (List.mem_cons_of_mem _ hx), done := ?_ }
          intro u hu huq e he hpos
          by_cases huc : u = cur
          · subst huc
            exact Or.inl ⟨rfl, (hord _).mem_iff.mpr he⟩
          · have : u ∉ cur :: q1 := by
              intro hh
              rcases List.mem_cons.mp hh with hh | hh
              · exact huc hh
              · exact huq hh
            rcases h.done u hu this e he hpos with ⟨h1, _⟩ | h3
            · simp at h1
            · exact Or.inr h3
        obtain ⟨p2, q2, V2, h1, h2, h3⟩ := bfsScan_inv r n source cur hr _ _ _ _ hinv hcur
          (fun e he => (hord _).mem_iff.mp he)
        have hinv2 : BfsInv r n source p2 q2 V2 none [] := by
          refine { h2 with done := ?_ }
          intro u hu huq e he hpos
          rcases h2.done u hu huq e he hpos with ⟨_, h5⟩ | h6
          · simp at h5
          · exact Or.inr h6
        obtain ⟨p3, q3, V3, h4, h5, h6⟩ := ih p2 q2 V2 hinv2 (by
          simp only [List.length_cons] at hm
          push_cast at hm
          omega)
        refine ⟨p3, q3, V3, ?_, h5, h6⟩
        simp only [bfsLoop, hs, if_false]
        rw [h1]
        exact h4

theorem bfsInit_inv (r : Residual) (n source : Int) (h0 : 0 ≤ source) (h1 : source < n) :
    BfsInv r n source (vset (List.replicate n.toNat (-1)) source source) [source] [source]
      none [] := by
  have hlen : ((List.replicate n.toNat (-1 : Int)).length : Int) = n := by simp; omega
  have hs : source < ((List.replicate n.toNat (-1 : Int)).length : Int) := by omega
  refine
    { len := by rw [vset_length]; exact hlen
      vis := ?_
      rng := by intro x hx; simp at hx; subst hx; exact ⟨h0, h1⟩
      tree := ?_
      src := List.mem_singleton_self _
      qsub := fun x hx => hx
      done := by intro u hu huq; exact absurd hu huq }
  · intro x hx0 hxn
    rw [vget_vset _ _ _ _ h0 hs]
    by_cases hx : x = source
    · subst hx; simp; omega
    · simp [hx, vget_replicate _ _ _ hx0 (show x < (n.toNat : Int) by omega)]
  · refine ⟨by simp, ?_, trivial⟩
    rw [if_pos rfl, vget_vset_eq _ _ _ h0 hs]

/-! ## Maximum flow: the path found by a search -/

theorem bfs_chain (r : Residual) (source : Int) (parent : List Int) (V : List Int)
    (h : BfsTree r source parent V) :
    ∀ u ∈ V, ∃ rest, (u :: rest).getLast? = some source ∧ (u :: rest).Nodup ∧
      (∀ x ∈ u :: rest, x ∈ V) ∧ PosPath r (u :: rest) ∧
      (∀ fuel acc pf, V.length ≤ fuel →
        collectPath r parent source fuel u (acc, pf)
          = some (acc ++ (u :: rest).dropLast, bottleneck r (u :: rest) pf)) ∧
      (∀ fuel f r1, V.length ≤ fuel →
        augment parent source f fuel u r1 = some (pushPath f (u :: rest) r1)) := by
  induction V with
  | nil => intro u hu; simp at hu
  | cons c V ih =>
    obtain ⟨hcV, hpar, htree⟩ := h
    have ih2 := ih htree
    intro u hu
    by_cases huV : u ∈ V
    · obtain ⟨rest, h1, h2, h3, h4, h5, h6⟩ := ih2 u huV
      refine ⟨rest, h1, h2, fun x hx => List.mem_cons_of_mem _ (h3 x hx), h4, ?_, ?_⟩
      · intro fuel acc pf hf
        exact h5 fuel acc pf (by simp at hf; omega)
      · intro fuel f r1 hf
        exact h6 fuel f r1 (by simp at hf; omega)
    · have huc : u = c := by
        rcases List.mem_cons.mp hu with hh | hh
        · exact hh
        · exact absurd hh huV
      subst huc
      by_cases hus : u = source
      · refine ⟨[], by simp [hus], by simp, by simp, trivial, ?_, ?_⟩
        · intro fuel acc pf _
          unfold collectPath
          simp [hus, bottleneck]
        · intro fuel f r1 _
          unfold augment
          simp [hus, pushPath]
      · rw [if_neg hus] at hpar
        obtain ⟨hpV, hpos⟩ := hpar
        obtain ⟨rest, h1, h2, h3, h4, h5, h6⟩ := ih2 _ hpV
        refine ⟨vget parent u :: rest, ?_, ?_, ?_, ⟨hpos, h4⟩, ?_, ?_⟩
        · rw [List.getLast?_cons_cons]; exact h1
        · exact List.nodup_cons.mpr ⟨fun hm => hcV (h3 u hm), h2⟩
        · intro x hx
          rcases List.mem_cons.mp hx with rfl | hx
          · exact List.mem_cons_self _ _
          · exact List.mem_cons_of_mem _ (h3 x hx)
        · intro fuel acc pf hf
          cases fuel with
          | zero => simp at hf
          | succ k =>
            unfold collectPath
            simp only [hus, if_false]
            rw [h5 k _ _ (by simp at hf; omega)]
            simp [bottleneck, List.dropLast]
        · intro fuel f r1 hf
          cases fuel with
          | zero => simp at hf
          | succ k =>
            unfold augment
            simp only [hus, if_false]
            rw [h6 k _ _ (by simp at hf; omega)]
            simp [pushPath, pushEdgeFlow]

theorem bottleneck_le (r : Residual) (p : List Int) : ∀ pf, bottleneck r p pf ≤ pf := by
  induction p with
  | nil => intro pf; simp [bottleneck]
  | cons v rest ih =>
    intro pf
    cases rest with
    | nil => simp [bottleneck]
    | cons u rest2 =>
      simp only [bottleneck]
      exact le_trans (ih _) (min_le_left _ _)

theorem bottleneck_pos (r : Residual) (p : List Int) :
    ∀ pf, 0 < pf → PosPath r p → 0 < bottleneck r p pf := by
  induction p with
  | nil => intro pf h _; simpa [bottleneck] using h
  | cons v rest ih =>
    intro pf hpf hp
    cases rest with
    | nil => simpa [bottleneck] using hpf
    | cons u rest2 =>
      simp only [bottleneck]
      exact ih _ (lt_min hpf hp.1) hp.2

theorem pathCap_mono (r : Residual) (f g : Int) (hfg : f ≤ g) (p : List Int)
    (h : PathCap r g p) : PathCap r f p := by
  induction p with
  | nil => trivial
  | cons v rest ih =>
    cases rest with
    | nil => trivial
    | cons u rest2 => exact ⟨le_trans hfg h.1, ih h.2⟩

theorem bottleneck_cap (r : Residual) (p : List Int) :
    ∀ pf, PathCap r (bottleneck r p pf) p := by
  induction p with
  | nil => intro pf; trivial
  | cons v rest ih =>
    intro pf
    cases rest with
    | nil => trivial
    | cons u rest2 =>
      simp only [bottleneck]
      refine ⟨le_trans (bottleneck_le r _ _) (min_le_right _ _), ih _⟩

theorem dropLast_append_getLast (p : List Int) (s : Int) (h : p.getLast? = some s) :
    p.dropLast ++ [s] = p := by
  have hne : p ≠ [] := by intro hh; simp [hh] at h
  rw [List.getLast?_eq_getLast _ hne] at h
  simp only [Option.some.injEq] at h
  rw [← h]
  exact List.dropLast_append_getLast hne

/-- One iteration of the outer loop, seen from a state whose residual table is well formed:
either the search misses the sink and the loop stops, or an augmenting path is pushed. -/
theorem maxFlow_iteration (ord : List (Int × Int) → List (Int × Int)) (hord : IsIterOrder ord)
    (n source sink : Int) (hs0 : 0 ≤ source) (hs1 : source < n) (ht0 : 0 ≤ sink)
    (ht1 : sink < n) (r : Residual) (hr : ResKeysOK r n) (inner : Nat)
    (hin : n ≤ inner) :
    ∃ parent q V, bfsLoop ord r sink inner
        (vset (List.replicate n.toNat (-1)) source source, [source]) = some parent ∧
      BfsInv r n source parent q V none [] ∧
      ((vget parent sink = -1 ∧ q = [] ∧ sink ∉ V) ∨
       (vget parent sink ≠ -1 ∧ ∃ p f, AugPath r n source sink p f ∧ PosPath r p ∧
          collectPath r parent source inner sink ([], INT_MAX) = some (p.dropLast, f) ∧
          augment parent source f inner sink r = some (pushPath f p r))) := by
  have hinit := bfsInit_inv r n source hs0 hs1
  obtain ⟨parent, q, V, hrun, hinv, hexit⟩ := bfsLoop_inv ord hord r n source sink hr inner
    _ _ _ hinit (by simp; omega)
  refine ⟨parent, q, V, hrun, hinv, ?_⟩
  by_cases hsink : vget parent sink = -1
  · left
    refine ⟨hsink, ?_, ?_⟩
    · rcases hexit with h | h
      · exact h
      · exact absurd hsink h
    · intro hV
      exact (hinv.vis sink ht0 ht1).mpr hV hsink
  · right
    refine ⟨hsink, ?_⟩
    have hV : sink ∈ V := (hinv.vis sink ht0 ht1).mp hsink
    obtain ⟨rest, h1, h2, h3, h4, h5, h6⟩ := bfs_chain r source parent V hinv.tree sink hV
    have hlen := bfsInv_length_le _ _ _ _ _ _ _ _ hinv
    have hfuel : V.length ≤ inner := by omega
    refine ⟨sink :: rest, bottleneck r (sink :: rest) INT_MAX, ?_, h4, ?_, ?_⟩
    · exact
        { head := rfl
          last := h1
          nodup := h2
          rng := fun x hx => hinv.rng x (h3 x hx)
          cap := bottleneck_cap r _ _
          pos := bottleneck_pos r _ _ (by decide) h4
          le := bottleneck_le r _ _ }
    · rw [h5 inner [] INT_MAX hfuel]
      simp
    · exact h6 inner _ r hfuel

/-! ## Maximum flow: pushing flow along a path -/

theorem resGet_pushEdgeFlow (r : Residual) (u v f : Int) (huv : u ≠ v) (x y : Int) :
    resGet (pushEdgeFlow r u v f) x y =
      if x = u ∧ y = v then sub32 (resGet r u v) f
      else if x = v ∧ y = u then add32 (resGet r v u) f
      else resGet r x y := by
  unfold pushEdgeFlow
  simp only [resGet_resSet]
  have h1 : ¬ (v = u ∧ u = v) := fun h => huv h.2
  by_cases hxy : x = v ∧ y = u
  · have h2 : ¬ (x = u ∧ y = v) := by
      intro h; exact huv (h.1 ▸ hxy.1 ▸ rfl : u = v)
    simp [hxy, h1, h2]
  · simp [hxy]

theorem adjOf_pushEdgeFlow_ne (r : Residual) (u v f x : Int) (hu : x ≠ u) (hv : x ≠ v) :
    adjOf (pushEdgeFlow r u v f) x = adjOf r x := by
  unfold pushEdgeFlow
  simp only []
  rw [adjOf_resSet_ne _ _ _ _ _ hv, adjOf_resSet_ne _ _ _ _ _ hu]

theorem adjOf_pushEdgeFlow_src (r : Residual) (u v f : Int) (huv : u ≠ v) :
    adjOf (pushEdgeFlow r u v f) u = rowSet (adjOf r u) v (sub32 (resGet r u v) f) := by
  unfold pushEdgeFlow
  simp only []
  rw [adjOf_resSet_ne _ _ _ _ _ huv, adjOf_resSet_eq]

theorem resKeysOK_pushEdgeFlow (r : Residual) (n u v f : Int) (h : ResKeysOK r n)
    (hu : 0 ≤ u ∧ u < n) (hv : 0 ≤ v ∧ v < n) : ResKeysOK (pushEdgeFlow r u v f) n := by
  unfold pushEdgeFlow
  exact resKeysOK_resSet _ _ _ _ _ (resKeysOK_resSet _ _ _ _ _ h hv.1 hv.2) hu.1 hu.2

theorem resValsOK_pushEdgeFlow (r : Residual) (u v f : Int) (h : ResValsOK r) :
    ResValsOK (pushEdgeFlow r u v f) := by
  unfold pushEdgeFlow
  exact resValsOK_resSet _ _ _ _ (resValsOK_resSet _ _ _ _ h (wrap32_range _)) (wrap32_range _)

theorem pathCap_frame (r r2 : Residual) (f : Int) (p : List Int) (h : PathCap r f p)
    (hfr : ∀ a b, a ∈ p → b ∈ p → resGet r2 a b = resGet r a b) : PathCap r2 f p := by
  induction p with
  | nil => trivial
  | cons v rest ih =>
    cases rest with
    | nil => trivial
    | cons u rest2 =>
      refine ⟨?_, ih h.2 (fun a b ha hb => hfr a b (List.mem_cons_of_mem _ ha)
        (List.mem_cons_of_mem _ hb))⟩
      rw [hfr u v (by simp) (by simp)]
      exact h.1

theorem pathCap_after_edge (r : Residual) (u v f : Int) (rest : List Int)
    (hnd : (v :: u :: rest).Nodup) (h : PathCap r f (u :: rest)) :
    PathCap (pushEdgeFlow r u v f) f (u :: rest) := by
  have hv : v ∉ u :: rest := (List.nodup_cons.mp hnd).1
  have huv : u ≠ v := fun hh => hv (by simp [hh])
  apply pathCap_frame r _ f _ h
  intro a b ha hb
  rw [resGet_pushEdgeFlow r u v f huv]
  have hb2 : b ≠ v := fun hh => hv (hh ▸ hb)
  have ha2 : a ≠ v := fun hh => hv (hh ▸ ha)
  simp [hb2, ha2]

theorem pushPath_resOK (n f : Int) : ∀ (p : List Int) (r : Residual),
    ResKeysOK r n → ResValsOK r → (∀ x ∈ p, 0 ≤ x ∧ x < n) →
    ResKeysOK (pushPath f p r) n ∧ ResValsOK (pushPath f p r) := by
  intro p
  induction p with
  | nil => intro r h1 h2 _; exact ⟨h1, h2⟩
  | cons v rest ih =>
    intro r h1 h2 hrng
    cases rest with
    | nil => exact ⟨h1, h2⟩
    | cons u rest2 =>
      simp only [pushPath]
      exact ih _ (resKeysOK_pushEdgeFlow _ _ _ _ _ h1 (hrng u (by simp)) (hrng v (by simp)))
        (resValsOK_pushEdgeFlow _ _ _ _ h2) (fun x hx => hrng x (List.mem_cons_of_mem _ hx))

theorem sum_max_rowSet (row : List (Int × Int)) (v old c : Int)
    (hnd : (row.map Prod.fst).Nodup) (hmem : (v, old) ∈ row) :
    ((rowSet row v c).map (fun e => max e.2 0)).sum
      = (row.map (fun e => max e.2 0)).sum - max old 0 + max c 0 := by
  induction row with
  | nil => simp at hmem
  | cons x rest ih =>
    simp only [List.map_cons, List.nodup_cons] at hnd
    simp only [rowSet]
    by_cases hx : x.1 = v
    · have hxe : x = (v, old) := by
        rcases List.mem_cons.mp hmem with h | h
        · exact h.symm
        · exact absurd (hx ▸ List.mem_map_of_mem Prod.fst h) hnd.1
      subst hxe
      simp
      ring
    · have hm : (v, old) ∈ rest := by
        rcases List.mem_cons.mp hmem with h | h
        · exact absurd (by rw [← h]) hx
        · exact h
      simp only [hx, if_false, List.map_cons, List.sum_cons, ih hnd.2 hm]
      ring

theorem sourceRoom_nonneg (r : Residual) (source : Int) : 0 ≤ sourceRoom r source := by
  unfold sourceRoom
  apply List.sum_nonneg
  intro x hx
  obtain ⟨e, _, rfl⟩ := List.mem_map.mp hx
  exact le_max_right _ _

theorem pushPath_sourceRoom (n source f : Int) (hf : 0 < f) : ∀ (p : List Int) (r : Residual),
    ResKeysOK r n → ResValsOK r → p.Nodup → (∀ x ∈ p, 0 ≤ x ∧ x < n) →
    p.getLast? = some source → 2 ≤ p.length → PathCap r f p →
    sourceRoom (pushPath f p r) source = sourceRoom r source - f := by
  intro p
  induction p with
  | nil => intro r _ _ _ _ _ hlen; simp at hlen
  | cons v rest ih =>
    intro r h1 h2 hnd hrng hlast hlen hcap
    cases rest with
    | nil => simp at hlen
    | cons u rest2 =>
      have hv : v ∉ u :: rest2 := (List.nodup_cons.mp hnd).1
      have hnd2 : (u :: rest2).Nodup := (List.nodup_cons.mp hnd).2
      have huv : u ≠ v := fun hh => hv (by simp [hh])
      have hlast2 : (u :: rest2).getLast? = some source := by
        rw [List.getLast?_cons_cons] at hlast; exact hlast
      simp only [pushPath]
      cases rest2 with
      | nil =>
        simp at hlast2
        subst hlast2
        simp only [pushPath, sourceRoom]
        rw [adjOf_pushEdgeFlow_src r u v f huv]
        have hR := hcap.1
        have hne : capOf (adjOf r u) v ≠ 0 := by unfold resGet at hR; omega
        have hmem := mem_of_capOf_ne_zero _ v hne
        have hrange := resGet_range r h2 u v
        rw [sum_max_rowSet _ v _ _ (h1 u).1 hmem,
          sub32_of_range _ _ (by omega) (by omega)]
        unfold resGet at hR hrange ⊢
        rw [max_eq_left (by omega), max_eq_left (by omega)]
        ring
      | cons w rest3 =>
        have hsrc : source ∈ w :: rest3 := by
          rw [List.getLast?_cons_cons] at hlast2
          exact List.mem_of_getLast?_eq_some hlast2
        have hus : source ≠ u := by
          intro hh
          exact (List.nodup_cons.mp hnd2).1 (hh ▸ hsrc)
        have hvs : source ≠ v := by
          intro hh
          exact hv (List.mem_cons_of_mem _ (hh ▸ hsrc))
        have hrow : sourceRoom (pushEdgeFlow r u v f) source = sourceRoom r source := by
          unfold sourceRoom
          rw [adjOf_pushEdgeFlow_ne r u v f source hus hvs]
        rw [← hrow]
        exact ih _ (resKeysOK_pushEdgeFlow _ _ _ _ _ h1 (hrng u (by simp)) (hrng v (by simp)))
          (resValsOK_pushEdgeFlow _ _ _ _ h2) hnd2
          (fun x hx => hrng x (List.mem_cons_of_mem _ hx)) hlast2 (by simp)
          (pathCap_after_edge r u v f _ hnd hcap.2)

/-! ## Maximum flow: the outer loop -/

theorem augPath_length (r : Residual) (n source sink : Int) (p : List Int) (f : Int)
    (h : AugPath r n source sink p f) (hne : source ≠ sink) : 2 ≤ p.length := by
  have h1 := h.head
  have h2 := h.last
  cases p with
  | nil => simp at h1
  | cons a rest =>
    cases rest with
    | nil =>
      simp at h1 h2
      exact absurd (h2.symm.trans h1) hne
    | cons b rest2 => simp

theorem maxFlowLoop_inv (ord : List (Int × Int) → List (Int × Int)) (hord : IsIterOrder ord)
    (n source sink : Int) (hs0 : 0 ≤ source) (hs1 : source < n) (ht0 : 0 ≤ sink)
    (ht1 : sink < n) (hne : source ≠ sink) (Inv : MFState → Prop)
    (hstep : ∀ st p f, Inv st → ResKeysOK st.residualGraph n → ResValsOK st.residualGraph →
      AugPath st.residualGraph n source sink p f → Inv (mfNext st p f))
    (inner : Nat) (hin : n ≤ inner) :
    ∀ (fuel : Nat) (st : MFState), Inv st → ResKeysOK st.residualGraph n →
      ResValsOK st.residualGraph → sourceRoom st.residualGraph source < fuel →
      ∃ st2, maxFlowLoop ord n source sink inner fuel st = some st2 ∧ Inv st2 ∧
        ResKeysOK st2.residualGraph n ∧ ResValsOK st2.residualGraph ∧
        ∃ parent V, BfsInv st2.residualGraph n source parent [] V none [] ∧ sink ∉ V := by
  intro fuel
  induction fuel with
  | zero =>
    intro st _ _ _ hm
    have := sourceRoom_nonneg st.residualGraph source
    simp at hm
    omega
  | succ k ih =>
    intro st hinv hk hv hm
    obtain ⟨parent, q, V, hrun, hbfs, hcase⟩ := maxFlow_iteration ord hord n source sink
      hs0 hs1 ht0 ht1 st.residualGraph hk inner hin
    unfold maxFlowLoop
    rw [hrun]
    rcases hcase with ⟨hsink, hq, hV⟩ | ⟨hsink, p, f, hp, _, hcol, haug⟩
    · subst hq
      refine ⟨st, ?_, hinv, hk, hv, parent, V, hbfs, hV⟩
      simp [hsink]
    · simp only [hsink, if_false]
      rw [hcol]
      simp only []
      rw [haug]
      simp only []
      rw [dropLast_append_getLast p source hp.last]
      have hlen := augPath_length _ _ _ _ _ _ hp hne
      have hroom := pushPath_sourceRoom n source f hp.pos p st.residualGraph hk hv hp.nodup
        hp.rng hp.last hlen hp.cap
      have hok := pushPath_resOK n f p st.residualGraph hk hv hp.rng
      have hpos := hp.pos
      exact ih (mfNext st p f) (hstep st p f hinv hk hv hp) hok.1 hok.2 (by
        show sourceRoom (pushPath f p st.residualGraph) source < k
        rw [hroom]
        push_cast at hm
        omega)

theorem maxFlowLoop_mono (ord : List (Int × Int) → List (Int × Int)) (n source sink : Int)
    (inner : Nat) (f : Nat) : ∀ (st st2 : MFState),
    maxFlowLoop ord n source sink inner f st = some st2 → ∀ f2, f ≤ f2 →
      maxFlowLoop ord n source sink inner f2 st = some st2 := by
  induction f with
  | zero => intro st st2 h; simp [maxFlowLoop] at h
  | succ k ih =>
    intro st st2 h f2 hf
    obtain ⟨k2, rfl⟩ : ∃ k2, f2 = k2 + 1 := ⟨f2 - 1, by omega⟩
    unfold maxFlowLoop at h ⊢
    cases hb : bfsLoop ord st.residualGraph sink inner
        (vset (List.replicate n.toNat (-1)) source source, [source]) with
    | none => rw [hb] at h; simp at h
    | some parent =>
      rw [hb] at h
      simp only [] at h ⊢
      by_cases hs : vget parent sink = -1
      · rw [if_pos hs] at h ⊢; exact h
      · rw [if_neg hs] at h ⊢
        cases hc : collectPath st.residualGraph parent source inner sink ([], INT_MAX) with
        | none => rw [hc] at h; simp at h
        | some pr =>
          obtain ⟨path, pathFlow⟩ := pr
          rw [hc] at h
          simp only [] at h ⊢
          cases ha : augment parent source pathFlow inner sink st.residualGraph with
          | none => rw [ha] at h; simp at h
          | some r =>
            rw [ha] at h
            simp only [] at h ⊢
            exact ih _ _ h k2 (by omega)

theorem pathsInv_step (source sink : Int) (n : Int) (st : MFState) (p : List Int) (f : Int)
    (h : PathsInv source sink st) (hp : AugPath st.residualGraph n source sink p f) :
    PathsInv source sink (mfNext st p f) := by
  obtain ⟨h1, h2⟩ := h
  constructor
  · intro e he
    simp only [mfNext, List.mem_append, List.mem_singleton] at he
    rcases he with he | rfl
    · exact h1 e he
    · refine ⟨hp.pos, ?_, ?_, List.nodup_reverse.mpr hp.nodup⟩
      · simp only [List.head?_reverse]; exact hp.last
      · simp only [List.getLast?_reverse]; exact hp.head
  · simp only [mfNext, List.map_append, List.map_cons, List.map_nil, List.foldl_append,
      List.foldl_cons, List.foldl_nil]
    rw [h2]

theorem foldl_add32_eq_sum (l : List Int) : ∀ acc : Int, 0 ≤ acc → (∀ f ∈ l, 0 < f) →
    acc + l.sum ≤ INT_MAX → l.foldl add32 acc = acc + l.sum := by
  induction l with
  | nil => intro acc _ _ _; simp
  | cons x rest ih =>
    intro acc h0 hpos hle
    have hx := hpos x (List.mem_cons_self _ _)
    have hrest : ∀ f ∈ rest, 0 < f := fun f hf => hpos f (List.mem_cons_of_mem _ hf)
    have hsum : 0 ≤ rest.sum := List.sum_nonneg (fun f hf => le_of_lt (hrest f hf))
    simp only [List.sum_cons] at hle
    simp only [List.foldl_cons, List.sum_cons]
    rw [add32_of_range _ _ (by omega) (by omega), ih _ (by omega) hrest (by omega)]
    ring

/-! ## Maximum flow: the initial residual table -/

theorem hasKey_iff (al : AdjList) (node : Int) :
    hasKey al node = true ↔ node ∈ al.map Prod.fst := by
  unfold hasKey
  simp only [List.any_eq_true, beq_iff_eq, List.mem_map]

theorem keys_pushEdge (al : AdjList) (node : Int) (e : Int × Int) :
    (pushEdge al node e).map Prod.fst =
      if node ∈ al.map Prod.fst then al.map Prod.fst else al.map Prod.fst ++ [node] := by
  induction al with
  | nil => simp [pushEdge]
  | cons x rest ih =>
    simp only [pushEdge]
    by_cases hx : x.1 = node
    · simp [hx]
    · simp only [hx, if_false, List.map_cons, ih, List.mem_cons]
      by_cases hm : node ∈ rest.map Prod.fst
      · simp [hm]
      · simp [hm, Ne.symm hx]

theorem keysNodup_addNode (g : GraphAnalysisTool) (node : Int)
    (h : KeysNodup g.adjacencyList) : KeysNodup (addNode g node).adjacencyList := by
  unfold KeysNodup at *
  simp only [addNode]
  split
  · exact h
  · rename_i hk
    rw [List.map_append]
    refine List.Nodup.append h (by simp) ?_
    intro a ha hb
    simp only [List.map_cons, List.map_nil, List.mem_singleton] at hb
    subst hb
    exact hk ((hasKey_iff _ _).mpr ha)

theorem keysNodup_pushEdge (al : AdjList) (node : Int) (e : Int × Int) (h : KeysNodup al) :
    KeysNodup (pushEdge al node e) := by
  unfold KeysNodup at *
  rw [keys_pushEdge]
  split
  · exact h
  · rename_i hm
    exact List.Nodup.append h (by simp) (by simpa using hm)

theorem addNode_edgesOK (g : GraphAnalysisTool) (node : Int) (h : EdgesOK g) :
    EdgesOK (addNode g node) := by
  refine ⟨keysNodup_addNode g node h.1, ?_⟩
  intro x hx e he
  have hge := addNode_numNodes_ge g node
  have hx2 : x ∈ g.adjacencyList ∨ x = (node, []) := by
    simp only [addNode] at hx
    split at hx
    · exact Or.inl hx
    · simpa using hx
  rcases hx2 with hx2 | rfl
  · obtain ⟨h1, h2, h3⟩ := h.2 x hx2 e he
    exact ⟨h1, by omega, h3⟩
  · simp at he

theorem addEdge_edgesOK (g : GraphAnalysisTool) (s d w : Int) (h : EdgesOK g)
    (hd0 : 0 ≤ d) (hd1 : d < INT_MAX) (hw : -2147483648 ≤ w ∧ w ≤ INT_MAX) :
    EdgesOK (addEdge g s d w) := by
  have h2 := addNode_edgesOK _ d (addNode_edgesOK g s h)
  have hgt := addNode_numNodes_gt (addNode g s) d hd0 hd1
  refine ⟨keysNodup_pushEdge _ _ _ h2.1, ?_⟩
  intro x hx e he
  simp only [addEdge] at hx ⊢
  rcases pushEdge_rows _ _ _ x hx e he with rfl | ⟨y, hy, hey⟩
  · exact ⟨hd0, hgt, hw⟩
  · exact h2.2 y hy e hey

theorem foldl_edgesOK (ops : List Op) (hids : idsOk ops) (hw : weightsInt ops) :
    ∀ g, EdgesOK g → EdgesOK (ops.foldl applyOp g) := by
  induction ops with
  | nil => intro g hg; exact hg
  | cons op ops ih =>
    intro g hg
    have hids2 : idsOk ops := fun o ho => hids o (List.mem_cons_of_mem _ ho)
    have hw2 : weightsInt ops := fun o ho => hw o (List.mem_cons_of_mem _ ho)
    have h1 := hids op (List.mem_cons_self _ _)
    have h2 := hw op (List.mem_cons_self _ _)
    simp only [List.foldl_cons]
    apply ih hids2 hw2
    cases op with
    | node id => exact addNode_edgesOK g id hg
    | edge s d w =>
      have hd := h1 d (by simp [Op.ids])
      exact addEdge_edgesOK g s d w hg hd.1 hd.2 (h2 w (by simp [Op.weights]))

theorem build_edgesOK (ops : List Op) (hids : idsOk ops) (hw : weightsInt ops) :
    EdgesOK (build ops) :=
  foldl_edgesOK ops hids hw _
    ⟨by simp [KeysNodup, GraphAnalysisTool.empty],
     by intro x hx; simp [GraphAnalysisTool.empty] at hx⟩

theorem initRow_ok (n node : Int) : ∀ (edges : List (Int × Int)) (r : Residual),
    ResKeysOK r n → ResValsOK r →
    (∀ e ∈ edges, 0 ≤ e.1 ∧ e.1 < n ∧ -2147483648 ≤ e.2 ∧ e.2 ≤ INT_MAX) →
    ResKeysOK (initRow node edges r) n ∧ ResValsOK (initRow node edges r) := by
  intro edges
  induction edges with
  | nil => intro r h1 h2 _; exact ⟨h1, h2⟩
  | cons e rest ih =>
    intro r h1 h2 he
    obtain ⟨d, c⟩ := e
    have h := he (d, c) (List.mem_cons_self _ _)
    simp only [initRow]
    exact ih _ (resKeysOK_resSet _ _ _ _ _ h1 h.1 h.2.1) (resValsOK_resSet _ _ _ _ h2 h.2.2)
      (fun e hm => he e (List.mem_cons_of_mem _ hm))

theorem initResidual_ok (n : Int) : ∀ (al : AdjList) (r : Residual),
    ResKeysOK r n → ResValsOK r →
    (∀ x ∈ al, ∀ e ∈ x.2, 0 ≤ e.1 ∧ e.1 < n ∧ -2147483648 ≤ e.2 ∧ e.2 ≤ INT_MAX) →
    ResKeysOK (initResidual al r) n ∧ ResValsOK (initResidual al r) := by
  intro al
  induction al with
  | nil => intro r h1 h2 _; exact ⟨h1, h2⟩
  | cons x rest ih =>
    intro r h1 h2 he
    obtain ⟨node, edges⟩ := x
    simp only [initResidual]
    have h := initRow_ok n node edges r h1 h2 (he (node, edges) (List.mem_cons_self _ _))
    exact ih _ h.1 h.2 (fun y hy => he y (List.mem_cons_of_mem _ hy))

theorem resGet_initRow (node : Int) : ∀ (edges : List (Int × Int)) (r : Residual) (x y : Int),
    resGet (initRow node edges r) x y =
      if x = node ∧ y ∈ edges.map Prod.fst then capOf edges.reverse y else resGet r x y := by
  intro edges
  induction edges with
  | nil => intro r x y; simp [initRow]
  | cons e rest ih =>
    intro r x y
    obtain ⟨d, c⟩ := e
    simp only [initRow, ih, resGet_resSet, List.map_cons, List.mem_cons, List.reverse_cons,
      capOf_append, List.map_reverse, List.mem_reverse]
    split_ifs <;> simp_all [capOf]

theorem adjOf_eq_nil_of_not_mem (al : AdjList) (x : Int) (h : x ∉ al.map Prod.fst) :
    adjOf al x = [] := by
  induction al with
  | nil => rfl
  | cons e rest ih =>
    simp only [List.map_cons, List.mem_cons, not_or] at h
    simp only [adjOf, if_neg (Ne.symm h.1)]
    exact ih h.2

theorem resGet_initResidual : ∀ (al : AdjList) (r : Residual) (x y : Int),
    KeysNodup al →
    resGet (initResidual al r) x y =
      if x ∈ al.map Prod.fst ∧ y ∈ (adjOf al x).map Prod.fst
      then capOf (adjOf al x).reverse y else resGet r x y := by
  intro al
  induction al with
  | nil => intro r x y _; simp [initResidual]
  | cons e rest ih =>
    intro r x y hnd
    obtain ⟨node, edges⟩ := e
    unfold KeysNodup at hnd
    simp only [List.map_cons, List.nodup_cons] at hnd
    simp only [initResidual]
    rw [ih _ x y hnd.2, resGet_initRow]
    by_cases hx : x = node
    · subst hx
      have : adjOf rest x = [] := adjOf_eq_nil_of_not_mem rest x hnd.1
      simp only [adjOf, if_true]
      split_ifs <;> simp_all
    · have hx2 : ¬ node = x := fun h => hx h.symm
      simp only [adjOf, if_neg hx2]
      split_ifs <;> simp_all

theorem resGet_init (g : GraphAnalysisTool) (h : KeysNodup g.adjacencyList) (x y : Int) :
    resGet (initResidual g.adjacencyList []) x y = capacity g.adjacencyList x y := by
  rw [resGet_initResidual _ _ _ _ h]
  unfold capacity
  split
  · rfl
  · rename_i hc
    have h0 : resGet [] x y = 0 := rfl
    rw [h0]
    symm
    by_cases hx : x ∈ g.adjacencyList.map Prod.fst
    · apply capOf_of_not_mem
      intro hm
      apply hc
      refine ⟨hx, ?_⟩
      simpa using hm
    · rw [adjOf_eq_nil_of_not_mem _ _ hx]
      rfl

theorem mfInit_ok (g : GraphAnalysisTool) (h : EdgesOK g) :
    ResKeysOK (mfInit g).residualGraph g.numNodes ∧ ResValsOK (mfInit g).residualGraph :=
  initResidual_ok g.numNodes g.adjacencyList []
    (fun _ => ⟨List.nodup_nil, fun e he => by simp [adjOf] at he⟩)
    (fun _ e he => by simp [adjOf] at he) h.2

/-! ## Maximum flow: more fuel changes nothing -/

theorem bfsLoop_mono (ord : List (Int × Int) → List (Int × Int)) (r : Residual) (sink : Int)
    (f : Nat) : ∀ (st : List Int × List Int) (p : List Int),
    bfsLoop ord r sink f st = some p → ∀ f2, f ≤ f2 → bfsLoop ord r sink f2 st = some p := by
  induction f with
  | zero =>
    intro st p h f2 _
    obtain ⟨parent, q⟩ := st
    unfold bfsLoop at h ⊢
    cases q with
    | nil => exact h
    | cons c q1 =>
      simp only [] at h ⊢
      split
      · rename_i hs; rw [if_pos hs] at h; exact h
      · rename_i hs; rw [if_neg hs] at h; simp at h
  | succ k ih =>
    intro st p h f2 hf
    obtain ⟨parent, q⟩ := st
    obtain ⟨k2, rfl⟩ : ∃ k2, f2 = k2 + 1 := ⟨f2 - 1, by omega⟩
    unfold bfsLoop at h ⊢
    cases q with
    | nil => exact h
    | cons c q1 =>
      simp only [] at h ⊢
      split
      · rename_i hs; rw [if_pos hs] at h; exact h
      · rename_i hs
        rw [if_neg hs] at h
        exact ih _ _ h k2 (by omega)

theorem collectPath_mono (r : Residual) (parent : List Int) (source : Int) (f : Nat) :
    ∀ (v : Int) (st res : List Int × Int),
    collectPath r parent source f v st = some res →
      ∀ f2, f ≤ f2 → collectPath r parent source f2 v st = some res := by
  induction f with
  | zero =>
    intro v st res h f2 _
    obtain ⟨path, pf⟩ := st
    unfold collectPath at h ⊢
    split
    · rename_i hs; rw [if_pos hs] at h; exact h
    · rename_i hs; rw [if_neg hs] at h; simp at h
  | succ k ih =>
    intro v st res h f2 hf
    obtain ⟨path, pf⟩ := st
    obtain ⟨k2, rfl⟩ : ∃ k2, f2 = k2 + 1 := ⟨f2 - 1, by omega⟩
    unfold collectPath at h ⊢
    split
    · rename_i hs; rw [if_pos hs] at h; exact h
    · rename_i hs
      rw [if_neg hs] at h
      exact ih _ _ _ h k2 (by omega)

theorem augment_mono (parent : List Int) (source pathFlow : Int) (f : Nat) :
    ∀ (v : Int) (r res : Residual),
    augment parent source pathFlow f v r = some res →
      ∀ f2, f ≤ f2 → augment parent source pathFlow f2 v r = some res := by
  induction f with
  | zero =>
    intro v r res h f2 _
    unfold augment at h ⊢
    split
    · rename_i hs; rw [if_pos hs] at h; exact h
    · rename_i hs; rw [if_neg hs] at h; simp at h
  | succ k ih =>
    intro v r res h f2 hf
    obtain ⟨k2, rfl⟩ : ∃ k2, f2 = k2 + 1 := ⟨f2 - 1, by omega⟩
    unfold augment at h ⊢
    split
    · rename_i hs; rw [if_pos hs] at h; exact h
    · rename_i hs
      rw [if_neg hs] at h
      exact ih _ _ _ h k2 (by omega)

theorem maxFlowLoop_mono_inner (ord : List (Int × Int) → List (Int × Int))
    (n source sink : Int) (inner inner2 : Nat) (hin : inner ≤ inner2) (f : Nat) :
    ∀ (st st2 : MFState),
    maxFlowLoop ord n source sink inner f st = some st2 →
      maxFlowLoop ord n source sink inner2 f st = some st2 := by
  induction f with
  | zero => intro st st2 h; simp [maxFlowLoop] at h
  | succ k ih =>
    intro st st2 h
    unfold maxFlowLoop at h ⊢
    cases hb : bfsLoop ord st.residualGraph sink inner
        (vset (List.replicate n.toNat (-1)) source source, [source]) with
    | none => rw [hb] at h; simp at h
    | some parent =>
      rw [hb] at h
      rw [bfsLoop_mono _ _ _ _ _ _ hb inner2 hin]
      simp only [] at h ⊢
      by_cases hs : vget parent sink = -1
      · rw [if_pos hs] at h ⊢; exact h
      · rw [if_neg hs] at h ⊢
        cases hc : collectPath st.residualGraph parent source inner sink ([], INT_MAX) with
        | none => rw [hc] at h; simp at h
        | some pr =>
          obtain ⟨path, pathFlow⟩ := pr
          rw [hc] at h
          rw [collectPath_mono _ _ _ _ _ _ _ hc inner2 hin]
          simp only [] at h ⊢
          cases ha : augment parent source pathFlow inner sink st.residualGraph with
          | none => rw [ha] at h; simp at h
          | some r =>
            rw [ha] at h
            rw [augment_mono _ _ _ _ _ _ _ ha inner2 hin]
            simp only [] at h ⊢
            exact ih _ _ h

theorem maxFlow_mono (ord : List (Int × Int) → List (Int × Int)) (g : GraphAnalysisTool)
    (source sink : Int) (f f2 : Nat) (res : Int × List (List Int × Int))
    (h : maxFlow ord g source sink f = some res) (hf : f ≤ f2) :
    maxFlow ord g source sink f2 = some res := by
  unfold maxFlow at h ⊢
  cases hl : maxFlowLoop ord g.numNodes source sink f f
      { residualGraph := initResidual g.adjacencyList [], flowPaths := [], maxFlowValue := 0 } with
  | none => rw [hl] at h; simp at h
  | some st =>
    rw [hl] at h
    have h1 := maxFlowLoop_mono_inner ord g.numNodes source sink f f2 hf f _ _ hl
    rw [maxFlowLoop_mono ord g.numNodes source sink f2 f _ _ h1 f2 hf]
    exact h

/-- The outer loop of `maxFlow` on a well-formed graph: with enough fuel it returns, and
whatever it returns comes from a final state that satisfies every invariant of the
augmentation step and in which the search misses the sink. -/
theorem maxFlow_total (ord : List (Int × Int) → List (Int × Int)) (hord : IsIterOrder ord)
    (g : GraphAnalysisTool) (hg : EdgesOK g) (source sink : Int)
    (hs0 : 0 ≤ source) (hs1 : source < g.numNodes) (ht0 : 0 ≤ sink) (ht1 : sink < g.numNodes)
    (hne : source ≠ sink) (Inv : MFState → Prop)
    (hstep : ∀ st p f, Inv st → ResKeysOK st.residualGraph g.numNodes →
      ResValsOK st.residualGraph → AugPath st.residualGraph g.numNodes source sink p f →
      Inv (mfNext st p f))
    (hinit : Inv (mfInit g)) :
    (∃ N, ∀ fuel, N ≤ fuel → (maxFlow ord g source sink fuel).isSome = true) ∧
    ∀ fuel res, maxFlow ord g source sink fuel = some res →
      ∃ st, res = (st.maxFlowValue, st.flowPaths) ∧ Inv st ∧
        ResKeysOK st.residualGraph g.numNodes ∧
        ∃ parent V, BfsInv st.residualGraph g.numNodes source parent [] V none [] ∧
          sink ∉ V := by
  have hok := mfInit_ok g hg
  have key : ∀ fuel : Nat, g.numNodes ≤ fuel →
      sourceRoom (mfInit g).residualGraph source < fuel →
      ∃ st, maxFlow ord g source sink fuel = some (st.maxFlowValue, st.flowPaths) ∧ Inv st ∧
        ResKeysOK st.residualGraph g.numNodes ∧
        ∃ parent V, BfsInv st.residualGraph g.numNodes source parent [] V none [] ∧
          sink ∉ V := by
    intro fuel h1 h2
    obtain ⟨st, hrun, hinv, hk, _, hfin⟩ := maxFlowLoop_inv ord hord g.numNodes source sink
      hs0 hs1 ht0 ht1 hne Inv hstep fuel h1 fuel (mfInit g) hinit hok.1 hok.2 h2
    refine ⟨st, ?_, hinv, hk, hfin⟩
    unfold maxFlow
    unfold mfInit at hrun
    rw [hrun]
  have hN : ∀ fuel : Nat,
      g.numNodes.toNat + (sourceRoom (mfInit g).residualGraph source).toNat + 1 ≤ fuel →
      g.numNodes ≤ fuel ∧ sourceRoom (mfInit g).residualGraph source < fuel := by
    intro fuel hf
    have := sourceRoom_nonneg (mfInit g).residualGraph source
    constructor <;> omega
  refine ⟨⟨g.numNodes.toNat + (sourceRoom (mfInit g).residualGraph source).toNat + 1,
    fun fuel hf => ?_⟩, fun fuel res hres => ?_⟩
  · obtain ⟨st, h, _⟩ := key fuel (hN fuel hf).1 (hN fuel hf).2
    rw [h]; rfl
  · have hbig := hN (max fuel
      (g.numNodes.toNat + (sourceRoom (mfInit g).residualGraph source).toNat + 1))
      (le_max_right _ _)
    obtain ⟨st, h, hrest⟩ := key _ hbig.1 hbig.2
    have := maxFlow_mono ord g source sink fuel (max fuel
      (g.numNodes.toNat + (sourceRoom (mfInit g).residualGraph source).toNat + 1)) res hres
      (le_max_left _ _)
    rw [this] at h
    cases h
    exact ⟨st, rfl, hrest⟩

/-! ## Maximum flow: claims about termination and the recorded paths -/

theorem maxFlowLoop_same_node (ord : List (Int × Int) → List (Int × Int)) (n s : Int)
    (h0 : 0 ≤ s) (h1 : s < n) (inner : Nat) :
    ∀ (fuel : Nat) (st : MFState), maxFlowLoop ord n s s inner fuel st = none := by
  intro fuel
  induction fuel with
  | zero => intro st; rfl
  | succ k ih =>
    intro st
    have hlen : s < ((List.replicate n.toNat (-1 : Int)).length : Int) := by simp; omega
    have hp : vget (vset (List.replicate n.toNat (-1)) s s) s = s := vget_vset_eq _ _ _ h0 hlen
    have hne : vget (vset (List.replicate n.toNat (-1)) s s) s ≠ -1 := by rw [hp]; omega
    have hb : bfsLoop ord st.residualGraph s inner
        (vset (List.replicate n.toNat (-1)) s s, [s])
        = some (vset (List.replicate n.toNat (-1)) s s) := by
      unfold bfsLoop
      simp [hne]
    have hc : ∀ parent, collectPath st.residualGraph parent s inner s ([], INT_MAX)
        = some ([], INT_MAX) := by
      intro parent; unfold collectPath; simp
    have ha : ∀ parent pf, augment parent s pf inner s st.residualGraph
        = some st.residualGraph := by
      intro parent pf; unfold augment; simp
    unfold maxFlowLoop
    rw [hb]
    simp only [hne, if_false, hc, ha]
    exact ih _

/-- C5, at the failing input: on the graph with the single node 0, `maxFlow(0, 0)` never
leaves its outer loop, whatever the iteration order and however much fuel it is given. -/
theorem maxFlow_same_node_diverges (ord : List (Int × Int) → List (Int × Int)) (fuel : Nat) :
    maxFlow ord (build [Op.node 0]) 0 0 fuel = none := by
  unfold maxFlow
  rw [maxFlowLoop_same_node ord (build [Op.node 0]).numNodes 0 (le_refl _) (by decide) fuel fuel]

theorem posCapWalk_snoc (al : AdjList) : ∀ (q : List Int) (u v : Int), PosCapWalk al q →
    q.getLast? = some u → 0 < capacity al u v → PosCapWalk al (q ++ [v]) := by
  intro q
  induction q with
  | nil => intro u v _ h; simp at h
  | cons a rest ih =>
    intro u v hq hl hc
    cases rest with
    | nil =>
      simp at hl
      subst hl
      exact ⟨hc, trivial⟩
    | cons b rest2 =>
      rw [List.getLast?_cons_cons] at hl
      exact ⟨hq.1, ih u v hq.2 hl hc⟩

theorem pathCap_posCapWalk (al : AdjList) (r : Residual) (f : Int) (hf : 0 < f)
    (hr : ∀ x y, resGet r x y = capacity al x y) :
    ∀ p : List Int, PathCap r f p → PosCapWalk al p.reverse := by
  intro p
  induction p with
  | nil => intro _; trivial
  | cons v rest ih =>
    intro h
    cases rest with
    | nil => trivial
    | cons u rest2 =>
      have h1 := ih h.2
      have hc : 0 < capacity al u v := by rw [← hr]; exact lt_of_lt_of_le hf h.1
      have := posCapWalk_snoc al _ u v h1 (by simp) hc
      simpa using this

/-- C8: on a graph built with ids in `[0, INT_MAX)` and `int` weights, for valid
`source != sink` such that `sink` cannot be reached from `source` along pairs of positive
capacity, `maxFlow` returns, and what it returns is total flow 0 with no augmenting path. -/
theorem maxFlow_unreachable_zero (ord : List (Int × Int) → List (Int × Int))
    (hord : IsIterOrder ord) (ops : List Op) (source sink : Int)
    (hids : idsOk ops) (hw : weightsInt ops)
    (hs : 0 ≤ source ∧ source < (build ops).numNodes)
    (ht : 0 ≤ sink ∧ sink < (build ops).numNodes) (hne : source ≠ sink)
    (hun : ¬ CapReachable (build ops).adjacencyList source sink) :
    (∃ N, ∀ fuel, N ≤ fuel → (maxFlow ord (build ops) source sink fuel).isSome = true) ∧
    ∀ fuel res, maxFlow ord (build ops) source sink fuel = some res → res = (0, []) := by
  have hg := build_edgesOK ops hids hw
  obtain ⟨h1, h2⟩ := maxFlow_total ord hord (build ops) hg source sink hs.1 hs.2 ht.1 ht.2 hne
    (fun st => st = mfInit (build ops))
    (by
      intro st p f hst _ _ hp
      exfalso
      apply hun
      subst hst
      refine ⟨p.reverse, ?_, ?_, pathCap_posCapWalk _ _ f hp.pos
        (fun x y => resGet_init (build ops) hg.1 x y) p hp.cap⟩
      · rw [List.head?_reverse]; exact hp.last
      · rw [List.getLast?_reverse]; exact hp.head)
    rfl
  refine ⟨h1, fun fuel res hres => ?_⟩
  obtain ⟨st, hr, hst, _⟩ := h2 fuel res hres
  rw [hr, hst]
  rfl

/-- C8, at the scenario graph `(0,1,10)`, `(0,2,5)`, `(2,1,2)` from node 1 to node 0. -/
theorem maxFlow_unreachable_zero_witness :
    (∃ N, ∀ fuel, N ≤ fuel → (maxFlow id (build scenarioFlowOps) 1 0 fuel).isSome = true) ∧
    ∀ fuel res, maxFlow id (build scenarioFlowOps) 1 0 fuel = some res → res = (0, []) :=
  maxFlow_unreachable_zero id (fun _ => List.Perm.refl _) scenarioFlowOps 1 0
    (by decide) (by decide) (by decide) (by decide) (by decide)
    (by
      rintro ⟨p, h1, h2, h3⟩
      cases p with
      | nil => simp at h1
      | cons a rest =>
        simp at h1
        subst h1
        cases rest with
        | nil => simp at h2
        | cons b rest2 =>
          have hb := h3.1
          have hcap : ∀ y, capacity (build scenarioFlowOps).adjacencyList 1 y = 0 := by
            intro y; rfl
          rw [hcap] at hb
          exact absurd hb (by decide))

theorem pathsInv_maxFlow (ord : List (Int × Int) → List (Int × Int))
    (hord : IsIterOrder ord) (ops : List Op) (source sink : Int)
    (hids : idsOk ops) (hw : weightsInt ops)
    (hs : 0 ≤ source ∧ source < (build ops).numNodes)
    (ht : 0 ≤ sink ∧ sink < (build ops).numNodes) (hne : source ≠ sink) :
    (∃ N, ∀ fuel, N ≤ fuel → (maxFlow ord (build ops) source sink fuel).isSome = true) ∧
    ∀ fuel res, maxFlow ord (build ops) source sink fuel = some res →
      (∀ e ∈ res.2, FlowPathOK source sink e) ∧ res.1 = (res.2.map Prod.snd).foldl add32 0 := by
  have hg := build_edgesOK ops hids hw
  obtain ⟨h1, h2⟩ := maxFlow_total ord hord (build ops) hg source sink hs.1 hs.2 ht.1 ht.2 hne
    (PathsInv source sink)
    (fun st p f hst _ _ hp => pathsInv_step source sink _ st p f hst hp)
    ⟨by intro e he; simp [mfInit] at he, rfl⟩
  refine ⟨h1, fun fuel res hres => ?_⟩
  obtain ⟨st, hr, hst, _⟩ := h2 fuel res hres
  rw [hr]
  exact hst

/-- C9 (as amended): on a graph built with ids in `[0, INT_MAX)` and `int` weights, for
valid `source != sink`, `maxFlow` returns; the total it returns is the 32-bit sum of the
recorded flows, hence their sum whenever that sum is at most `INT_MAX`; every recorded flow
is positive, and every recorded path starts at `source`, ends at `sink` and repeats no node. -/
theorem maxFlow_total_is_sum_of_flows (ord : List (Int × Int) → List (Int × Int))
    (hord : IsIterOrder ord) (ops : List Op) (source sink : Int)
    (hids : idsOk ops) (hw : weightsInt ops)
    (hs : 0 ≤ source ∧ source < (build ops).numNodes)
    (ht : 0 ≤ sink ∧ sink < (build ops).numNodes) (hne : source ≠ sink) :
    (∃ N, ∀ fuel, N ≤ fuel → (maxFlow ord (build ops) source sink fuel).isSome = true) ∧
    ∀ fuel res, maxFlow ord (build ops) source sink fuel = some res →
      res.1 = (res.2.map Prod.snd).foldl add32 0 ∧
      ((res.2.map Prod.snd).sum ≤ INT_MAX → res.1 = (res.2.map Prod.snd).sum) ∧
      ∀ e ∈ res.2, 0 < e.2 ∧ e.1.head? = some source ∧ e.1.getLast? = some sink ∧ e.1.Nodup := by
  obtain ⟨h1, h2⟩ := pathsInv_maxFlow ord hord ops source sink hids hw hs ht hne
  refine ⟨h1, fun fuel res hres => ?_⟩
  obtain ⟨hp, hsum⟩ := h2 fuel res hres
  refine ⟨hsum, ?_, hp⟩
  intro hle
  rw [hsum, foldl_add32_eq_sum _ 0 (le_refl _) ?_ (by simpa using hle)]
  · simp
  · intro f hf
    obtain ⟨e, he, rfl⟩ := List.mem_map.mp hf
    exact (hp e he).1

/-- C9 (as amended), at the scenario graph `(0,1,10)`, `(0,2,5)`, `(2,1,2)` from 0 to 1. -/
theorem maxFlow_total_is_sum_of_flows_witness :
    (∃ N, ∀ fuel, N ≤ fuel → (maxFlow id (build scenarioFlowOps) 0 1 fuel).isSome = true) ∧
    ∀ fuel res, maxFlow id (build scenarioFlowOps) 0 1 fuel = some res →
      res.1 = (res.2.map Prod.snd).foldl add32 0 ∧
      ((res.2.map Prod.snd).sum ≤ INT_MAX → res.1 = (res.2.map Prod.snd).sum) ∧
      ∀ e ∈ res.2, 0 < e.2 ∧ e.1.head? = some 0 ∧ e.1.getLast? = some 1 ∧ e.1.Nodup :=
  maxFlow_total_is_sum_of_flows id (fun _ => List.Perm.refl _) scenarioFlowOps 0 1
    (by decide) (by decide) (by decide) (by decide) (by decide)

/-- C9, as stated, fails: the four calls of `overflowOps` use non-negative ids and
capacities, 0 and 3 are valid and distinct, and `maxFlow(0, 3)` records the flows
`INT_MAX` and `INT_MAX` while the total it returns is `-2`. -/
theorem maxFlow_total_is_sum_counterexample :
    idsOk overflowOps ∧ weightsNonneg overflowOps ∧ weightsInt overflowOps ∧
    maxFlow id (build overflowOps) 0 3 4
      = some (-2, [([0, 1, 3], 2147483647), ([0, 2, 3], 2147483647)]) ∧
    (-2 : Int) ≠ (([([0, 1, 3], 2147483647), ([0, 2, 3], 2147483647)] :
      List (List Int × Int)).map Prod.snd).sum := by
  refine ⟨by decide, by decide, by decide, by decide, by decide⟩

theorem pairs_balance (x : Int) : ∀ (p : List Int) (a : Int),
    (((pathPairs (a :: p)).filter (fun pr => pr.2 = x)).length : Int)
        + (if a = x then 1 else 0)
      = ((pathPairs (a :: p)).filter (fun pr => pr.1 = x)).length
        + (if (a :: p).getLast? = some x then 1 else 0) := by
  intro p
  induction p with
  | nil => intro a; simp [pathPairs]
  | cons b rest ih =>
    intro a
    have h := ih b
    have hp : pathPairs (a :: b :: rest) = (a, b) :: pathPairs (b :: rest) := rfl
    rw [hp, List.getLast?_cons_cons]
    simp only [List.filter_cons]
    by_cases hb : b = x <;> by_cases ha : a = x <;>
      simp only [hb, ha, decide_True, decide_False, if_true, if_false, List.length_cons] at h ⊢ <;>
      push_cast <;> omega

theorem path_conserves (source sink x : Int) (hxs : x ≠ source) (hxt : x ≠ sink)
    (p : List Int) (h1 : p.head? = some source) (h2 : p.getLast? = some sink) :
    (((pathPairs p).filter (fun pr => pr.2 = x)).length : Int)
      = ((pathPairs p).filter (fun pr => pr.1 = x)).length := by
  cases p with
  | nil => simp at h1
  | cons a rest =>
    simp at h1
    subst h1
    have h := pairs_balance x rest a
    rw [h2] at h
    have hne1 : ¬ a = x := fun hh => hxs hh.symm
    have hne2 : ¬ (some sink = some x) := by
      intro hh
      exact hxt (Option.some.inj hh).symm
    rw [if_neg hne1, if_neg hne2] at h
    omega

/-- C10: on a graph built with ids in `[0, INT_MAX)` and `int` weights, for valid
`source != sink`, `maxFlow` returns, and in what it returns every node other than `source`
and `sink` receives, over the consecutive pairs of the recorded paths, exactly the flow it
sends. -/
theorem maxFlow_conserves_flow (ord : List (Int × Int) → List (Int × Int))
    (hord : IsIterOrder ord) (ops : List Op) (source sink : Int)
    (hids : idsOk ops) (hw : weightsInt ops)
    (hs : 0 ≤ source ∧ source < (build ops).numNodes)
    (ht : 0 ≤ sink ∧ sink < (build ops).numNodes) (hne : source ≠ sink) :
    (∃ N, ∀ fuel, N ≤ fuel → (maxFlow ord (build ops) source sink fuel).isSome = true) ∧
    ∀ fuel res, maxFlow ord (build ops) source sink fuel = some res →
      ∀ x, x ≠ source → x ≠ sink → flowInto res.2 x = flowOutOf res.2 x := by
  obtain ⟨h1, h2⟩ := pathsInv_maxFlow ord hord ops source sink hids hw hs ht hne
  refine ⟨h1, fun fuel res hres x hxs hxt => ?_⟩
  obtain ⟨hp, _⟩ := h2 fuel res hres
  unfold flowInto flowOutOf
  congr 1
  apply List.map_congr_left
  intro e he
  obtain ⟨_, hh, hl, _⟩ := hp e he
  rw [path_conserves source sink x hxs hxt e.1 hh hl]

/-- C10, at the scenario graph `(0,1,10)`, `(0,2,5)`, `(2,1,2)` from node 0 to node 1. -/
theorem maxFlow_conserves_flow_witness :
    (∃ N, ∀ fuel, N ≤ fuel → (maxFlow id (build scenarioFlowOps) 0 1 fuel).isSome = true) ∧
    ∀ fuel res, maxFlow id (build scenarioFlowOps) 0 1 fuel = some res →
      ∀ x, x ≠ 0 → x ≠ 1 → flowInto res.2 x = flowOutOf res.2 x :=
  maxFlow_conserves_flow id (fun _ => List.Perm.refl _) scenarioFlowOps 0 1
    (by decide) (by decide) (by decide) (by decide) (by decide)

/-! ## Maximum flow: sums over the valid ids -/

theorem mem_nodeIds (n x : Int) : x ∈ nodeIds n ↔ 0 ≤ x ∧ x < n := by
  unfold nodeIds
  simp only [List.mem_map, List.mem_range]
  constructor
  · rintro ⟨k, hk, rfl⟩
    constructor
    · exact Int.ofNat_nonneg k
    · have : (k : Int) < n.toNat := by exact_mod_cast hk
      show (k : Int) < n
      omega
  · rintro ⟨h0, h1⟩
    refine ⟨x.toNat, by omega, ?_⟩
    show ((x.toNat : Nat) : Int) = x
    omega

theorem nodup_nodeIds (n : Int) : (nodeIds n).Nodup := by
  unfold nodeIds
  apply List.Nodup.map _ (List.nodup_range _)
  intro a b h
  exact Int.ofNat.inj h

theorem sum_map_update (l : List Int) (g : Int → Int) (v a : Int) (hnd : l.Nodup)
    (hv : v ∈ l) :
    (l.map (fun y => if y = v then a else g y)).sum = (l.map g).sum - g v + a := by
  induction l with
  | nil => simp at hv
  | cons x rest ih =>
    have hx := (List.nodup_cons.mp hnd).1
    have hnd2 := (List.nodup_cons.mp hnd).2
    simp only [List.map_cons, List.sum_cons]
    by_cases hxv : x = v
    · subst hxv
      have : rest.map (fun y => if y = x then a else g y) = rest.map g := by
        apply List.map_congr_left
        intro y hy
        have : y ≠ x := fun h => hx (h ▸ hy)
        simp [this]
      rw [this]
      simp
      ring
    · have hv2 : v ∈ rest := by
        rcases List.mem_cons.mp hv with h | h
        · exact absurd h.symm hxv
        · exact h
      rw [ih hnd2 hv2]
      simp [hxv]
      ring

theorem sum_map_single (l : List Int) (g : Int → Int) (s : Int) (hnd : l.Nodup)
    (hs : s ∈ l) (h0 : ∀ x ∈ l, x ≠ s → g x = 0) : (l.map g).sum = g s := by
  induction l with
  | nil => simp at hs
  | cons x rest ih =>
    have hx := (List.nodup_cons.mp hnd).1
    have hnd2 := (List.nodup_cons.mp hnd).2
    simp only [List.map_cons, List.sum_cons]
    by_cases hxs : x = s
    · subst hxs
      have : (rest.map g).sum = 0 := by
        apply List.sum_eq_zero
        intro y hy
        obtain ⟨z, hz, rfl⟩ := List.mem_map.mp hy
        exact h0 z (List.mem_cons_of_mem _ hz) (fun h => hx (h ▸ hz))
      omega
    · have hs2 : s ∈ rest := by
        rcases List.mem_cons.mp hs with h | h
        · exact absurd h.symm hxs
        · exact h
      rw [ih hnd2 hs2 (fun y hy => h0 y (List.mem_cons_of_mem _ hy)),
        h0 x (List.mem_cons_self _ _) hxs]
      omega

theorem sum_map_zero (l : List Int) (g : Int → Int) (h0 : ∀ x ∈ l, g x = 0) :
    (l.map g).sum = 0 := by
  apply List.sum_eq_zero
  intro y hy
  obtain ⟨z, hz, rfl⟩ := List.mem_map.mp hy
  exact h0 z hz

theorem sum_map_add_fn (l : List Int) (g h : Int → Int) :
    (l.map (fun x => g x + h x)).sum = (l.map g).sum + (l.map h).sum := by
  induction l with
  | nil => simp
  | cons x rest ih => simp only [List.map_cons, List.sum_cons, ih]; ring

theorem sum_map_filter_split (l : List Int) (S : Int → Bool) (g : Int → Int) :
    (l.map g).sum = ((l.filter S).map g).sum + ((l.filter (fun v => !S v)).map g).sum := by
  induction l with
  | nil => simp
  | cons x rest ih =>
    simp only [List.map_cons, List.sum_cons, List.filter_cons]
    cases hS : S x
    · simp only [Bool.false_eq_true, if_false, Bool.not_false, if_true, List.map_cons,
        List.sum_cons]
      omega
    · simp only [if_true, Bool.not_true, Bool.false_eq_true, if_false, List.map_cons,
        List.sum_cons]
      omega

theorem sum_antisymm (l : List Int) (F : Int → Int → Int)
    (h : ∀ u ∈ l, ∀ v ∈ l, F u v = - F v u) :
    (l.map (fun u => (l.map (fun v => F u v)).sum)).sum = 0 := by
  induction l with
  | nil => simp
  | cons a rest ih =>
    have hrest : ∀ u ∈ rest, ∀ v ∈ rest, F u v = - F v u :=
      fun u hu v hv => h u (List.mem_cons_of_mem _ hu) v (List.mem_cons_of_mem _ hv)
    have haa : F a a = 0 := by
      have := h a (List.mem_cons_self _ _) a (List.mem_cons_self _ _)
      omega
    simp only [List.map_cons, List.sum_cons]
    have h1 : (rest.map (fun u => F u a + (rest.map (fun v => F u v)).sum)).sum
        = (rest.map (fun u => F u a)).sum
          + (rest.map (fun u => (rest.map (fun v => F u v)).sum)).sum :=
      sum_map_add_fn rest (fun u => F u a) (fun u => (rest.map (fun v => F u v)).sum)
    have h2 : (rest.map (fun u => F u a)).sum = - (rest.map (fun v => F a v)).sum := by
      have : rest.map (fun u => F u a) = rest.map (fun v => - F a v) := by
        apply List.map_congr_left
        intro u hu
        exact h u (List.mem_cons_of_mem _ hu) a (List.mem_cons_self _ _)
      rw [this]
      clear h1 ih hrest h this
      induction rest with
      | nil => simp
      | cons x xs ihx => simp only [List.map_cons, List.sum_cons, ihx]; ring
    rw [h1, h2, ih hrest, haa]
    ring

theorem sum_map_le (l : List Int) (g h : Int → Int) (hle : ∀ x ∈ l, g x ≤ h x) :
    (l.map g).sum ≤ (l.map h).sum := by
  induction l with
  | nil => simp
  | cons x rest ih =>
    simp only [List.map_cons, List.sum_cons]
    have := hle x (List.mem_cons_self _ _)
    have := ih (fun y hy => hle y (List.mem_cons_of_mem _ hy))
    omega

theorem sum_map_nonneg (l : List Int) (g : Int → Int) (h : ∀ x ∈ l, 0 ≤ g x) :
    0 ≤ (l.map g).sum := by
  apply List.sum_nonneg
  intro y hy
  obtain ⟨z, hz, rfl⟩ := List.mem_map.mp hy
  exact h z hz

theorem sum_map_ge_single (l : List Int) (g : Int → Int) (h : ∀ x ∈ l, 0 ≤ g x) (a : Int)
    (ha : a ∈ l) : g a ≤ (l.map g).sum :=
  List.single_le_sum (fun y hy => by
    obtain ⟨z, hz, rfl⟩ := List.mem_map.mp hy
    exact h z hz) _ (List.mem_map_of_mem g ha)

theorem sum_map_ge_two (l : List Int) (g : Int → Int) (h : ∀ x ∈ l, 0 ≤ g x) (a b : Int)
    (hnd : l.Nodup) (ha : a ∈ l) (hb : b ∈ l) (hab : a ≠ b) : g a + g b ≤ (l.map g).sum := by
  induction l with
  | nil => simp at ha
  | cons x rest ih =>
    have hrest : ∀ y ∈ rest, 0 ≤ g y := fun y hy => h y (List.mem_cons_of_mem _ hy)
    have hnd2 := (List.nodup_cons.mp hnd).2
    simp only [List.map_cons, List.sum_cons]
    have hx := h x (List.mem_cons_self _ _)
    rcases List.mem_cons.mp ha with rfl | ha2
    · rcases List.mem_cons.mp hb with rfl | hb2
      · exact absurd rfl hab
      · have := sum_map_ge_single rest g hrest b hb2
        omega
    · rcases List.mem_cons.mp hb with rfl | hb2
      · have := sum_map_ge_single rest g hrest a ha2
        omega
      · have := ih hrest hnd2 ha2 hb2
        omega

/-! ## Maximum flow: the flow invariant -/

theorem pushEdgeFlow_exact (r : Residual) (u v f : Int) (huv : u ≠ v) (hf0 : 0 < f)
    (hcap : f ≤ resGet r u v) (hnn : ∀ x y, 0 ≤ resGet r x y)
    (hpb : resGet r u v + resGet r v u ≤ INT_MAX) (x y : Int) :
    resGet (pushEdgeFlow r u v f) x y =
      if x = u ∧ y = v then resGet r u v - f
      else if x = v ∧ y = u then resGet r v u + f
      else resGet r x y := by
  have h1 := hnn u v
  have h2 := hnn v u
  rw [resGet_pushEdgeFlow r u v f huv, sub32_of_range _ _ (by omega) (by omega),
    add32_of_range _ _ (by omega) (by omega)]

theorem rowSum_pushEdgeFlow (r : Residual) (n u v f : Int) (huv : u ≠ v) (hf0 : 0 < f)
    (hcap : f ≤ resGet r u v) (hnn : ∀ x y, 0 ≤ resGet r x y)
    (hpb : resGet r u v + resGet r v u ≤ INT_MAX)
    (hu : 0 ≤ u ∧ u < n) (hv : 0 ≤ v ∧ v < n) (x : Int) :
    rowSum (pushEdgeFlow r u v f) n x
      = rowSum r n x - (if x = u then f else 0) + (if x = v then f else 0) := by
  have hex := pushEdgeFlow_exact r u v f huv hf0 hcap hnn hpb
  have hum := (mem_nodeIds n u).mpr hu
  have hvm := (mem_nodeIds n v).mpr hv
  unfold rowSum
  by_cases hxu : x = u
  · subst hxu
    have hfun : (nodeIds n).map (fun y => resGet (pushEdgeFlow r x v f) x y)
        = (nodeIds n).map (fun y => if y = v then resGet r x v - f else resGet r x y) := by
      apply List.map_congr_left
      intro y _
      rw [hex]
      by_cases hy : y = v
      · simp [hy]
      · have : ¬ (x = v ∧ y = x) := fun h => huv h.1
        simp [hy, this]
    rw [hfun, sum_map_update _ _ v _ (nodup_nodeIds n) hvm]
    simp [huv]
  · by_cases hxv : x = v
    · subst hxv
      have hfun : (nodeIds n).map (fun y => resGet (pushEdgeFlow r u x f) x y)
          = (nodeIds n).map (fun y => if y = u then resGet r x u + f else resGet r x y) := by
        apply List.map_congr_left
        intro y _
        rw [hex]
        by_cases hy : y = u
        · simp [hy, hxu]
        · simp [hy, hxu]
      rw [hfun, sum_map_update _ _ u _ (nodup_nodeIds n) hum]
      simp [hxu]
      ring
    · have hfun : (nodeIds n).map (fun y => resGet (pushEdgeFlow r u v f) x y)
          = (nodeIds n).map (fun y => resGet r x y) := by
        apply List.map_congr_left
        intro y _
        rw [hex]
        simp [hxu, hxv]
      rw [hfun]
      simp [hxu, hxv]

theorem pushPath_flow (n f : Int) (hf0 : 0 < f) : ∀ (p : List Int) (r : Residual),
    p.Nodup → (∀ x ∈ p, 0 ≤ x ∧ x < n) → PathCap r f p →
    (∀ x y, 0 ≤ resGet r x y) →
    (∀ x y, 0 ≤ x ∧ x < n → 0 ≤ y ∧ y < n → x ≠ y → resGet r x y + resGet r y x ≤ INT_MAX) →
    (∀ x y, 0 ≤ resGet (pushPath f p r) x y) ∧
    (∀ x y, x ≠ y → resGet (pushPath f p r) x y + resGet (pushPath f p r) y x
      = resGet r x y + resGet r y x) ∧
    (∀ x, resGet (pushPath f p r) x x = resGet r x x) ∧
    (∀ x, rowSum (pushPath f p r) n x
      = rowSum r n x + (if p.head? = some x then f else 0)
        - (if p.getLast? = some x then f else 0)) := by
  intro p
  induction p with
  | nil =>
    intro r _ _ _ hnn _
    refine ⟨hnn, fun _ _ _ => rfl, fun _ => rfl, fun x => ?_⟩
    simp [pushPath]
  | cons v rest ih =>
    intro r hnd hrng hcap hnn hpb
    cases rest with
    | nil =>
      refine ⟨hnn, fun _ _ _ => rfl, fun _ => rfl, fun x => ?_⟩
      simp [pushPath]
    | cons u rest2 =>
      have hvn : v ∉ u :: rest2 := (List.nodup_cons.mp hnd).1
      have hnd2 : (u :: rest2).Nodup := (List.nodup_cons.mp hnd).2
      have huv : u ≠ v := fun hh => hvn (by simp [hh])
      have hu := hrng u (by simp)
      have hv := hrng v (by simp)
      have hpb1 := hpb u v hu hv huv
      have hex := pushEdgeFlow_exact r u v f huv hf0 hcap.1 hnn hpb1
      have hrow := rowSum_pushEdgeFlow r n u v f huv hf0 hcap.1 hnn hpb1 hu hv
      have hnn2 : ∀ x y, 0 ≤ resGet (pushEdgeFlow r u v f) x y := by
        intro x y
        rw [hex]
        have h1 := hnn u v
        have h2 := hnn v u
        have h3 := hnn x y
        have h4 := hcap.1
        split_ifs <;> omega
      have hpair2 : ∀ x y, x ≠ y →
          resGet (pushEdgeFlow r u v f) x y + resGet (pushEdgeFlow r u v f) y x
            = resGet r x y + resGet r y x := by
        intro x y hxy
        rw [hex x y, hex y x]
        by_cases h1 : x = u ∧ y = v
        · obtain ⟨rfl, rfl⟩ := h1
          have : ¬ (y = x ∧ x = y) := fun h => hxy h.2
          simp [this]
        · by_cases h2 : x = v ∧ y = u
          · obtain ⟨rfl, rfl⟩ := h2
            have : ¬ (x = y ∧ y = x) := fun h => hxy h.1
            simp [this]
          · have h3 : ¬ (y = u ∧ x = v) := fun h => h2 ⟨h.2, h.1⟩
            have h4 : ¬ (y = v ∧ x = u) := fun h => h1 ⟨h.2, h.1⟩
            simp [h1, h2, h3, h4]
      have hdiag2 : ∀ x, resGet (pushEdgeFlow r u v f) x x = resGet r x x := by
        intro x
        rw [hex]
        have h1 : ¬ (x = u ∧ x = v) := fun h => huv (h.1 ▸ h.2)
        have h2 : ¬ (x = v ∧ x = u) := fun h => huv (h.2 ▸ h.1)
        simp [h1, h2]
      have hpb2 : ∀ x y, 0 ≤ x ∧ x < n → 0 ≤ y ∧ y < n → x ≠ y →
          resGet (pushEdgeFlow r u v f) x y + resGet (pushEdgeFlow r u v f) y x ≤ INT_MAX := by
        intro x y hx hy hxy
        rw [hpair2 x y hxy]
        exact hpb x y hx hy hxy
      obtain ⟨i1, i2, i3, i4⟩ := ih (pushEdgeFlow r u v f) hnd2
        (fun x hx => hrng x (List.mem_cons_of_mem _ hx))
        (pathCap_after_edge r u v f _ hnd hcap.2) hnn2 hpb2
      simp only [pushPath]
      refine ⟨i1, ?_, ?_, ?_⟩
      · intro x y hxy
        rw [i2 x y hxy, hpair2 x y hxy]
      · intro x
        rw [i3 x, hdiag2 x]
      · intro x
        rw [i4 x, hrow x, List.getLast?_cons_cons]
        simp only [List.head?_cons, Option.some.injEq]
        by_cases h1 : u = x <;> by_cases h2 : v = x <;>
          simp [h1, h2, eq_comm]

theorem sum_map_sub_fn (l : List Int) (g h : Int → Int) :
    (l.map (fun x => g x - h x)).sum = (l.map g).sum - (l.map h).sum := by
  induction l with
  | nil => simp
  | cons x rest ih => simp only [List.map_cons, List.sum_cons, ih]; ring

theorem capOf_nonneg (row : List (Int × Int)) (v : Int) (h : ∀ e ∈ row, 0 ≤ e.2) :
    0 ≤ capOf row v := by
  by_cases h0 : capOf row v = 0
  · omega
  · exact h _ (mem_of_capOf_ne_zero row v h0)

theorem capacity_nonneg (g : GraphAnalysisTool) (h : RowsOK g) (x y : Int) :
    0 ≤ capacity g.adjacencyList x y := by
  unfold capacity
  apply capOf_nonneg
  intro e he
  obtain ⟨row, hrow, hmem⟩ := adjOf_mem_row _ x e (List.mem_reverse.mp he)
  exact (h row hrow e hmem).2.2

theorem capRowSum_le_capTotal (g : GraphAnalysisTool) (h : RowsOK g) (x : Int)
    (hx : 0 ≤ x ∧ x < g.numNodes) :
    capRowSum g.adjacencyList g.numNodes x ≤ capTotal g.adjacencyList g.numNodes := by
  unfold capTotal
  exact sum_map_ge_single (nodeIds g.numNodes)
    (fun u => ((nodeIds g.numNodes).map (fun v => capacity g.adjacencyList u v)).sum)
    (fun u _ => sum_map_nonneg _ _ (fun v _ => capacity_nonneg g h u v)) x
    ((mem_nodeIds _ _).mpr hx)

theorem capacity_pair_le_capTotal (g : GraphAnalysisTool) (h : RowsOK g) (x y : Int)
    (hx : 0 ≤ x ∧ x < g.numNodes) (hy : 0 ≤ y ∧ y < g.numNodes) (hxy : x ≠ y) :
    capacity g.adjacencyList x y + capacity g.adjacencyList y x
      ≤ capTotal g.adjacencyList g.numNodes := by
  have hxm := (mem_nodeIds _ _).mpr hx
  have hym := (mem_nodeIds _ _).mpr hy
  have h1 := sum_map_ge_two (nodeIds g.numNodes)
    (fun u => ((nodeIds g.numNodes).map (fun v => capacity g.adjacencyList u v)).sum)
    (fun u _ => sum_map_nonneg _ _ (fun v _ => capacity_nonneg g h u v)) x y
    (nodup_nodeIds _) hxm hym hxy
  have h2 := sum_map_ge_single (nodeIds g.numNodes) (fun v => capacity g.adjacencyList x v)
    (fun v _ => capacity_nonneg g h x v) y hym
  have h3 := sum_map_ge_single (nodeIds g.numNodes) (fun v => capacity g.adjacencyList y v)
    (fun v _ => capacity_nonneg g h y v) x hxm
  unfold capTotal
  simp only at h1 h2 h3
  omega

theorem flowInv_init (g : GraphAnalysisTool) (hk : KeysNodup g.adjacencyList) (h : RowsOK g)
    (source sink : Int) :
    FlowInv g.adjacencyList g.numNodes source sink (mfInit g) := by
  have hr : ∀ x y, resGet (mfInit g).residualGraph x y = capacity g.adjacencyList x y :=
    fun x y => resGet_init g hk x y
  have hrow : ∀ x, rowSum (mfInit g).residualGraph g.numNodes x
      = capRowSum g.adjacencyList g.numNodes x := by
    intro x
    unfold rowSum capRowSum
    congr 1
    apply List.map_congr_left
    intro y _
    exact hr x y
  exact
    { nonneg := fun x y => by rw [hr]; exact capacity_nonneg g h x y
      pair := fun x y _ => by rw [hr, hr]
      diag := fun x => hr x x
      cons := fun x _ _ => hrow x
      value := by rw [hrow]; simp [mfInit]
      sink_row := by rw [hrow]; simp [mfInit]
      value_nonneg := by simp [mfInit] }

theorem flowInv_step (g : GraphAnalysisTool) (h : RowsOK g) (source sink : Int)
    (hs : 0 ≤ source ∧ source < g.numNodes) (hne : source ≠ sink)
    (htot : capTotal g.adjacencyList g.numNodes ≤ INT_MAX)
    (st : MFState) (p : List Int) (f : Int)
    (hst : FlowInv g.adjacencyList g.numNodes source sink st)
    (hp : AugPath st.residualGraph g.numNodes source sink p f) :
    FlowInv g.adjacencyList g.numNodes source sink (mfNext st p f) := by
  have hpb : ∀ x y, 0 ≤ x ∧ x < g.numNodes → 0 ≤ y ∧ y < g.numNodes → x ≠ y →
      resGet st.residualGraph x y + resGet st.residualGraph y x ≤ INT_MAX := by
    intro x y hx hy hxy
    rw [hst.pair x y hxy]
    exact le_trans (capacity_pair_le_capTotal g h x y hx hy hxy) htot
  obtain ⟨i1, i2, i3, i4⟩ := pushPath_flow g.numNodes f hp.pos p st.residualGraph hp.nodup
    hp.rng hp.cap hst.nonneg hpb
  have hhead : ∀ x, (p.head? = some x) ↔ x = sink := by
    intro x; rw [hp.head]; constructor
    · intro hh; exact (Option.some.inj hh).symm
    · intro hh; rw [hh]
  have hlast : ∀ x, (p.getLast? = some x) ↔ x = source := by
    intro x; rw [hp.last]; constructor
    · intro hh; exact (Option.some.inj hh).symm
    · intro hh; rw [hh]
  have hrow_s : rowSum (pushPath f p st.residualGraph) g.numNodes source
      = rowSum st.residualGraph g.numNodes source - f := by
    rw [i4 source, if_neg (fun hh => hne ((hhead source).mp hh)), if_pos ((hlast source).mpr rfl)]
    ring
  have hrow_t : rowSum (pushPath f p st.residualGraph) g.numNodes sink
      = rowSum st.residualGraph g.numNodes sink + f := by
    rw [i4 sink, if_pos ((hhead sink).mpr rfl),
      if_neg (fun hh => hne ((hlast sink).mp hh).symm)]
    ring
  have hnn_row : 0 ≤ rowSum (pushPath f p st.residualGraph) g.numNodes source :=
    sum_map_nonneg _ _ (fun y _ => i1 source y)
  have hcapS := capRowSum_le_capTotal g h source hs
  have hval := hst.value
  have hv0 := hst.value_nonneg
  have hpos := hp.pos
  have hadd : add32 st.maxFlowValue f = st.maxFlowValue + f :=
    add32_of_range _ _ (by omega) (by omega)
  exact
    { nonneg := i1
      pair := fun x y hxy => by
        show resGet (pushPath f p st.residualGraph) x y
          + resGet (pushPath f p st.residualGraph) y x = _
        rw [i2 x y hxy]; exact hst.pair x y hxy
      diag := fun x => by
        show resGet (pushPath f p st.residualGraph) x x = _
        rw [i3 x]; exact hst.diag x
      cons := fun x hxs hxt => by
        show rowSum (pushPath f p st.residualGraph) g.numNodes x = _
        rw [i4 x, if_neg (fun hh => hxt ((hhead x).mp hh)),
          if_neg (fun hh => hxs ((hlast x).mp hh))]
        simp only [add_zero, sub_zero]
        exact hst.cons x hxs hxt
      value := by
        show add32 st.maxFlowValue f = _ - rowSum (pushPath f p st.residualGraph) g.numNodes source
        rw [hadd, hrow_s]; omega
      sink_row := by
        show rowSum (pushPath f p st.residualGraph) g.numNodes sink = _ + add32 st.maxFlowValue f
        rw [hadd, hrow_t, hst.sink_row]; ring
      value_nonneg := by
        show 0 ≤ add32 st.maxFlowValue f
        rw [hadd]; omega }

/-! ## Maximum flow equals minimum cut -/

theorem flow_across_cut (al : AdjList) (n source sink : Int) (st : MFState)
    (hst : FlowInv al n source sink st) (hs : 0 ≤ source ∧ source < n)
    (S : Int → Bool) (hS1 : S source = true) (hS2 : S sink = false) :
    st.maxFlowValue =
      (((nodeIds n).filter S).map (fun u =>
        (((nodeIds n).filter (fun v => !S v)).map
          (fun v => capacity al u v - resGet st.residualGraph u v)).sum)).sum := by
  have hanti : ∀ u v : Int, capacity al u v - resGet st.residualGraph u v
      = - (capacity al v u - resGet st.residualGraph v u) := by
    intro u v
    by_cases huv : u = v
    · subst huv
      have := hst.diag u
      omega
    · have := hst.pair u v huv
      omega
  have hrow : ∀ u, ((nodeIds n).map
      (fun v => capacity al u v - resGet st.residualGraph u v)).sum
      = capRowSum al n u - rowSum st.residualGraph n u := by
    intro u
    rw [sum_map_sub_fn]
    rfl
  have hA : ((nodeIds n).filter S).Nodup := (nodup_nodeIds n).filter _
  have hsA : source ∈ (nodeIds n).filter S :=
    List.mem_filter.mpr ⟨(mem_nodeIds n source).mpr hs, hS1⟩
  have h1 : (((nodeIds n).filter S).map (fun u => ((nodeIds n).map
      (fun v => capacity al u v - resGet st.residualGraph u v)).sum)).sum
      = st.maxFlowValue := by
    rw [sum_map_single _ _ source hA hsA]
    · rw [hrow, hst.value]
    · intro x hx hxs
      have hSx : S x = true := (List.mem_filter.mp hx).2
      have hxt : x ≠ sink := by
        intro hh
        rw [hh, hS2] at hSx
        exact absurd hSx (by decide)
      rw [hrow, hst.cons x hxs hxt]
      omega
  have h2 : (((nodeIds n).filter S).map (fun u => ((nodeIds n).map
      (fun v => capacity al u v - resGet st.residualGraph u v)).sum))
      = (((nodeIds n).filter S).map (fun u =>
          (((nodeIds n).filter S).map
            (fun v => capacity al u v - resGet st.residualGraph u v)).sum
          + (((nodeIds n).filter (fun v => !S v)).map
            (fun v => capacity al u v - resGet st.residualGraph u v)).sum)) := by
    apply List.map_congr_left
    intro u _
    exact sum_map_filter_split _ S _
  rw [h2, sum_map_add_fn] at h1
  have h3 := sum_antisymm ((nodeIds n).filter S)
    (fun u v => capacity al u v - resGet st.residualGraph u v)
    (fun u _ v _ => hanti u v)
  simp only at h3
  rw [h3] at h1
  omega

theorem flow_le_cut (al : AdjList) (n source sink : Int) (st : MFState)
    (hst : FlowInv al n source sink st) (hs : 0 ≤ source ∧ source < n)
    (S : Int → Bool) (hS1 : S source = true) (hS2 : S sink = false) :
    st.maxFlowValue ≤ cutCapacity al n S := by
  rw [flow_across_cut al n source sink st hst hs S hS1 hS2]
  unfold cutCapacity
  apply sum_map_le
  intro u _
  apply sum_map_le
  intro v _
  have := hst.nonneg u v
  omega

theorem flow_eq_cut (al : AdjList) (n source sink : Int) (st : MFState)
    (hst : FlowInv al n source sink st) (hs : 0 ≤ source ∧ source < n)
    (parent V : List Int)
    (hbfs : BfsInv st.residualGraph n source parent [] V none []) (hsink : sink ∉ V) :
    cutCapacity al n (fun x => decide (x ∈ V)) = st.maxFlowValue := by
  rw [flow_across_cut al n source sink st hst hs (fun x => decide (x ∈ V))
    (by simpa using hbfs.src) (by simpa using hsink)]
  unfold cutCapacity
  apply congrArg
  apply List.map_congr_left
  intro u hu
  apply congrArg
  apply List.map_congr_left
  intro v hv
  have huV : u ∈ V := by simpa using (List.mem_filter.mp hu).2
  have hvV : v ∉ V := by simpa using (List.mem_filter.mp hv).2
  have h0 : resGet st.residualGraph u v = 0 := by
    by_contra hne
    have hpos : 0 < resGet st.residualGraph u v := by
      have := hst.nonneg u v
      omega
    have hmem := mem_of_capOf_ne_zero (adjOf st.residualGraph u) v hne
    rcases hbfs.done u huV (by simp) _ hmem hpos with ⟨h1, _⟩ | h2
    · simp at h1
    · exact hvV h2
  rw [h0]
  ring

/-- On non-negative `int` capacities whose total is an `int`, `maxFlow` returns, and what it
returns comes from a final state that satisfies the flow invariant and in which the search
from `source` visits a set `V` without `sink`. -/
theorem maxFlow_flowInv (ord : List (Int × Int) → List (Int × Int))
    (hord : IsIterOrder ord) (ops : List Op) (source sink : Int)
    (hids : idsOk ops) (hnn : weightsNonneg ops) (hw : weightsInt ops)
    (htot : capTotal (build ops).adjacencyList (build ops).numNodes ≤ INT_MAX)
    (hs : 0 ≤ source ∧ source < (build ops).numNodes)
    (ht : 0 ≤ sink ∧ sink < (build ops).numNodes) (hne : source ≠ sink) :
    (∃ N, ∀ fuel, N ≤ fuel → (maxFlow ord (build ops) source sink fuel).isSome = true) ∧
    ∀ fuel res, maxFlow ord (build ops) source sink fuel = some res →
      ∃ st parent V, res.1 = st.maxFlowValue ∧
        FlowInv (build ops).adjacencyList (build ops).numNodes source sink st ∧
        BfsInv st.residualGraph (build ops).numNodes source parent [] V none [] ∧
        sink ∉ V := by
  have hg := build_edgesOK ops hids hw
  have hr := build_rowsOK ops hids hnn
  obtain ⟨h1, h2⟩ := maxFlow_total ord hord (build ops) hg source sink hs.1 hs.2 ht.1 ht.2 hne
    (FlowInv (build ops).adjacencyList (build ops).numNodes source sink)
    (fun st p f hst _ _ hp => flowInv_step (build ops) hr source sink hs hne htot st p f hst hp)
    (flowInv_init (build ops) hg.1 hr source sink)
  refine ⟨h1, fun fuel res hres => ?_⟩
  obtain ⟨st, hres2, hst, _, parent, V, hbfs, hsink⟩ := h2 fuel res hres
  exact ⟨st, parent, V, by rw [hres2], hst, hbfs, hsink⟩

/-- C4: on a graph built with ids in `[0, INT_MAX)` and non-negative `int` capacities whose
total over all ordered pairs is at most `INT_MAX`, for valid `source != sink` and every
admissible iteration order, `maxFlow` returns, and the total flow it returns is the capacity
of a minimum cut separating `source` from `sink`, the capacity of a pair being the weight of
its last inserted edge. -/
theorem maxFlow_eq_min_cut (ord : List (Int × Int) → List (Int × Int))
    (hord : IsIterOrder ord) (ops : List Op) (source sink : Int)
    (hids : idsOk ops) (hnn : weightsNonneg ops) (hw : weightsInt ops)
    (htot : capTotal (build ops).adjacencyList (build ops).numNodes ≤ INT_MAX)
    (hs : 0 ≤ source ∧ source < (build ops).numNodes)
    (ht : 0 ≤ sink ∧ sink < (build ops).numNodes) (hne : source ≠ sink) :
    (∃ N, ∀ fuel, N ≤ fuel → (maxFlow ord (build ops) source sink fuel).isSome = true) ∧
    ∀ fuel res, maxFlow ord (build ops) source sink fuel = some res →
      IsMinCut (build ops).adjacencyList (build ops).numNodes source sink res.1 := by
  obtain ⟨h1, h2⟩ := maxFlow_flowInv ord hord ops source sink hids hnn hw htot hs ht hne
  refine ⟨h1, fun fuel res hres => ?_⟩
  obtain ⟨st, parent, V, hres2, hst, hbfs, hsink⟩ := h2 fuel res hres
  rw [hres2]
  refine ⟨⟨fun x => decide (x ∈ V), by simpa using hbfs.src, by simpa using hsink,
    flow_eq_cut _ _ source sink st hst hs parent V hbfs hsink⟩, ?_⟩
  intro S hS1 hS2
  exact flow_le_cut _ _ source sink st hst hs S hS1 hS2

/-- C4, at the scenario graph `(0,1,10)`, `(0,2,5)`, `(2,1,2)` from node 0 to node 1. -/
theorem maxFlow_eq_min_cut_witness :
    (∃ N, ∀ fuel, N ≤ fuel → (maxFlow id (build scenarioFlowOps) 0 1 fuel).isSome = true) ∧
    ∀ fuel res, maxFlow id (build scenarioFlowOps) 0 1 fuel = some res →
      IsMinCut (build scenarioFlowOps).adjacencyList (build scenarioFlowOps).numNodes 0 1
        res.1 :=
  maxFlow_eq_min_cut id (fun _ => List.Perm.refl _) scenarioFlowOps 0 1
    (by decide) (by decide) (by decide) (by decide) (by decide) (by decide) (by decide)

/-! ## Maximum flow: the scenario of the specification -/

theorem scenarioFlow_cut (S : Int → Bool) (h0 : S 0 = true) (h1 : S 1 = false) :
    cutCapacity (build scenarioFlowOps).adjacencyList (build scenarioFlowOps).numNodes S
      = if S 2 = true then 12 else 15 := by
  have hn : nodeIds (build scenarioFlowOps).numNodes = [0, 1, 2] := by decide
  have c01 : capacity (build scenarioFlowOps).adjacencyList 0 1 = 10 := by decide
  have c02 : capacity (build scenarioFlowOps).adjacencyList 0 2 = 5 := by decide
  have c21 : capacity (build scenarioFlowOps).adjacencyList 2 1 = 2 := by decide
  have c22 : capacity (build scenarioFlowOps).adjacencyList 2 2 = 0 := by decide
  unfold cutCapacity
  rw [hn]
  cases h2 : S 2 <;> simp [List.filter, h0, h1, h2, c01, c02, c21, c22]

/-- C7 (as amended): on the graph built by `addEdge(0,1,10)`, `addEdge(0,2,5)`,
`addEdge(2,1,2)`, for every admissible iteration order, `maxFlow(0, 1)` returns, and the
total flow it returns is 12. -/
theorem maxFlow_scenario_total (ord : List (Int × Int) → List (Int × Int))
    (hord : IsIterOrder ord) :
    (∃ N, ∀ fuel, N ≤ fuel → (maxFlow ord (build scenarioFlowOps) 0 1 fuel).isSome = true) ∧
    ∀ fuel res, maxFlow ord (build scenarioFlowOps) 0 1 fuel = some res → res.1 = 12 := by
  have hs : (0 : Int) ≤ 0 ∧ (0 : Int) < (build scenarioFlowOps).numNodes := by decide
  obtain ⟨h1, h2⟩ := maxFlow_flowInv ord hord scenarioFlowOps 0 1 (by decide) (by decide)
    (by decide) (by decide) hs (by decide) (by decide)
  refine ⟨h1, fun fuel res hres => ?_⟩
  obtain ⟨st, parent, V, hres2, hst, hbfs, hsink⟩ := h2 fuel res hres
  have hle := flow_le_cut _ _ 0 1 st hst hs (fun x => x == 0 || x == 2) (by decide) (by decide)
  rw [scenarioFlow_cut _ (by decide) (by decide)] at hle
  have heq := flow_eq_cut _ _ 0 1 st hst hs parent V hbfs hsink
  rw [scenarioFlow_cut _ (by simpa using hbfs.src) (by simpa using hsink)] at heq
  rw [hres2]
  simp only [show ((fun x : Int => x == 0 || x == 2) 2 = true) from by decide, if_true] at hle
  split at heq <;> omega

/-- C7 (as amended), for the order in which the entries were inserted. -/
theorem maxFlow_scenario_total_witness :
    (∃ N, ∀ fuel, N ≤ fuel → (maxFlow id (build scenarioFlowOps) 0 1 fuel).isSome = true) ∧
    ∀ fuel res, maxFlow id (build scenarioFlowOps) 0 1 fuel = some res → res.1 = 12 :=
  maxFlow_scenario_total id (fun _ => List.Perm.refl _)

/-- C7, as stated, fails: on the graph built by `addEdge(0,1,10)`, `addEdge(0,2,5)`,
`addEdge(2,1,2)`, `maxFlow(0, 1)` returns the total flow 12, along the paths `0 -> 1` with
flow 10 and `0 -> 2 -> 1` with flow 2, and not 7. -/
theorem maxFlow_scenario_counterexample :
    maxFlow id (build scenarioFlowOps) 0 1 3
      = some (12, [([0, 1], 10), ([0, 2, 1], 2)]) ∧
    ¬ (∃ paths, maxFlow id (build scenarioFlowOps) 0 1 3 = some (7, paths)) := by
  have h : maxFlow id (build scenarioFlowOps) 0 1 3
      = some (12, [([0, 1], 10), ([0, 2, 1], 2)]) := by decide
  refine ⟨h, ?_⟩
  rintro ⟨paths, hp⟩
  rw [h] at hp
  simp at hp

/-! ## Maximum flow: parallel edges -/

theorem build_snoc (ops : List Op) (op : Op) : build (ops ++ [op]) = applyOp (build ops) op := by
  simp [build, List.foldl_append]

theorem parallel_first (u v w : Int) (hu : 0 ≤ u ∧ u < INT_MAX) (hv : 0 ≤ v ∧ v < INT_MAX)
    (huv : u ≠ v) :
    (build [Op.edge u v w]).adjacencyList = [(u, [(v, w)]), (v, [])] ∧
    (build [Op.edge u v w]).numNodes = max (u + 1) (v + 1) := by
  have h1 : add32 u 1 = u + 1 := add32_of_range _ _ (by omega) (by omega)
  have h2 : add32 v 1 = v + 1 := add32_of_range _ _ (by omega) (by omega)
  have huv2 : ¬ v = u := fun h => huv h.symm
  constructor
  · simp [build, applyOp, addEdge, addNode, GraphAnalysisTool.empty, hasKey, pushEdge, huv]
  · simp only [build, applyOp, addEdge, addNode, GraphAnalysisTool.empty, List.foldl_cons,
      List.foldl_nil, h1, h2]
    omega

theorem parallel_next (g : GraphAnalysisTool) (u v w : Int) (es : List (Int × Int))
    (hu : 0 ≤ u ∧ u < INT_MAX) (hv : 0 ≤ v ∧ v < INT_MAX)
    (h1 : g.adjacencyList = [(u, es), (v, [])]) (h2 : g.numNodes = max (u + 1) (v + 1)) :
    (addEdge g u v w).adjacencyList = [(u, es ++ [(v, w)]), (v, [])] ∧
    (addEdge g u v w).numNodes = max (u + 1) (v + 1) := by
  have a1 : add32 u 1 = u + 1 := add32_of_range _ _ (by omega) (by omega)
  have a2 : add32 v 1 = v + 1 := add32_of_range _ _ (by omega) (by omega)
  constructor
  · simp [addEdge, addNode, h1, hasKey, pushEdge]
  · simp only [addEdge, addNode, h2, a1, a2]
    omega

theorem parallel_build (u v : Int) (hu : 0 ≤ u ∧ u < INT_MAX) (hv : 0 ≤ v ∧ v < INT_MAX)
    (huv : u ≠ v) (wk : Int) : ∀ ws : List Int,
    (build ((ws ++ [wk]).map (Op.edge u v))).adjacencyList
        = [(u, (ws ++ [wk]).map (fun w => (v, w))), (v, [])] ∧
    (build ((ws ++ [wk]).map (Op.edge u v))).numNodes = max (u + 1) (v + 1) := by
  intro ws
  induction ws using List.reverseRecOn generalizing wk with
  | nil => exact parallel_first u v wk hu hv huv
  | append_singleton ws w0 ih =>
    obtain ⟨i1, i2⟩ := ih w0
    have := parallel_next _ u v wk _ hu hv i1 i2
    rw [List.map_append, List.map_cons, List.map_nil, build_snoc]
    simp only [applyOp]
    rw [this.1, this.2]
    simp

theorem parallel_capacity (u v : Int) (huv : u ≠ v) (ws : List Int) (wk : Int) (x y : Int) :
    capacity [(u, (ws ++ [wk]).map (fun w => (v, w))), (v, [])] x y
      = if x = u ∧ y = v then wk else 0 := by
  unfold capacity
  by_cases hx : x = u
  · subst hx
    simp only [adjOf, if_true, List.map_append, List.map_cons, List.map_nil,
      List.reverse_append, List.reverse_cons, List.reverse_nil, List.nil_append,
      List.singleton_append, capOf]
    by_cases hy : y = v
    · subst hy; simp
    · have hy2 : ¬ v = y := fun h => hy h.symm
      simp only [hy2, if_false, hy, and_false]
      apply capOf_of_not_mem
      intro hm
      simp only [List.map_reverse, List.mem_reverse, List.map_map, List.mem_map,
        Function.comp] at hm
      obtain ⟨_, _, h⟩ := hm
      exact hy2 h
  · have hx2 : ¬ u = x := fun h => hx h.symm
    simp only [adjOf, hx2, if_false, hx, false_and]
    split <;> rfl

theorem parallel_cut (n u v wk : Int) (al : AdjList)
    (hu : 0 ≤ u ∧ u < n) (hv : 0 ≤ v ∧ v < n)
    (hcap : ∀ x y, capacity al x y = if x = u ∧ y = v then wk else 0)
    (S : Int → Bool) (hS1 : S u = true) (hS2 : S v = false) :
    cutCapacity al n S = wk := by
  unfold cutCapacity
  have hA : ((nodeIds n).filter S).Nodup := (nodup_nodeIds n).filter _
  have hB : ((nodeIds n).filter (fun y => !S y)).Nodup := (nodup_nodeIds n).filter _
  have huA : u ∈ (nodeIds n).filter S := List.mem_filter.mpr ⟨(mem_nodeIds n u).mpr hu, hS1⟩
  have hvB : v ∈ (nodeIds n).filter (fun y => !S y) :=
    List.mem_filter.mpr ⟨(mem_nodeIds n v).mpr hv, by simp [hS2]⟩
  rw [sum_map_single _ _ u hA huA]
  · rw [sum_map_single _ _ v hB hvB]
    · rw [hcap]; simp
    · intro y _ hy
      rw [hcap]; simp [hy]
  · intro x _ hx
    apply sum_map_zero
    intro y _
    rw [hcap]; simp [hx]

theorem parallel_capTotal (n u v wk : Int) (al : AdjList)
    (hu : 0 ≤ u ∧ u < n) (hv : 0 ≤ v ∧ v < n)
    (hcap : ∀ x y, capacity al x y = if x = u ∧ y = v then wk else 0) :
    capTotal al n = wk := by
  unfold capTotal
  rw [sum_map_single _ _ u (nodup_nodeIds n) ((mem_nodeIds n u).mpr hu)]
  · rw [sum_map_single _ _ v (nodup_nodeIds n) ((mem_nodeIds n v).mpr hv)]
    · rw [hcap]; simp
    · intro y _ hy
      rw [hcap]; simp [hy]
  · intro x _ hx
    apply sum_map_zero
    intro y _
    rw [hcap]; simp [hx]

/-- C6: on the graph whose only edges are `u -> v` (`u != v`, ids in `[0, INT_MAX)`) with
positive `int` weights `ws` followed by `wk`, inserted in that order, for every admissible
iteration order `maxFlow(u, v)` returns, and the total flow it returns is `wk`, the weight of
the last inserted edge, which is less than the sum of the weights when there are several. -/
theorem maxFlow_parallel_edges (ord : List (Int × Int) → List (Int × Int))
    (hord : IsIterOrder ord) (u v : Int) (ws : List Int) (wk : Int)
    (hu : 0 ≤ u ∧ u < INT_MAX) (hv : 0 ≤ v ∧ v < INT_MAX) (huv : u ≠ v)
    (hws : ∀ w ∈ ws ++ [wk], 0 < w ∧ w ≤ INT_MAX) :
    (∃ N, ∀ fuel, N ≤ fuel →
      (maxFlow ord (build ((ws ++ [wk]).map (Op.edge u v))) u v fuel).isSome = true) ∧
    ∀ fuel res, maxFlow ord (build ((ws ++ [wk]).map (Op.edge u v))) u v fuel = some res →
      res.1 = wk ∧ (ws ≠ [] → res.1 < (ws ++ [wk]).sum) := by
  obtain ⟨hal, hn⟩ := parallel_build u v hu hv huv wk ws
  have hun : 0 ≤ u ∧ u < (build ((ws ++ [wk]).map (Op.edge u v))).numNodes := by
    rw [hn]; exact ⟨hu.1, by omega⟩
  have hvn : 0 ≤ v ∧ v < (build ((ws ++ [wk]).map (Op.edge u v))).numNodes := by
    rw [hn]; exact ⟨hv.1, by omega⟩
  have hcap : ∀ x y, capacity (build ((ws ++ [wk]).map (Op.edge u v))).adjacencyList x y
      = if x = u ∧ y = v then wk else 0 := by
    intro x y
    rw [hal]
    exact parallel_capacity u v huv ws wk x y
  have hwk := hws wk (by simp)
  have hids : idsOk ((ws ++ [wk]).map (Op.edge u v)) := by
    intro op hop i hi
    obtain ⟨w, _, rfl⟩ := List.mem_map.mp hop
    simp only [Op.ids, List.mem_cons, List.mem_singleton, List.not_mem_nil, or_false] at hi
    rcases hi with rfl | rfl
    · exact hu
    · exact hv
  have hnn : weightsNonneg ((ws ++ [wk]).map (Op.edge u v)) := by
    intro op hop w hw
    obtain ⟨w2, hw2, rfl⟩ := List.mem_map.mp hop
    simp only [Op.weights, List.mem_singleton] at hw
    subst hw
    exact le_of_lt (hws w hw2).1
  have hwi : weightsInt ((ws ++ [wk]).map (Op.edge u v)) := by
    intro op hop w hw
    obtain ⟨w2, hw2, rfl⟩ := List.mem_map.mp hop
    simp only [Op.weights, List.mem_singleton] at hw
    subst hw
    have := hws w hw2
    exact ⟨by omega, this.2⟩
  have htot : capTotal (build ((ws ++ [wk]).map (Op.edge u v))).adjacencyList
      (build ((ws ++ [wk]).map (Op.edge u v))).numNodes ≤ INT_MAX := by
    rw [parallel_capTotal _ u v wk _ hun hvn hcap]
    exact hwk.2
  obtain ⟨h1, h2⟩ := maxFlow_flowInv ord hord _ u v hids hnn hwi htot hun hvn huv
  refine ⟨h1, fun fuel res hres => ?_⟩
  obtain ⟨st, parent, V, hres2, hst, hbfs, hsink⟩ := h2 fuel res hres
  have heq := flow_eq_cut _ _ u v st hst hun parent V hbfs hsink
  rw [parallel_cut _ u v wk _ hun hvn hcap _ (by simpa using hbfs.src)
    (by simpa using hsink)] at heq
  have hval : res.1 = wk := by rw [hres2, ← heq]
  refine ⟨hval, fun hne => ?_⟩
  rw [hval, List.sum_append]
  have hpos : 0 < ws.sum := by
    cases ws with
    | nil => exact absurd rfl hne
    | cons a rest =>
      have ha := (hws a (by simp)).1
      have hr : 0 ≤ rest.sum :=
        List.sum_nonneg (fun x hx => le_of_lt (hws x (by simp [hx])).1)
      simp only [List.sum_cons]
      omega
  simp
  omega

/-- C6, for three edges `3 -> 1` of weights 10, 5 and 2 inserted in that order. -/
theorem maxFlow_parallel_edges_witness :
    (∃ N, ∀ fuel, N ≤ fuel →
      (maxFlow id (build (([10, 5] ++ [2]).map (Op.edge 3 1))) 3 1 fuel).isSome = true) ∧
    ∀ fuel res, maxFlow id (build (([10, 5] ++ [2]).map (Op.edge 3 1))) 3 1 fuel = some res →
      res.1 = 2 ∧ (([10, 5] : List Int) ≠ [] → res.1 < (([10, 5] : List Int) ++ [2]).sum) :=
  maxFlow_parallel_edges id (fun _ => List.Perm.refl _) 3 1 [10, 5] 2 (by decide) (by decide)
    (by decide) (by decide)

/-! ## Isolated nodes -/

theorem adjOf_pushEdge_eq (al : AdjList) (u : Int) (e : Int × Int) :
    adjOf (pushEdge al u e) u = adjOf al u ++ [e] := by
  induction al with
  | nil => simp [pushEdge, adjOf]
  | cons x rest ih =>
    simp only [pushEdge]
    by_cases hx : x.1 = u
    · simp [hx, adjOf]
    · simp [hx, adjOf, ih]

theorem adjOf_pushEdge_ne (al : AdjList) (u x : Int) (e : Int × Int) (h : x ≠ u) :
    adjOf (pushEdge al u e) x = adjOf al x := by
  induction al with
  | nil => simp [pushEdge, adjOf, Ne.symm h]
  | cons y rest ih =>
    simp only [pushEdge]
    by_cases hy : y.1 = u
    · have hyx : ¬ y.1 = x := fun h2 => h (h2.symm.trans hy)
      rw [if_pos hy]
      simp only [adjOf, if_neg hyx]
    · rw [if_neg hy]
      by_cases hyx : y.1 = x
      · simp only [adjOf, if_pos hyx]
      · simp only [adjOf, if_neg hyx, ih]

theorem mem_rows_pushEdge (al : AdjList) (u : Int) (e e2 : Int × Int) :
    (∃ x ∈ pushEdge al u e, e2 ∈ x.2) ↔ (e2 = e ∨ ∃ x ∈ al, e2 ∈ x.2) := by
  induction al with
  | nil => simp [pushEdge]
  | cons y rest ih =>
    simp only [pushEdge]
    by_cases hy : y.1 = u
    · simp only [hy, if_true, List.exists_mem_cons_iff, List.mem_append, List.mem_singleton]
      tauto
    · simp only [hy, if_false, List.exists_mem_cons_iff, ih]
      tauto

theorem hasKey_of_adjOf_ne_nil (al : AdjList) (u : Int) (h : adjOf al u ≠ []) :
    hasKey al u = true := by
  by_contra hk
  apply h
  apply adjOf_eq_nil_of_not_mem
  intro hm
  exact hk ((hasKey_iff al u).mpr hm)

theorem isNodeIsolated_eq_true (g : GraphAnalysisTool) (id : Int) :
    isNodeIsolated g id = true ↔
      ((hasKey g.adjacencyList id = false ∨ adjOf g.adjacencyList id = []) ∧
        ∀ x ∈ g.adjacencyList, ∀ e ∈ x.2, e.1 ≠ id) := by
  unfold isNodeIsolated
  by_cases hc : hasKey g.adjacencyList id = false ∨ adjOf g.adjacencyList id = []
  · have hc2 : (!hasKey g.adjacencyList id || (adjOf g.adjacencyList id).isEmpty) = true := by
      rcases hc with h | h
      · simp [h]
      · simp [h]
    rw [if_pos hc2]
    simp only [Bool.not_eq_true', List.any_eq_false, List.any_eq_true, beq_iff_eq, not_exists,
      not_and, hc, true_and]
  · have hc2 : ¬ (!hasKey g.adjacencyList id || (adjOf g.adjacencyList id).isEmpty) = true := by
      intro h
      apply hc
      simp only [Bool.or_eq_true, Bool.not_eq_true', List.isEmpty_iff] at h
      exact h
    rw [if_neg hc2]
    simp [hc]

theorem isNodeIsolated_false_of_out (g : GraphAnalysisTool) (u : Int)
    (h : adjOf g.adjacencyList u ≠ []) : isNodeIsolated g u = false := by
  cases hi : isNodeIsolated g u with
  | false => rfl
  | true =>
    rcases ((isNodeIsolated_eq_true g u).mp hi).1 with h1 | h1
    · rw [hasKey_of_adjOf_ne_nil _ _ h] at h1
      cases h1
    · exact absurd h1 h

theorem isNodeIsolated_false_of_in (g : GraphAnalysisTool) (v : Int)
    (h : ∃ x ∈ g.adjacencyList, ∃ e ∈ x.2, e.1 = v) : isNodeIsolated g v = false := by
  cases hi : isNodeIsolated g v with
  | false => rfl
  | true =>
    obtain ⟨x, hx, e, he, hev⟩ := h
    exact absurd hev (((isNodeIsolated_eq_true g v).mp hi).2 x hx e he)

theorem rows_addNode (g : GraphAnalysisTool) (node : Int) (e : Int × Int) :
    (∃ x ∈ (addNode g node).adjacencyList, e ∈ x.2) ↔ ∃ x ∈ g.adjacencyList, e ∈ x.2 := by
  simp only [addNode]
  split
  · rfl
  · simp only [List.mem_append, List.mem_singleton]
    constructor
    · rintro ⟨x, hx | hx, he⟩
      · exact ⟨x, hx, he⟩
      · subst hx
        simp at he
    · rintro ⟨x, hx, he⟩
      exact ⟨x, Or.inl hx, he⟩

theorem adjOf_addNode (g : GraphAnalysisTool) (node x : Int) :
    adjOf (addNode g node).adjacencyList x = adjOf g.adjacencyList x := by
  simp only [addNode]
  split
  · rfl
  · exact adjOf_append_empty _ _ _

theorem rows_addEdge (g : GraphAnalysisTool) (s d w : Int) (e : Int × Int) :
    (∃ x ∈ (addEdge g s d w).adjacencyList, e ∈ x.2) ↔
      (e = (d, w) ∨ ∃ x ∈ g.adjacencyList, e ∈ x.2) := by
  simp only [addEdge]
  rw [mem_rows_pushEdge, rows_addNode, rows_addNode]

theorem adjOf_addEdge_src (g : GraphAnalysisTool) (s d w : Int) :
    adjOf (addEdge g s d w).adjacencyList s = adjOf g.adjacencyList s ++ [(d, w)] := by
  simp only [addEdge]
  rw [adjOf_pushEdge_eq, adjOf_addNode, adjOf_addNode]

theorem adjOf_addEdge_ne (g : GraphAnalysisTool) (s d w x : Int) (h : x ≠ s) :
    adjOf (addEdge g s d w).adjacencyList x = adjOf g.adjacencyList x := by
  simp only [addEdge]
  rw [adjOf_pushEdge_ne _ _ _ _ h, adjOf_addNode, adjOf_addNode]

theorem out_applyOp (g : GraphAnalysisTool) (op : Op) (u : Int)
    (h : adjOf g.adjacencyList u ≠ []) : adjOf (applyOp g op).adjacencyList u ≠ [] := by
  cases op with
  | node id => simpa only [applyOp, adjOf_addNode] using h
  | edge s d w =>
    simp only [applyOp]
    by_cases hs : u = s
    · subst hs
      rw [adjOf_addEdge_src]
      simp
    · rw [adjOf_addEdge_ne _ _ _ _ _ hs]
      exact h

theorem in_applyOp (g : GraphAnalysisTool) (op : Op) (v : Int)
    (h : ∃ x ∈ g.adjacencyList, ∃ e ∈ x.2, e.1 = v) :
    ∃ x ∈ (applyOp g op).adjacencyList, ∃ e ∈ x.2, e.1 = v := by
  obtain ⟨x, hx, e, he, hev⟩ := h
  cases op with
  | node id =>
    obtain ⟨y, hy, hey⟩ := (rows_addNode g id e).mpr ⟨x, hx, he⟩
    exact ⟨y, hy, e, hey, hev⟩
  | edge s d w =>
    obtain ⟨y, hy, hey⟩ := (rows_addEdge g s d w e).mpr (Or.inr ⟨x, hx, he⟩)
    exact ⟨y, hy, e, hey, hev⟩

theorem out_foldl (ops : List Op) : ∀ (g : GraphAnalysisTool) (u : Int),
    adjOf g.adjacencyList u ≠ [] → adjOf (ops.foldl applyOp g).adjacencyList u ≠ [] := by
  induction ops with
  | nil => intro g u h; exact h
  | cons op rest ih =>
    intro g u h
    exact ih (applyOp g op) u (out_applyOp g op u h)

theorem in_foldl (ops : List Op) : ∀ (g : GraphAnalysisTool) (v : Int),
    (∃ x ∈ g.adjacencyList, ∃ e ∈ x.2, e.1 = v) →
    ∃ x ∈ (ops.foldl applyOp g).adjacencyList, ∃ e ∈ x.2, e.1 = v := by
  induction ops with
  | nil => intro g v h; exact h
  | cons op rest ih =>
    intro g v h
    exact ih (applyOp g op) v (in_applyOp g op v h)

theorem mem_nodes_addNode (g : GraphAnalysisTool) (node x : Int) :
    x ∈ (addNode g node).nodes ↔ x = node ∨ x ∈ g.nodes := by
  simp only [addNode]
  split
  · rename_i h
    constructor
    · exact Or.inr
    · rintro (h1 | h1)
      · exact h1 ▸ h
      · exact h1
  · simp only [List.mem_append, List.mem_singleton]
    tauto

/-- C19: `isNodeIsolated(id)` is true exactly when the entry of `id` is absent or empty and no
edge of the table has `id` as its target; a node that has a self-loop is not isolated, as
node 8 of the demo whose only edge is `(8, 8, 1)`. -/
theorem isNodeIsolated_iff (g : GraphAnalysisTool) (id : Int) :
    (isNodeIsolated g id = true ↔
      ((hasKey g.adjacencyList id = false ∨ adjOf g.adjacencyList id = []) ∧
        ∀ x ∈ g.adjacencyList, ∀ e ∈ x.2, e.1 ≠ id)) ∧
    (∀ w : Int, isNodeIsolated (addEdge g id id w) id = false) ∧
    isNodeIsolated (build [Op.edge 8 8 1]) 8 = false := by
  refine ⟨isNodeIsolated_eq_true g id, ?_, by decide⟩
  intro w
  apply isNodeIsolated_false_of_out
  rw [adjOf_addEdge_src]
  simp

/-- C20: a node registered by `addNode` on a graph in which no edge touches it is reported
isolated and listed by `getIsolatedNodes`; after `addEdge(u, v, w)` neither `u` nor `v` is
reported isolated or listed, in every state reached by further `addNode`/`addEdge` calls. -/
theorem isolated_until_edge (g : GraphAnalysisTool) (u v w : Int) :
    (∀ id : Int, adjOf g.adjacencyList id = [] →
      (∀ x ∈ g.adjacencyList, ∀ e ∈ x.2, e.1 ≠ id) →
      isNodeIsolated (addNode g id) id = true ∧
      ∀ nodeOrd, IsNodeOrder nodeOrd → id ∈ getIsolatedNodes nodeOrd (addNode g id)) ∧
    ∀ ops : List Op,
      isNodeIsolated (ops.foldl applyOp (addEdge g u v w)) u = false ∧
      isNodeIsolated (ops.foldl applyOp (addEdge g u v w)) v = false ∧
      ∀ nodeOrd : List Int → List Int,
        u ∉ getIsolatedNodes nodeOrd (ops.foldl applyOp (addEdge g u v w)) ∧
        v ∉ getIsolatedNodes nodeOrd (ops.foldl applyOp (addEdge g u v w)) := by
  constructor
  · intro id hout hin
    have hiso : isNodeIsolated (addNode g id) id = true := by
      rw [isNodeIsolated_eq_true]
      refine ⟨Or.inr (by rw [adjOf_addNode]; exact hout), ?_⟩
      intro x hx e he
      obtain ⟨y, hy, hey⟩ := (rows_addNode g id e).mp ⟨x, hx, he⟩
      exact hin y hy e hey
    refine ⟨hiso, ?_⟩
    intro nodeOrd hord
    unfold getIsolatedNodes
    rw [List.mem_filter]
    refine ⟨(hord _).mem_iff.mpr ((mem_nodes_addNode g id id).mpr (Or.inl rfl)), hiso⟩
  · intro ops
    have hu : isNodeIsolated (ops.foldl applyOp (addEdge g u v w)) u = false := by
      apply isNodeIsolated_false_of_out
      apply out_foldl
      rw [adjOf_addEdge_src]
      simp
    have hv : isNodeIsolated (ops.foldl applyOp (addEdge g u v w)) v = false := by
      apply isNodeIsolated_false_of_in
      apply in_foldl
      obtain ⟨y, hy, hey⟩ := (rows_addEdge g u v w (v, w)).mpr (Or.inl rfl)
      exact ⟨y, hy, (v, w), hey, rfl⟩
    refine ⟨hu, hv, ?_⟩
    intro nodeOrd
    unfold getIsolatedNodes
    simp only [List.mem_filter, not_and, Bool.not_eq_true]
    exact ⟨fun _ => hu, fun _ => hv⟩

theorem isolated_until_edge_witness :
    isNodeIsolated (addNode GraphAnalysisTool.empty 5) 5 = true ∧
    isNodeIsolated (addEdge (addNode GraphAnalysisTool.empty 5) 5 6 2) 5 = false ∧
    isNodeIsolated (addEdge (addNode GraphAnalysisTool.empty 5) 5 6 2) 6 = false :=
  ⟨((isolated_until_edge GraphAnalysisTool.empty 5 6 2).1 5 rfl (by decide)).1,
   ((isolated_until_edge (addNode GraphAnalysisTool.empty 5) 5 6 2).2 []).1,
   ((isolated_until_edge (addNode GraphAnalysisTool.empty 5) 5 6 2).2 []).2.1⟩

/-! ## The registry of built graphs -/

theorem keys_addNode (g : GraphAnalysisTool) (node : Int) :
    (addNode g node).adjacencyList.map Prod.fst =
      if node ∈ g.adjacencyList.map Prod.fst then g.adjacencyList.map Prod.fst
      else g.adjacencyList.map Prod.fst ++ [node] := by
  simp only [addNode]
  by_cases h : hasKey g.adjacencyList node = true
  · rw [if_pos h, if_pos ((hasKey_iff _ _).mp h)]
  · rw [if_neg h, if_neg (fun hm => h ((hasKey_iff _ _).mpr hm))]
    simp

theorem mem_keys_addNode (g : GraphAnalysisTool) (node x : Int) :
    x ∈ (addNode g node).adjacencyList.map Prod.fst ↔
      (x = node ∨ x ∈ g.adjacencyList.map Prod.fst) := by
  rw [keys_addNode]
  split
  · rename_i h
    constructor
    · exact Or.inr
    · rintro (h1 | h1)
      · exact h1 ▸ h
      · exact h1
  · simp only [List.mem_append, List.mem_singleton]
    tauto

theorem nodup_nodes_addNode (g : GraphAnalysisTool) (node : Int) (h : g.nodes.Nodup) :
    (addNode g node).nodes.Nodup := by
  simp only [addNode]
  split
  · exact h
  · rename_i hm
    exact List.Nodup.append h (by simp) (by simpa using hm)

theorem storeOK_empty : StoreOK GraphAnalysisTool.empty := by
  refine ⟨?_, ?_, ?_, ?_, ?_⟩ <;> simp [GraphAnalysisTool.empty]

theorem storeOK_addNode (g : GraphAnalysisTool) (node : Int) (h : StoreOK g) :
    StoreOK (addNode g node) := by
  refine ⟨nodup_nodes_addNode g node h.nodup, keysNodup_addNode g node h.keysNodup, ?_, ?_, ?_⟩
  · intro x hx
    have hk : x.1 ∈ (addNode g node).adjacencyList.map Prod.fst := List.mem_map_of_mem _ hx
    rw [mem_keys_addNode] at hk
    rw [mem_nodes_addNode]
    rcases hk with hk | hk
    · exact Or.inl hk
    · obtain ⟨y, hy, hyx⟩ := List.mem_map.mp hk
      exact Or.inr (hyx ▸ h.keys y hy)
  · intro x hx e he
    obtain ⟨y, hy, hey⟩ := (rows_addNode g node e).mp ⟨x, hx, he⟩
    rw [mem_nodes_addNode]
    exact Or.inr (h.targets y hy e hey)
  · intro v hv
    rw [hasKey_iff, mem_keys_addNode]
    rw [mem_nodes_addNode] at hv
    rcases hv with hv | hv
    · exact Or.inl hv
    · exact Or.inr ((hasKey_iff _ _).mp (h.entries v hv))

theorem nodes_addEdge (g : GraphAnalysisTool) (s d w : Int) :
    (addEdge g s d w).nodes = (addNode (addNode g s) d).nodes := rfl

theorem numNodes_addEdge (g : GraphAnalysisTool) (s d w : Int) :
    (addEdge g s d w).numNodes = (addNode (addNode g s) d).numNodes := rfl

theorem keys_addEdge (g : GraphAnalysisTool) (s d w : Int) :
    (addEdge g s d w).adjacencyList.map Prod.fst =
      (addNode (addNode g s) d).adjacencyList.map Prod.fst := by
  simp only [addEdge]
  rw [keys_pushEdge]
  have : s ∈ (addNode (addNode g s) d).adjacencyList.map Prod.fst := by
    rw [mem_keys_addNode, mem_keys_addNode]
    exact Or.inr (Or.inl rfl)
  rw [if_pos this]

theorem storeOK_addEdge (g : GraphAnalysisTool) (s d w : Int) (h : StoreOK g) :
    StoreOK (addEdge g s d w) := by
  have h2 := storeOK_addNode _ d (storeOK_addNode g s h)
  refine ⟨h2.nodup, ?_, ?_, ?_, ?_⟩
  · rw [keys_addEdge]
    exact h2.keysNodup
  · intro x hx
    have hk : x.1 ∈ (addEdge g s d w).adjacencyList.map Prod.fst := List.mem_map_of_mem _ hx
    rw [keys_addEdge] at hk
    obtain ⟨y, hy, hyx⟩ := List.mem_map.mp hk
    rw [nodes_addEdge]
    exact hyx ▸ h2.keys y hy
  · intro x hx e he
    rw [nodes_addEdge]
    have := (mem_rows_pushEdge (addNode (addNode g s) d).adjacencyList s (d, w) e).mp ⟨x, hx, he⟩
    rcases this with rfl | ⟨y, hy, hey⟩
    · rw [mem_nodes_addNode]
      exact Or.inl rfl
    · exact h2.targets y hy e hey
  · intro v hv
    rw [hasKey_iff, keys_addEdge]
    exact (hasKey_iff _ _).mp (h2.entries v hv)

theorem storeOK_applyOp (g : GraphAnalysisTool) (op : Op) (h : StoreOK g) :
    StoreOK (applyOp g op) := by
  cases op with
  | node id => exact storeOK_addNode g id h
  | edge s d w => exact storeOK_addEdge g s d w h

theorem storeOK_foldl (ops : List Op) : ∀ g : GraphAnalysisTool, StoreOK g →
    StoreOK (ops.foldl applyOp g) := by
  induction ops with
  | nil => intro g h; exact h
  | cons op rest ih => intro g h; exact ih _ (storeOK_applyOp g op h)

theorem build_storeOK (ops : List Op) : StoreOK (build ops) :=
  storeOK_foldl ops _ storeOK_empty

theorem rangeOK_addNode (g : GraphAnalysisTool) (node : Int) (h : RangeOK g)
    (h0 : 0 ≤ node) (h1 : node < INT_MAX) : RangeOK (addNode g node) := by
  have hb := h.bound
  unfold INT_MAX at h1 hb
  have ha : add32 node 1 = node + 1 := by
    apply add32_of_range
    · omega
    · unfold INT_MAX; omega
  have hn : (addNode g node).numNodes = max g.numNodes (node + 1) := by
    simp only [addNode, ha]
  refine ⟨?_, ?_, ?_⟩
  · intro v hv
    rw [mem_nodes_addNode] at hv
    rcases hv with hv | hv
    · omega
    · exact h.lo v hv
  · intro v hv
    rw [mem_nodes_addNode] at hv
    rw [hn]
    rcases hv with hv | hv
    · have := le_max_right g.numNodes (node + 1)
      omega
    · have := le_max_left g.numNodes (node + 1)
      have := h.hi v hv
      omega
  · rw [hn]
    unfold INT_MAX
    apply max_le hb
    omega

theorem rangeOK_applyOp (g : GraphAnalysisTool) (op : Op) (h : RangeOK g)
    (hids : ∀ i ∈ op.ids, 0 ≤ i ∧ i < INT_MAX) : RangeOK (applyOp g op) := by
  cases op with
  | node id =>
    have := hids id (by simp [Op.ids])
    exact rangeOK_addNode g id h this.1 this.2
  | edge s d w =>
    have hs := hids s (by simp [Op.ids])
    have hd := hids d (by simp [Op.ids])
    have h2 := rangeOK_addNode _ d (rangeOK_addNode g s h hs.1 hs.2) hd.1 hd.2
    exact ⟨h2.lo, h2.hi, h2.bound⟩

theorem rangeOK_foldl (ops : List Op) (hids : idsOk ops) : ∀ g : GraphAnalysisTool,
    RangeOK g → RangeOK (ops.foldl applyOp g) := by
  induction ops with
  | nil => intro g h; exact h
  | cons op rest ih =>
    intro g h
    apply ih (fun o ho => hids o (List.mem_cons_of_mem _ ho))
    exact rangeOK_applyOp g op h (hids op (List.mem_cons_self _ _))

theorem build_rangeOK (ops : List Op) (hids : idsOk ops) : RangeOK (build ops) := by
  apply rangeOK_foldl ops hids
  refine ⟨?_, ?_, ?_⟩ <;> simp [GraphAnalysisTool.empty, INT_MAX]

/-! ## Community detection: the traversal -/

theorem dReach_trans (al : AdjList) {u x v : Int} (h1 : DReach al u x) (h2 : DReach al x v) :
    DReach al u v := by
  induction h2 with
  | refl => exact h1
  | step _ he ih => exact DReach.step ih he

theorem dReach_edge (al : AdjList) {u v : Int} (h : HasEdge al u v) : DReach al u v :=
  DReach.step (DReach.refl u) h

theorem dReach_cases (al : AdjList) {u v : Int} (h : DReach al u v) :
    v = u ∨ ∃ t, HasEdge al t v := by
  cases h with
  | refl => exact Or.inl rfl
  | step _ he => exact Or.inr ⟨_, he⟩

theorem setInsert_of_not_mem (s : List Int) (x : Int) (h : x ∉ s) : setInsert s x = s ++ [x] := by
  unfold setInsert
  rw [if_neg h]

theorem dfsExt_nil (al : AdjList) (N : List Int) (root : Int) (st : DfsState) :
    DfsExt al N root st st [] := by
  refine ⟨by simp, by simp, List.nodup_nil, ?_, ?_, ?_, ?_⟩ <;> simp

theorem dfsExt_nodup (al : AdjList) (N : List Int) (root : Int) (st st1 : DfsState)
    (D : List Int) (h : DfsExt al N root st st1 D) (hnd : st.visited.Nodup) :
    st1.visited.Nodup := by
  rw [h.vis]
  exact List.Nodup.append hnd h.nodupD (fun x hx hd => h.fresh x hd hx)

theorem dfsExt_trans (al : AdjList) (N : List Int) (r1 root : Int) (st s1 st1 : DfsState)
    (D1 D2 : List Int) (h1 : DfsExt al N r1 st s1 D1) (h2 : DfsExt al N root s1 st1 D2)
    (hr : ∀ x ∈ D1, DReach al root x) : DfsExt al N root st st1 (D1 ++ D2) := by
  refine ⟨?_, ?_, ?_, ?_, ?_, ?_, ?_⟩
  · rw [h2.comp, h1.comp, List.append_assoc]
  · rw [h2.vis, h1.vis, List.append_assoc]
  · refine List.Nodup.append h1.nodupD h2.nodupD ?_
    intro x hx1 hx2
    apply h2.fresh x hx2
    rw [h1.vis]
    exact List.mem_append_right _ hx1
  · intro x hx
    rcases List.mem_append.mp hx with hx | hx
    · exact h1.fresh x hx
    · intro hv
      apply h2.fresh x hx
      rw [h1.vis]
      exact List.mem_append_left _ hv
  · intro x hx
    rcases List.mem_append.mp hx with hx | hx
    · exact h1.inN x hx
    · exact h2.inN x hx
  · intro x hx
    rcases List.mem_append.mp hx with hx | hx
    · exact hr x hx
    · exact h2.sound x hx
  · intro x hx y hy
    rcases List.mem_append.mp hx with hx | hx
    · rw [h2.vis]
      exact List.mem_append_left _ (h1.closed x hx y hy)
    · exact h2.closed x hx y hy

theorem dfsEdges_ext (al : AdjList) (N : List Int)
    (call : Int → DfsState → Option DfsState)
    (hcall : ∀ next s s1, call next s = some s1 → s.visited.Nodup → next ∈ N →
      next ∉ s.visited → ∃ D, DfsExt al N next s s1 (next :: D))
    (hN : ∀ u v, HasEdge al u v → v ∈ N) (root : Int) :
    ∀ (es : List (Int × Int)) (st st1 : DfsState), dfsEdges call es st = some st1 →
      st.visited.Nodup → (∀ e ∈ es, HasEdge al root e.1) →
      ∃ D, DfsExt al N root st st1 D ∧ ∀ e ∈ es, e.1 ∈ st1.visited := by
  intro es
  induction es with
  | nil =>
    intro st st1 h _ _
    simp only [dfsEdges, Option.some.injEq] at h
    subst h
    exact ⟨[], dfsExt_nil al N root st, by simp⟩
  | cons e rest ih =>
    intro st st1 h hnd hes
    simp only [dfsEdges] at h
    have hrest : ∀ e2 ∈ rest, HasEdge al root e2.1 :=
      fun e2 he2 => hes e2 (List.mem_cons_of_mem _ he2)
    by_cases hv : e.1 ∈ st.visited
    · rw [if_pos hv] at h
      obtain ⟨D, hD, ht⟩ := ih st st1 h hnd hrest
      refine ⟨D, hD, ?_⟩
      intro e2 he2
      rcases List.mem_cons.mp he2 with rfl | he2
      · rw [hD.vis]
        exact List.mem_append_left _ hv
      · exact ht e2 he2
    · rw [if_neg hv] at h
      cases hc : call e.1 st with
      | none => rw [hc] at h; cases h
      | some s1 =>
        rw [hc] at h
        simp only at h
        have he := hes e (List.mem_cons_self _ _)
        obtain ⟨D1, hD1⟩ := hcall e.1 st s1 hc hnd (hN root e.1 he) hv
        have hnd1 := dfsExt_nodup al N e.1 st s1 _ hD1 hnd
        obtain ⟨D2, hD2, ht⟩ := ih s1 st1 h hnd1 hrest
        refine ⟨(e.1 :: D1) ++ D2, dfsExt_trans al N e.1 root st s1 st1 _ _ hD1 hD2 ?_, ?_⟩
        · intro x hx
          exact dReach_trans al (dReach_edge al he) (hD1.sound x hx)
        · intro e2 he2
          rcases List.mem_cons.mp he2 with rfl | he2
          · rw [hD2.vis, hD1.vis]
            simp
          · exact ht e2 he2

theorem dfsUtil_ext (al : AdjList) (N : List Int) (hN : ∀ u v, HasEdge al u v → v ∈ N) :
    ∀ (fuel : Nat) (node : Int) (st st1 : DfsState), dfsUtil al fuel node st = some st1 →
      st.visited.Nodup → node ∈ N → node ∉ st.visited →
      ∃ D, DfsExt al N node st st1 (node :: D) := by
  intro fuel
  induction fuel with
  | zero => intro node st st1 h; simp [dfsUtil] at h
  | succ fuel ih =>
    intro node st st1 h hnd hin hv
    simp only [dfsUtil] at h
    rw [setInsert_of_not_mem _ _ hv] at h
    have hnd0 : (st.visited ++ [node]).Nodup :=
      List.Nodup.append hnd (by simp) (by simpa using hv)
    obtain ⟨D, hD, ht⟩ := dfsEdges_ext al N (fun next s => dfsUtil al fuel next s)
      (fun next s s1 hc => ih next s s1 hc) hN node (adjOf al node) _ st1 h hnd0
      (fun e he => ⟨e, he, rfl⟩)
    have hc := hD.comp
    have hvis := hD.vis
    simp only at hc hvis
    refine ⟨D, ?_, ?_, ?_, ?_, ?_, ?_, ?_⟩
    · rw [hc, List.append_assoc]; rfl
    · rw [hvis, List.append_assoc]; rfl
    · refine List.nodup_cons.mpr ⟨?_, hD.nodupD⟩
      intro hm
      exact hD.fresh node hm (by simp)
    · intro x hx
      rcases List.mem_cons.mp hx with rfl | hx
      · exact hv
      · intro hm
        exact hD.fresh x hx (List.mem_append_left _ hm)
    · intro x hx
      rcases List.mem_cons.mp hx with rfl | hx
      · exact hin
      · exact hD.inN x hx
    · intro x hx
      rcases List.mem_cons.mp hx with rfl | hx
      · exact DReach.refl _
      · exact hD.sound x hx
    · intro x hx y hy
      rcases List.mem_cons.mp hx with rfl | hx
      · obtain ⟨e, he, hey⟩ := hy
        exact hey ▸ ht e he
      · exact hD.closed x hx y hy

theorem visited_room (N V : List Int) (node : Int) (hnd : V.Nodup) (hV : ∀ x ∈ V, x ∈ N)
    (hin : node ∈ N) (hv : node ∉ V) : V.length + 1 ≤ N.length := by
  have hnd0 : (V ++ [node]).Nodup := List.Nodup.append hnd (by simp) (by simpa using hv)
  have hsub : (V ++ [node]) ⊆ N := by
    intro x hx
    rcases List.mem_append.mp hx with hx | hx
    · exact hV x hx
    · simp only [List.mem_singleton] at hx
      exact hx ▸ hin
  have := (List.subperm_of_subset hnd0 hsub).length_le
  simpa using this

theorem dfsEdges_some (al : AdjList) (N : List Int) (fuel : Nat)
    (call : Int → DfsState → Option DfsState)
    (hcall : ∀ next s s1, call next s = some s1 → s.visited.Nodup → next ∈ N →
      next ∉ s.visited → ∃ D, DfsExt al N next s s1 (next :: D))
    (hterm : ∀ next s, s.visited.Nodup → (∀ x ∈ s.visited, x ∈ N) →
      N.length ≤ fuel + s.visited.length → next ∈ N → next ∉ s.visited →
      (call next s).isSome = true)
    (hN : ∀ u v, HasEdge al u v → v ∈ N) (root : Int) :
    ∀ (es : List (Int × Int)) (st : DfsState), st.visited.Nodup →
      (∀ x ∈ st.visited, x ∈ N) → N.length ≤ fuel + st.visited.length →
      (∀ e ∈ es, HasEdge al root e.1) → (dfsEdges call es st).isSome = true := by
  intro es
  induction es with
  | nil => intro st _ _ _ _; simp [dfsEdges]
  | cons e rest ih =>
    intro st hnd hV hlen hes
    simp only [dfsEdges]
    have hrest : ∀ e2 ∈ rest, HasEdge al root e2.1 :=
      fun e2 he2 => hes e2 (List.mem_cons_of_mem _ he2)
    by_cases hv : e.1 ∈ st.visited
    · rw [if_pos hv]
      exact ih st hnd hV hlen hrest
    · rw [if_neg hv]
      have he := hes e (List.mem_cons_self _ _)
      have hs := hterm e.1 st hnd hV hlen (hN root e.1 he) hv
      cases hc : call e.1 st with
      | none => rw [hc] at hs; cases hs
      | some s1 =>
        simp only
        obtain ⟨D1, hD1⟩ := hcall e.1 st s1 hc hnd (hN root e.1 he) hv
        apply ih s1 (dfsExt_nodup al N e.1 st s1 _ hD1 hnd)
        · intro x hx
          rw [hD1.vis] at hx
          rcases List.mem_append.mp hx with hx | hx
          · exact hV x hx
          · exact hD1.inN x hx
        · rw [hD1.vis, List.length_append]
          omega
        · exact hrest

theorem dfsUtil_some (al : AdjList) (N : List Int) (hN : ∀ u v, HasEdge al u v → v ∈ N) :
    ∀ (fuel : Nat) (node : Int) (st : DfsState), st.visited.Nodup →
      (∀ x ∈ st.visited, x ∈ N) → N.length ≤ fuel + st.visited.length → node ∈ N →
      node ∉ st.visited → (dfsUtil al fuel node st).isSome = true := by
  intro fuel
  induction fuel with
  | zero =>
    intro node st hnd hV hlen hin hv
    have := visited_room N st.visited node hnd hV hin hv
    omega
  | succ fuel ih =>
    intro node st hnd hV hlen hin hv
    simp only [dfsUtil]
    rw [setInsert_of_not_mem _ _ hv]
    apply dfsEdges_some al N fuel (fun next s => dfsUtil al fuel next s)
      (fun next s s1 hc => dfsUtil_ext al N hN fuel next s s1 hc)
      (fun next s h1 h2 h3 h4 h5 => ih next s h1 h2 h3 h4 h5) hN node
    · exact List.Nodup.append hnd (by simp) (by simpa using hv)
    · intro x hx
      rcases List.mem_append.mp hx with hx | hx
      · exact hV x hx
      · simp only [List.mem_singleton] at hx
        exact hx ▸ hin
    · simp only [List.length_append, List.length_singleton]
      omega
    · exact fun e he => ⟨e, he, rfl⟩

/-! ## Community detection: the component list -/

theorem compsOK_append (al : AdjList) : ∀ (cs ds : List (List Int)) (W : List Int),
    CompsOK al W (cs ++ ds) ↔ (CompsOK al W cs ∧ CompsOK al (W ++ cs.flatten) ds) := by
  intro cs
  induction cs with
  | nil => intro ds W; simp [CompsOK]
  | cons c cs ih =>
    intro ds W
    show (_ ∧ CompsOK al (W ++ c) (cs ++ ds)) ↔ ((_ ∧ CompsOK al (W ++ c) cs) ∧ _)
    rw [ih ds (W ++ c), List.flatten_cons, List.append_assoc, and_assoc]

theorem compsOK_split (al : AdjList) (pre : List (List Int)) (W c : List Int)
    (post : List (List Int)) (h : CompsOK al W (pre ++ c :: post)) :
    ∃ first rest, c = first :: rest ∧
      ∀ x, x ∈ c ↔ (DReach al first x ∧ x ∉ W ∧ ∀ c2 ∈ pre, x ∉ c2) := by
  rw [compsOK_append] at h
  obtain ⟨first, rest, hc, hx⟩ := h.2.1
  refine ⟨first, rest, hc, ?_⟩
  intro x
  rw [hx x]
  simp only [List.mem_append, List.mem_flatten, not_or, not_exists, not_and]

theorem dReach_closed (al : AdjList) (S : List Int)
    (hS : ∀ x ∈ S, ∀ y, HasEdge al x y → y ∈ S) {u v : Int} (h : DReach al u v)
    (hu : u ∈ S) : v ∈ S := by
  induction h with
  | refl => exact hu
  | step _ he ih => exact hS _ ih _ he

theorem dReach_of_no_out (al : AdjList) (i : Int) (hi : adjOf al i = []) {x : Int}
    (h : DReach al i x) : x = i := by
  induction h with
  | refl => rfl
  | step _ he ih =>
    subst ih
    obtain ⟨e, hemem, _⟩ := he
    rw [hi] at hemem
    cases hemem

theorem compsOK_singletons (al : AdjList) : ∀ (iso W : List Int),
    (∀ i ∈ iso, adjOf al i = []) → iso.Nodup → (∀ i ∈ iso, i ∉ W) →
    CompsOK al W (iso.map (fun i => [i])) := by
  intro iso
  induction iso with
  | nil => intro W _ _ _; simp [CompsOK]
  | cons i rest ih =>
    intro W hout hnd hW
    simp only [List.map_cons, CompsOK]
    refine ⟨⟨i, [], rfl, ?_⟩, ?_⟩
    · intro x
      simp only [List.mem_singleton]
      constructor
      · rintro rfl
        exact ⟨DReach.refl _, hW _ (List.mem_cons_self _ _)⟩
      · rintro ⟨h, _⟩
        exact dReach_of_no_out al i (hout i (List.mem_cons_self _ _)) h
    · apply ih _ (fun j hj => hout j (List.mem_cons_of_mem _ hj)) (List.nodup_cons.mp hnd).2
      intro j hj hm
      rcases List.mem_append.mp hm with hm | hm
      · exact hW j (List.mem_cons_of_mem _ hj) hm
      · simp only [List.mem_singleton] at hm
        subst hm
        exact (List.nodup_cons.mp hnd).1 hj

theorem flatten_singletons (l : List Int) : (l.map (fun i => [i])).flatten = l := by
  induction l with
  | nil => rfl
  | cons a rest ih => simp [ih]

theorem hasEdge_target (g : GraphAnalysisTool) (hg : StoreOK g) (u v : Int)
    (h : HasEdge g.adjacencyList u v) : v ∈ g.nodes := by
  obtain ⟨e, he, hev⟩ := h
  obtain ⟨x, hx, hex⟩ := adjOf_mem_row _ _ _ he
  exact hev ▸ hg.targets x hx e hex

theorem hasEdge_not_isolated (g : GraphAnalysisTool) (u v : Int)
    (h : HasEdge g.adjacencyList u v) : isNodeIsolated g v = false := by
  obtain ⟨e, he, hev⟩ := h
  obtain ⟨x, hx, hex⟩ := adjOf_mem_row _ _ _ he
  exact isNodeIsolated_false_of_in g v ⟨x, hx, e, hex, hev⟩

theorem adjOf_nil_of_isolated (g : GraphAnalysisTool) (i : Int)
    (h : isNodeIsolated g i = true) : adjOf g.adjacencyList i = [] := by
  rcases ((isNodeIsolated_eq_true g i).mp h).1 with h1 | h1
  · apply adjOf_eq_nil_of_not_mem
    intro hm
    rw [(hasKey_iff _ _).mpr hm] at h1
    cases h1
  · exact h1

theorem commInv_init (g : GraphAnalysisTool) (m : Metrics) :
    CommInv g { communities := [], visited := [], metrics := m } := by
  refine ⟨List.nodup_nil, rfl, ?_, ?_, ?_, ?_, trivial⟩ <;> simp

theorem commInv_step (g : GraphAnalysisTool) (hg : StoreOK g) (fuel : Nat) (st : CommState)
    (node : Int) (d : DfsState) (hinv : CommInv g st) (hin : node ∈ g.nodes)
    (hv : node ∉ st.visited) (hiso : isNodeIsolated g node = false)
    (hd : dfsUtil g.adjacencyList fuel node
        { visited := st.visited, component := [], metrics := st.metrics } = some d) :
    CommInv g { communities := st.communities ++ [d.component], visited := d.visited,
                metrics := d.metrics } ∧
    d.component ≠ [] ∧ node ∈ d.visited ∧ (∀ x ∈ st.visited, x ∈ d.visited) := by
  obtain ⟨D, hD⟩ := dfsUtil_ext g.adjacencyList g.nodes (hasEdge_target g hg) fuel node _ d hd
    hinv.nodupV hin hv
  have hc : d.component = node :: D := by simpa using hD.comp
  have hvis : d.visited = st.visited ++ node :: D := hD.vis
  have hclosed : ∀ x ∈ d.visited, ∀ y, HasEdge g.adjacencyList x y → y ∈ d.visited := by
    intro x hx y hy
    rw [hvis] at hx
    rcases List.mem_append.mp hx with hx | hx
    · rw [hvis]
      exact List.mem_append_left _ (hinv.closedW x hx y hy)
    · exact hD.closed x hx y hy
  refine ⟨⟨?_, ?_, ?_, ?_, hclosed, ?_, ?_⟩, ?_, ?_, ?_⟩
  · exact dfsExt_nodup _ _ _ _ _ _ hD hinv.nodupV
  · simp only [List.flatten_append, List.flatten_singleton, hinv.flat, hc, hvis]
  · intro c hcm
    rcases List.mem_append.mp hcm with hcm | hcm
    · exact hinv.nonempty c hcm
    · simp only [List.mem_singleton] at hcm
      rw [hcm, hc]
      simp
  · intro x hx
    simp only [hvis] at hx
    rcases List.mem_append.mp hx with hx | hx
    · exact hinv.inN x hx
    · exact hD.inN x hx
  · intro x hx
    simp only [hvis] at hx
    rcases List.mem_append.mp hx with hx | hx
    · exact hinv.nonIso x hx
    · rcases dReach_cases _ (hD.sound x hx) with h | ⟨t, ht⟩
      · rw [h]; exact hiso
      · exact hasEdge_not_isolated g t x ht
  · show CompsOK g.adjacencyList [] (st.communities ++ [d.component])
    rw [compsOK_append]
    refine ⟨hinv.comps, ?_⟩
    simp only [CompsOK, and_true, List.nil_append, hinv.flat]
    refine ⟨node, D, hc, ?_⟩
    intro x
    constructor
    · intro hx
      rw [hc] at hx
      exact ⟨hD.sound x hx, hD.fresh x hx⟩
    · rintro ⟨hr, hnv⟩
      have hx : x ∈ d.visited := by
        apply dReach_closed _ d.visited hclosed hr
        rw [hvis]
        simp
      rw [hvis] at hx
      rcases List.mem_append.mp hx with hx | hx
      · exact absurd hx hnv
      · rw [hc]; exact hx
  · rw [hc]; simp
  · rw [hvis]; simp
  · intro x hx
    rw [hvis]
    exact List.mem_append_left _ hx

theorem communitiesLoop_inv (g : GraphAnalysisTool) (hg : StoreOK g) (fuel : Nat) :
    ∀ (rest : List Int) (st st1 : CommState),
      communitiesLoop g fuel rest st = some st1 → CommInv g st → (∀ x ∈ rest, x ∈ g.nodes) →
      CommInv g st1 ∧ (∀ x ∈ st.visited, x ∈ st1.visited) ∧
      (∀ x ∈ rest, isNodeIsolated g x = false → x ∈ st1.visited) := by
  intro rest
  induction rest with
  | nil =>
    intro st st1 h hinv _
    simp only [communitiesLoop, Option.some.injEq] at h
    subst h
    exact ⟨hinv, fun x hx => hx, by simp⟩
  | cons node rest ih =>
    intro st st1 h hinv hN
    simp only [communitiesLoop] at h
    have hrest : ∀ x ∈ rest, x ∈ g.nodes := fun x hx => hN x (List.mem_cons_of_mem _ hx)
    by_cases hc : node ∉ st.visited ∧ isNodeIsolated g node = false
    · rw [if_pos hc] at h
      cases hd : dfsUtil g.adjacencyList fuel node
          { visited := st.visited, component := [], metrics := st.metrics } with
      | none => rw [hd] at h; cases h
      | some d =>
        rw [hd] at h
        simp only at h
        obtain ⟨hinv1, hne, hnode, hmono⟩ :=
          commInv_step g hg fuel st node d hinv (hN node (List.mem_cons_self _ _)) hc.1 hc.2 hd
        rw [if_pos hne] at h
        obtain ⟨hinv2, hmono2, hcov⟩ := ih _ st1 h hinv1 hrest
        refine ⟨hinv2, fun x hx => hmono2 x (hmono x hx), ?_⟩
        intro x hx hxi
        rcases List.mem_cons.mp hx with rfl | hx
        · exact hmono2 _ hnode
        · exact hcov x hx hxi
    · rw [if_neg hc] at h
      obtain ⟨hinv2, hmono2, hcov⟩ := ih st st1 h hinv hrest
      refine ⟨hinv2, hmono2, ?_⟩
      intro x hx hxi
      rcases List.mem_cons.mp hx with rfl | hx
      · by_cases hv : x ∈ st.visited
        · exact hmono2 x hv
        · exact absurd ⟨hv, hxi⟩ hc
      · exact hcov x hx hxi

theorem communitiesLoop_some (g : GraphAnalysisTool) (hg : StoreOK g) (fuel : Nat)
    (hfuel : g.nodes.length ≤ fuel) :
    ∀ (rest : List Int) (st : CommState), CommInv g st → (∀ x ∈ rest, x ∈ g.nodes) →
      (communitiesLoop g fuel rest st).isSome = true := by
  intro rest
  induction rest with
  | nil => intro st _ _; simp [communitiesLoop]
  | cons node rest ih =>
    intro st hinv hN
    simp only [communitiesLoop]
    have hrest : ∀ x ∈ rest, x ∈ g.nodes := fun x hx => hN x (List.mem_cons_of_mem _ hx)
    by_cases hc : node ∉ st.visited ∧ isNodeIsolated g node = false
    · rw [if_pos hc]
      have hs := dfsUtil_some g.adjacencyList g.nodes (hasEdge_target g hg) fuel node
        { visited := st.visited, component := [], metrics := st.metrics } hinv.nodupV hinv.inN
        (by simp; omega)
        (hN node (List.mem_cons_self _ _)) hc.1
      cases hd : dfsUtil g.adjacencyList fuel node
          { visited := st.visited, component := [], metrics := st.metrics } with
      | none => rw [hd] at hs; cases hs
      | some d =>
        simp only
        obtain ⟨hinv1, hne, _, _⟩ :=
          commInv_step g hg fuel st node d hinv (hN node (List.mem_cons_self _ _)) hc.1 hc.2 hd
        rw [if_pos hne]
        exact ih _ hinv1 hrest
    · rw [if_neg hc]
      exact ih st hinv hrest

/-- What `findCommunities` returns on a graph whose registry is consistent: the communities
of the first loop, which partition the non-isolated nodes, then the isolated singletons. -/
theorem findCommunities_spec (nodeOrd : List Int → List Int) (hord : IsNodeOrder nodeOrd)
    (g : GraphAnalysisTool) (hg : StoreOK g) (fuel : Nat)
    (res : List (List Int) × GraphAnalysisTool)
    (h : findCommunities nodeOrd g fuel = some res) :
    ∃ st, communitiesLoop g fuel (nodeOrd g.nodes)
            { communities := [], visited := [],
              metrics := setNodesProcessed g.metrics "Community Detection" 0 } = some st ∧
      res.1 = st.communities ++ (getIsolatedNodes nodeOrd g).map (fun node => [node]) ∧
      CommInv g st ∧
      (∀ x ∈ g.nodes, isNodeIsolated g x = false → x ∈ st.visited) := by
  unfold findCommunities at h
  cases hl : communitiesLoop g fuel (nodeOrd g.nodes)
      { communities := [], visited := [],
        metrics := setNodesProcessed g.metrics "Community Detection" 0 } with
  | none => rw [hl] at h; cases h
  | some st =>
    rw [hl] at h
    simp only [Option.some.injEq] at h
    have hN : ∀ x ∈ nodeOrd g.nodes, x ∈ g.nodes := fun x hx => (hord _).mem_iff.mp hx
    obtain ⟨hinv, _, hcov⟩ := communitiesLoop_inv g hg fuel _ _ st hl (commInv_init g _) hN
    refine ⟨st, rfl, ?_, hinv, fun x hx hi => hcov x ((hord _).mem_iff.mpr hx) hi⟩
    rw [← h]

theorem findCommunities_some (nodeOrd : List Int → List Int) (hord : IsNodeOrder nodeOrd)
    (g : GraphAnalysisTool) (hg : StoreOK g) (fuel : Nat) (hfuel : g.nodes.length ≤ fuel) :
    (findCommunities nodeOrd g fuel).isSome = true := by
  unfold findCommunities
  have hN : ∀ x ∈ nodeOrd g.nodes, x ∈ g.nodes := fun x hx => (hord _).mem_iff.mp hx
  have hs := communitiesLoop_some g hg fuel hfuel _ _
    (commInv_init g (setNodesProcessed g.metrics "Community Detection" 0)) hN
  cases hl : communitiesLoop g fuel (nodeOrd g.nodes)
      { communities := [], visited := [],
        metrics := setNodesProcessed g.metrics "Community Detection" 0 } with
  | none => rw [hl] at hs; cases hs
  | some st => rfl

theorem isolated_facts (nodeOrd : List Int → List Int) (hord : IsNodeOrder nodeOrd)
    (g : GraphAnalysisTool) (hg : StoreOK g) :
    (getIsolatedNodes nodeOrd g).Nodup ∧
    ∀ x, x ∈ getIsolatedNodes nodeOrd g ↔ (x ∈ g.nodes ∧ isNodeIsolated g x = true) := by
  unfold getIsolatedNodes
  refine ⟨List.Nodup.filter _ ((hord _).nodup_iff.mpr hg.nodup), ?_⟩
  intro x
  rw [List.mem_filter, (hord _).mem_iff]

/-! ## Community detection: claims -/

theorem isNodeOrder_id : IsNodeOrder id := fun _ => List.Perm.refl _

/-- C16: for every graph built with `addNode`/`addEdge` and every iteration order of the
registry, `findCommunities` returns, and its components partition the registry: each is
non-empty, and the components laid end to end list every registered node exactly once and
nothing else. -/
theorem findCommunities_partition (nodeOrd : List Int → List Int) (hord : IsNodeOrder nodeOrd)
    (ops : List Op) :
    (∃ N, ∀ fuel, N ≤ fuel → (findCommunities nodeOrd (build ops) fuel).isSome = true) ∧
    ∀ fuel res, findCommunities nodeOrd (build ops) fuel = some res →
      (∀ c ∈ res.1, c ≠ []) ∧ res.1.flatten.Perm (build ops).nodes ∧ (build ops).nodes.Nodup ∧
      ∀ v ∈ (build ops).nodes, res.1.flatten.count v = 1 := by
  have hg := build_storeOK ops
  refine ⟨⟨(build ops).nodes.length, fun fuel hf =>
    findCommunities_some nodeOrd hord _ hg fuel hf⟩, ?_⟩
  intro fuel res h
  obtain ⟨st, _, hres, hinv, hcov⟩ := findCommunities_spec nodeOrd hord _ hg fuel res h
  obtain ⟨hind, himem⟩ := isolated_facts nodeOrd hord _ hg
  have hflat : res.1.flatten = st.visited ++ getIsolatedNodes nodeOrd (build ops) := by
    rw [hres, List.flatten_append, hinv.flat, flatten_singletons]
  have hnd : res.1.flatten.Nodup := by
    rw [hflat]
    refine List.Nodup.append hinv.nodupV hind ?_
    intro x hx hi
    have h1 := hinv.nonIso x hx
    rw [((himem x).mp hi).2] at h1
    cases h1
  have hperm : res.1.flatten.Perm (build ops).nodes := by
    rw [List.perm_ext_iff_of_nodup hnd hg.nodup]
    intro x
    rw [hflat, List.mem_append, himem]
    constructor
    · rintro (hx | hx)
      · exact hinv.inN x hx
      · exact hx.1
    · intro hx
      cases hi : isNodeIsolated (build ops) x with
      | false => exact Or.inl (hcov x hx hi)
      | true => exact Or.inr ⟨hx, rfl⟩
  refine ⟨?_, hperm, hg.nodup, ?_⟩
  · intro c hc
    rw [hres] at hc
    rcases List.mem_append.mp hc with hc | hc
    · exact hinv.nonempty c hc
    · obtain ⟨i, _, hi⟩ := List.mem_map.mp hc
      rw [← hi]
      simp
  · intro v hv
    exact List.count_eq_one_of_mem hnd (hperm.mem_iff.mpr hv)

theorem findCommunities_partition_witness :
    (∃ N, ∀ fuel, N ≤ fuel → (findCommunities id (build sharedTargetOps) fuel).isSome = true) ∧
    ∀ fuel res, findCommunities id (build sharedTargetOps) fuel = some res →
      (∀ c ∈ res.1, c ≠ []) ∧ res.1.flatten.Perm (build sharedTargetOps).nodes ∧
      (build sharedTargetOps).nodes.Nodup ∧
      ∀ v ∈ (build sharedTargetOps).nodes, res.1.flatten.count v = 1 :=
  findCommunities_partition id isNodeOrder_id sharedTargetOps

/-- C17, as amended: for every built graph and every iteration order of the registry,
`findCommunities` returns, and every returned component starts with a node and is, as a
set, exactly the set of nodes reached from that first node along outgoing edges that
belong to no earlier component of the list. -/
theorem findCommunities_components_reach (nodeOrd : List Int → List Int)
    (hord : IsNodeOrder nodeOrd) (ops : List Op) :
    (∃ N, ∀ fuel, N ≤ fuel → (findCommunities nodeOrd (build ops) fuel).isSome = true) ∧
    ∀ fuel res, findCommunities nodeOrd (build ops) fuel = some res →
      ∀ pre c post, res.1 = pre ++ c :: post →
        ∃ first rest, c = first :: rest ∧
          ∀ x, x ∈ c ↔ (DReach (build ops).adjacencyList first x ∧ ∀ c2 ∈ pre, x ∉ c2) := by
  have hg := build_storeOK ops
  refine ⟨⟨(build ops).nodes.length, fun fuel hf =>
    findCommunities_some nodeOrd hord _ hg fuel hf⟩, ?_⟩
  intro fuel res h pre c post hsplit
  obtain ⟨st, _, hres, hinv, _⟩ := findCommunities_spec nodeOrd hord _ hg fuel res h
  obtain ⟨hind, himem⟩ := isolated_facts nodeOrd hord _ hg
  have hall : CompsOK (build ops).adjacencyList [] res.1 := by
    rw [hres, compsOK_append]
    refine ⟨hinv.comps, ?_⟩
    apply compsOK_singletons _ _ _ _ hind
    · intro i hi hm
      rw [List.nil_append, hinv.flat] at hm
      have h1 := hinv.nonIso i hm
      rw [((himem i).mp hi).2] at h1
      cases h1
    · intro i hi
      exact adjOf_nil_of_isolated _ i ((himem i).mp hi).2
  rw [hsplit] at hall
  obtain ⟨first, rest, hc, hx⟩ := compsOK_split _ pre [] c post hall
  refine ⟨first, rest, hc, ?_⟩
  intro x
  rw [hx x]
  simp

theorem findCommunities_components_reach_witness :
    (∃ N, ∀ fuel, N ≤ fuel → (findCommunities id (build sharedTargetOps) fuel).isSome = true) ∧
    ∀ fuel res, findCommunities id (build sharedTargetOps) fuel = some res →
      ∀ pre c post, res.1 = pre ++ c :: post →
        ∃ first rest, c = first :: rest ∧
          ∀ x, x ∈ c ↔
            (DReach (build sharedTargetOps).adjacencyList first x ∧ ∀ c2 ∈ pre, x ∉ c2) :=
  findCommunities_components_reach id isNodeOrder_id sharedTargetOps

/-- C17, as stated, fails: on the graph built by `addEdge(0, 2, 1)`, `addEdge(1, 2, 1)`, with
the registry iterated in insertion order, `findCommunities` returns `[[0, 2], [1]]`; node 2
is reached from 1, the first node of the second component, and is not in that component. -/
theorem findCommunities_reach_counterexample :
    (findCommunities id (build sharedTargetOps) 3).map Prod.fst = some [[0, 2], [1]] ∧
    DReach (build sharedTargetOps).adjacencyList 1 2 ∧
    ¬ (∀ c ∈ [[0, 2], [(1 : Int)]], ∀ first rest, c = first :: rest →
        ∀ x, x ∈ c ↔ DReach (build sharedTargetOps).adjacencyList first x) := by
  have hr : DReach (build sharedTargetOps).adjacencyList 1 2 :=
    dReach_edge _ ⟨(2, 1), by decide, rfl⟩
  refine ⟨by decide, hr, ?_⟩
  intro h
  have := (h [1] (by simp) 1 [] rfl 2).mpr hr
  simp at this

/-- C18: for every built graph and every iteration order of the registry, `findCommunities`
returns, and the list it returns is a list `T` of components followed by one singleton `[i]`
for each node `i` of `getIsolatedNodes()`, in the order of that list.  The components of `T`
are non-empty, hold only registered nodes that are not isolated, hold no node twice, and
hold every registered node that is not isolated; `getIsolatedNodes()` lists, once each and
in iteration order, exactly the registered isolated nodes.  On the graph of the demo
(`addEdge(0,1,2)`, `addEdge(1,2,3)`, `addEdge(2,0,4)`, `addEdge(4,5,1)`, `addNode(6)`,
`addEdge(7,7,1)`), read in insertion order, the result is `[0,1,2]`, `[4,5]`, `[7]`
followed by `[6]`. -/
theorem findCommunities_isolated_last (nodeOrd : List Int → List Int)
    (hord : IsNodeOrder nodeOrd) (ops : List Op) :
    (∃ N, ∀ fuel, N ≤ fuel → (findCommunities nodeOrd (build ops) fuel).isSome = true) ∧
    (∀ fuel res, findCommunities nodeOrd (build ops) fuel = some res →
      ∃ T, res.1 = T ++ (getIsolatedNodes nodeOrd (build ops)).map (fun i => [i]) ∧
        (∀ c ∈ T, c ≠ [] ∧
          ∀ x ∈ c, x ∈ (build ops).nodes ∧ isNodeIsolated (build ops) x = false) ∧
        T.flatten.Nodup ∧
        (∀ v ∈ (build ops).nodes, isNodeIsolated (build ops) v = false → v ∈ T.flatten)) ∧
    (getIsolatedNodes nodeOrd (build ops)).Nodup ∧
    (∀ i, i ∈ getIsolatedNodes nodeOrd (build ops) ↔
      (i ∈ (build ops).nodes ∧ isNodeIsolated (build ops) i = true)) ∧
    (getIsolatedNodes nodeOrd (build ops)).Sublist (nodeOrd (build ops).nodes) ∧
    (findCommunities id (build isolatedGraphOps) 8).map Prod.fst
      = some [[0, 1, 2], [4, 5], [7], [6]] := by
  have hg := build_storeOK ops
  obtain ⟨hind, himem⟩ := isolated_facts nodeOrd hord _ hg
  refine ⟨⟨(build ops).nodes.length, fun fuel hf =>
    findCommunities_some nodeOrd hord _ hg fuel hf⟩, ?_, hind, himem, ?_, by decide⟩
  · intro fuel res h
    obtain ⟨st, _, hres, hinv, hcov⟩ := findCommunities_spec nodeOrd hord _ hg fuel res h
    refine ⟨st.communities, hres, ?_, ?_, ?_⟩
    · intro c hc
      refine ⟨hinv.nonempty c hc, fun x hx => ?_⟩
      have hv : x ∈ st.visited := by
        rw [← hinv.flat]
        exact List.mem_flatten.mpr ⟨c, hc, hx⟩
      exact ⟨hinv.inN x hv, hinv.nonIso x hv⟩
    · rw [hinv.flat]
      exact hinv.nodupV
    · intro v hv hiso
      rw [hinv.flat]
      exact hcov v hv hiso
  · unfold getIsolatedNodes
    exact List.filter_sublist _

/-- C18, at the graph of the demo, which has the isolated node `6`, with the registry read in
insertion order. -/
theorem findCommunities_isolated_last_witness :
    (∃ N, ∀ fuel, N ≤ fuel → (findCommunities id (build isolatedGraphOps) fuel).isSome = true) ∧
    (∀ fuel res, findCommunities id (build isolatedGraphOps) fuel = some res →
      ∃ T, res.1 = T ++ (getIsolatedNodes id (build isolatedGraphOps)).map (fun i => [i]) ∧
        (∀ c ∈ T, c ≠ [] ∧
          ∀ x ∈ c, x ∈ (build isolatedGraphOps).nodes ∧
            isNodeIsolated (build isolatedGraphOps) x = false) ∧
        T.flatten.Nodup ∧
        (∀ v ∈ (build isolatedGraphOps).nodes,
          isNodeIsolated (build isolatedGraphOps) v = false → v ∈ T.flatten)) ∧
    (getIsolatedNodes id (build isolatedGraphOps)).Nodup ∧
    (∀ i, i ∈ getIsolatedNodes id (build isolatedGraphOps) ↔
      (i ∈ (build isolatedGraphOps).nodes ∧ isNodeIsolated (build isolatedGraphOps) i = true)) ∧
    (getIsolatedNodes id (build isolatedGraphOps)).Sublist (id (build isolatedGraphOps).nodes) ∧
    (findCommunities id (build isolatedGraphOps) 8).map Prod.fst
      = some [[0, 1, 2], [4, 5], [7], [6]] :=
  findCommunities_isolated_last id isNodeOrder_id isolatedGraphOps

/-! ## Union-find -/

theorem uFRoot_is_root (uf : UnionFind) {x r : Int} (h : UFRoot uf x r) :
    vget uf.parent r = r := by
  induction h with
  | root hr => exact hr
  | step _ _ ih => exact ih

theorem uFRoot_unique (uf : UnionFind) {x r r2 : Int} (h1 : UFRoot uf x r)
    (h2 : UFRoot uf x r2) : r = r2 := by
  induction h1 with
  | root hr =>
    cases h2 with
    | root _ => rfl
    | step hne _ => exact absurd hr hne
  | step hne _ ih =>
    cases h2 with
    | root hr => exact absurd hr hne
    | step _ h3 => exact ih h3

theorem uFRoot_range (uf : UnionFind) (n : Int) (B : Nat) (hok : UFOK uf n B) {x r : Int}
    (h : UFRoot uf x r) (h0 : 0 ≤ x) (h1 : x < n) :
    0 ≤ r ∧ r < n ∧ vget uf.rank x ≤ vget uf.rank r := by
  induction h with
  | root _ => exact ⟨h0, h1, le_refl _⟩
  | step hne _ ih =>
    have hp := hok.parentRange _ h0 h1
    have hr := hok.rankStep _ h0 h1 hne
    obtain ⟨a, b, c⟩ := ih hp.1 hp.2
    exact ⟨a, b, by omega⟩

theorem uFRoot_exists_aux (uf : UnionFind) (n : Int) (B : Nat) (hok : UFOK uf n B) :
    ∀ (k : Nat) (x : Int), 0 ≤ x → x < n → (B : Int) - vget uf.rank x < k →
      ∃ r, UFRoot uf x r := by
  intro k
  induction k with
  | zero =>
    intro x h0 h1 hk
    have := (hok.rankRange x h0 h1).2
    simp only [Nat.cast_zero] at hk
    omega
  | succ k ih =>
    intro x h0 h1 hk
    by_cases hp : vget uf.parent x = x
    · exact ⟨x, UFRoot.root hp⟩
    · have hpr := hok.parentRange _ h0 h1
      have hr := hok.rankStep _ h0 h1 hp
      obtain ⟨r, hr2⟩ := ih (vget uf.parent x) hpr.1 hpr.2 (by push_cast at hk; omega)
      exact ⟨r, UFRoot.step hp hr2⟩

theorem uFRoot_exists (uf : UnionFind) (n : Int) (B : Nat) (hok : UFOK uf n B) (x : Int)
    (h0 : 0 ≤ x) (h1 : x < n) : ∃ r, UFRoot uf x r := by
  apply uFRoot_exists_aux uf n B hok (B + 1) x h0 h1
  have := (hok.rankRange x h0 h1).1
  push_cast
  omega

theorem uFOK_mono (uf : UnionFind) (n : Int) (B B2 : Nat) (h : UFOK uf n B) (hB : B ≤ B2) :
    UFOK uf n B2 := by
  refine ⟨h.lenP, h.lenR, h.parentRange, h.rankStep, ?_⟩
  intro x h0 h1
  have := h.rankRange x h0 h1
  exact ⟨this.1, by omega⟩

theorem compress_root (u1 : UnionFind) (x r0 : Int) (hx0 : 0 ≤ x)
    (hx1 : x < u1.parent.length) (hxr : UFRoot u1 x r0) :
    ∀ y ry, UFRoot u1 y ry →
      UFRoot { parent := vset u1.parent x r0, rank := u1.rank } y ry := by
  intro y ry h
  induction h with
  | @root ry hr =>
    apply UFRoot.root
    show vget (vset u1.parent x r0) ry = ry
    rw [vget_vset _ _ _ _ hx0 hx1]
    split
    · rename_i hyx
      subst hyx
      exact uFRoot_unique u1 hxr (UFRoot.root hr)
    · exact hr
  | @step y ry hne hrest ih =>
    by_cases hyx : y = x
    · subst hyx
      have hry : ry = r0 := uFRoot_unique u1 (UFRoot.step hne hrest) hxr
      subst hry
      have hr0 : vget u1.parent ry = ry := uFRoot_is_root u1 hxr
      have hne2 : ry ≠ y := by
        intro h
        rw [h] at hr0
        exact hne hr0
      have hp : vget (vset u1.parent y ry) y = ry := vget_vset_eq _ _ _ hx0 hx1
      apply UFRoot.step
      · show vget (vset u1.parent y ry) y ≠ y
        rw [hp]; exact hne2
      · show UFRoot _ (vget (vset u1.parent y ry) y) ry
        rw [hp]
        apply UFRoot.root
        show vget (vset u1.parent y ry) ry = ry
        rw [vget_vset_ne _ _ _ _ (Ne.symm hne2)]
        exact hr0
    · have hp : vget (vset u1.parent x r0) y = vget u1.parent y :=
        vget_vset_ne _ _ _ _ (Ne.symm hyx)
      apply UFRoot.step
      · show vget (vset u1.parent x r0) y ≠ y
        rw [hp]; exact hne
      · show UFRoot _ (vget (vset u1.parent x r0) y) ry
        rw [hp]; exact ih

theorem find_sound (n : Int) (B : Nat) : ∀ (fuel : Nat) (uf : UnionFind) (x r : Int)
    (uf1 : UnionFind), UnionFind.find fuel uf x = some (r, uf1) → UFOK uf n B → 0 ≤ x →
    x < n →
    UFRoot uf x r ∧ UFOK uf1 n B ∧ uf1.rank = uf.rank ∧
      (∀ y ry, UFRoot uf y ry → UFRoot uf1 y ry) := by
  intro fuel
  induction fuel with
  | zero => intro uf x r uf1 h; simp [UnionFind.find] at h
  | succ fuel ih =>
    intro uf x r uf1 h hok h0 h1
    simp only [UnionFind.find] at h
    by_cases hp : vget uf.parent x = x
    · rw [if_neg (not_not.mpr hp)] at h
      simp only [Option.some.injEq, Prod.mk.injEq] at h
      obtain ⟨hr, hu⟩ := h
      subst hu
      rw [hp] at hr
      subst hr
      exact ⟨UFRoot.root hp, hok, rfl, fun _ _ h => h⟩
    · rw [if_pos hp] at h
      cases hf : UnionFind.find fuel uf (vget uf.parent x) with
      | none => rw [hf] at h; cases h
      | some res =>
        obtain ⟨r0, u1⟩ := res
        rw [hf] at h
        simp only [Option.some.injEq, Prod.mk.injEq] at h
        obtain ⟨hr, hu⟩ := h
        have hpr := hok.parentRange _ h0 h1
        obtain ⟨hroot, hok1, hrank, hpres⟩ := ih uf _ r0 u1 hf hok hpr.1 hpr.2
        have hlen : x < (u1.parent.length : Int) := by
          rw [hok1.lenP]; omega
        rw [vget_vset_eq _ _ _ h0 hlen] at hr
        subst hr
        have hxr : UFRoot uf x r0 := UFRoot.step hp hroot
        have hrng := uFRoot_range uf n B hok hroot hpr.1 hpr.2
        have hrs := hok.rankStep _ h0 h1 hp
        refine ⟨hxr, ?_, ?_, ?_⟩
        · subst hu
          refine ⟨?_, hok1.lenR, ?_, ?_, hok1.rankRange⟩
          · show (vset u1.parent x r0).length = n.toNat
            rw [vset_length]; exact hok1.lenP
          · intro y hy0 hy1
            show 0 ≤ vget (vset u1.parent x r0) y ∧ vget (vset u1.parent x r0) y < n
            rw [vget_vset _ _ _ _ h0 hlen]
            split
            · exact ⟨hrng.1, hrng.2.1⟩
            · exact hok1.parentRange y hy0 hy1
          · intro y hy0 hy1
            show vget (vset u1.parent x r0) y ≠ y →
              vget u1.rank y < vget u1.rank (vget (vset u1.parent x r0) y)
            rw [vget_vset _ _ _ _ h0 hlen]
            split
            · rename_i hyx
              subst hyx
              intro _
              rw [hrank]
              omega
            · exact hok1.rankStep y hy0 hy1
        · subst hu
          exact hrank
        · subst hu
          intro y ry hy
          exact compress_root u1 x r0 h0 hlen (hpres _ _ hxr) y ry (hpres y ry hy)

theorem find_some (n : Int) (B : Nat) : ∀ (fuel : Nat) (uf : UnionFind) (x : Int),
    UFOK uf n B → 0 ≤ x → x < n → (B : Int) - vget uf.rank x < fuel →
    (UnionFind.find fuel uf x).isSome = true := by
  intro fuel
  induction fuel with
  | zero =>
    intro uf x hok h0 h1 hk
    have := (hok.rankRange x h0 h1).2
    simp only [Nat.cast_zero] at hk
    omega
  | succ fuel ih =>
    intro uf x hok h0 h1 hk
    simp only [UnionFind.find]
    by_cases hp : vget uf.parent x = x
    · rw [if_neg (not_not.mpr hp)]; rfl
    · rw [if_pos hp]
      have hpr := hok.parentRange _ h0 h1
      have hr := hok.rankStep _ h0 h1 hp
      have hs := ih uf (vget uf.parent x) hok hpr.1 hpr.2 (by push_cast at hk; omega)
      cases hf : UnionFind.find fuel uf (vget uf.parent x) with
      | none => rw [hf] at hs; cases hs
      | some res => rfl

theorem find_some_of_fuel (n : Int) (B : Nat) (fuel : Nat) (uf : UnionFind) (x : Int)
    (hok : UFOK uf n B) (h0 : 0 ≤ x) (h1 : x < n) (hf : B < fuel) :
    (UnionFind.find fuel uf x).isSome = true := by
  apply find_some n B fuel uf x hok h0 h1
  have := (hok.rankRange x h0 h1).1
  omega

theorem link_uFOK (u : UnionFind) (n : Int) (B : Nat) (hok : UFOK u n B) (l w : Int)
    (rk : List Int) (hl0 : 0 ≤ l) (hl1 : l < n) (hw0 : 0 ≤ w) (hw1 : w < n)
    (hrl : vget u.parent l = l) (hrw : vget u.parent w = w) (hlw : l ≠ w)
    (hlen : rk.length = n.toNat)
    (hrk : ∀ y, 0 ≤ y → y < n → vget u.rank y ≤ vget rk y ∧ vget rk y ≤ (B : Int) + 1)
    (hsame : ∀ y, y ≠ w → vget rk y = vget u.rank y)
    (hlt : vget u.rank l < vget rk w) :
    UFOK { parent := vset u.parent l w, rank := rk } n (B + 1) := by
  have hlenP : l < (u.parent.length : Int) := by rw [hok.lenP]; omega
  refine ⟨?_, hlen, ?_, ?_, ?_⟩
  · show (vset u.parent l w).length = n.toNat
    rw [vset_length]; exact hok.lenP
  · intro y hy0 hy1
    show 0 ≤ vget (vset u.parent l w) y ∧ vget (vset u.parent l w) y < n
    rw [vget_vset _ _ _ _ hl0 hlenP]
    split
    · exact ⟨hw0, hw1⟩
    · exact hok.parentRange y hy0 hy1
  · intro y hy0 hy1
    show vget (vset u.parent l w) y ≠ y → vget rk y < vget rk (vget (vset u.parent l w) y)
    rw [vget_vset _ _ _ _ hl0 hlenP]
    split
    · rename_i hyl
      subst hyl
      intro _
      rw [hsame y hlw]
      exact hlt
    · intro hne
      have hyw : y ≠ w := by
        intro h
        rw [h] at hne
        exact hne hrw
      have hp := hok.parentRange y hy0 hy1
      have h1 := hok.rankStep y hy0 hy1 hne
      have h2 := (hrk _ hp.1 hp.2).1
      rw [hsame y hyw]
      omega
  · intro y hy0 hy1
    have h1 := hrk y hy0 hy1
    have h2 := (hok.rankRange y hy0 hy1).1
    show 0 ≤ vget rk y ∧ vget rk y ≤ ((B + 1 : Nat) : Int)
    push_cast
    omega

theorem link_roots (u : UnionFind) (l w : Int) (rk : List Int) (hl0 : 0 ≤ l)
    (hl1 : l < u.parent.length) (hrl : vget u.parent l = l) (hrw : vget u.parent w = w)
    (hlw : l ≠ w) :
    ∀ z rz, UFRoot u z rz →
      UFRoot { parent := vset u.parent l w, rank := rk } z (if rz = l then w else rz) := by
  intro z rz h
  have hwroot : UFRoot { parent := vset u.parent l w, rank := rk } w w := by
    apply UFRoot.root
    show vget (vset u.parent l w) w = w
    rw [vget_vset_ne _ _ _ _ hlw]
    exact hrw
  induction h with
  | @root rz hr =>
    by_cases hz : rz = l
    · rw [if_pos hz]
      subst hz
      have hp : vget (vset u.parent rz w) rz = w := vget_vset_eq _ _ _ hl0 hl1
      apply UFRoot.step
      · show vget (vset u.parent rz w) rz ≠ rz
        rw [hp]; exact Ne.symm hlw
      · show UFRoot _ (vget (vset u.parent rz w) rz) w
        rw [hp]; exact hwroot
    · rw [if_neg hz]
      apply UFRoot.root
      show vget (vset u.parent l w) rz = rz
      rw [vget_vset_ne _ _ _ _ (Ne.symm hz)]
      exact hr
  | @step y rz hne _ ih =>
    have hyl : y ≠ l := by
      intro h
      rw [h] at hne
      exact hne hrl
    have hp : vget (vset u.parent l w) y = vget u.parent y :=
      vget_vset_ne _ _ _ _ (Ne.symm hyl)
    apply UFRoot.step
    · show vget (vset u.parent l w) y ≠ y
      rw [hp]; exact hne
    · show UFRoot _ (vget (vset u.parent l w) y) _
      rw [hp]; exact ih

/-- Outcome of `unite(x, y)` on a well-formed structure: the roots `rx`, `ry` of the two
arguments, and either nothing changes for the roots, or one of `rx`, `ry` is linked below
the other. -/
theorem unite_sound (n : Int) (B : Nat) (fuel : Nat) (uf : UnionFind) (x y : Int)
    (uf2 : UnionFind) (h : UnionFind.unite fuel uf x y = some uf2) (hok : UFOK uf n B)
    (hx0 : 0 ≤ x) (hx1 : x < n) (hy0 : 0 ≤ y) (hy1 : y < n) (hB : (B : Int) + 1 ≤ INT_MAX) :
    ∃ rx ry, UFRoot uf x rx ∧ UFRoot uf y ry ∧ UFOK uf2 n (B + 1) ∧
      ((rx = ry ∧ ∀ z rz, UFRoot uf z rz → UFRoot uf2 z rz) ∨
       (rx ≠ ry ∧ ∃ w l, ((w = rx ∧ l = ry) ∨ (w = ry ∧ l = rx)) ∧
          ∀ z rz, UFRoot uf z rz → UFRoot uf2 z (if rz = l then w else rz))) := by
  unfold UnionFind.unite at h
  cases hf1 : UnionFind.find fuel uf x with
  | none => rw [hf1] at h; cases h
  | some res1 =>
    obtain ⟨px, u1⟩ := res1
    rw [hf1] at h
    simp only at h
    obtain ⟨hrx, hok1, hrank1, hpres1⟩ := find_sound n B fuel uf x px u1 hf1 hok hx0 hx1
    cases hf2 : UnionFind.find fuel u1 y with
    | none => rw [hf2] at h; cases h
    | some res2 =>
      obtain ⟨py, u2⟩ := res2
      rw [hf2] at h
      simp only at h
      obtain ⟨hry1, hok2, hrank2, hpres2⟩ := find_sound n B fuel u1 y py u2 hf2 hok1 hy0 hy1
      obtain ⟨ry, hry⟩ := uFRoot_exists uf n B hok y hy0 hy1
      have hpy : ry = py := uFRoot_unique u1 (hpres1 _ _ hry) hry1
      subst hpy
      have hpres : ∀ z rz, UFRoot uf z rz → UFRoot u2 z rz :=
        fun z rz hz => hpres2 z rz (hpres1 z rz hz)
      have hpxr := uFRoot_range uf n B hok hrx hx0 hx1
      have hpyr := uFRoot_range uf n B hok hry hy0 hy1
      have hrootx : vget u2.parent px = px := uFRoot_is_root u2 (hpres _ _ hrx)
      have hrooty : vget u2.parent ry = ry := uFRoot_is_root u2 (hpres _ _ hry)
      have hlenx : px < (u2.parent.length : Int) := by rw [hok2.lenP]; omega
      have hleny : ry < (u2.parent.length : Int) := by rw [hok2.lenP]; omega
      refine ⟨px, ry, hrx, hry, ?_⟩
      by_cases heq : px = ry
      · rw [if_pos heq] at h
        simp only [Option.some.injEq] at h
        subst h
        exact ⟨uFOK_mono _ _ _ _ hok2 (Nat.le_succ B), Or.inl ⟨heq, hpres⟩⟩
      · rw [if_neg heq] at h
        by_cases hlt : vget u2.rank px < vget u2.rank ry
        · rw [if_pos hlt] at h
          simp only [Option.some.injEq] at h
          subst h
          refine ⟨?_, Or.inr ⟨heq, ry, px, Or.inr ⟨rfl, rfl⟩, ?_⟩⟩
          · apply link_uFOK u2 n B hok2 px ry u2.rank hpxr.1 hpxr.2.1 hpyr.1 hpyr.2.1 hrootx
              hrooty heq hok2.lenR
            · intro z hz0 hz1
              have := (hok2.rankRange z hz0 hz1).2
              omega
            · intro z _; rfl
            · exact hlt
          · intro z rz hz
            exact link_roots u2 px ry u2.rank hpxr.1 hlenx hrootx hrooty heq z rz (hpres z rz hz)
        · rw [if_neg hlt] at h
          by_cases hgt : vget u2.rank px > vget u2.rank ry
          · rw [if_pos hgt] at h
            simp only [Option.some.injEq] at h
            subst h
            refine ⟨?_, Or.inr ⟨heq, px, ry, Or.inl ⟨rfl, rfl⟩, ?_⟩⟩
            · apply link_uFOK u2 n B hok2 ry px u2.rank hpyr.1 hpyr.2.1 hpxr.1 hpxr.2.1 hrooty
                hrootx (Ne.symm heq) hok2.lenR
              · intro z hz0 hz1
                have := (hok2.rankRange z hz0 hz1).2
                omega
              · intro z _; rfl
              · exact hgt
            · intro z rz hz
              exact link_roots u2 ry px u2.rank hpyr.1 hleny hrooty hrootx (Ne.symm heq) z rz
                (hpres z rz hz)
          · rw [if_neg hgt] at h
            simp only [Option.some.injEq] at h
            subst h
            have hrr := hok2.rankRange px hpxr.1 hpxr.2.1
            have hadd : add32 (vget u2.rank px) 1 = vget u2.rank px + 1 := by
              apply add32_of_range
              · omega
              · omega
            have hlenr : px < (u2.rank.length : Int) := by rw [hok2.lenR]; omega
            refine ⟨?_, Or.inr ⟨heq, px, ry, Or.inl ⟨rfl, rfl⟩, ?_⟩⟩
            · apply link_uFOK u2 n B hok2 ry px _ hpyr.1 hpyr.2.1 hpxr.1 hpxr.2.1 hrooty
                hrootx (Ne.symm heq)
              · rw [vset_length]; exact hok2.lenR
              · intro z hz0 hz1
                have := (hok2.rankRange z hz0 hz1).2
                rw [vget_vset _ _ _ _ hpxr.1 hlenr, hadd]
                split
                · rename_i hzp
                  subst hzp
                  omega
                · omega
              · intro z hz
                exact vget_vset_ne _ _ _ _ (Ne.symm hz)
              · rw [vget_vset_eq _ _ _ hpxr.1 hlenr, hadd]
                omega
            · intro z rz hz
              exact link_roots u2 ry px _ hpyr.1 hleny hrooty hrootx (Ne.symm heq) z rz
                (hpres z rz hz)

theorem unite_some (n : Int) (B : Nat) (fuel : Nat) (uf : UnionFind) (x y : Int)
    (hok : UFOK uf n B) (hx0 : 0 ≤ x) (hx1 : x < n) (hy0 : 0 ≤ y) (hy1 : y < n)
    (hf : B < fuel) : (UnionFind.unite fuel uf x y).isSome = true := by
  unfold UnionFind.unite
  have hs1 := find_some_of_fuel n B fuel uf x hok hx0 hx1 hf
  cases hf1 : UnionFind.find fuel uf x with
  | none => rw [hf1] at hs1; cases hs1
  | some res1 =>
    obtain ⟨px, u1⟩ := res1
    simp only
    obtain ⟨_, hok1, _, _⟩ := find_sound n B fuel uf x px u1 hf1 hok hx0 hx1
    have hs2 := find_some_of_fuel n B fuel u1 y hok1 hy0 hy1 hf
    cases hf2 : UnionFind.find fuel u1 y with
    | none => rw [hf2] at hs2; cases hs2
    | some res2 =>
      obtain ⟨py, u2⟩ := res2
      simp only
      split_ifs <;> rfl

theorem vget_range (k : Nat) (i : Int) (h0 : 0 ≤ i) (h1 : i < k) :
    vget ((List.range k).map Int.ofNat) i = i := by
  unfold vget
  have hlt : i.toNat < k := by omega
  rw [if_neg (not_lt.mpr h0)]
  simp [List.getD_eq_getElem?_getD, hlt]
  omega

theorem uFOK_init (n : Int) : UFOK (UnionFind.init n) n 0 := by
  refine ⟨by simp [UnionFind.init], by simp [UnionFind.init], ?_, ?_, ?_⟩
  · intro x h0 h1
    have hp : vget (UnionFind.init n).parent x = x := vget_range _ _ h0 (by omega)
    rw [hp]
    exact ⟨h0, h1⟩
  · intro x h0 h1 hne
    exfalso
    apply hne
    show vget ((List.range n.toNat).map Int.ofNat) x = x
    exact vget_range _ _ h0 (by omega)
  · intro x h0 h1
    show 0 ≤ vget (List.replicate n.toNat 0) x ∧ vget (List.replicate n.toNat 0) x ≤ ((0 : Nat) : Int)
    rw [vget_replicate _ _ _ h0 (by omega)]
    simp

theorem uFRoot_init (n : Int) (x r : Int) (h0 : 0 ≤ x) (h1 : x < n)
    (h : UFRoot (UnionFind.init n) x r) : r = x := by
  have hp : vget (UnionFind.init n).parent x = x := vget_range _ _ h0 (by omega)
  exact uFRoot_unique _ h (UFRoot.root hp)

/-! ## Undirected connectivity and forests -/

theorem conn_mono {E1 E2 : List Edge} (h : ∀ e ∈ E1, e ∈ E2) {x y : Int}
    (hc : Conn E1 x y) : Conn E2 x y := by
  induction hc with
  | refl x => exact Conn.refl x
  | edge he => exact Conn.edge (h _ he)
  | symm _ ih => exact Conn.symm ih
  | trans _ _ ih1 ih2 => exact Conn.trans ih1 ih2

theorem conn_nil {x y : Int} (h : Conn [] x y) : x = y := by
  induction h with
  | refl x => rfl
  | edge he => cases he
  | symm _ ih => exact ih.symm
  | trans _ _ ih1 ih2 => exact ih1.trans ih2

theorem conn_exchange (e0 : Edge) (E : List Edge) {x y : Int} (h : Conn (e0 :: E) x y) :
    Conn E x y ∨ (Conn E x e0.1 ∧ Conn E e0.2.1 y) ∨ (Conn E x e0.2.1 ∧ Conn E e0.1 y) := by
  induction h with
  | refl x => exact Or.inl (Conn.refl x)
  | @edge e he =>
    rcases List.mem_cons.mp he with rfl | he
    · exact Or.inr (Or.inl ⟨Conn.refl _, Conn.refl _⟩)
    · exact Or.inl (Conn.edge he)
  | symm _ ih =>
    rcases ih with h | ⟨h1, h2⟩ | ⟨h1, h2⟩
    · exact Or.inl (Conn.symm h)
    · exact Or.inr (Or.inr ⟨Conn.symm h2, Conn.symm h1⟩)
    · exact Or.inr (Or.inl ⟨Conn.symm h2, Conn.symm h1⟩)
  | trans _ _ ih1 ih2 =>
    rcases ih1 with h | ⟨h1, h2⟩ | ⟨h1, h2⟩
    · rcases ih2 with k | ⟨k1, k2⟩ | ⟨k1, k2⟩
      · exact Or.inl (Conn.trans h k)
      · exact Or.inr (Or.inl ⟨Conn.trans h k1, k2⟩)
      · exact Or.inr (Or.inr ⟨Conn.trans h k1, k2⟩)
    · rcases ih2 with k | ⟨k1, k2⟩ | ⟨k1, k2⟩
      · exact Or.inr (Or.inl ⟨h1, Conn.trans h2 k⟩)
      · exact Or.inr (Or.inl ⟨h1, k2⟩)
      · exact Or.inl (Conn.trans h1 k2)
    · rcases ih2 with k | ⟨k1, k2⟩ | ⟨k1, k2⟩
      · exact Or.inr (Or.inr ⟨h1, Conn.trans h2 k⟩)
      · exact Or.inl (Conn.trans h1 k2)
      · exact Or.inr (Or.inr ⟨h1, k2⟩)

theorem conn_cons_of_conn (e0 : Edge) (E : List Edge) {x y : Int} (h : Conn E x y) :
    Conn (e0 :: E) x y :=
  conn_mono (fun _ he => List.mem_cons_of_mem _ he) h

theorem conn_head (e0 : Edge) (E : List Edge) : Conn (e0 :: E) e0.1 e0.2.1 :=
  Conn.edge (List.mem_cons_self _ _)

theorem conn_swap (e e2 : Edge) (E : List Edge) (h : Conn (e :: E) e2.1 e2.2.1)
    (hn : ¬ Conn E e2.1 e2.2.1) : Conn (e2 :: E) e.1 e.2.1 := by
  rcases conn_exchange e E h with h0 | ⟨h1, h2⟩ | ⟨h1, h2⟩
  · exact absurd h0 hn
  · exact Conn.trans (Conn.symm (conn_cons_of_conn e2 E h1))
      (Conn.trans (conn_head e2 E) (Conn.symm (conn_cons_of_conn e2 E h2)))
  · exact Conn.trans (conn_cons_of_conn e2 E h2)
      (Conn.trans (Conn.symm (conn_head e2 E)) (conn_cons_of_conn e2 E h1))

theorem forest_acyclic : ∀ L : List Edge, Forest L → Acyclic L := by
  intro L
  induction L with
  | nil =>
    intro _ A e B h
    simp at h
  | cons e L ih =>
    intro hF A e2 B hsplit hc
    have hL := ih hF.2
    cases A with
    | nil =>
      simp only [List.nil_append, List.cons.injEq] at hsplit
      obtain ⟨rfl, rfl⟩ := hsplit
      exact hF.1 hc
    | cons a A2 =>
      simp only [List.cons_append, List.cons.injEq] at hsplit
      obtain ⟨rfl, rfl⟩ := hsplit
      have hn : ¬ Conn (A2 ++ B) e2.1 e2.2.1 := hL A2 e2 B rfl
      have := conn_swap e e2 (A2 ++ B) hc hn
      apply hF.1
      exact conn_mono (fun x hx => by
        simp only [List.mem_cons, List.mem_append] at hx ⊢
        tauto) this

theorem acyclic_of_reverse (L : List Edge) (h : Acyclic L.reverse) : Acyclic L := by
  intro A e B hL hc
  apply h B.reverse e A.reverse (by rw [hL]; simp)
  exact conn_mono (fun x hx => by
    simp only [List.mem_append, List.mem_reverse] at hx ⊢
    tauto) hc

theorem acyclic_no_loop (L : List Edge) (h : Acyclic L) : ∀ e ∈ L, e.1 ≠ e.2.1 := by
  intro e he heq
  obtain ⟨A, B, hL⟩ := List.append_of_mem he
  apply h A e B hL
  rw [heq]
  exact Conn.refl _

theorem acyclic_no_parallel (L : List Edge) (h : Acyclic L) (A B : List Edge) (e : Edge)
    (hL : L = A ++ e :: B) : ∀ e2 ∈ A ++ B,
    ¬ ((e2.1 = e.1 ∧ e2.2.1 = e.2.1) ∨ (e2.1 = e.2.1 ∧ e2.2.1 = e.1)) := by
  intro e2 he2 hpar
  apply h A e B hL
  rcases hpar with ⟨h1, h2⟩ | ⟨h1, h2⟩
  · rw [← h1, ← h2]
    exact Conn.edge he2
  · rw [← h1, ← h2]
    exact Conn.symm (Conn.edge he2)

/-! ## Counting components -/

theorem forest_count (U : List Int) (hU : U.Nodup) : ∀ L : List Edge, Forest L →
    (∀ e ∈ L, e.1 ∈ U ∧ e.2.1 ∈ U) →
    ∃ k, IsComponentCount U (Conn L) k ∧ k + L.length = U.length := by
  intro L
  induction L with
  | nil =>
    intro _ _
    refine ⟨U.length, ⟨U, hU, fun _ h => h, ?_, ?_, rfl⟩, rfl⟩
    · intro v hv
      exact ⟨v, hv, Conn.refl v⟩
    · intro r1 _ r2 _ h
      exact conn_nil h
  | cons e L ih =>
    intro hF hends
    obtain ⟨k, ⟨reps, hnd, hsubU, hcov, hsep, hlen⟩, hk⟩ :=
      ih hF.2 (fun e2 he2 => hends e2 (List.mem_cons_of_mem _ he2))
    have he := hends e (List.mem_cons_self _ _)
    obtain ⟨ra, hra, hraa⟩ := hcov e.1 he.1
    obtain ⟨rb, hrb, hrbb⟩ := hcov e.2.1 he.2
    have hab : ra ≠ rb := by
      intro h
      subst h
      exact hF.1 (Conn.trans (Conn.symm hraa) hrbb)
    have hlen2 := List.length_erase_of_mem hrb
    have hpos : 0 < reps.length := List.length_pos_of_mem hrb
    have hmem : ∀ r, r ∈ reps.erase rb ↔ (r ≠ rb ∧ r ∈ reps) := fun r => hnd.mem_erase_iff
    refine ⟨k - 1, ⟨reps.erase rb, hnd.erase rb, ?_, ?_, ?_, ?_⟩, ?_⟩
    · intro r hr
      exact hsubU r ((hmem r).mp hr).2
    · intro v hv
      obtain ⟨r, hr, hrv⟩ := hcov v hv
      by_cases hrrb : r = rb
      · subst hrrb
        refine ⟨ra, (hmem ra).mpr ⟨hab, hra⟩, ?_⟩
        exact Conn.trans (conn_cons_of_conn e L hraa)
          (Conn.trans (conn_head e L)
            (Conn.trans (Conn.symm (conn_cons_of_conn e L hrbb)) (conn_cons_of_conn e L hrv)))
      · exact ⟨r, (hmem r).mpr ⟨hrrb, hr⟩, conn_cons_of_conn e L hrv⟩
    · intro r1 hr1 r2 hr2 hc
      obtain ⟨hne1, hm1⟩ := (hmem r1).mp hr1
      obtain ⟨hne2, hm2⟩ := (hmem r2).mp hr2
      rcases conn_exchange e L hc with h0 | ⟨h1, h2⟩ | ⟨h1, h2⟩
      · exact hsep r1 hm1 r2 hm2 h0
      · exfalso
        apply hne2
        exact (hsep rb hrb r2 hm2 (Conn.trans hrbb h2)).symm
      · exfalso
        apply hne1
        exact hsep r1 hm1 rb hrb (Conn.trans h1 (Conn.symm hrbb))
    · rw [hlen2, hlen]
    · simp only [List.length_cons]
      omega

theorem roots_transfer (n : Int) (B : Nat) (uf uf2 : UnionFind) (hok : UFOK uf n B)
    (hpres : ∀ z rz, UFRoot uf z rz → UFRoot uf2 z rz) (z rz : Int) (h0 : 0 ≤ z)
    (h1 : z < n) : UFRoot uf2 z rz ↔ UFRoot uf z rz := by
  constructor
  · intro h
    obtain ⟨r0, hr0⟩ := uFRoot_exists uf n B hok z h0 h1
    have := uFRoot_unique uf2 h (hpres z r0 hr0)
    rw [this]
    exact hr0
  · exact hpres z rz

theorem conn_iff_root (n : Int) (P : List Edge) (st : MSTState) (hinv : KruskalInv n P st)
    (x y rx ry : Int) (hx0 : 0 ≤ x) (hx1 : x < n) (hy0 : 0 ≤ y) (hy1 : y < n)
    (hrx : UFRoot st.uf x rx) (hry : UFRoot st.uf y ry) : Conn st.mst x y ↔ rx = ry := by
  rw [← hinv.roots x y hx0 hx1 hy0 hy1]
  constructor
  · rintro ⟨r, h1, h2⟩
    rw [uFRoot_unique _ hrx h1, uFRoot_unique _ hry h2]
  · intro h
    exact ⟨rx, hrx, h ▸ hry⟩

theorem filter_le_of_all (A : List Edge) (w : Int) (h : ∀ a ∈ A, a.2.2 ≤ w) :
    A.filter (fun a => decide (a.2.2 ≤ w)) = A := by
  apply List.filter_eq_self.mpr
  intro a ha
  simpa using h a ha

theorem kruskal_reject (n : Int) (P : List Edge) (st : MSTState) (e : Edge)
    (uf2 : UnionFind) (hinv : KruskalInv n P st)
    (he : 0 ≤ e.1 ∧ e.1 < n ∧ 0 ≤ e.2.1 ∧ e.2.1 < n)
    (hsorted : ∀ a ∈ P, a.2.2 ≤ e.2.2)
    (hok2 : UFOK uf2 n st.mst.length)
    (hpres : ∀ z rz, UFRoot st.uf z rz → UFRoot uf2 z rz)
    (hconn : Conn st.mst e.1 e.2.1) :
    KruskalInv n (P ++ [e]) { st with uf := uf2 } := by
  refine ⟨hok2, ?_, hinv.forest, ?_, ?_⟩
  · intro x y hx0 hx1 hy0 hy1
    show (∃ r, UFRoot uf2 x r ∧ UFRoot uf2 y r) ↔ Conn st.mst x y
    rw [← hinv.roots x y hx0 hx1 hy0 hy1]
    constructor
    · rintro ⟨r, h1, h2⟩
      exact ⟨r, (roots_transfer n _ _ _ hinv.ufok hpres x r hx0 hx1).mp h1,
        (roots_transfer n _ _ _ hinv.ufok hpres y r hy0 hy1).mp h2⟩
    · rintro ⟨r, h1, h2⟩
      exact ⟨r, hpres _ _ h1, hpres _ _ h2⟩
  · exact hinv.sub.trans (List.sublist_append_left P [e])
  · intro e2 he2
    show Conn (st.mst.filter _) e2.1 e2.2.1
    rcases List.mem_append.mp he2 with he2 | he2
    · exact hinv.span e2 he2
    · simp only [List.mem_singleton] at he2
      subst he2
      rw [filter_le_of_all]
      · exact hconn
      · intro a ha
        exact hsorted a (hinv.sub.subset ha)

theorem kruskal_accept (n : Int) (P : List Edge) (st : MSTState) (e : Edge)
    (uf3 : UnionFind) (m : Metrics) (hinv : KruskalInv n P st)
    (he : 0 ≤ e.1 ∧ e.1 < n ∧ 0 ≤ e.2.1 ∧ e.2.1 < n)
    (ra rb w l : Int) (hra : UFRoot st.uf e.1 ra) (hrb : UFRoot st.uf e.2.1 rb)
    (hne : ra ≠ rb) (hwl : (w = ra ∧ l = rb) ∨ (w = rb ∧ l = ra))
    (hok3 : UFOK uf3 n (st.mst.length + 1))
    (hlink : ∀ z rz, UFRoot st.uf z rz → UFRoot uf3 z (if rz = l then w else rz)) :
    KruskalInv n (P ++ [e]) { uf := uf3, mst := st.mst ++ [e], metrics := m } := by
  have hnc : ¬ Conn st.mst e.1 e.2.1 := by
    intro hc
    exact hne ((conn_iff_root n P st hinv _ _ ra rb he.1 he.2.1 he.2.2.1 he.2.2.2 hra hrb).mp hc)
  have hfw : (if ra = l then w else ra) = w := by
    rcases hwl with ⟨h1, h2⟩ | ⟨h1, h2⟩
    · rw [if_neg (by rw [h2]; exact hne), h1]
    · rw [if_pos h2.symm]
  have hfb : (if rb = l then w else rb) = w := by
    rcases hwl with ⟨h1, h2⟩ | ⟨h1, h2⟩
    · rw [if_pos h2.symm]
    · rw [if_neg (by rw [h2]; exact Ne.symm hne), h1]
  have hwl2 : w ≠ l := by
    rcases hwl with ⟨h1, h2⟩ | ⟨h1, h2⟩
    · rw [h1, h2]; exact hne
    · rw [h1, h2]; exact Ne.symm hne
  refine ⟨?_, ?_, ?_, ?_, ?_⟩
  · show UFOK uf3 n (st.mst ++ [e]).length
    rw [List.length_append, List.length_singleton]
    exact hok3
  · intro x y hx0 hx1 hy0 hy1
    show (∃ r, UFRoot uf3 x r ∧ UFRoot uf3 y r) ↔ Conn (st.mst ++ [e]) x y
    obtain ⟨rx, hrx⟩ := uFRoot_exists st.uf n _ hinv.ufok x hx0 hx1
    obtain ⟨ry, hry⟩ := uFRoot_exists st.uf n _ hinv.ufok y hy0 hy1
    have hxy := conn_iff_root n P st hinv x y rx ry hx0 hx1 hy0 hy1 hrx hry
    have hxa := conn_iff_root n P st hinv x e.1 rx ra hx0 hx1 he.1 he.2.1 hrx hra
    have hxb := conn_iff_root n P st hinv x e.2.1 rx rb hx0 hx1 he.2.2.1 he.2.2.2 hrx hrb
    have hay := conn_iff_root n P st hinv e.1 y ra ry he.1 he.2.1 hy0 hy1 hra hry
    have hby := conn_iff_root n P st hinv e.2.1 y rb ry he.2.2.1 he.2.2.2 hy0 hy1 hrb hry
    have hmono : ∀ u v, Conn st.mst u v → Conn (st.mst ++ [e]) u v :=
      fun u v h => conn_mono (fun _ hx => List.mem_append_left _ hx) h
    have hedge : Conn (st.mst ++ [e]) e.1 e.2.1 := Conn.edge (by simp)
    constructor
    · rintro ⟨r, h1, h2⟩
      have e1 := uFRoot_unique uf3 h1 (hlink x rx hrx)
      have e2 := uFRoot_unique uf3 h2 (hlink y ry hry)
      have hf : (if rx = l then w else rx) = (if ry = l then w else ry) := by
        rw [← e1, ← e2]
      by_cases hxl : rx = l
      · by_cases hyl : ry = l
        · exact hmono _ _ (hxy.mpr (hxl.trans hyl.symm))
        · rw [if_pos hxl, if_neg hyl] at hf
          rcases hwl with ⟨h1, h2⟩ | ⟨h1, h2⟩
          · have hx : rx = rb := hxl.trans h2
            have hy : ra = ry := h1.symm.trans hf
            exact Conn.trans (hmono _ _ (hxb.mpr hx))
              (Conn.trans (Conn.symm hedge) (hmono _ _ (hay.mpr hy)))
          · have hx : rx = ra := hxl.trans h2
            have hy : rb = ry := h1.symm.trans hf
            exact Conn.trans (hmono _ _ (hxa.mpr hx))
              (Conn.trans hedge (hmono _ _ (hby.mpr hy)))
      · by_cases hyl : ry = l
        · rw [if_neg hxl, if_pos hyl] at hf
          rcases hwl with ⟨h1, h2⟩ | ⟨h1, h2⟩
          · have hx : rx = ra := hf.trans h1
            have hy : rb = ry := (hyl.trans h2).symm
            exact Conn.trans (hmono _ _ (hxa.mpr hx))
              (Conn.trans hedge (hmono _ _ (hby.mpr hy)))
          · have hx : rx = rb := hf.trans h1
            have hy : ra = ry := (hyl.trans h2).symm
            exact Conn.trans (hmono _ _ (hxb.mpr hx))
              (Conn.trans (Conn.symm hedge) (hmono _ _ (hay.mpr hy)))
        · rw [if_neg hxl, if_neg hyl] at hf
          exact hmono _ _ (hxy.mpr hf)
    · intro hc
      have hc2 : Conn (e :: st.mst) x y :=
        conn_mono (fun a ha => by
          rcases List.mem_append.mp ha with ha | ha
          · exact List.mem_cons_of_mem _ ha
          · rw [List.mem_singleton.mp ha]
            exact List.mem_cons_self _ _) hc
      have hgoal : (if rx = l then w else rx) = (if ry = l then w else ry) := by
        rcases conn_exchange e st.mst hc2 with h0 | ⟨h1, h2⟩ | ⟨h1, h2⟩
        · rw [hxy.mp h0]
        · rw [hxa.mp h1, ← hby.mp h2, hfw, hfb]
        · rw [hxb.mp h1, ← hay.mp h2, hfw, hfb]
      refine ⟨if rx = l then w else rx, hlink x rx hrx, ?_⟩
      rw [hgoal]
      exact hlink y ry hry
  · show Forest (st.mst ++ [e]).reverse
    have hrev : (st.mst ++ [e]).reverse = e :: st.mst.reverse := by simp
    rw [hrev]
    have h1 : ¬ Conn st.mst.reverse e.1 e.2.1 := fun hc =>
      hnc (conn_mono (fun a ha => List.mem_reverse.mp ha) hc)
    exact ⟨h1, hinv.forest⟩
  · exact List.Sublist.append hinv.sub (List.Sublist.refl _)
  · intro e2 he2
    show Conn ((st.mst ++ [e]).filter _) e2.1 e2.2.1
    rcases List.mem_append.mp he2 with he2 | he2
    · apply conn_mono _ (hinv.span e2 he2)
      intro a ha
      rw [List.filter_append]
      exact List.mem_append_left _ ha
    · simp only [List.mem_singleton] at he2
      subst he2
      apply Conn.edge
      rw [List.mem_filter]
      exact ⟨by simp, by simp⟩

theorem kruskalInv_length (n : Int) (U : List Int) (hU : U.Nodup)
    (hUr : ∀ v ∈ U, 0 ≤ v ∧ v < n) (P : List Edge) (st : MSTState)
    (hinv : KruskalInv n P st) (hends : ∀ e ∈ P, e.1 ∈ U ∧ e.2.1 ∈ U) :
    st.mst.length ≤ n.toNat := by
  obtain ⟨k, _, hk⟩ := forest_count U hU st.mst.reverse hinv.forest
    (fun e he => hends e (hinv.sub.subset (List.mem_reverse.mp he)))
  have := nodup_length_le U n hU hUr
  rw [List.length_reverse] at hk
  omega

theorem kruskal_core (n : Int) (U : List Int) (hU : U.Nodup)
    (hUr : ∀ v ∈ U, 0 ≤ v ∧ v < n) (hn : n ≤ INT_MAX) (fuel : Nat) (P : List Edge)
    (st : MSTState) (e : Edge) (hinv : KruskalInv n P st)
    (hendsP : ∀ a ∈ P, a.1 ∈ U ∧ a.2.1 ∈ U) (he : e.1 ∈ U ∧ e.2.1 ∈ U)
    (hsorted : ∀ a ∈ P, a.2.2 ≤ e.2.2) (rf rt : Int) (uf1 uf2 : UnionFind)
    (hf1 : UnionFind.find fuel st.uf e.1 = some (rf, uf1))
    (hf2 : UnionFind.find fuel uf1 e.2.1 = some (rt, uf2)) :
    UFOK uf2 n st.mst.length ∧
    (rf = rt → KruskalInv n (P ++ [e]) { st with uf := uf2 }) ∧
    (rf ≠ rt → ∀ uf3, UnionFind.unite fuel uf2 e.1 e.2.1 = some uf3 → ∀ m : Metrics,
      KruskalInv n (P ++ [e]) { uf := uf3, mst := st.mst ++ [e], metrics := m }) := by
  have ha := hUr _ he.1
  have hb := hUr _ he.2
  have her : 0 ≤ e.1 ∧ e.1 < n ∧ 0 ≤ e.2.1 ∧ e.2.1 < n := ⟨ha.1, ha.2, hb.1, hb.2⟩
  obtain ⟨hra, hok1, _, hpres1⟩ :=
    find_sound n st.mst.length fuel st.uf e.1 rf uf1 hf1 hinv.ufok ha.1 ha.2
  obtain ⟨hrb1, hok2, _, hpres2⟩ :=
    find_sound n st.mst.length fuel uf1 e.2.1 rt uf2 hf2 hok1 hb.1 hb.2
  have hrb : UFRoot st.uf e.2.1 rt :=
    (roots_transfer n _ _ _ hinv.ufok hpres1 _ _ hb.1 hb.2).mp hrb1
  have hpres : ∀ z rz, UFRoot st.uf z rz → UFRoot uf2 z rz :=
    fun z rz hz => hpres2 z rz (hpres1 z rz hz)
  have hiff := conn_iff_root n P st hinv _ _ rf rt ha.1 ha.2 hb.1 hb.2 hra hrb
  refine ⟨hok2, ?_, ?_⟩
  · intro heq
    exact kruskal_reject n P st e uf2 hinv her hsorted hok2 hpres (hiff.mpr heq)
  · intro hne uf3 hu m
    have hnc : ¬ Conn st.mst.reverse e.1 e.2.1 := fun hc =>
      hne (hiff.mp (conn_mono (fun a ha => List.mem_reverse.mp ha) hc))
    have hF : Forest (e :: st.mst.reverse) := ⟨hnc, hinv.forest⟩
    obtain ⟨k, _, hk⟩ := forest_count U hU (e :: st.mst.reverse) hF (by
      intro a ham
      rcases List.mem_cons.mp ham with rfl | ham
      · exact he
      · exact hendsP a (hinv.sub.subset (List.mem_reverse.mp ham)))
    have hlenU := nodup_length_le U n hU hUr
    simp only [List.length_cons, List.length_reverse] at hk
    have hB : ((st.mst.length : Nat) : Int) + 1 ≤ INT_MAX := by
      have : (st.mst.length : Int) + 1 ≤ n := by omega
      omega
    obtain ⟨rx, ry, hrx, hry, hok3, halt⟩ :=
      unite_sound n st.mst.length fuel uf2 e.1 e.2.1 uf3 hu hok2 ha.1 ha.2 hb.1 hb.2 hB
    have hrxf : rx = rf := uFRoot_unique uf2 hrx (hpres _ _ hra)
    have hryt : ry = rt := uFRoot_unique uf2 hry (hpres _ _ hrb)
    subst hrxf hryt
    rcases halt with ⟨heq, _⟩ | ⟨_, w, l, hwl, hlink⟩
    · exact absurd heq hne
    · exact kruskal_accept n P st e uf3 m hinv her rx ry w l hra hrb hne hwl hok3
        (fun z rz hz => hlink z rz (hpres z rz hz))

theorem kruskalLoop_sound (n : Int) (U : List Int) (hU : U.Nodup)
    (hUr : ∀ v ∈ U, 0 ≤ v ∧ v < n) (hn : n ≤ INT_MAX) (fuel : Nat) :
    ∀ (rest P : List Edge) (st st2 : MSTState), kruskalLoop fuel rest st = some st2 →
      KruskalInv n P st → (∀ e ∈ P ++ rest, e.1 ∈ U ∧ e.2.1 ∈ U) →
      (P ++ rest).Pairwise (fun a b => a.2.2 ≤ b.2.2) → KruskalInv n (P ++ rest) st2 := by
  intro rest
  induction rest with
  | nil =>
    intro P st st2 h hinv _ _
    simp only [kruskalLoop, Option.some.injEq] at h
    subst h
    rw [List.append_nil]
    exact hinv
  | cons e rest ih =>
    intro P st st2 h hinv hends hsort
    have hendsP : ∀ a ∈ P, a.1 ∈ U ∧ a.2.1 ∈ U := fun a ha => hends a (List.mem_append_left _ ha)
    have he : e.1 ∈ U ∧ e.2.1 ∈ U := hends e (by simp)
    have hsorted : ∀ a ∈ P, a.2.2 ≤ e.2.2 := fun a ha =>
      (List.pairwise_append.mp hsort).2.2 a ha e (List.mem_cons_self _ _)
    have happ : P ++ e :: rest = (P ++ [e]) ++ rest := by simp
    rw [happ] at hends hsort ⊢
    simp only [kruskalLoop] at h
    cases hf1 : UnionFind.find fuel st.uf e.1 with
    | none => rw [hf1] at h; cases h
    | some res1 =>
      obtain ⟨rf, uf1⟩ := res1
      rw [hf1] at h
      simp only at h
      cases hf2 : UnionFind.find fuel uf1 e.2.1 with
      | none => rw [hf2] at h; cases h
      | some res2 =>
        obtain ⟨rt, uf2⟩ := res2
        rw [hf2] at h
        simp only at h
        obtain ⟨_, hrej, hacc⟩ := kruskal_core n U hU hUr hn fuel P st e hinv hendsP he hsorted
          rf rt uf1 uf2 hf1 hf2
        by_cases hne : rf ≠ rt
        · rw [if_pos hne] at h
          cases hu : UnionFind.unite fuel uf2 e.1 e.2.1 with
          | none => rw [hu] at h; cases h
          | some uf3 =>
            rw [hu] at h
            simp only at h
            exact ih (P ++ [e]) _ st2 h (hacc hne uf3 hu _) hends hsort
        · rw [if_neg hne] at h
          exact ih (P ++ [e]) _ st2 h (hrej (not_not.mp hne)) hends hsort

theorem kruskalLoop_some (n : Int) (U : List Int) (hU : U.Nodup)
    (hUr : ∀ v ∈ U, 0 ≤ v ∧ v < n) (hn : n ≤ INT_MAX) (fuel : Nat) (hfuel : n.toNat < fuel) :
    ∀ (rest P : List Edge) (st : MSTState), KruskalInv n P st →
      (∀ e ∈ P ++ rest, e.1 ∈ U ∧ e.2.1 ∈ U) →
      (P ++ rest).Pairwise (fun a b => a.2.2 ≤ b.2.2) →
      (kruskalLoop fuel rest st).isSome = true := by
  intro rest
  induction rest with
  | nil => intro P st _ _ _; simp [kruskalLoop]
  | cons e rest ih =>
    intro P st hinv hends hsort
    have hendsP : ∀ a ∈ P, a.1 ∈ U ∧ a.2.1 ∈ U := fun a ha => hends a (List.mem_append_left _ ha)
    have he : e.1 ∈ U ∧ e.2.1 ∈ U := hends e (by simp)
    have hsorted : ∀ a ∈ P, a.2.2 ≤ e.2.2 := fun a ha =>
      (List.pairwise_append.mp hsort).2.2 a ha e (List.mem_cons_self _ _)
    have happ : P ++ e :: rest = (P ++ [e]) ++ rest := by simp
    rw [happ] at hends hsort
    have ha := hUr _ he.1
    have hb := hUr _ he.2
    have hlen := kruskalInv_length n U hU hUr P st hinv hendsP
    have hB : st.mst.length < fuel := by omega
    simp only [kruskalLoop]
    have hs1 := find_some_of_fuel n _ fuel st.uf e.1 hinv.ufok ha.1 ha.2 hB
    cases hf1 : UnionFind.find fuel st.uf e.1 with
    | none => rw [hf1] at hs1; cases hs1
    | some res1 =>
      obtain ⟨rf, uf1⟩ := res1
      simp only
      obtain ⟨_, hok1, _, _⟩ :=
        find_sound n st.mst.length fuel st.uf e.1 rf uf1 hf1 hinv.ufok ha.1 ha.2
      have hs2 := find_some_of_fuel n _ fuel uf1 e.2.1 hok1 hb.1 hb.2 hB
      cases hf2 : UnionFind.find fuel uf1 e.2.1 with
      | none => rw [hf2] at hs2; cases hs2
      | some res2 =>
        obtain ⟨rt, uf2⟩ := res2
        simp only
        obtain ⟨hok2, hrej, hacc⟩ := kruskal_core n U hU hUr hn fuel P st e hinv hendsP he
          hsorted rf rt uf1 uf2 hf1 hf2
        by_cases hne : rf ≠ rt
        · rw [if_pos hne]
          have hs3 := unite_some n _ fuel uf2 e.1 e.2.1 hok2 ha.1 ha.2 hb.1 hb.2 hB
          cases hu : UnionFind.unite fuel uf2 e.1 e.2.1 with
          | none => rw [hu] at hs3; cases hs3
          | some uf3 =>
            simp only
            exact ih (P ++ [e]) _ (hacc hne uf3 hu _) hends hsort
        · rw [if_neg hne]
          exact ih (P ++ [e]) _ (hrej (not_not.mp hne)) hends hsort

theorem kruskalInv_init (n : Int) (m : Metrics) :
    KruskalInv n [] { uf := UnionFind.init n, mst := [], metrics := m } := by
  refine ⟨uFOK_init n, ?_, trivial, List.Sublist.refl _, ?_⟩
  · intro x y hx0 hx1 hy0 hy1
    constructor
    · rintro ⟨r, h1, h2⟩
      have e1 := uFRoot_init n x r hx0 hx1 h1
      have e2 := uFRoot_init n y r hy0 hy1 h2
      rw [← e1, ← e2]
      exact Conn.refl r
    · intro hc
      have hxy : x = y := conn_nil hc
      subst hxy
      obtain ⟨r, hr⟩ := uFRoot_exists _ n 0 (uFOK_init n) x hx0 hx1
      exact ⟨r, hr, hr⟩
  · intro e he
    cases he

/-! ## `findMST`: the returned edges -/

theorem mem_collectEdges (al : AdjList) (e : Edge) :
    e ∈ collectEdges al ↔ ∃ x ∈ al, ∃ p ∈ x.2, e = (x.1, p.1, p.2) := by
  unfold collectEdges
  simp only [List.mem_flatMap, List.mem_map]
  constructor
  · rintro ⟨x, hx, p, hp, rfl⟩
    exact ⟨x, hx, p, hp, rfl⟩
  · rintro ⟨x, hx, p, hp, rfl⟩
    exact ⟨x, hx, p, hp, rfl⟩

theorem mem_sorted_edges (tableOrd : AdjList → AdjList) (sortOrd : List Edge → List Edge)
    (ht : IsTableOrder tableOrd) (hs : IsWeightSort sortOrd) (al : AdjList) (e : Edge) :
    e ∈ sortOrd (collectEdges (tableOrd al)) ↔ e ∈ collectEdges al := by
  rw [(hs _).1.mem_iff]
  unfold collectEdges
  exact (List.Perm.flatMap_right _ (ht al)).mem_iff

theorem edge_ends_registered (g : GraphAnalysisTool) (hg : StoreOK g) (e : Edge)
    (he : e ∈ collectEdges g.adjacencyList) : e.1 ∈ g.nodes ∧ e.2.1 ∈ g.nodes := by
  obtain ⟨x, hx, p, hp, rfl⟩ := (mem_collectEdges _ _).mp he
  exact ⟨hg.keys x hx, hg.targets x hx p hp⟩

theorem isTableOrder_id : IsTableOrder id := fun _ => List.Perm.refl _

theorem isWeightSort_weightSort : IsWeightSort weightSort := by
  intro l
  haveI : IsTotal Edge (fun a b => a.2.2 ≤ b.2.2) := ⟨fun a b => le_total a.2.2 b.2.2⟩
  haveI : IsTrans Edge (fun a b => a.2.2 ≤ b.2.2) := ⟨fun a b c h1 h2 => le_trans h1 h2⟩
  exact ⟨List.perm_insertionSort _ l, List.sorted_insertionSort _ l⟩

theorem findMST_inv (tableOrd : AdjList → AdjList) (sortOrd : List Edge → List Edge)
    (ht : IsTableOrder tableOrd) (hs : IsWeightSort sortOrd) (g : GraphAnalysisTool)
    (hg : StoreOK g) (hr : RangeOK g) (fuel : Nat) (res : List Edge × GraphAnalysisTool)
    (h : findMST tableOrd sortOrd g fuel = some res) :
    ∃ st, KruskalInv g.numNodes (sortOrd (collectEdges (tableOrd g.adjacencyList))) st ∧
      res.1 = st.mst ∧ res.2 = { g with metrics := st.metrics } := by
  unfold findMST at h
  cases hl : kruskalLoop fuel (sortOrd (collectEdges (tableOrd g.adjacencyList)))
      { uf := UnionFind.init g.numNodes, mst := [], metrics := g.metrics } with
  | none => rw [hl] at h; cases h
  | some st =>
    rw [hl] at h
    simp only [Option.some.injEq] at h
    have hinv := kruskalLoop_sound g.numNodes g.nodes hg.nodup (fun v hv => ⟨hr.lo v hv, hr.hi v hv⟩)
      hr.bound fuel _ [] _ st hl (kruskalInv_init _ _)
      (fun e he => edge_ends_registered g hg e
        ((mem_sorted_edges tableOrd sortOrd ht hs _ e).mp (by simpa using he)))
      (by simpa using (hs _).2)
    rw [List.nil_append] at hinv
    refine ⟨st, hinv, ?_, ?_⟩
    · rw [← h]
    · rw [← h]

theorem findMST_some (tableOrd : AdjList → AdjList) (sortOrd : List Edge → List Edge)
    (ht : IsTableOrder tableOrd) (hs : IsWeightSort sortOrd) (g : GraphAnalysisTool)
    (hg : StoreOK g) (hr : RangeOK g) (fuel : Nat) (hf : g.numNodes.toNat < fuel) :
    (findMST tableOrd sortOrd g fuel).isSome = true := by
  unfold findMST
  have hsome := kruskalLoop_some g.numNodes g.nodes hg.nodup
    (fun v hv => ⟨hr.lo v hv, hr.hi v hv⟩) hr.bound fuel hf
    (sortOrd (collectEdges (tableOrd g.adjacencyList))) []
    { uf := UnionFind.init g.numNodes, mst := [], metrics := g.metrics } (kruskalInv_init _ _)
    (fun e he => edge_ends_registered g hg e
      ((mem_sorted_edges tableOrd sortOrd ht hs _ e).mp (by simpa using he)))
    (by simpa using (hs _).2)
  cases hl : kruskalLoop fuel (sortOrd (collectEdges (tableOrd g.adjacencyList)))
      { uf := UnionFind.init g.numNodes, mst := [], metrics := g.metrics } with
  | none => rw [hl] at hsome; cases hsome
  | some st => rfl

theorem conn_of_span (E K : List Edge) (h : ∀ e ∈ E, Conn K e.1 e.2.1) {x y : Int}
    (hc : Conn E x y) : Conn K x y := by
  induction hc with
  | refl x => exact Conn.refl x
  | edge he => exact h _ he
  | symm _ ih => exact Conn.symm ih
  | trans _ _ ih1 ih2 => exact Conn.trans ih1 ih2

/-- The facts about the edges `findMST` returns that the claims rest on: they are edges of
the graph, form a forest, join what the graph joins, and every edge of the graph is joined
by the returned edges that are not heavier. -/
theorem findMST_facts (tableOrd : AdjList → AdjList) (sortOrd : List Edge → List Edge)
    (ht : IsTableOrder tableOrd) (hs : IsWeightSort sortOrd) (g : GraphAnalysisTool)
    (hg : StoreOK g) (hr : RangeOK g) (fuel : Nat) (res : List Edge × GraphAnalysisTool)
    (h : findMST tableOrd sortOrd g fuel = some res) :
    Forest res.1.reverse ∧
    res.1.Sublist (sortOrd (collectEdges (tableOrd g.adjacencyList))) ∧
    (∀ e ∈ res.1, e ∈ collectEdges g.adjacencyList) ∧
    (∀ e ∈ collectEdges g.adjacencyList,
      Conn (res.1.filter (fun a => decide (a.2.2 ≤ e.2.2))) e.1 e.2.1) ∧
    (∀ x y, Conn res.1 x y ↔ Conn (collectEdges g.adjacencyList) x y) := by
  obtain ⟨st, hinv, hres, _⟩ := findMST_inv tableOrd sortOrd ht hs g hg hr fuel res h
  rw [hres]
  have hmem : ∀ e ∈ st.mst, e ∈ collectEdges g.adjacencyList := fun e he =>
    (mem_sorted_edges tableOrd sortOrd ht hs _ e).mp (hinv.sub.subset he)
  have hspan : ∀ e ∈ collectEdges g.adjacencyList,
      Conn (st.mst.filter (fun a => decide (a.2.2 ≤ e.2.2))) e.1 e.2.1 := fun e he =>
    hinv.span e ((mem_sorted_edges tableOrd sortOrd ht hs _ e).mpr he)
  refine ⟨hinv.forest, hinv.sub, hmem, hspan, ?_⟩
  intro x y
  constructor
  · exact conn_mono hmem
  · apply conn_of_span
    intro e he
    exact conn_mono (fun a ha => (List.mem_filter.mp ha).1) (hspan e he)

/-- C11: for every graph with non-negative ids, every iteration order of the adjacency
table and every outcome of the sort, `findMST` returns, and the returned edges, read as
undirected, contain no cycle; in particular none is a self-loop and no two of them join
the same pair of nodes. -/
theorem findMST_acyclic (tableOrd : AdjList → AdjList) (sortOrd : List Edge → List Edge)
    (ht : IsTableOrder tableOrd) (hs : IsWeightSort sortOrd) (ops : List Op)
    (hids : idsOk ops) :
    (∃ N, ∀ fuel, N ≤ fuel → (findMST tableOrd sortOrd (build ops) fuel).isSome = true) ∧
    ∀ fuel res, findMST tableOrd sortOrd (build ops) fuel = some res →
      Acyclic res.1 ∧ (∀ e ∈ res.1, e.1 ≠ e.2.1) ∧
      ∀ A e B, res.1 = A ++ e :: B → ∀ e2 ∈ A ++ B,
        ¬ ((e2.1 = e.1 ∧ e2.2.1 = e.2.1) ∨ (e2.1 = e.2.1 ∧ e2.2.1 = e.1)) := by
  have hg := build_storeOK ops
  have hr := build_rangeOK ops hids
  refine ⟨⟨(build ops).numNodes.toNat + 1, fun fuel hf =>
    findMST_some tableOrd sortOrd ht hs _ hg hr fuel (by omega)⟩, ?_⟩
  intro fuel res h
  obtain ⟨hF, _, _, _, _⟩ := findMST_facts tableOrd sortOrd ht hs _ hg hr fuel res h
  have hA : Acyclic res.1 := acyclic_of_reverse _ (forest_acyclic _ hF)
  exact ⟨hA, acyclic_no_loop _ hA, fun A e B hL => acyclic_no_parallel _ hA A B e hL⟩

theorem findMST_acyclic_witness :
    (∃ N, ∀ fuel, N ≤ fuel →
      (findMST id weightSort (build simpleGraphOps) fuel).isSome = true) ∧
    ∀ fuel res, findMST id weightSort (build simpleGraphOps) fuel = some res →
      Acyclic res.1 ∧ (∀ e ∈ res.1, e.1 ≠ e.2.1) ∧
      ∀ A e B, res.1 = A ++ e :: B → ∀ e2 ∈ A ++ B,
        ¬ ((e2.1 = e.1 ∧ e2.2.1 = e.2.1) ∨ (e2.1 = e.2.1 ∧ e2.2.1 = e.1)) :=
  findMST_acyclic id weightSort isTableOrder_id isWeightSort_weightSort simpleGraphOps
    (by decide)

theorem find_mono : ∀ (fuel : Nat) (uf : UnionFind) (x : Int) (r : Int × UnionFind),
    UnionFind.find fuel uf x = some r → ∀ k, UnionFind.find (fuel + k) uf x = some r := by
  intro fuel
  induction fuel with
  | zero => intro uf x r h; simp [UnionFind.find] at h
  | succ fuel ih =>
    intro uf x r h k
    have hk : fuel + 1 + k = (fuel + k) + 1 := by omega
    rw [hk]
    simp only [UnionFind.find] at h ⊢
    by_cases hp : vget uf.parent x ≠ x
    · rw [if_pos hp] at h ⊢
      cases hf : UnionFind.find fuel uf (vget uf.parent x) with
      | none => rw [hf] at h; cases h
      | some r0 =>
        rw [hf] at h
        rw [ih uf _ r0 hf k]
        exact h
    · rw [if_neg hp] at h ⊢
      exact h

theorem unite_mono (fuel : Nat) (uf : UnionFind) (x y : Int) (r : UnionFind)
    (h : UnionFind.unite fuel uf x y = some r) (k : Nat) :
    UnionFind.unite (fuel + k) uf x y = some r := by
  unfold UnionFind.unite at h ⊢
  cases hf1 : UnionFind.find fuel uf x with
  | none => rw [hf1] at h; cases h
  | some r1 =>
    rw [hf1] at h
    rw [find_mono fuel uf x r1 hf1 k]
    simp only at h ⊢
    cases hf2 : UnionFind.find fuel r1.2 y with
    | none => rw [hf2] at h; cases h
    | some r2 =>
      rw [hf2] at h
      rw [find_mono fuel r1.2 y r2 hf2 k]
      exact h

theorem kruskalLoop_mono (fuel k : Nat) : ∀ (es : List Edge) (st r : MSTState),
    kruskalLoop fuel es st = some r → kruskalLoop (fuel + k) es st = some r := by
  intro es
  induction es with
  | nil => intro st r h; simpa [kruskalLoop] using h
  | cons e rest ih =>
    intro st r h
    simp only [kruskalLoop] at h ⊢
    cases hf1 : UnionFind.find fuel st.uf e.1 with
    | none => rw [hf1] at h; cases h
    | some r1 =>
      rw [hf1] at h
      rw [find_mono fuel _ _ r1 hf1 k]
      simp only at h ⊢
      cases hf2 : UnionFind.find fuel r1.2 e.2.1 with
      | none => rw [hf2] at h; cases h
      | some r2 =>
        rw [hf2] at h
        rw [find_mono fuel _ _ r2 hf2 k]
        simp only at h ⊢
        by_cases hne : r1.1 ≠ r2.1
        · rw [if_pos hne] at h ⊢
          cases hu : UnionFind.unite fuel r2.2 e.1 e.2.1 with
          | none => rw [hu] at h; cases h
          | some u3 =>
            rw [hu] at h
            rw [unite_mono fuel _ _ _ u3 hu k]
            exact ih _ r h
        · rw [if_neg hne] at h ⊢
          exact ih _ r h

theorem kruskalLoop_agree (f1 f2 : Nat) (es : List Edge) (st r1 r2 : MSTState)
    (h1 : kruskalLoop f1 es st = some r1) (h2 : kruskalLoop f2 es st = some r2) : r1 = r2 := by
  have e1 := kruskalLoop_mono f1 f2 es st r1 h1
  have e2 := kruskalLoop_mono f2 f1 es st r2 h2
  rw [Nat.add_comm] at e2
  rw [e1] at e2
  exact Option.some.inj e2

theorem sorted_unique (l L : List Edge) (hp : l.Perm L)
    (hl : l.Pairwise (fun a b => a.2.2 ≤ b.2.2)) (hL : L.Pairwise (fun a b => a.2.2 < b.2.2)) :
    l = L := by
  have hne : L.Pairwise (fun a b => a.2.2 ≠ b.2.2) := hL.imp (fun h => ne_of_lt h)
  have hne2 : l.Pairwise (fun a b => a.2.2 ≠ b.2.2) :=
    (hp.pairwise_iff (fun {a b} (h : a.2.2 ≠ b.2.2) => Ne.symm h)).mpr hne
  have hlt : l.Pairwise (fun a b => a.2.2 < b.2.2) :=
    (hl.and hne2).imp (fun h => lt_of_le_of_ne h.1 h.2)
  haveI : IsAntisymm Edge (fun a b => a.2.2 < b.2.2) :=
    ⟨fun a b h1 h2 => absurd h1 (not_lt_of_lt h2)⟩
  exact List.eq_of_perm_of_sorted hp hlt hL

/-- C15: on the demo graph built by `addEdge(0,1,4)`, `addEdge(0,2,3)`, `addEdge(1,2,1)`,
`addEdge(1,3,5)`, `addEdge(2,3,2)`, whatever the iteration order of the adjacency table and
the outcome of the sort, `findMST` returns exactly the three edges `(1,2,1)`, `(2,3,2)`,
`(0,2,3)` in that order, of weights 1, 2, 3 and total weight 6. -/
theorem findMST_simpleGraph (tableOrd : AdjList → AdjList) (sortOrd : List Edge → List Edge)
    (ht : IsTableOrder tableOrd) (hs : IsWeightSort sortOrd) :
    (∃ N, ∀ fuel, N ≤ fuel →
      (findMST tableOrd sortOrd (build simpleGraphOps) fuel).isSome = true) ∧
    ∀ fuel res, findMST tableOrd sortOrd (build simpleGraphOps) fuel = some res →
      res.1 = [(1, 2, 1), (2, 3, 2), (0, 2, 3)] ∧
      res.1.map (fun e => e.2.2) = [1, 2, 3] ∧ edgeWeight res.1 = 6 := by
  have hg := build_storeOK simpleGraphOps
  have hr := build_rangeOK simpleGraphOps (by decide)
  refine ⟨⟨(build simpleGraphOps).numNodes.toNat + 1, fun fuel hf =>
    findMST_some tableOrd sortOrd ht hs _ hg hr fuel (by omega)⟩, ?_⟩
  intro fuel res h
  have hE : sortOrd (collectEdges (tableOrd (build simpleGraphOps).adjacencyList))
      = [(1, 2, 1), (2, 3, 2), (0, 2, 3), (0, 1, 4), (1, 3, 5)] := by
    apply sorted_unique _ _ _ (hs _).2 (by decide)
    refine (hs _).1.trans ?_
    have h1 : (collectEdges (tableOrd (build simpleGraphOps).adjacencyList)).Perm
        (collectEdges (build simpleGraphOps).adjacencyList) :=
      List.Perm.flatMap_right _ (ht _)
    refine h1.trans ?_
    have h2 : collectEdges (build simpleGraphOps).adjacencyList
        = [(0, 1, 4), (0, 2, 3), (1, 2, 1), (1, 3, 5), (2, 3, 2)] := by decide
    rw [h2]
    decide
  have h0 : (kruskalLoop 5 [(1, 2, 1), (2, 3, 2), (0, 2, 3), (0, 1, 4), (1, 3, 5)]
      { uf := UnionFind.init (build simpleGraphOps).numNodes, mst := [],
        metrics := (build simpleGraphOps).metrics }).map MSTState.mst
      = some [(1, 2, 1), (2, 3, 2), (0, 2, 3)] := by decide
  unfold findMST at h
  rw [hE] at h
  cases hl : kruskalLoop fuel [(1, 2, 1), (2, 3, 2), (0, 2, 3), (0, 1, 4), (1, 3, 5)]
      { uf := UnionFind.init (build simpleGraphOps).numNodes, mst := [],
        metrics := (build simpleGraphOps).metrics } with
  | none => rw [hl] at h; cases h
  | some st =>
    rw [hl] at h
    simp only [Option.some.injEq] at h
    cases hl0 : kruskalLoop 5 [(1, 2, 1), (2, 3, 2), (0, 2, 3), (0, 1, 4), (1, 3, 5)]
        { uf := UnionFind.init (build simpleGraphOps).numNodes, mst := [],
          metrics := (build simpleGraphOps).metrics } with
    | none => rw [hl0] at h0; cases h0
    | some st0 =>
      rw [hl0] at h0
      simp only [Option.map_some', Option.some.injEq] at h0
      have hst := kruskalLoop_agree fuel 5 _ _ st st0 hl hl0
      have hres : res.1 = [(1, 2, 1), (2, 3, 2), (0, 2, 3)] := by
        rw [← h, hst, h0]
      rw [hres]
      exact ⟨rfl, by decide, by decide⟩

theorem findMST_simpleGraph_witness :
    (∃ N, ∀ fuel, N ≤ fuel →
      (findMST id weightSort (build simpleGraphOps) fuel).isSome = true) ∧
    ∀ fuel res, findMST id weightSort (build simpleGraphOps) fuel = some res →
      res.1 = [(1, 2, 1), (2, 3, 2), (0, 2, 3)] ∧
      res.1.map (fun e => e.2.2) = [1, 2, 3] ∧ edgeWeight res.1 = 6 :=
  findMST_simpleGraph id weightSort isTableOrder_id isWeightSort_weightSort

/-! ## Comparing two weight lists by their counts below each threshold -/

theorem addNode_eq_self (g : GraphAnalysisTool) (id : Int) (h1 : id ∈ g.nodes)
    (h2 : hasKey g.adjacencyList id = true) (h3 : add32 id 1 ≤ g.numNodes) :
    addNode g id = g := by
  cases g
  simp only [addNode] at *
  simp [h1, h2, h3]

/-- C21: `addNode` is idempotent: calling `addNode(id)` twice gives the same registry,
adjacency table, node bound and edge count (the same store) as calling it once; `addNode`
never changes the edge count or the outgoing edges stored under any node, and registers
nothing new when the id is already registered. -/
theorem addNode_idempotent (g : GraphAnalysisTool) (id : Int) :
    addNode (addNode g id) id = addNode g id ∧
    (addNode g id).numEdges = g.numEdges ∧
    (∀ x, adjOf (addNode g id).adjacencyList x = adjOf g.adjacencyList x) ∧
    (addNode (addNode g id) id).nodes = (addNode g id).nodes ∧
    (addNode (addNode g id) id).adjacencyList = (addNode g id).adjacencyList ∧
    (addNode (addNode g id) id).numNodes = (addNode g id).numNodes := by
  have h : addNode (addNode g id) id = addNode g id := by
    apply addNode_eq_self
    · exact (mem_nodes_addNode g id id).mpr (Or.inl rfl)
    · rw [hasKey_iff, mem_keys_addNode]
      exact Or.inl rfl
    · exact le_max_right _ _
  refine ⟨h, rfl, fun x => adjOf_addNode g id x, ?_, ?_, ?_⟩ <;> rw [h]

/-- C23: in every store built from the empty one by `addNode` and `addEdge` calls, the
source and the target of every edge of the adjacency table are registered, and every
registered id has an adjacency entry. -/
theorem registry_covers_edges (ops : List Op) :
    (∀ x ∈ (build ops).adjacencyList, ∀ e ∈ x.2,
      x.1 ∈ (build ops).nodes ∧ e.1 ∈ (build ops).nodes) ∧
    (∀ e ∈ collectEdges (build ops).adjacencyList,
      e.1 ∈ (build ops).nodes ∧ e.2.1 ∈ (build ops).nodes) ∧
    ∀ v ∈ (build ops).nodes, hasKey (build ops).adjacencyList v = true := by
  have hg := build_storeOK ops
  exact ⟨fun x hx e he => ⟨hg.keys x hx, hg.targets x hx e he⟩,
    fun e he => edge_ends_registered _ hg e he, hg.entries⟩

theorem boundOK_addNode (g : GraphAnalysisTool) (node : Int) (h : BoundOK g)
    (h0 : 0 ≤ node) (h1 : node < INT_MAX) : BoundOK (addNode g node) := by
  have ha : add32 node 1 = node + 1 := by
    apply add32_of_range
    · omega
    · unfold INT_MAX at h1 ⊢; omega
  have hn : (addNode g node).numNodes = max g.numNodes (node + 1) := by
    simp only [addNode, ha]
  right
  by_cases hle : g.numNodes ≤ node + 1
  · refine ⟨node, (mem_nodes_addNode g node node).mpr (Or.inl rfl), ?_⟩
    rw [hn, max_eq_right hle]
  · rcases h with ⟨_, hz⟩ | ⟨m, hm, hmn⟩
    · omega
    · refine ⟨m, (mem_nodes_addNode g node m).mpr (Or.inr hm), ?_⟩
      rw [hn, max_eq_left (by omega), hmn]

theorem boundOK_applyOp (g : GraphAnalysisTool) (op : Op) (h : BoundOK g)
    (hids : ∀ i ∈ op.ids, 0 ≤ i ∧ i < INT_MAX) : BoundOK (applyOp g op) := by
  cases op with
  | node id =>
    have := hids id (by simp [Op.ids])
    exact boundOK_addNode g id h this.1 this.2
  | edge s d w =>
    have hs := hids s (by simp [Op.ids])
    have hd := hids d (by simp [Op.ids])
    exact boundOK_addNode _ d (boundOK_addNode g s h hs.1 hs.2) hd.1 hd.2

theorem boundOK_foldl (ops : List Op) (hids : idsOk ops) : ∀ g : GraphAnalysisTool,
    BoundOK g → BoundOK (ops.foldl applyOp g) := by
  induction ops with
  | nil => intro g h; exact h
  | cons op rest ih =>
    intro g h
    have hop := hids op (List.mem_cons_self _ _)
    exact ih (fun o ho => hids o (List.mem_cons_of_mem _ ho)) _ (boundOK_applyOp g op h hop)

theorem build_boundOK (ops : List Op) (hids : idsOk ops) : BoundOK (build ops) := by
  apply boundOK_foldl ops hids
  exact Or.inl ⟨rfl, rfl⟩

/-- C24, as amended: in every store built from the empty one by `addNode` and `addEdge`
calls with non-negative ids below `INT_MAX`, `numNodes` is 0 when the registry is empty and
otherwise 1 plus the largest registered id, and every registered id lies in
`[0, numNodes)`; registering id 1000 alone gives 1001. -/
theorem numNodes_is_max_plus_one (ops : List Op) (hids : idsOk ops) :
    ((build ops).nodes = [] → (build ops).numNodes = 0) ∧
    ((build ops).nodes ≠ [] →
      ∃ m ∈ (build ops).nodes, (build ops).numNodes = m + 1 ∧
        ∀ v ∈ (build ops).nodes, v ≤ m) ∧
    (∀ v ∈ (build ops).nodes, 0 ≤ v ∧ v < (build ops).numNodes) ∧
    (build [Op.node 1000]).numNodes = 1001 := by
  have hb := build_boundOK ops hids
  have hr := build_rangeOK ops hids
  refine ⟨?_, ?_, fun v hv => ⟨hr.lo v hv, hr.hi v hv⟩, by decide⟩
  · intro he
    rcases hb with ⟨_, hz⟩ | ⟨m, hm, _⟩
    · exact hz
    · rw [he] at hm
      cases hm
  · intro hne
    rcases hb with ⟨he, _⟩ | ⟨m, hm, hmn⟩
    · exact absurd he hne
    · refine ⟨m, hm, hmn, ?_⟩
      intro v hv
      have := hr.hi v hv
      omega

theorem numNodes_is_max_plus_one_witness :
    ((build [Op.node 1000]).nodes = [] → (build [Op.node 1000]).numNodes = 0) ∧
    ((build [Op.node 1000]).nodes ≠ [] →
      ∃ m ∈ (build [Op.node 1000]).nodes, (build [Op.node 1000]).numNodes = m + 1 ∧
        ∀ v ∈ (build [Op.node 1000]).nodes, v ≤ m) ∧
    (∀ v ∈ (build [Op.node 1000]).nodes, 0 ≤ v ∧ v < (build [Op.node 1000]).numNodes) ∧
    (build [Op.node 1000]).numNodes = 1001 :=
  numNodes_is_max_plus_one [Op.node 1000] (by decide)

/-- C24, as stated, fails: `addNode(2147483647)` registers a non-negative id and leaves
`numNodes` at `0`, because `node + 1` is not an `int`; so `numNodes` is not `1` plus the
largest registered id, and that id does not lie in `[0, numNodes)`. -/
theorem numNodes_max_id_counterexample :
    (∀ i ∈ maxIdNodeOps.flatMap Op.ids, 0 ≤ i) ∧
    (build maxIdNodeOps).nodes = [2147483647] ∧
    (build maxIdNodeOps).numNodes = 0 ∧
    ¬ (∃ m ∈ (build maxIdNodeOps).nodes, (build maxIdNodeOps).numNodes = m + 1) ∧
    ¬ (∀ v ∈ (build maxIdNodeOps).nodes, 0 ≤ v ∧ v < (build maxIdNodeOps).numNodes) := by
  refine ⟨by decide, by decide, by decide, by decide, by decide⟩

/-! ## The graph store: the edge count -/

theorem rowTotal_append_empty (al : AdjList) (u : Int) :
    rowTotal (al ++ [(u, [])]) = rowTotal al := by
  unfold rowTotal
  simp

theorem rowTotal_pushEdge (al : AdjList) (u : Int) (e : Int × Int) :
    rowTotal (pushEdge al u e) = rowTotal al + 1 := by
  induction al with
  | nil => simp [pushEdge, rowTotal]
  | cons x rest ih =>
    simp only [pushEdge]
    unfold rowTotal at ih ⊢
    by_cases hx : x.1 = u
    · rw [if_pos hx]
      simp only [List.map_cons, List.sum_cons, List.length_append, List.length_singleton]
      omega
    · rw [if_neg hx]
      simp only [List.map_cons, List.sum_cons, ih]
      omega

theorem rowTotal_addNode (g : GraphAnalysisTool) (node : Int) :
    rowTotal (addNode g node).adjacencyList = rowTotal g.adjacencyList := by
  simp only [addNode]
  split
  · rfl
  · exact rowTotal_append_empty _ _

theorem rowTotal_addEdge (g : GraphAnalysisTool) (s d w : Int) :
    rowTotal (addEdge g s d w).adjacencyList = rowTotal g.adjacencyList + 1 := by
  simp only [addEdge]
  rw [rowTotal_pushEdge, rowTotal_addNode, rowTotal_addNode]

theorem edgeCalls_cons (op : Op) (rest : List Op) :
    edgeCalls (op :: rest) = (if op.isEdge then 1 else 0) + edgeCalls rest := by
  unfold edgeCalls
  rw [List.filter_cons]
  split
  · rw [List.length_cons]; omega
  · omega

theorem rowTotal_foldl (ops : List Op) : ∀ g : GraphAnalysisTool,
    rowTotal (ops.foldl applyOp g).adjacencyList = rowTotal g.adjacencyList + edgeCalls ops := by
  induction ops with
  | nil => intro g; simp [edgeCalls]
  | cons op rest ih =>
    intro g
    rw [List.foldl_cons, ih, edgeCalls_cons]
    cases op with
    | node id =>
      simp only [applyOp, Op.isEdge, rowTotal_addNode]
      simp
    | edge s d w =>
      simp only [applyOp, Op.isEdge, rowTotal_addEdge]
      simp
      omega

theorem numEdges_foldl (ops : List Op) : ∀ g : GraphAnalysisTool, 0 ≤ g.numEdges →
    g.numEdges + edgeCalls ops ≤ INT_MAX →
    (ops.foldl applyOp g).numEdges = g.numEdges + edgeCalls ops := by
  induction ops with
  | nil => intro g _ _; simp [edgeCalls]
  | cons op rest ih =>
    intro g h0 h1
    rw [List.foldl_cons]
    rw [edgeCalls_cons] at h1 ⊢
    cases op with
    | node id =>
      simp only [Op.isEdge] at h1 ⊢
      have hn : (applyOp g (Op.node id)).numEdges = g.numEdges := rfl
      rw [ih _ (by rw [hn]; exact h0) (by rw [hn]; simpa using h1), hn]
      simp
    | edge s d w =>
      simp only [Op.isEdge, if_true] at h1 ⊢
      push_cast at h1 ⊢
      have hn : (applyOp g (Op.edge s d w)).numEdges = g.numEdges + 1 := by
        show add32 g.numEdges 1 = g.numEdges + 1
        apply add32_of_range
        · omega
        · have : (0 : Int) ≤ edgeCalls rest := Int.ofNat_nonneg _
          omega
      rw [ih _ (by rw [hn]; omega) (by rw [hn]; omega), hn]
      omega

theorem length_collectEdges (al : AdjList) : (collectEdges al).length = rowTotal al := by
  unfold collectEdges rowTotal
  induction al with
  | nil => rfl
  | cons x rest ih => simp [List.flatMap_cons, ih]

theorem shortestPath_numEdges (g : GraphAnalysisTool) (start endNode : Int) (fuel : Nat)
    (r : (List Int × Int) × GraphAnalysisTool) (h : shortestPath g start endNode fuel = some r) :
    r.2.numEdges = g.numEdges := by
  unfold shortestPath at h
  cases hl : spLoop fuel (spInit g start) with
  | none => rw [hl] at h; cases h
  | some s =>
    rw [hl] at h
    simp only at h
    split at h
    · cases hw : walkBack s.previous fuel endNode [] with
      | none => rw [hw] at h; cases h
      | some path =>
        rw [hw] at h
        simp only [Option.some.injEq] at h
        rw [← h]
    · simp only [Option.some.injEq] at h
      rw [← h]

theorem findMST_numEdges (tableOrd : AdjList → AdjList) (sortOrd : List Edge → List Edge)
    (g : GraphAnalysisTool) (fuel : Nat) (r : List Edge × GraphAnalysisTool)
    (h : findMST tableOrd sortOrd g fuel = some r) : r.2.numEdges = g.numEdges := by
  unfold findMST at h
  split at h
  · cases h
  · simp only [Option.some.injEq] at h
    rw [← h]

theorem findCommunities_numEdges (nodeOrd : List Int → List Int) (g : GraphAnalysisTool)
    (fuel : Nat) (r : List (List Int) × GraphAnalysisTool)
    (h : findCommunities nodeOrd g fuel = some r) : r.2.numEdges = g.numEdges := by
  unfold findCommunities at h
  split at h
  · cases h
  · simp only [Option.some.injEq] at h
    rw [← h]

/-- C25: in every store built from the empty one by `addNode` and `addEdge` calls, fewer
than `2^31` of them `addEdge`, `numEdges` is the number of `addEdge` calls made so far, which
is the sum of the lengths of all adjacency lists; a further `addNode` keeps it, a further
`addEdge` raises it by one, and `shortestPath`, `findMST` and `findCommunities` keep it. -/
theorem numEdges_counts_calls (ops : List Op) (h : (edgeCalls ops : Int) ≤ INT_MAX) :
    (build ops).numEdges = edgeCalls ops ∧
    rowTotal (build ops).adjacencyList = edgeCalls ops ∧
    (collectEdges (build ops).adjacencyList).length = edgeCalls ops ∧
    (∀ id, (addNode (build ops) id).numEdges = (build ops).numEdges) ∧
    (∀ s d w, (edgeCalls ops : Int) < INT_MAX →
      (addEdge (build ops) s d w).numEdges = (build ops).numEdges + 1) ∧
    (∀ start endNode fuel r, shortestPath (build ops) start endNode fuel = some r →
      r.2.numEdges = (build ops).numEdges) ∧
    (∀ tableOrd sortOrd fuel r, findMST tableOrd sortOrd (build ops) fuel = some r →
      r.2.numEdges = (build ops).numEdges) ∧
    (∀ nodeOrd fuel r, findCommunities nodeOrd (build ops) fuel = some r →
      r.2.numEdges = (build ops).numEdges) := by
  have hn : (build ops).numEdges = edgeCalls ops := by
    have := numEdges_foldl ops GraphAnalysisTool.empty (le_refl _)
      (by simpa [GraphAnalysisTool.empty] using h)
    simpa [GraphAnalysisTool.empty] using this
  have hrow : rowTotal (build ops).adjacencyList = edgeCalls ops := by
    have := rowTotal_foldl ops GraphAnalysisTool.empty
    simpa [GraphAnalysisTool.empty, rowTotal] using this
  refine ⟨hn, hrow, ?_, fun _ => rfl, ?_, ?_, ?_, ?_⟩
  · rw [length_collectEdges, hrow]
  · intro s d w hlt
    show add32 (build ops).numEdges 1 = (build ops).numEdges + 1
    rw [hn]
    apply add32_of_range
    · have : (0 : Int) ≤ edgeCalls ops := Int.ofNat_nonneg _
      omega
    · omega
  · intro start endNode fuel r hr
    exact shortestPath_numEdges _ _ _ _ r hr
  · intro tableOrd sortOrd fuel r hr
    exact findMST_numEdges _ _ _ _ r hr
  · intro nodeOrd fuel r hr
    exact findCommunities_numEdges _ _ _ r hr

theorem numEdges_counts_calls_witness :
    (build simpleGraphOps).numEdges = edgeCalls simpleGraphOps ∧
    rowTotal (build simpleGraphOps).adjacencyList = edgeCalls simpleGraphOps ∧
    (collectEdges (build simpleGraphOps).adjacencyList).length = edgeCalls simpleGraphOps ∧
    (∀ id, (addNode (build simpleGraphOps) id).numEdges = (build simpleGraphOps).numEdges) ∧
    (∀ s d w, (edgeCalls simpleGraphOps : Int) < INT_MAX →
      (addEdge (build simpleGraphOps) s d w).numEdges = (build simpleGraphOps).numEdges + 1) ∧
    (∀ start endNode fuel r, shortestPath (build simpleGraphOps) start endNode fuel = some r →
      r.2.numEdges = (build simpleGraphOps).numEdges) ∧
    (∀ tableOrd sortOrd fuel r, findMST tableOrd sortOrd (build simpleGraphOps) fuel = some r →
      r.2.numEdges = (build simpleGraphOps).numEdges) ∧
    (∀ nodeOrd fuel r, findCommunities nodeOrd (build simpleGraphOps) fuel = some r →
      r.2.numEdges = (build simpleGraphOps).numEdges) :=
  numEdges_counts_calls simpleGraphOps (by decide)

/-! ## Union-find: reachable states -/

theorem isRoot_iff (uf : UnionFind) (z : Int) : vget uf.parent z = z ↔ UFRoot uf z z :=
  ⟨fun h => UFRoot.root h, fun h => uFRoot_is_root uf h⟩

theorem rootCount_congr (uf uf1 : UnionFind) (n : Int)
    (h : ∀ z, 0 ≤ z → z < n → (vget uf1.parent z = z ↔ vget uf.parent z = z)) :
    rootCount uf1 n = rootCount uf n := by
  unfold rootCount
  congr 1
  apply List.filter_congr
  intro z hz
  have hr := (mem_nodeIds n z).mp hz
  simp only [decide_eq_decide]
  exact h z hr.1 hr.2

theorem rootCount_le (uf : UnionFind) (n : Int) : rootCount uf n ≤ n.toNat := by
  unfold rootCount
  refine le_trans (List.length_filter_le _ _) ?_
  simp [nodeIds]

theorem rootCount_pos (uf : UnionFind) (n : Int) (r : Int) (h0 : 0 ≤ r) (h1 : r < n)
    (hr : vget uf.parent r = r) : 0 < rootCount uf n := by
  unfold rootCount
  apply List.length_pos_of_mem (a := r)
  rw [List.mem_filter]
  exact ⟨(mem_nodeIds n r).mpr ⟨h0, h1⟩, by simpa using hr⟩

theorem filter_length_remove (p q : Int → Bool) (l : Int) : ∀ U : List Int, U.Nodup →
    l ∈ U → p l = true → (∀ z ∈ U, (q z = true ↔ (p z = true ∧ z ≠ l))) →
    (U.filter q).length + 1 = (U.filter p).length := by
  intro U
  induction U with
  | nil => intro _ hl; cases hl
  | cons a rest ih =>
    intro hnd hl hp hq
    have hnd2 := List.nodup_cons.mp hnd
    by_cases hal : a = l
    · subst hal
      have hqa : q a = false := by
        cases hqa : q a with
        | false => rfl
        | true => exact absurd rfl ((hq a (List.mem_cons_self _ _)).mp hqa).2
      have hsame : rest.filter q = rest.filter p := by
        apply List.filter_congr
        intro z hz
        have hza : z ≠ a := fun h => hnd2.1 (h ▸ hz)
        have := hq z (List.mem_cons_of_mem _ hz)
        cases hqz : q z <;> cases hpz : p z <;> simp_all
      rw [List.filter_cons, List.filter_cons, hqa, hp, hsame]
      simp
    · have hl2 : l ∈ rest := by
        rcases List.mem_cons.mp hl with h | h
        · exact absurd h.symm hal
        · exact h
      have ih2 := ih hnd2.2 hl2 hp (fun z hz => hq z (List.mem_cons_of_mem _ hz))
      have hqa := hq a (List.mem_cons_self _ _)
      rw [List.filter_cons, List.filter_cons]
      cases hpa : p a with
      | false =>
        have : q a = false := by
          cases hqa2 : q a with
          | false => rfl
          | true =>
            have := (hqa.mp hqa2).1
            rw [hpa] at this
            cases this
        rw [this]
        simpa using ih2
      | true =>
        have : q a = true := hqa.mpr ⟨hpa, hal⟩
        rw [this]
        simp only [if_true, List.length_cons]
        omega

theorem unite_same_root (n : Int) (B : Nat) (fuel : Nat) (uf : UnionFind) (x y r : Int)
    (uf2 : UnionFind) (h : UnionFind.unite fuel uf x y = some uf2) (hok : UFOK uf n B)
    (hx0 : 0 ≤ x) (hx1 : x < n) (hy0 : 0 ≤ y) (hy1 : y < n) (hrx : UFRoot uf x r)
    (hry : UFRoot uf y r) :
    UFOK uf2 n B ∧ uf2.rank = uf.rank ∧ ∀ z rz, UFRoot uf z rz → UFRoot uf2 z rz := by
  unfold UnionFind.unite at h
  cases hf1 : UnionFind.find fuel uf x with
  | none => rw [hf1] at h; cases h
  | some res1 =>
    obtain ⟨px, u1⟩ := res1
    rw [hf1] at h
    simp only at h
    obtain ⟨hrx1, hok1, hrank1, hpres1⟩ := find_sound n B fuel uf x px u1 hf1 hok hx0 hx1
    cases hf2 : UnionFind.find fuel u1 y with
    | none => rw [hf2] at h; cases h
    | some res2 =>
      obtain ⟨py, u2⟩ := res2
      rw [hf2] at h
      simp only at h
      obtain ⟨hry1, hok2, hrank2, hpres2⟩ := find_sound n B fuel u1 y py u2 hf2 hok1 hy0 hy1
      have e1 : px = r := uFRoot_unique uf hrx1 hrx
      have e2 : py = r := uFRoot_unique u1 hry1 (hpres1 _ _ hry)
      rw [if_pos (e1.trans e2.symm)] at h
      simp only [Option.some.injEq] at h
      subst h
      exact ⟨hok2, hrank2.trans hrank1, fun z rz hz => hpres2 z rz (hpres1 z rz hz)⟩

theorem roots_after_link (n : Int) (B : Nat) (uf uf2 : UnionFind) (hok : UFOK uf n B)
    (w l : Int) (hw : vget uf.parent w = w) (hwl : w ≠ l)
    (hlink : ∀ z rz, UFRoot uf z rz → UFRoot uf2 z (if rz = l then w else rz))
    (z : Int) (h0 : 0 ≤ z) (h1 : z < n) :
    vget uf2.parent z = z ↔ (vget uf.parent z = z ∧ z ≠ l) := by
  obtain ⟨rz, hrz⟩ := uFRoot_exists uf n B hok z h0 h1
  have h2 := hlink z rz hrz
  constructor
  · intro hz
    have e := uFRoot_unique uf2 h2 (UFRoot.root hz)
    by_cases hrl : rz = l
    · rw [if_pos hrl] at e
      rw [← e]
      exact ⟨hw, hwl⟩
    · rw [if_neg hrl] at e
      rw [← e]
      exact ⟨uFRoot_is_root uf hrz, hrl⟩
  · rintro ⟨hz, hzl⟩
    have h3 := hlink z z (UFRoot.root hz)
    rw [if_neg hzl] at h3
    exact uFRoot_is_root uf2 h3

/-- Every reachable state is well formed, and its ranks leave room: the largest rank plus
the number of roots does not exceed the size. -/
theorem uFReach_ok (n : Int) (hn : n ≤ INT_MAX) (uf : UnionFind) (h : UFReach n uf) :
    ∃ B : Nat, UFOK uf n B ∧ B + rootCount uf n ≤ n.toNat := by
  induction h with
  | init => exact ⟨0, uFOK_init n, by simpa using rootCount_le _ n⟩
  | @find uf uf1 fuel x r _ h0 h1 hf ih =>
    obtain ⟨B, hok, hB⟩ := ih
    obtain ⟨_, hok1, _, hpres⟩ := find_sound n B fuel uf x r uf1 hf hok h0 h1
    refine ⟨B, hok1, ?_⟩
    rw [rootCount_congr uf uf1 n]
    · exact hB
    · intro z hz0 hz1
      rw [isRoot_iff, isRoot_iff]
      exact roots_transfer n B uf uf1 hok hpres z z hz0 hz1
  | @unite uf uf1 fuel x y _ hx0 hx1 hy0 hy1 hu ih =>
    obtain ⟨B, hok, hB⟩ := ih
    obtain ⟨rx0, hrx0⟩ := uFRoot_exists uf n B hok x hx0 hx1
    have hrng := uFRoot_range uf n B hok hrx0 hx0 hx1
    have hpos := rootCount_pos uf n rx0 hrng.1 hrng.2.1 (uFRoot_is_root uf hrx0)
    have hB1 : (B : Int) + 1 ≤ INT_MAX := by omega
    obtain ⟨rx, ry, hrx, hry, hok1, halt⟩ :=
      unite_sound n B fuel uf x y uf1 hu hok hx0 hx1 hy0 hy1 hB1
    rcases halt with ⟨heq, _⟩ | ⟨hne, w, l, hwl, hlink⟩
    · subst heq
      obtain ⟨hokB, _, hpres⟩ := unite_same_root n B fuel uf x y rx uf1 hu hok hx0 hx1 hy0 hy1
        hrx hry
      refine ⟨B, hokB, ?_⟩
      rw [rootCount_congr uf uf1 n]
      · exact hB
      · intro z hz0 hz1
        rw [isRoot_iff, isRoot_iff]
        exact roots_transfer n B uf uf1 hok hpres z z hz0 hz1
    · have hrootx : vget uf.parent rx = rx := uFRoot_is_root uf hrx
      have hrooty : vget uf.parent ry = ry := uFRoot_is_root uf hry
      have hrngy := uFRoot_range uf n B hok hry hy0 hy1
      have hrngx := uFRoot_range uf n B hok hrx hx0 hx1
      have hw : vget uf.parent w = w := by
        rcases hwl with ⟨h1, _⟩ | ⟨h1, _⟩ <;> rw [h1] <;> assumption
      have hl : vget uf.parent l = l := by
        rcases hwl with ⟨_, h2⟩ | ⟨_, h2⟩ <;> rw [h2] <;> assumption
      have hlr : 0 ≤ l ∧ l < n := by
        rcases hwl with ⟨_, h2⟩ | ⟨_, h2⟩ <;> rw [h2]
        · exact ⟨hrngy.1, hrngy.2.1⟩
        · exact ⟨hrngx.1, hrngx.2.1⟩
      have hwne : w ≠ l := by
        rcases hwl with ⟨h1, h2⟩ | ⟨h1, h2⟩
        · rw [h1, h2]; exact hne
        · rw [h1, h2]; exact Ne.symm hne
      have hcount : rootCount uf1 n + 1 = rootCount uf n := by
        unfold rootCount
        apply filter_length_remove _ _ l (nodeIds n) (nodup_nodeIds n)
          ((mem_nodeIds n l).mpr hlr) (by simpa using hl)
        intro z hz
        have hzr := (mem_nodeIds n z).mp hz
        simp only [decide_eq_true_eq]
        exact roots_after_link n B uf uf1 hok w l hw hwne hlink z hzr.1 hzr.2
      exact ⟨B + 1, hok1, by omega⟩

theorem uFReach_bound (n : Int) (hn : n ≤ INT_MAX) (uf : UnionFind) (h : UFReach n uf)
    (x : Int) (h0 : 0 ≤ x) (h1 : x < n) :
    ∃ B : Nat, UFOK uf n B ∧ (B : Int) + 1 ≤ INT_MAX ∧ B < n.toNat := by
  obtain ⟨B, hok, hB⟩ := uFReach_ok n hn uf h
  obtain ⟨r, hr⟩ := uFRoot_exists uf n B hok x h0 h1
  have hrng := uFRoot_range uf n B hok hr h0 h1
  have hpos := rootCount_pos uf n r hrng.1 hrng.2.1 (uFRoot_is_root uf hr)
  exact ⟨B, hok, by omega, by omega⟩

/-! ## Union-find: contracts of `find` and `unite` -/

theorem vset_vget_self (a : List Int) (i : Int) : vset a i (vget a i) = a := by
  unfold vset vget
  by_cases hi : i < 0
  · rw [if_pos hi]
  · rw [if_neg hi, if_neg hi]
    apply List.ext_getElem
    · simp
    · intro k h1 h2
      rw [List.getElem_set]
      split
      · rename_i hk
        subst hk
        simp [List.getD_eq_getElem?_getD, List.getElem?_eq_getElem h2]
      · rfl

theorem find_parent (n : Int) (B : Nat) (fuel : Nat) (uf : UnionFind) (x r : Int)
    (uf1 : UnionFind) (h : UnionFind.find fuel uf x = some (r, uf1)) (hok : UFOK uf n B)
    (h0 : 0 ≤ x) (h1 : x < n) : vget uf1.parent x = r ∧ vget uf1.parent r = r := by
  obtain ⟨hroot, hok1, _, hpres⟩ := find_sound n B fuel uf x r uf1 h hok h0 h1
  refine ⟨?_, uFRoot_is_root uf1 (hpres _ _ hroot)⟩
  cases fuel with
  | zero => simp [UnionFind.find] at h
  | succ fuel =>
    simp only [UnionFind.find] at h
    by_cases hp : vget uf.parent x = x
    · rw [if_neg (not_not.mpr hp)] at h
      simp only [Option.some.injEq, Prod.mk.injEq] at h
      rw [← h.2, h.1]
    · rw [if_pos hp] at h
      cases hf : UnionFind.find fuel uf (vget uf.parent x) with
      | none => rw [hf] at h; cases h
      | some res =>
        rw [hf] at h
        simp only [Option.some.injEq, Prod.mk.injEq] at h
        rw [← h.2]
        exact h.1

theorem find_fixed (fuel : Nat) (uf : UnionFind) (x r : Int) (hx : vget uf.parent x = r)
    (hr : vget uf.parent r = r) : UnionFind.find (fuel + 2) uf x = some (r, uf) := by
  have hroot : UnionFind.find (fuel + 1) uf r = some (r, uf) := by
    simp only [UnionFind.find]
    rw [if_neg (not_not.mpr hr), hr]
  by_cases hxr : x = r
  · subst hxr
    simp only [UnionFind.find]
    rw [if_neg (not_not.mpr hr), hr]
  · simp only [UnionFind.find]
    have hne : vget uf.parent x ≠ x := by rw [hx]; exact Ne.symm hxr
    rw [if_pos hne, hx]
    have := hroot
    simp only [UnionFind.find] at this
    rw [this]
    simp only
    have hset : vset uf.parent x r = uf.parent := by
      rw [← hx]
      exact vset_vget_self _ _
    rw [hset, hx]

theorem sameRoot_symm (uf : UnionFind) {u v : Int} (h : SameRoot uf u v) : SameRoot uf v u := by
  obtain ⟨r, h1, h2⟩ := h
  exact ⟨r, h2, h1⟩

theorem sameRoot_trans (uf : UnionFind) {u v z : Int} (h1 : SameRoot uf u v)
    (h2 : SameRoot uf v z) : SameRoot uf u z := by
  obtain ⟨r, a, b⟩ := h1
  obtain ⟨r2, c, d⟩ := h2
  have := uFRoot_unique uf b c
  subst this
  exact ⟨r, a, d⟩

theorem sameRoot_iff (uf : UnionFind) (u v ru rv : Int) (hu : UFRoot uf u ru)
    (hv : UFRoot uf v rv) : SameRoot uf u v ↔ ru = rv := by
  constructor
  · rintro ⟨r, h1, h2⟩
    rw [uFRoot_unique uf hu h1, uFRoot_unique uf hv h2]
  · intro h
    subst h
    exact ⟨ru, hu, hv⟩

theorem find_pair_equal (n : Int) (B : Nat) (uf : UnionFind) (hok : UFOK uf n B) (a b : Int)
    (ha0 : 0 ≤ a) (ha1 : a < n) (hb0 : 0 ≤ b) (hb1 : b < n) (hs : SameRoot uf a b)
    (fuel : Nat) (ra : Int) (u2 : UnionFind) (hfa : UnionFind.find fuel uf a = some (ra, u2)) :
    UFOK u2 n B ∧
    ∀ fuel3 rb u3, UnionFind.find fuel3 u2 b = some (rb, u3) → ra = rb := by
  obtain ⟨hra, hok2, _, hpres⟩ := find_sound n B fuel uf a ra u2 hfa hok ha0 ha1
  refine ⟨hok2, ?_⟩
  intro fuel3 rb u3 hfb
  obtain ⟨hrb, _, _, _⟩ := find_sound n B fuel3 u2 b rb u3 hfb hok2 hb0 hb1
  have hrb0 : UFRoot uf b rb := (roots_transfer n B uf u2 hok hpres b rb hb0 hb1).mp hrb
  exact (sameRoot_iff uf a b ra rb hra hrb0).mp hs

/-- What `unite(x, y)` does to the classes: afterwards two elements have the same root
exactly when they had before, or one was with `x` and the other with `y`. -/
theorem unite_classes (n : Int) (B : Nat) (fuel : Nat) (uf : UnionFind) (x y : Int)
    (uf1 : UnionFind) (h : UnionFind.unite fuel uf x y = some uf1) (hok : UFOK uf n B)
    (hx0 : 0 ≤ x) (hx1 : x < n) (hy0 : 0 ≤ y) (hy1 : y < n) (hB : (B : Int) + 1 ≤ INT_MAX)
    (u v : Int) (hu0 : 0 ≤ u) (hu1 : u < n) (hv0 : 0 ≤ v) (hv1 : v < n) :
    SameRoot uf1 u v ↔
      (SameRoot uf u v ∨ (SameRoot uf u x ∧ SameRoot uf v y) ∨
        (SameRoot uf u y ∧ SameRoot uf v x)) := by
  obtain ⟨rx, ry, hrx, hry, hok1, halt⟩ :=
    unite_sound n B fuel uf x y uf1 h hok hx0 hx1 hy0 hy1 hB
  obtain ⟨ru, hru⟩ := uFRoot_exists uf n B hok u hu0 hu1
  obtain ⟨rv, hrv⟩ := uFRoot_exists uf n B hok v hv0 hv1
  have huv := sameRoot_iff uf u v ru rv hru hrv
  have hux := sameRoot_iff uf u x ru rx hru hrx
  have huy := sameRoot_iff uf u y ru ry hru hry
  have hvx := sameRoot_iff uf v x rv rx hrv hrx
  have hvy := sameRoot_iff uf v y rv ry hrv hry
  rw [huv, hux, huy, hvx, hvy]
  rcases halt with ⟨heq, hpres⟩ | ⟨hne, w, l, hwl, hlink⟩
  · rw [sameRoot_iff uf1 u v ru rv (hpres _ _ hru) (hpres _ _ hrv)]
    constructor
    · exact Or.inl
    · rintro (h1 | ⟨h1, h2⟩ | ⟨h1, h2⟩)
      · exact h1
      · rw [h1, h2, heq]
      · rw [h1, h2, heq]
  · rw [sameRoot_iff uf1 u v _ _ (hlink _ _ hru) (hlink _ _ hrv)]
    have hwne : w ≠ l := by
      rcases hwl with ⟨h1, h2⟩ | ⟨h1, h2⟩
      · rw [h1, h2]; exact hne
      · rw [h1, h2]; exact Ne.symm hne
    constructor
    · intro hf
      by_cases h1 : ru = l
      · by_cases h2 : rv = l
        · exact Or.inl (h1.trans h2.symm)
        · rw [if_pos h1, if_neg h2] at hf
          rcases hwl with ⟨e1, e2⟩ | ⟨e1, e2⟩
          · exact Or.inr (Or.inr ⟨h1.trans e2, hf.symm.trans e1⟩)
          · exact Or.inr (Or.inl ⟨h1.trans e2, hf.symm.trans e1⟩)
      · by_cases h2 : rv = l
        · rw [if_neg h1, if_pos h2] at hf
          rcases hwl with ⟨e1, e2⟩ | ⟨e1, e2⟩
          · exact Or.inr (Or.inl ⟨hf.trans e1, h2.trans e2⟩)
          · exact Or.inr (Or.inr ⟨hf.trans e1, h2.trans e2⟩)
        · rw [if_neg h1, if_neg h2] at hf
          exact Or.inl hf
    · rintro (h1 | ⟨h1, h2⟩ | ⟨h1, h2⟩)
      · rw [h1]
      · rw [h1, h2]
        rcases hwl with ⟨e1, e2⟩ | ⟨e1, e2⟩
        · rw [if_neg (by rw [e2]; exact hne), if_pos e2.symm, e1]
        · rw [if_pos e2.symm, if_neg (by rw [e2]; exact Ne.symm hne), e1]
      · rw [h1, h2]
        rcases hwl with ⟨e1, e2⟩ | ⟨e1, e2⟩
        · rw [if_pos e2.symm, if_neg (by rw [e2]; exact hne), e1]
        · rw [if_neg (by rw [e2]; exact Ne.symm hne), if_pos e2.symm, e1]

theorem uFReach_three : UFReach 3 (UnionFind.init 3) := UFReach.init

/-! ## Union-find: claims -/

/-- C26: for every `UnionFind` of size `n` reached from the constructor by `find` and
`unite` calls and every `a`, `b` in `[0, n)`: `unite(a, b)` returns, and afterwards `find(a)`
and `find(b)` return, in either order of the two calls, the same value. -/
theorem unite_then_find_equal (n : Int) (hn : n ≤ INT_MAX) (uf : UnionFind)
    (hr : UFReach n uf) (a b : Int) (ha0 : 0 ≤ a) (ha1 : a < n) (hb0 : 0 ≤ b) (hb1 : b < n) :
    (∃ N, ∀ fuel, N ≤ fuel → (UnionFind.unite fuel uf a b).isSome = true) ∧
    ∀ fuel uf1, UnionFind.unite fuel uf a b = some uf1 →
      (∃ N, ∀ fuel2, N ≤ fuel2 →
        (UnionFind.find fuel2 uf1 a).isSome = true ∧
        (UnionFind.find fuel2 uf1 b).isSome = true) ∧
      (∀ fuel2 ra u2, UnionFind.find fuel2 uf1 a = some (ra, u2) →
        (∃ N, ∀ fuel3, N ≤ fuel3 → (UnionFind.find fuel3 u2 b).isSome = true) ∧
        ∀ fuel3 rb u3, UnionFind.find fuel3 u2 b = some (rb, u3) → ra = rb) ∧
      (∀ fuel2 rb u2, UnionFind.find fuel2 uf1 b = some (rb, u2) →
        (∃ N, ∀ fuel3, N ≤ fuel3 → (UnionFind.find fuel3 u2 a).isSome = true) ∧
        ∀ fuel3 ra u3, UnionFind.find fuel3 u2 a = some (ra, u3) → ra = rb) := by
  obtain ⟨B, hok, hB, _⟩ := uFReach_bound n hn uf hr a ha0 ha1
  refine ⟨⟨B + 1, fun fuel hf =>
    unite_some n B fuel uf a b hok ha0 ha1 hb0 hb1 (by omega)⟩, ?_⟩
  intro fuel uf1 hu
  obtain ⟨rx, ry, _, _, hok1, _⟩ := unite_sound n B fuel uf a b uf1 hu hok ha0 ha1 hb0 hb1 hB
  have hs : SameRoot uf1 a b := by
    rw [unite_classes n B fuel uf a b uf1 hu hok ha0 ha1 hb0 hb1 hB a b ha0 ha1 hb0 hb1]
    obtain ⟨r1, h1⟩ := uFRoot_exists uf n B hok a ha0 ha1
    obtain ⟨r2, h2⟩ := uFRoot_exists uf n B hok b hb0 hb1
    exact Or.inr (Or.inl ⟨⟨r1, h1, h1⟩, ⟨r2, h2, h2⟩⟩)
  refine ⟨⟨B + 2, fun fuel2 hf =>
    ⟨find_some_of_fuel n (B + 1) fuel2 uf1 a hok1 ha0 ha1 (by omega),
     find_some_of_fuel n (B + 1) fuel2 uf1 b hok1 hb0 hb1 (by omega)⟩⟩, ?_, ?_⟩
  · intro fuel2 ra u2 hfa
    obtain ⟨hok2, heq⟩ := find_pair_equal n (B + 1) uf1 hok1 a b ha0 ha1 hb0 hb1 hs fuel2 ra u2 hfa
    exact ⟨⟨B + 2, fun fuel3 hf =>
      find_some_of_fuel n (B + 1) fuel3 u2 b hok2 hb0 hb1 (by omega)⟩, heq⟩
  · intro fuel2 rb u2 hfb
    obtain ⟨hok2, heq⟩ := find_pair_equal n (B + 1) uf1 hok1 b a hb0 hb1 ha0 ha1
      (sameRoot_symm uf1 hs) fuel2 rb u2 hfb
    exact ⟨⟨B + 2, fun fuel3 hf =>
      find_some_of_fuel n (B + 1) fuel3 u2 a hok2 ha0 ha1 (by omega)⟩,
      fun fuel3 ra u3 h => (heq fuel3 ra u3 h).symm⟩

theorem unite_then_find_equal_witness :
    (∃ N, ∀ fuel, N ≤ fuel → (UnionFind.unite fuel (UnionFind.init 3) 0 1).isSome = true) ∧
    ∀ fuel uf1, UnionFind.unite fuel (UnionFind.init 3) 0 1 = some uf1 →
      (∃ N, ∀ fuel2, N ≤ fuel2 →
        (UnionFind.find fuel2 uf1 0).isSome = true ∧
        (UnionFind.find fuel2 uf1 1).isSome = true) ∧
      (∀ fuel2 ra u2, UnionFind.find fuel2 uf1 0 = some (ra, u2) →
        (∃ N, ∀ fuel3, N ≤ fuel3 → (UnionFind.find fuel3 u2 1).isSome = true) ∧
        ∀ fuel3 rb u3, UnionFind.find fuel3 u2 1 = some (rb, u3) → ra = rb) ∧
      (∀ fuel2 rb u2, UnionFind.find fuel2 uf1 1 = some (rb, u2) →
        (∃ N, ∀ fuel3, N ≤ fuel3 → (UnionFind.find fuel3 u2 0).isSome = true) ∧
        ∀ fuel3 ra u3, UnionFind.find fuel3 u2 0 = some (ra, u3) → ra = rb) :=
  unite_then_find_equal 3 (by decide) (UnionFind.init 3) UFReach.init 0 1
    (by decide) (by decide) (by decide) (by decide)

/-- C27: for every reachable `UnionFind` state and every `a` in `[0, n)`: `find(a)` returns
a root (an element that is its own parent), and a second `find(a)` returns the same value
and leaves the parent and rank arrays exactly as the first call left them. -/
theorem find_twice (n : Int) (hn : n ≤ INT_MAX) (uf : UnionFind) (hr : UFReach n uf)
    (a : Int) (ha0 : 0 ≤ a) (ha1 : a < n) :
    (∃ N, ∀ fuel, N ≤ fuel → (UnionFind.find fuel uf a).isSome = true) ∧
    ∀ fuel r uf1, UnionFind.find fuel uf a = some (r, uf1) →
      vget uf1.parent r = r ∧
      (∀ fuel2, 2 ≤ fuel2 → UnionFind.find fuel2 uf1 a = some (r, uf1)) ∧
      (∀ fuel2 res, UnionFind.find fuel2 uf1 a = some res → res = (r, uf1)) := by
  obtain ⟨B, hok, _, _⟩ := uFReach_bound n hn uf hr a ha0 ha1
  refine ⟨⟨B + 1, fun fuel hf => find_some_of_fuel n B fuel uf a hok ha0 ha1 (by omega)⟩, ?_⟩
  intro fuel r uf1 hf
  obtain ⟨hpa, hpr⟩ := find_parent n B fuel uf a r uf1 hf hok ha0 ha1
  have hfix : ∀ k, UnionFind.find (k + 2) uf1 a = some (r, uf1) :=
    fun k => find_fixed k uf1 a r hpa hpr
  refine ⟨hpr, ?_, ?_⟩
  · intro fuel2 h2
    obtain ⟨k, rfl⟩ : ∃ k, fuel2 = k + 2 := ⟨fuel2 - 2, by omega⟩
    exact hfix k
  · intro fuel2 res hres
    have h1 := find_mono fuel2 uf1 a res hres 2
    rw [hfix fuel2] at h1
    exact (Option.some.inj h1).symm

theorem uFReach_chain : UFReach 4 { parent := [0, 0, 0, 2], rank := [2, 0, 1, 0] } :=
  @UFReach.unite 4 { parent := [0, 0, 2, 2], rank := [1, 0, 1, 0] } _ 3 1 3
    (@UFReach.unite 4 { parent := [0, 0, 2, 3], rank := [1, 0, 0, 0] } _ 3 2 3
      (@UFReach.unite 4 (UnionFind.init 4) _ 3 0 1 UFReach.init
        (by decide) (by decide) (by decide) (by decide) (by decide))
      (by decide) (by decide) (by decide) (by decide) (by decide))
    (by decide) (by decide) (by decide) (by decide) (by decide)

/-- C27, at the state reached by `unite(0, 1)`, `unite(2, 3)`, `unite(1, 3)` on four
elements, for the element `3`: its parent is `2`, whose parent is the root `0`, so the first
`find(3)` follows two links and rewrites `parent[3]`. -/
theorem find_twice_witness :
    (∃ N, ∀ fuel, N ≤ fuel →
      (UnionFind.find fuel { parent := [0, 0, 0, 2], rank := [2, 0, 1, 0] } 3).isSome = true) ∧
    ∀ fuel r uf1,
      UnionFind.find fuel { parent := [0, 0, 0, 2], rank := [2, 0, 1, 0] } 3 = some (r, uf1) →
      vget uf1.parent r = r ∧
      (∀ fuel2, 2 ≤ fuel2 → UnionFind.find fuel2 uf1 3 = some (r, uf1)) ∧
      (∀ fuel2 res, UnionFind.find fuel2 uf1 3 = some res → res = (r, uf1)) :=
  find_twice 4 (by decide) { parent := [0, 0, 0, 2], rank := [2, 0, 1, 0] } uFReach_chain 3
    (by decide) (by decide)

/-- C28: for every reachable `UnionFind` state and `x`, `y` in `[0, n)`: `unite(x, y)`
returns, and afterwards `u` and `v` in `[0, n)` have the same root exactly when they had
the same root before, or one of them shared a root with `x` and the other with `y`; when
`x` and `y` already share a root no element's root changes; the value `find` returns is
the root; and in a fresh `UnionFind` `find(i)` returns `i` and changes nothing. -/
theorem unite_merges_classes (n : Int) (hn : n ≤ INT_MAX) (uf : UnionFind)
    (hr : UFReach n uf) (x y : Int) (hx0 : 0 ≤ x) (hx1 : x < n) (hy0 : 0 ≤ y) (hy1 : y < n) :
    (∃ N, ∀ fuel, N ≤ fuel → (UnionFind.unite fuel uf x y).isSome = true) ∧
    (∀ fuel uf1, UnionFind.unite fuel uf x y = some uf1 →
      (∀ u v, 0 ≤ u → u < n → 0 ≤ v → v < n →
        (SameRoot uf1 u v ↔
          (SameRoot uf u v ∨ (SameRoot uf u x ∧ SameRoot uf v y) ∨
            (SameRoot uf u y ∧ SameRoot uf v x)))) ∧
      (SameRoot uf x y → ∀ z r, 0 ≤ z → z < n → (UFRoot uf1 z r ↔ UFRoot uf z r))) ∧
    (∀ z fuel r uf1, 0 ≤ z → z < n → UnionFind.find fuel uf z = some (r, uf1) →
      UFRoot uf z r) ∧
    (∀ i fuel, 0 ≤ i → i < n → 1 ≤ fuel →
      UnionFind.find fuel (UnionFind.init n) i = some (i, UnionFind.init n)) := by
  obtain ⟨B, hok, hB, _⟩ := uFReach_bound n hn uf hr x hx0 hx1
  refine ⟨⟨B + 1, fun fuel hf =>
    unite_some n B fuel uf x y hok hx0 hx1 hy0 hy1 (by omega)⟩, ?_, ?_, ?_⟩
  · intro fuel uf1 hu
    refine ⟨fun u v hu0 hu1 hv0 hv1 =>
      unite_classes n B fuel uf x y uf1 hu hok hx0 hx1 hy0 hy1 hB u v hu0 hu1 hv0 hv1, ?_⟩
    rintro ⟨r0, h1, h2⟩ z r hz0 hz1
    obtain ⟨_, _, hpres⟩ := unite_same_root n B fuel uf x y r0 uf1 hu hok hx0 hx1 hy0 hy1 h1 h2
    exact roots_transfer n B uf uf1 hok hpres z r hz0 hz1
  · intro z fuel r uf1 hz0 hz1 hf
    exact (find_sound n B fuel uf z r uf1 hf hok hz0 hz1).1
  · intro i fuel hi0 hi1 hfuel
    obtain ⟨k, rfl⟩ : ∃ k, fuel = k + 1 := ⟨fuel - 1, by omega⟩
    have hp : vget (UnionFind.init n).parent i = i := vget_range _ _ hi0 (by omega)
    simp only [UnionFind.find]
    rw [if_neg (not_not.mpr hp), hp]

theorem unite_merges_classes_witness :
    (∃ N, ∀ fuel, N ≤ fuel → (UnionFind.unite fuel (UnionFind.init 3) 0 1).isSome = true) ∧
    (∀ fuel uf1, UnionFind.unite fuel (UnionFind.init 3) 0 1 = some uf1 →
      (∀ u v, 0 ≤ u → u < 3 → 0 ≤ v → v < 3 →
        (SameRoot uf1 u v ↔
          (SameRoot (UnionFind.init 3) u v ∨
            (SameRoot (UnionFind.init 3) u 0 ∧ SameRoot (UnionFind.init 3) v 1) ∨
            (SameRoot (UnionFind.init 3) u 1 ∧ SameRoot (UnionFind.init 3) v 0)))) ∧
      (SameRoot (UnionFind.init 3) 0 1 →
        ∀ z r, 0 ≤ z → z < 3 → (UFRoot uf1 z r ↔ UFRoot (UnionFind.init 3) z r))) ∧
    (∀ z fuel r uf1, 0 ≤ z → z < 3 → UnionFind.find fuel (UnionFind.init 3) z = some (r, uf1) →
      UFRoot (UnionFind.init 3) z r) ∧
    (∀ i fuel, 0 ≤ i → i < 3 → 1 ≤ fuel →
      UnionFind.find fuel (UnionFind.init 3) i = some (i, UnionFind.init 3)) :=
  unite_merges_classes 3 (by decide) (UnionFind.init 3) UFReach.init 0 1
    (by decide) (by decide) (by decide) (by decide)

/-! ## Telemetry: the counter of `shortestPath` -/

theorem metricsGet_modify (op : String) (f : PerformanceMetrics → PerformanceMetrics) :
    ∀ m : Metrics, metricsGet (metricsModify m op f) op
      = some (f ((metricsGet m op).getD PerformanceMetrics.fresh)) := by
  intro m
  induction m with
  | nil => simp [metricsModify, metricsGet]
  | cons e rest ih =>
    simp only [metricsModify]
    by_cases he : (e.1 == op) = true
    · rw [if_pos he]
      simp [metricsGet, List.find?_cons, he]
    · rw [if_neg he]
      unfold metricsGet at ih ⊢
      have he2 : (e.1 == op) = false := by simpa using he
      rw [List.find?_cons, he2, List.find?_cons, he2]
      exact ih

theorem counterOf_inc (m : Metrics) (op : String) :
    counterOf (incNodesProcessed m op) op
      = some ((((counterOf m op).getD 0) + 1) % 18446744073709551616) := by
  unfold counterOf incNodesProcessed
  rw [metricsGet_modify]
  cases metricsGet m op <;> rfl

theorem counterOf_set (m : Metrics) (op : String) (k : Nat) :
    counterOf (setNodesProcessed m op k) op = some k := by
  unfold counterOf setNodesProcessed
  rw [metricsGet_modify]
  rfl

theorem relax_metrics (current : Int) : ∀ (es : List (Int × Int)) (s : SPState),
    (relax current es s).metrics = s.metrics := by
  intro es
  induction es with
  | nil => intro s; rfl
  | cons e rest ih =>
    intro s
    obtain ⟨next, weight⟩ := e
    simp only [relax]
    split
    · rw [ih]
    · rw [ih]

theorem spLoop_pops : ∀ (fuel : Nat) (s s2 : SPState), spLoop fuel s = some s2 →
    ∀ c : Nat, counterOf s.metrics "Shortest Path" = some (c % 18446744073709551616) →
    ∃ tr, spPops fuel s = some tr ∧
      counterOf s2.metrics "Shortest Path" = some ((c + tr.length) % 18446744073709551616) := by
  intro fuel
  induction fuel with
  | zero =>
    intro s s2 h c hc
    unfold spLoop at h
    unfold spPops
    cases htop : pqTop s.pq with
    | none =>
      rw [htop] at h
      simp only [Option.some.injEq] at h
      subst h
      exact ⟨[], rfl, by simpa using hc⟩
    | some top => rw [htop] at h; simp at h
  | succ fuel ih =>
    intro s s2 h c hc
    unfold spLoop at h
    unfold spPops
    cases htop : pqTop s.pq with
    | none =>
      rw [htop] at h
      simp only [Option.some.injEq] at h
      subst h
      exact ⟨[], rfl, by simpa using hc⟩
    | some top =>
      rw [htop] at h
      simp only at h ⊢
      have hinc : counterOf (incNodesProcessed s.metrics "Shortest Path") "Shortest Path"
          = some ((c + 1) % 18446744073709551616) := by
        rw [counterOf_inc, hc]
        simp only [Option.getD_some, Nat.mod_add_mod]
      by_cases hst : top.1 > vget s.distances top.2
      · rw [if_pos hst] at h ⊢
        obtain ⟨tr, htr, hcnt⟩ := ih _ s2 h (c + 1) hinc
        refine ⟨(top, true) :: tr, by rw [htr]; rfl, ?_⟩
        rw [hcnt, List.length_cons]
        congr 2
        omega
      · rw [if_neg hst] at h ⊢
        obtain ⟨tr, htr, hcnt⟩ := ih _ s2 h (c + 1) (by rw [relax_metrics]; exact hinc)
        refine ⟨(top, false) :: tr, by rw [htr]; rfl, ?_⟩
        rw [hcnt, List.length_cons]
        congr 2
        omega

theorem shortestPath_metrics (g : GraphAnalysisTool) (start endNode : Int) (fuel : Nat)
    (r : (List Int × Int) × GraphAnalysisTool) (h : shortestPath g start endNode fuel = some r) :
    ∃ s, spLoop fuel (spInit g start) = some s ∧ r.2.metrics = s.metrics := by
  unfold shortestPath at h
  cases hl : spLoop fuel (spInit g start) with
  | none => rw [hl] at h; cases h
  | some s =>
    rw [hl] at h
    simp only at h
    refine ⟨s, rfl, ?_⟩
    split at h
    · cases hw : walkBack s.previous fuel endNode [] with
      | none => rw [hw] at h; cases h
      | some path =>
        rw [hw] at h
        simp only [Option.some.injEq] at h
        rw [← h]
    · simp only [Option.some.injEq] at h
      rw [← h]

/-- C29, as amended: for every graph with non-negative ids and weights whose weights sum
within `int`, and valid `start` and `end`, `shortestPath(start, end)` returns and the
counter stored under "Shortest Path" afterwards is the number of pops of that call, stale
entries included (reduced modulo `2^64`, the range of the counter). -/
theorem shortestPath_counter (ops : List Op) (start endNode : Int)
    (hids : idsOk ops) (hw : weightsNonneg ops)
    (htot : totalWeight (build ops).adjacencyList ≤ INT_MAX)
    (hs : 0 ≤ start ∧ start < (build ops).numNodes)
    (he : 0 ≤ endNode ∧ endNode < (build ops).numNodes) :
    (∃ N, ∀ fuel, N ≤ fuel → (shortestPath (build ops) start endNode fuel).isSome = true) ∧
    ∀ fuel r, shortestPath (build ops) start endNode fuel = some r →
      ∃ pops, spPops fuel (spInit (build ops) start) = some pops ∧
        counterOf r.2.metrics "Shortest Path"
          = some (pops.length % 18446744073709551616) := by
  have hg := graphOK_of_rowsOK _ (build_rowsOK ops hids hw) htot
  obtain ⟨h1, _⟩ := shortestPath_total (build ops) start endNode hg hs.1 hs.2 he.1 he.2
  refine ⟨h1, fun fuel r hr => ?_⟩
  obtain ⟨s, hl, hm⟩ := shortestPath_metrics _ _ _ _ r hr
  obtain ⟨tr, htr, hcnt⟩ := spLoop_pops fuel _ s hl 0 (by
    show counterOf (setNodesProcessed _ _ 0) _ = _
    rw [counterOf_set])
  refine ⟨tr, htr, ?_⟩
  rw [hm, hcnt, Nat.zero_add]

theorem shortestPath_counter_witness :
    (∃ N, ∀ fuel, N ≤ fuel → (shortestPath (build staleOps) 0 1 fuel).isSome = true) ∧
    ∀ fuel r, shortestPath (build staleOps) 0 1 fuel = some r →
      ∃ pops, spPops fuel (spInit (build staleOps) 0) = some pops ∧
        counterOf r.2.metrics "Shortest Path"
          = some (pops.length % 18446744073709551616) :=
  shortestPath_counter staleOps 0 1 (by decide) (by decide) (by decide) (by decide)
    (by decide)

/-- C29, as stated, fails: on the graph built by `addEdge(0, 1, 5)`, `addEdge(0, 2, 1)`,
`addEdge(2, 1, 1)`, `shortestPath(0, 1)` pops four entries, the last one `(5, 1)` stale, and
leaves the counter at 4, while only three pops are non-stale. -/
theorem shortestPath_counter_counterexample :
    weightsNonneg staleOps ∧ idsOk staleOps ∧
    (shortestPath (build staleOps) 0 1 4).map (fun r => counterOf r.2.metrics "Shortest Path")
      = some (some 4) ∧
    spPops 4 (spInit (build staleOps) 0)
      = some [((0, 0), false), ((1, 2), false), ((2, 1), false), ((5, 1), true)] ∧
    ([((0, 0), false), ((1, 2), false), ((2, 1), false), ((5, 1), true)].filter
        (fun p : (Int × Int) × Bool => !p.2)).length = 3 := by
  have h1 : (spLoop 4 (spInit (build staleOps) 0)).map
      (fun s => counterOf s.metrics "Shortest Path") = some (some 4) := rfl
  have h2 : (spLoop 4 (spInit (build staleOps) 0)).map (fun s => (s.distances, s.previous))
      = some ([0, 2, 1], [-1, 2, 0]) := rfl
  have h3 : walkBack [-1, 2, 0] 4 1 [] = some [1, 2, 0] := rfl
  refine ⟨by decide, by decide, ?_, by decide, by decide⟩
  unfold shortestPath
  cases hl : spLoop 4 (spInit (build staleOps) 0) with
  | none => rw [hl] at h1; cases h1
  | some s =>
    rw [hl] at h1 h2
    simp only [Option.map_some', Option.some.injEq, Prod.mk.injEq] at h1 h2
    simp only
    have hd : vget s.distances 1 ≠ INT_MAX := by rw [h2.1]; decide
    rw [if_pos hd, h2.2, h3]
    simp only [Option.map_some', h1]

/-! ## Telemetry: the counter of `findMST` -/

theorem kruskalLoop_counter (fuel : Nat) : ∀ (es : List Edge) (st st2 : MSTState),
    kruskalLoop fuel es st = some st2 →
    ∀ c : Nat, (counterOf st.metrics "Minimum Spanning Tree").getD 0 % 18446744073709551616
        = c % 18446744073709551616 →
    ∃ added, st2.mst = st.mst ++ added ∧
      (counterOf st2.metrics "Minimum Spanning Tree").getD 0 % 18446744073709551616
        = (c + added.length) % 18446744073709551616 := by
  intro es
  induction es with
  | nil =>
    intro st st2 h c hc
    simp only [kruskalLoop, Option.some.injEq] at h
    subst h
    exact ⟨[], by simp, by simpa using hc⟩
  | cons e rest ih =>
    intro st st2 h c hc
    simp only [kruskalLoop] at h
    cases hf1 : UnionFind.find fuel st.uf e.1 with
    | none => rw [hf1] at h; cases h
    | some r1 =>
      rw [hf1] at h
      simp only at h
      cases hf2 : UnionFind.find fuel r1.2 e.2.1 with
      | none => rw [hf2] at h; cases h
      | some r2 =>
        rw [hf2] at h
        simp only at h
        by_cases hne : r1.1 ≠ r2.1
        · rw [if_pos hne] at h
          cases hu : UnionFind.unite fuel r2.2 e.1 e.2.1 with
          | none => rw [hu] at h; cases h
          | some u3 =>
            rw [hu] at h
            simp only at h
            have hinc : (counterOf (incNodesProcessed st.metrics "Minimum Spanning Tree")
                "Minimum Spanning Tree").getD 0 % 18446744073709551616
                = (c + 1) % 18446744073709551616 := by
              rw [counterOf_inc]
              simp only [Option.getD_some, Nat.mod_mod]
              rw [← Nat.mod_add_mod, hc, Nat.mod_add_mod]
            obtain ⟨added, hmst, hcnt⟩ := ih _ st2 h (c + 1) hinc
            refine ⟨e :: added, ?_, ?_⟩
            · rw [hmst]
              simp
            · rw [hcnt, List.length_cons]
              congr 1
              omega
        · rw [if_neg hne] at h
          exact ih _ st2 h c hc

/-- The counter under "Minimum Spanning Tree" after a call of `findMST` is the counter
before the call plus the number of accepted edges: the call never resets it. -/
theorem findMST_counter_adds (tableOrd : AdjList → AdjList) (sortOrd : List Edge → List Edge)
    (g : GraphAnalysisTool) (fuel : Nat) (res : List Edge × GraphAnalysisTool)
    (h : findMST tableOrd sortOrd g fuel = some res) :
    (counterOf res.2.metrics "Minimum Spanning Tree").getD 0 % 18446744073709551616
      = ((counterOf g.metrics "Minimum Spanning Tree").getD 0 + res.1.length)
          % 18446744073709551616 := by
  unfold findMST at h
  cases hl : kruskalLoop fuel (sortOrd (collectEdges (tableOrd g.adjacencyList)))
      { uf := UnionFind.init g.numNodes, mst := [], metrics := g.metrics } with
  | none => rw [hl] at h; cases h
  | some st =>
    rw [hl] at h
    simp only [Option.some.injEq] at h
    obtain ⟨added, hmst, hcnt⟩ := kruskalLoop_counter fuel _ _ st hl
      ((counterOf g.metrics "Minimum Spanning Tree").getD 0) rfl
    rw [← h]
    simp only [List.nil_append] at hmst
    rw [hcnt, hmst]

/-- C30 fails on a second call: on the demo graph `simpleGraph` the first `findMST` returns
three edges and leaves the counter under "Minimum Spanning Tree" at 3; a second `findMST`
on the same tool returns the same three edges and leaves the counter at 6. -/
theorem findMST_counter_accumulates :
    ∃ g1 g2,
      findMST id weightSort (build simpleGraphOps) 5
        = some ([(1, 2, 1), (2, 3, 2), (0, 2, 3)], g1) ∧
      counterOf g1.metrics "Minimum Spanning Tree" = some 3 ∧
      findMST id weightSort g1 5 = some ([(1, 2, 1), (2, 3, 2), (0, 2, 3)], g2) ∧
      counterOf g2.metrics "Minimum Spanning Tree" = some 6 ∧
      ([(1, 2, 1), (2, 3, 2), (0, 2, 3)] : List Edge).length = 3 := by
  refine ⟨{ build simpleGraphOps with
              metrics := [("Minimum Spanning Tree",
                { executionTime := 0, nodesProcessed := 3, memoryUsed := 0 })] },
          { build simpleGraphOps with
              metrics := [("Minimum Spanning Tree",
                { executionTime := 0, nodesProcessed := 6, memoryUsed := 0 })] },
          by decide, by decide, by decide, by decide, by decide⟩

/-! ## Shortest path: the distance array when the main loop ends -/

theorem spLoop_exit (g : GraphAnalysisTool) (start : Int)
    (hg : GraphOK g.adjacencyList g.numNodes) (hs0 : 0 ≤ start) (hs1 : start < g.numNodes) :
    (∃ N, ∀ fuel, N ≤ fuel → (spLoop fuel (spInit g start)).isSome = true) ∧
    ∀ fuel s, spLoop fuel (spInit g start) = some s →
      ∃ L, SPInv g.adjacencyList g.numNodes start L [] s ∧ s.pq = [] := by
  have hinit := spInit_inv g start hs0 hs1
  have hrun := spLoop_inv g.adjacencyList g.numNodes start hg
    (spMeasure (spInit g start)).toNat (spInit g start) [] hinit (Int.self_le_toNat _)
  obtain ⟨s2, L2, hrun2, hinv, hpq⟩ := hrun
  constructor
  · refine ⟨(spMeasure (spInit g start)).toNat, fun fuel hf => ?_⟩
    rw [spLoop_mono _ _ _ hrun2 fuel hf]
    rfl
  · intro fuel s h
    have h1 := spLoop_mono _ _ _ h (max fuel (spMeasure (spInit g start)).toNat)
      (le_max_left _ _)
    have h2 := spLoop_mono _ _ _ hrun2 (max fuel (spMeasure (spInit g start)).toNat)
      (le_max_right _ _)
    rw [h1] at h2
    have heq : s = s2 := Option.some.inj h2
    subst heq
    exact ⟨L2, hinv, hpq⟩

/-- C33: on a graph built by `addNode`/`addEdge` with non-negative ids below `INT_MAX` and
non-negative weights whose total is at most `INT_MAX`, for a valid `start`, the main loop of
`shortestPath` ends, and when it has ended the queue is empty, `distances[start]` is `0`,
and for every edge `(u, v, w)` of the adjacency table whose source has a distance other than
`INT_MAX`: `distances[v] <= distances[u] + w`. -/
theorem shortestPath_exit_relaxed (ops : List Op) (start : Int)
    (hids : idsOk ops) (hw : weightsNonneg ops)
    (htot : totalWeight (build ops).adjacencyList ≤ INT_MAX)
    (hs : 0 ≤ start ∧ start < (build ops).numNodes) :
    (∃ N, ∀ fuel, N ≤ fuel → (spLoop fuel (spInit (build ops) start)).isSome = true) ∧
    ∀ fuel s, spLoop fuel (spInit (build ops) start) = some s →
      s.pq = [] ∧ vget s.distances start = 0 ∧
      ∀ u v w, (v, w) ∈ adjOf (build ops).adjacencyList u →
        vget s.distances u ≠ INT_MAX → vget s.distances v ≤ vget s.distances u + w := by
  have hg := graphOK_of_rowsOK _ (build_rowsOK ops hids hw) htot
  have hst := build_storeOK ops
  have hrg := build_rangeOK ops hids
  obtain ⟨h1, h2⟩ := spLoop_exit (build ops) start hg hs.1 hs.2
  refine ⟨h1, fun fuel s h => ?_⟩
  obtain ⟨L, hinv, hpq⟩ := h2 fuel s h
  refine ⟨hpq, hinv.start_d, ?_⟩
  intro u v w he hfin
  have hkey : hasKey (build ops).adjacencyList u = true :=
    hasKey_of_adjOf_ne_nil _ u (List.ne_nil_of_mem he)
  obtain ⟨x, hx, hxu⟩ := List.mem_map.mp ((hasKey_iff _ u).mp hkey)
  have hreg : u ∈ (build ops).nodes := by
    rw [← hxu]
    exact hst.keys x hx
  have hlt : vget s.distances u < INT_MAX := lt_of_le_of_ne (hinv.dist_hi u) hfin
  have hu : u ∈ L :=
    sPInv_settled_of_finite _ _ _ L s hinv hpq u (hrg.lo u hreg) (hrg.hi u hreg) hlt
  rcases hinv.relaxed u hu (v, w) he with h3 | h3
  · exact absurd h3.2 (List.not_mem_nil _)
  · exact h3

/-- C33, at the first scenario of the specification, from node 0. -/
theorem shortestPath_exit_relaxed_witness :
    (∃ N, ∀ fuel, N ≤ fuel → (spLoop fuel (spInit (build scenarioPathOps) 0)).isSome = true) ∧
    ∀ fuel s, spLoop fuel (spInit (build scenarioPathOps) 0) = some s →
      s.pq = [] ∧ vget s.distances 0 = 0 ∧
      ∀ u v w, (v, w) ∈ adjOf (build scenarioPathOps).adjacencyList u →
        vget s.distances u ≠ INT_MAX → vget s.distances v ≤ vget s.distances u + w :=
  shortestPath_exit_relaxed scenarioPathOps 0 (by decide) (by decide) (by decide)
    (by decide)

/-! ## Shortest path: index safety -/

theorem relax_idx (n : Int) (current : Int) (hc0 : 0 ≤ current) (hc1 : current < n) :
    ∀ (rest : List (Int × Int)) (s : SPState), IdxInv n s →
      (∀ e ∈ rest, 0 ≤ e.1 ∧ e.1 < n) →
      IdxInv n (relax current rest s) ∧
      (relax current rest s).adjacencyList = s.adjacencyList ∧
      ∀ i ∈ relaxIndices current rest s, 0 ≤ i ∧ i < n := by
  intro rest
  induction rest with
  | nil => intro s hs _; exact ⟨hs, rfl, by simp [relaxIndices]⟩
  | cons e rest ih =>
    intro s hs hr
    obtain ⟨next, weight⟩ := e
    have hn : 0 ≤ next ∧ next < n := hr (next, weight) (List.mem_cons_self _ _)
    have hrest : ∀ e ∈ rest, 0 ≤ e.1 ∧ e.1 < n := fun e he => hr e (List.mem_cons_of_mem _ he)
    simp only [relax, relaxIndices]
    by_cases hlt : add32 (vget s.distances current) weight < vget s.distances next
    · rw [if_pos hlt, if_pos hlt]
      have hs1 : IdxInv n
          { s with
            distances := vset s.distances next (add32 (vget s.distances current) weight)
            previous := vset s.previous next current
            pq := s.pq ++ [(vget (vset s.distances next
              (add32 (vget s.distances current) weight)) next, next)] } := by
        refine ⟨?_, ?_, hs.adj, ?_, ?_⟩
        · show ((vset s.distances next _).length : Int) = n
          rw [vset_length]; exact hs.len_d
        · show ((vset s.previous next current).length : Int) = n
          rw [vset_length]; exact hs.len_p
        · intro e he
          rcases List.mem_append.mp he with h | h
          · exact hs.pq e h
          · rw [List.mem_singleton.mp h]; exact hn
        · intro v
          show vget (vset s.previous next current) v = -1 ∨ _
          have hl := hs.len_p
          rw [vget_vset s.previous next v current hn.1 (by omega)]
          by_cases hv : v = next
          · rw [if_pos hv]; exact Or.inr ⟨hc0, hc1⟩
          · rw [if_neg hv]; exact hs.prev v
      obtain ⟨a, b, c⟩ := ih _ hs1 hrest
      refine ⟨a, b, ?_⟩
      intro i hi
      rcases List.mem_append.mp hi with h | h
      · simp only [List.mem_cons, List.mem_singleton, List.not_mem_nil, or_false] at h
        rcases h with h | h | h | h | h | h <;> subst h <;> first | exact ⟨hc0, hc1⟩ | exact hn
      · exact c i h
    · rw [if_neg hlt, if_neg hlt]
      obtain ⟨a, b, c⟩ := ih s hs hrest
      refine ⟨a, b, ?_⟩
      intro i hi
      rcases List.mem_append.mp hi with h | h
      · simp only [List.mem_cons, List.mem_singleton, List.not_mem_nil, or_false] at h
        rcases h with h | h <;> subst h <;> first | exact ⟨hc0, hc1⟩ | exact hn
      · exact c i h

theorem idxInv_pop (n : Int) (s : SPState) (hs : IdxInv n s) (top : Int × Int) (m : Metrics)
    (al2 : AdjList) (hadj : ∀ u, adjOf al2 u = adjOf s.adjacencyList u) :
    IdxInv n { s with pq := s.pq.erase top, metrics := m, adjacencyList := al2 } :=
  { len_d := hs.len_d
    len_p := hs.len_p
    adj := fun u e he => hs.adj u e (by rw [← hadj u]; exact he)
    pq := fun e he => hs.pq e (List.mem_of_mem_erase he)
    prev := hs.prev }

theorem spIndices_range (n : Int) : ∀ (fuel : Nat) (s : SPState), IdxInv n s →
    ∀ i ∈ spIndices fuel s, 0 ≤ i ∧ i < n := by
  intro fuel
  induction fuel with
  | zero =>
    intro s _ i hi
    unfold spIndices at hi
    cases htop : pqTop s.pq with
    | none => rw [htop] at hi; simp at hi
    | some top => rw [htop] at hi; simp at hi
  | succ fuel ih =>
    intro s hs i hi
    unfold spIndices at hi
    cases htop : pqTop s.pq with
    | none => rw [htop] at hi; simp at hi
    | some top =>
      rw [htop] at hi
      simp only [] at hi
      have hc := hs.pq top (pqTop_mem _ _ htop)
      by_cases hst : top.1 > vget s.distances top.2
      · rw [if_pos hst] at hi
        rcases List.mem_cons.mp hi with h | h
        · rw [h]; exact hc
        · exact ih _ (idxInv_pop n s hs top _ s.adjacencyList (fun _ => rfl)) i h
      · rw [if_neg hst] at hi
        have hs2 := idxInv_pop n s hs top (incNodesProcessed s.metrics "Shortest Path")
          (touch s.adjacencyList top.2) (fun u => adjOf_touch _ _ u)
        obtain ⟨a, _, c⟩ := relax_idx n top.2 hc.1 hc.2
          (adjOf (touch s.adjacencyList top.2) top.2) _ hs2 (fun e he => hs2.adj top.2 e he)
        rcases List.mem_cons.mp hi with h | h
        · rw [h]; exact hc
        · rcases List.mem_append.mp h with h | h
          · exact c i h
          · exact ih _ a i h

theorem spLoop_idx (n : Int) : ∀ (fuel : Nat) (s s2 : SPState), spLoop fuel s = some s2 →
    IdxInv n s → IdxInv n s2 := by
  intro fuel
  induction fuel with
  | zero =>
    intro s s2 h hs
    unfold spLoop at h
    cases htop : pqTop s.pq with
    | none => rw [htop] at h; cases h; exact hs
    | some top => rw [htop] at h; simp at h
  | succ fuel ih =>
    intro s s2 h hs
    unfold spLoop at h
    cases htop : pqTop s.pq with
    | none => rw [htop] at h; cases h; exact hs
    | some top =>
      rw [htop] at h
      simp only [] at h
      have hc := hs.pq top (pqTop_mem _ _ htop)
      by_cases hst : top.1 > vget s.distances top.2
      · rw [if_pos hst] at h
        exact ih _ _ h (idxInv_pop n s hs top _ s.adjacencyList (fun _ => rfl))
      · rw [if_neg hst] at h
        have hs2 := idxInv_pop n s hs top (incNodesProcessed s.metrics "Shortest Path")
          (touch s.adjacencyList top.2) (fun u => adjOf_touch _ _ u)
        obtain ⟨a, _, _⟩ := relax_idx n top.2 hc.1 hc.2
          (adjOf (touch s.adjacencyList top.2) top.2) _ hs2 (fun e he => hs2.adj top.2 e he)
        exact ih _ _ h a

theorem walkIndices_range (n : Int) (prev : List Int)
    (hp : ∀ v, vget prev v = -1 ∨ (0 ≤ vget prev v ∧ vget prev v < n)) :
    ∀ (fuel : Nat) (node : Int), (node = -1 ∨ (0 ≤ node ∧ node < n)) →
      ∀ i ∈ walkIndices prev fuel node, 0 ≤ i ∧ i < n := by
  intro fuel
  induction fuel with
  | zero =>
    intro node _ i hi
    unfold walkIndices at hi
    split at hi <;> simp at hi
  | succ fuel ih =>
    intro node hnode i hi
    unfold walkIndices at hi
    by_cases hn : node = -1
    · rw [if_pos hn] at hi; simp at hi
    · rw [if_neg hn] at hi
      simp only [] at hi
      rcases List.mem_cons.mp hi with h | h
      · rw [h]
        rcases hnode with h1 | h1
        · exact absurd h1 hn
        · exact h1
      · exact ih _ (hp node) i h

theorem idxInv_init (g : GraphAnalysisTool) (start : Int) (h0 : 0 ≤ start)
    (h1 : start < g.numNodes)
    (hadj : ∀ u, ∀ e ∈ adjOf g.adjacencyList u, 0 ≤ e.1 ∧ e.1 < g.numNodes) :
    IdxInv g.numNodes (spInit g start) := by
  refine ⟨?_, ?_, hadj, ?_, ?_⟩
  · show ((vset (List.replicate g.numNodes.toNat INT_MAX) start 0).length : Int) = g.numNodes
    rw [vset_length]; simp; omega
  · show ((List.replicate g.numNodes.toNat (-1 : Int)).length : Int) = g.numNodes
    simp; omega
  · intro e he
    have : e = (0, start) := by simpa [spInit] using he
    rw [this]; exact ⟨h0, h1⟩
  · intro v
    have hp : (spInit g start).previous = List.replicate g.numNodes.toNat (-1) := rfl
    rw [hp]
    rcases vget_replicate_cases g.numNodes.toNat (-1) v with h | h
    · exact Or.inl h
    · rw [h]; exact Or.inr ⟨le_refl _, by omega⟩

theorem shortestPathIndices_range (g : GraphAnalysisTool) (start endNode : Int)
    (hadj : ∀ u, ∀ e ∈ adjOf g.adjacencyList u, 0 ≤ e.1 ∧ e.1 < g.numNodes)
    (hs0 : 0 ≤ start) (hs1 : start < g.numNodes)
    (he0 : 0 ≤ endNode) (he1 : endNode < g.numNodes) (fuel : Nat) :
    ∀ i ∈ shortestPathIndices g start endNode fuel, 0 ≤ i ∧ i < g.numNodes := by
  intro i hi
  have hinit := idxInv_init g start hs0 hs1 hadj
  unfold shortestPathIndices at hi
  rcases List.mem_cons.mp hi with h | h
  · rw [h]; exact ⟨hs0, hs1⟩
  rcases List.mem_append.mp h with h | h
  · exact spIndices_range _ fuel _ hinit i h
  cases hl : spLoop fuel (spInit g start) with
  | none => rw [hl] at h; simp at h
  | some s =>
    rw [hl] at h
    simp only [] at h
    have hs := spLoop_idx _ fuel _ _ hl hinit
    rcases List.mem_cons.mp h with h | h
    · rw [h]; exact ⟨he0, he1⟩
    rcases List.mem_append.mp h with h | h
    · by_cases hd : vget s.distances endNode ≠ INT_MAX
      · rw [if_pos hd] at h
        exact walkIndices_range _ _ hs.prev fuel endNode (Or.inr ⟨he0, he1⟩) i h
      · rw [if_neg hd] at h; simp at h
    · rw [List.mem_singleton.mp h]; exact ⟨he0, he1⟩

theorem spPops_range (n : Int) : ∀ (fuel : Nat) (s : SPState)
    (tr : List ((Int × Int) × Bool)), spPops fuel s = some tr → IdxInv n s →
    ∀ p ∈ tr, 0 ≤ p.1.2 ∧ p.1.2 < n := by
  intro fuel
  induction fuel with
  | zero =>
    intro s tr h _ p hp
    unfold spPops at h
    cases htop : pqTop s.pq with
    | none => rw [htop] at h; cases h; simp at hp
    | some top => rw [htop] at h; simp at h
  | succ fuel ih =>
    intro s tr h hs p hp
    unfold spPops at h
    cases htop : pqTop s.pq with
    | none => rw [htop] at h; cases h; simp at hp
    | some top =>
      rw [htop] at h
      simp only [] at h
      have hc := hs.pq top (pqTop_mem _ _ htop)
      by_cases hst : top.1 > vget s.distances top.2
      · rw [if_pos hst] at h
        obtain ⟨t, ht, rfl⟩ := Option.map_eq_some'.mp h
        rcases List.mem_cons.mp hp with h1 | h1
        · rw [h1]; exact hc
        · exact ih _ _ ht (idxInv_pop n s hs top _ s.adjacencyList (fun _ => rfl)) p h1
      · rw [if_neg hst] at h
        obtain ⟨t, ht, rfl⟩ := Option.map_eq_some'.mp h
        have hs2 := idxInv_pop n s hs top (incNodesProcessed s.metrics "Shortest Path")
          (touch s.adjacencyList top.2) (fun u => adjOf_touch _ _ u)
        obtain ⟨a, _, _⟩ := relax_idx n top.2 hc.1 hc.2
          (adjOf (touch s.adjacencyList top.2) top.2) _ hs2 (fun e he => hs2.adj top.2 e he)
        rcases List.mem_cons.mp hp with h1 | h1
        · rw [h1]; exact hc
        · exact ih _ _ ht a p h1

theorem walkBack_indices (prev : List Int) : ∀ (fuel : Nat) (node : Int) (acc p : List Int),
    walkBack prev fuel node acc = some p → p = acc ++ walkIndices prev fuel node := by
  intro fuel
  induction fuel with
  | zero =>
    intro node acc p h
    unfold walkBack at h
    unfold walkIndices
    by_cases hn : node = -1
    · rw [if_pos hn] at h; rw [if_pos hn]; cases h; simp
    · rw [if_neg hn] at h; simp at h
  | succ fuel ih =>
    intro node acc p h
    unfold walkBack at h
    unfold walkIndices
    by_cases hn : node = -1
    · rw [if_pos hn] at h; rw [if_pos hn]; cases h; simp
    · rw [if_neg hn] at h
      rw [if_neg hn]
      simp only [] at h ⊢
      rw [ih _ _ _ h, List.append_assoc]
      rfl

theorem targets_in_range (g : GraphAnalysisTool) (hst : StoreOK g) (hrg : RangeOK g) :
    ∀ u, ∀ e ∈ adjOf g.adjacencyList u, 0 ≤ e.1 ∧ e.1 < g.numNodes := by
  intro u e he
  obtain ⟨x, hx, hex⟩ := adjOf_mem_row _ u e he
  have := hst.targets x hx e hex
  exact ⟨hrg.lo _ this, hrg.hi _ this⟩

/-- C37, as amended: on a graph built by `addNode`/`addEdge` with non-negative ids below
`INT_MAX`, whatever the weights, for `start` and `end` in `[0, numNodes)`: `distances` and `previous`
are created with `numNodes` elements and keep that size; every index used into them, in any
number of rounds of the loops, lies in `[0, numNodes)`; in particular so does every edge
target, every popped node and every node of the returned path, the nodes met while walking
`previous` back from `end`. -/
theorem shortestPath_indices_in_range (ops : List Op) (start endNode : Int)
    (hids : idsOk ops)
    (hs : 0 ≤ start ∧ start < (build ops).numNodes)
    (he : 0 ≤ endNode ∧ endNode < (build ops).numNodes) :
    ((spInit (build ops) start).distances.length : Int) = (build ops).numNodes ∧
    ((spInit (build ops) start).previous.length : Int) = (build ops).numNodes ∧
    (∀ fuel s, spLoop fuel (spInit (build ops) start) = some s →
      (s.distances.length : Int) = (build ops).numNodes ∧
      (s.previous.length : Int) = (build ops).numNodes) ∧
    (∀ fuel, ∀ i ∈ shortestPathIndices (build ops) start endNode fuel,
      0 ≤ i ∧ i < (build ops).numNodes) ∧
    (∀ u, ∀ e ∈ adjOf (build ops).adjacencyList u, 0 ≤ e.1 ∧ e.1 < (build ops).numNodes) ∧
    (∀ fuel tr, spPops fuel (spInit (build ops) start) = some tr →
      ∀ p ∈ tr, 0 ≤ p.1.2 ∧ p.1.2 < (build ops).numNodes) ∧
    (∀ fuel r, shortestPath (build ops) start endNode fuel = some r →
      ∀ x ∈ r.1.1, 0 ≤ x ∧ x < (build ops).numNodes) := by
  have hadj := targets_in_range _ (build_storeOK ops) (build_rangeOK ops hids)
  have hinit := idxInv_init (build ops) start hs.1 hs.2 hadj
  have hrange := shortestPathIndices_range (build ops) start endNode hadj hs.1 hs.2 he.1 he.2
  refine ⟨hinit.len_d, hinit.len_p, ?_, hrange, hadj, ?_, ?_⟩
  · intro fuel s h
    have := spLoop_idx _ fuel _ _ h hinit
    exact ⟨this.len_d, this.len_p⟩
  · intro fuel tr h
    exact spPops_range _ fuel _ tr h hinit
  · intro fuel r h x hx
    apply hrange fuel
    unfold shortestPath at h
    unfold shortestPathIndices
    cases hl : spLoop fuel (spInit (build ops) start) with
    | none => rw [hl] at h; cases h
    | some s =>
      rw [hl] at h
      simp only [] at h ⊢
      by_cases hd : vget s.distances endNode ≠ INT_MAX
      · rw [if_pos hd] at h
        rw [if_pos hd]
        cases hw : walkBack s.previous fuel endNode [] with
        | none => rw [hw] at h; cases h
        | some path =>
          rw [hw] at h
          cases h
          have hp := walkBack_indices _ _ _ _ _ hw
          simp only [List.nil_append] at hp
          simp only [List.mem_reverse] at hx
          rw [hp] at hx
          simp only [List.mem_cons, List.mem_append, List.mem_singleton]
          exact Or.inr (Or.inr (Or.inr (Or.inl hx)))
      · rw [if_neg hd] at h
        cases h
        simp at hx

/-- C37, at the first scenario of the specification, from node 0 to node 3. -/
theorem shortestPath_indices_in_range_witness :
    ((spInit (build scenarioPathOps) 0).distances.length : Int)
      = (build scenarioPathOps).numNodes ∧
    ((spInit (build scenarioPathOps) 0).previous.length : Int)
      = (build scenarioPathOps).numNodes ∧
    (∀ fuel s, spLoop fuel (spInit (build scenarioPathOps) 0) = some s →
      (s.distances.length : Int) = (build scenarioPathOps).numNodes ∧
      (s.previous.length : Int) = (build scenarioPathOps).numNodes) ∧
    (∀ fuel, ∀ i ∈ shortestPathIndices (build scenarioPathOps) 0 3 fuel,
      0 ≤ i ∧ i < (build scenarioPathOps).numNodes) ∧
    (∀ u, ∀ e ∈ adjOf (build scenarioPathOps).adjacencyList u,
      0 ≤ e.1 ∧ e.1 < (build scenarioPathOps).numNodes) ∧
    (∀ fuel tr, spPops fuel (spInit (build scenarioPathOps) 0) = some tr →
      ∀ p ∈ tr, 0 ≤ p.1.2 ∧ p.1.2 < (build scenarioPathOps).numNodes) ∧
    (∀ fuel r, shortestPath (build scenarioPathOps) 0 3 fuel = some r →
      ∀ x ∈ r.1.1, 0 ≤ x ∧ x < (build scenarioPathOps).numNodes) :=
  shortestPath_indices_in_range scenarioPathOps 0 3 (by decide) (by decide) (by decide)

/-- C37, as stated, fails: after `addEdge(0, 2147483647, 1)` both ids are non-negative and
`numNodes` is `1`; `shortestPath(0, 0)`, with start and end in `[0, numNodes)`, has arrays of
one element and reads `distances[2147483647]` in the test of the inner loop. -/
theorem shortestPath_indices_counterexample :
    (∀ i ∈ maxIdEdgeOps.flatMap Op.ids, 0 ≤ i) ∧
    (build maxIdEdgeOps).numNodes = 1 ∧
    (spInit (build maxIdEdgeOps) 0).distances.length = 1 ∧
    (spInit (build maxIdEdgeOps) 0).previous.length = 1 ∧
    shortestPathIndices (build maxIdEdgeOps) 0 0 1 = [0, 0, 0, 2147483647, 0, 0, 0] ∧
    ¬ (∀ i ∈ shortestPathIndices (build maxIdEdgeOps) 0 0 1,
        0 ≤ i ∧ i < (build maxIdEdgeOps).numNodes) := by
  refine ⟨by decide, by decide, by decide, by decide, by decide, by decide⟩

/-! ## Shortest path: what the call leaves of the store -/

theorem relax_frame (current : Int) : ∀ (rest : List (Int × Int)) (s : SPState),
    (relax current rest s).adjacencyList = s.adjacencyList ∧
    ∀ e ∈ (relax current rest s).pq, e ∈ s.pq ∨ ∃ x ∈ rest, e.2 = x.1 := by
  intro rest
  induction rest with
  | nil => intro s; exact ⟨rfl, fun e he => Or.inl he⟩
  | cons x rest ih =>
    intro s
    obtain ⟨next, weight⟩ := x
    simp only [relax]
    split
    · obtain ⟨a, b⟩ := ih
        { s with
          distances := vset s.distances next (add32 (vget s.distances current) weight)
          previous := vset s.previous next current
          pq := s.pq ++ [(vget (vset s.distances next
            (add32 (vget s.distances current) weight)) next, next)] }
      refine ⟨a, ?_⟩
      intro e he
      rcases b e he with h | ⟨y, hy, hey⟩
      · rcases List.mem_append.mp h with h | h
        · exact Or.inl h
        · rw [List.mem_singleton.mp h]
          exact Or.inr ⟨(next, weight), List.mem_cons_self _ _, rfl⟩
      · exact Or.inr ⟨y, List.mem_cons_of_mem _ hy, hey⟩
    · obtain ⟨a, b⟩ := ih s
      refine ⟨a, ?_⟩
      intro e he
      rcases b e he with h | ⟨y, hy, hey⟩
      · exact Or.inl h
      · exact Or.inr ⟨y, List.mem_cons_of_mem _ hy, hey⟩

theorem touch_of_hasKey (al : AdjList) (u : Int) (h : hasKey al u = true) : touch al u = al := by
  unfold touch
  rw [if_pos h]

theorem spLoop_table_adj : ∀ (fuel : Nat) (s s2 : SPState), spLoop fuel s = some s2 →
    ∀ u, adjOf s2.adjacencyList u = adjOf s.adjacencyList u := by
  intro fuel
  induction fuel with
  | zero =>
    intro s s2 h u
    unfold spLoop at h
    cases htop : pqTop s.pq with
    | none => rw [htop] at h; cases h; rfl
    | some top => rw [htop] at h; simp at h
  | succ fuel ih =>
    intro s s2 h u
    unfold spLoop at h
    cases htop : pqTop s.pq with
    | none => rw [htop] at h; cases h; rfl
    | some top =>
      rw [htop] at h
      simp only [] at h
      by_cases hst : top.1 > vget s.distances top.2
      · rw [if_pos hst] at h
        exact ih _ _ h u
      · rw [if_neg hst] at h
        rw [ih _ _ h u, (relax_frame _ _ _).1]
        exact adjOf_touch _ _ u

theorem spLoop_table_keep (al : AdjList)
    (hT : ∀ u, ∀ x ∈ adjOf al u, hasKey al x.1 = true) :
    ∀ (fuel : Nat) (s s2 : SPState), spLoop fuel s = some s2 → s.adjacencyList = al →
      (∀ e ∈ s.pq, hasKey al e.2 = true) → s2.adjacencyList = al := by
  intro fuel
  induction fuel with
  | zero =>
    intro s s2 h hal _
    unfold spLoop at h
    cases htop : pqTop s.pq with
    | none => rw [htop] at h; cases h; exact hal
    | some top => rw [htop] at h; simp at h
  | succ fuel ih =>
    intro s s2 h hal hpq
    unfold spLoop at h
    cases htop : pqTop s.pq with
    | none => rw [htop] at h; cases h; exact hal
    | some top =>
      rw [htop] at h
      simp only [] at h
      have hk := hpq top (pqTop_mem _ _ htop)
      by_cases hst : top.1 > vget s.distances top.2
      · rw [if_pos hst] at h
        exact ih _ _ h hal (fun e he => hpq e (List.mem_of_mem_erase he))
      · rw [if_neg hst] at h
        have ht : touch s.adjacencyList top.2 = al := by
          rw [hal]; exact touch_of_hasKey al _ hk
        obtain ⟨a, b⟩ := relax_frame top.2 (adjOf (touch s.adjacencyList top.2) top.2)
          { s with pq := s.pq.erase top,
                   metrics := incNodesProcessed s.metrics "Shortest Path",
                   adjacencyList := touch s.adjacencyList top.2 }
        apply ih _ _ h
        · rw [a]; exact ht
        · intro e he
          rcases b e he with h1 | ⟨x, hx, hex⟩
          · exact hpq e (List.mem_of_mem_erase h1)
          · rw [hex]
            rw [ht] at hx
            exact hT top.2 x hx

theorem vget_spInit_start (g : GraphAnalysisTool) (start : Int) :
    vget (spInit g start).distances start = 0 := by
  show vget (vset (List.replicate g.numNodes.toNat INT_MAX) start 0) start = 0
  by_cases h0 : start < 0
  · exact vget_of_neg _ _ h0
  · by_cases h1 : start < ((List.replicate g.numNodes.toNat INT_MAX).length : Int)
    · exact vget_vset_eq _ _ _ (by omega) h1
    · apply vget_of_ge
      rw [vset_length]
      omega

theorem spLoop_table_new (g : GraphAnalysisTool) (start : Int)
    (hk : hasKey g.adjacencyList start = false) (fuel : Nat) (s : SPState)
    (h : spLoop fuel (spInit g start) = some s) :
    s.adjacencyList = g.adjacencyList ++ [(start, [])] := by
  have htop : pqTop (spInit g start).pq = some (0, start) := rfl
  have hnil : adjOf g.adjacencyList start = [] := by
    apply adjOf_eq_nil_of_not_mem
    intro hm
    rw [(hasKey_iff _ _).mpr hm] at hk
    cases hk
  cases fuel with
  | zero =>
    unfold spLoop at h
    rw [htop] at h
    simp at h
  | succ fuel =>
    unfold spLoop at h
    rw [htop] at h
    simp only [] at h
    have hd := vget_spInit_start g start
    have hst : ¬ ((0 : Int) > vget (spInit g start).distances start) := by rw [hd]; decide
    rw [if_neg hst] at h
    have hadj : adjOf (touch (spInit g start).adjacencyList start) start = [] := by
      rw [adjOf_touch]; exact hnil
    rw [hadj] at h
    simp only [relax] at h
    have hpq : (spInit g start).pq.erase (0, start) = [] := by
      show [((0 : Int), start)].erase (0, start) = []
      simp
    rw [hpq] at h
    unfold spLoop at h
    simp only [pqTop] at h
    cases h
    show touch g.adjacencyList start = _
    unfold touch
    rw [hk]
    rfl

theorem shortestPath_frame (g : GraphAnalysisTool) (hst : StoreOK g) (start endNode : Int)
    (fuel : Nat) (r : (List Int × Int) × GraphAnalysisTool)
    (h : shortestPath g start endNode fuel = some r) :
    r.2.nodes = g.nodes ∧ r.2.numNodes = g.numNodes ∧ r.2.numEdges = g.numEdges ∧
    (∀ u, adjOf r.2.adjacencyList u = adjOf g.adjacencyList u) ∧
    (hasKey g.adjacencyList start = true → r.2.adjacencyList = g.adjacencyList) ∧
    (hasKey g.adjacencyList start = false →
      r.2.adjacencyList = g.adjacencyList ++ [(start, [])]) := by
  unfold shortestPath at h
  cases hl : spLoop fuel (spInit g start) with
  | none => rw [hl] at h; cases h
  | some s =>
    rw [hl] at h
    simp only [] at h
    have hT : ∀ u, ∀ x ∈ adjOf g.adjacencyList u, hasKey g.adjacencyList x.1 = true := by
      intro u x hx
      obtain ⟨row, hrow, hxr⟩ := adjOf_mem_row _ u x hx
      exact hst.entries _ (hst.targets row hrow x hxr)
    have hr : r.2 = { g with adjacencyList := s.adjacencyList, metrics := s.metrics } := by
      split at h
      · cases hw : walkBack s.previous fuel endNode [] with
        | none => rw [hw] at h; cases h
        | some path => rw [hw] at h; cases h; rfl
      · cases h; rfl
    rw [hr]
    refine ⟨rfl, rfl, rfl, ?_, ?_, ?_⟩
    · intro u
      exact spLoop_table_adj fuel _ s hl u
    · intro hk
      apply spLoop_table_keep g.adjacencyList hT fuel _ s hl rfl
      intro e he
      have : e = (0, start) := by simpa [spInit] using he
      rw [this]; exact hk
    · intro hk
      exact spLoop_table_new g start hk fuel s hl

/-- C32 fails on the code: after `addNode(0)`, `addNode(2)` the bound `numNodes` is `3` and
the adjacency table has the keys `0` and `2`; the call `shortestPath(1, 0)`, with both ids in
`[0, numNodes)`, returns the empty path with `INT_MAX` and leaves a table with the
additional key `1`, inserted by `adjacencyList[current]`. -/
theorem shortestPath_inserts_key :
    (build gapOps).numNodes = 3 ∧
    (build gapOps).adjacencyList = [(0, []), (2, [])] ∧
    ∀ fuel, 1 ≤ fuel →
      (shortestPath (build gapOps) 1 0 fuel).map (fun r => (r.1, r.2.adjacencyList))
        = some (([], 2147483647), [(0, []), (2, []), (1, [])]) := by
  refine ⟨by decide, by decide, ?_⟩
  intro fuel hf
  have h1 : shortestPath (build gapOps) 1 0 1 = some (([], 2147483647),
      { build gapOps with
        adjacencyList := [(0, []), (2, []), (1, [])]
        metrics := [("Shortest Path", { executionTime := 0, nodesProcessed := 1,
                                         memoryUsed := 0 })] }) := by decide
  rw [shortestPath_mono _ _ _ 1 fuel _ h1 hf]
  rfl

/-! ## Minimum spanning forest: order and multiplicity of the result -/

theorem countP_collectEdges (al : AdjList) (h : (al.map Prod.fst).Nodup) (e : Edge) :
    (collectEdges al).countP (fun a => decide (a = e))
      = (adjOf al e.1).countP (fun p => decide (p = (e.2.1, e.2.2))) := by
  induction al with
  | nil => simp [collectEdges, adjOf]
  | cons x rest ih =>
    have hnd : (rest.map Prod.fst).Nodup := (List.nodup_cons.mp (by simpa using h)).2
    have hx : x.1 ∉ rest.map Prod.fst := (List.nodup_cons.mp (by simpa using h)).1
    have hsplit : collectEdges (x :: rest)
        = x.2.map (fun p => ((x.1, p.1, p.2) : Edge)) ++ collectEdges rest := by
      simp [collectEdges]
    rw [hsplit, List.countP_append, List.countP_map]
    by_cases hk : x.1 = e.1
    · have hzero : (collectEdges rest).countP (fun a => decide (a = e)) = 0 := by
        rw [List.countP_eq_zero]
        intro a ha
        simp only [decide_eq_true_eq]
        rintro rfl
        obtain ⟨y, hy, p, _, hp⟩ := (mem_collectEdges rest a).mp ha
        apply hx
        rw [hk, hp]
        exact List.mem_map_of_mem Prod.fst hy
      have hc : x.2.countP ((fun a => decide (a = e)) ∘ fun p => ((x.1, p.1, p.2) : Edge))
          = x.2.countP (fun p => decide (p = (e.2.1, e.2.2))) := by
        apply List.countP_congr
        intro p _
        simp only [Function.comp, decide_eq_true_eq]
        constructor
        · intro hp; rw [← hp]
        · intro hp; rw [hp, hk]
      rw [hc, hzero]
      simp only [adjOf, if_pos hk, Nat.add_zero]
    · have hzero : x.2.countP ((fun a => decide (a = e)) ∘ fun p => ((x.1, p.1, p.2) : Edge))
          = 0 := by
        rw [List.countP_eq_zero]
        intro p _
        simp only [Function.comp, decide_eq_true_eq]
        intro hp
        apply hk
        rw [← hp]
      rw [hzero, ih hnd]
      simp only [adjOf, if_neg hk, Nat.zero_add]

/-- C34: for every graph with non-negative ids, every iteration order of the adjacency table
and every outcome of the sort, `findMST` returns; in the returned list no later weight is
smaller than an earlier one, every returned triple `(from, to, weight)` is an entry
`(to, weight)` of the edge list stored under `from`, and no triple occurs more often in the
result than that entry occurs in that edge list (the occurrences are counted on both
sides). -/
theorem findMST_sorted_subedges (tableOrd : AdjList → AdjList) (sortOrd : List Edge → List Edge)
    (ht : IsTableOrder tableOrd) (hs : IsWeightSort sortOrd) (ops : List Op)
    (hids : idsOk ops) :
    (∃ N, ∀ fuel, N ≤ fuel → (findMST tableOrd sortOrd (build ops) fuel).isSome = true) ∧
    ∀ fuel res, findMST tableOrd sortOrd (build ops) fuel = some res →
      res.1.Pairwise (fun a b => a.2.2 ≤ b.2.2) ∧
      (∀ e ∈ res.1, (e.2.1, e.2.2) ∈ adjOf (build ops).adjacencyList e.1) ∧
      ∀ e, res.1.countP (fun a => decide (a = e))
        ≤ (adjOf (build ops).adjacencyList e.1).countP
            (fun p => decide (p = (e.2.1, e.2.2))) := by
  have hg := build_storeOK ops
  have hr := build_rangeOK ops hids
  refine ⟨⟨(build ops).numNodes.toNat + 1, fun fuel hf =>
    findMST_some tableOrd sortOrd ht hs _ hg hr fuel (by omega)⟩, ?_⟩
  intro fuel res h
  obtain ⟨_, hsub, _, _, _⟩ := findMST_facts tableOrd sortOrd ht hs _ hg hr fuel res h
  have hperm : (sortOrd (collectEdges (tableOrd (build ops).adjacencyList))).Perm
      (collectEdges (build ops).adjacencyList) := by
    refine (hs _).1.trans ?_
    unfold collectEdges
    exact List.Perm.flatMap_right _ (ht _)
  have hcount : ∀ e, res.1.countP (fun a => decide (a = e))
      ≤ (adjOf (build ops).adjacencyList e.1).countP
          (fun p => decide (p = (e.2.1, e.2.2))) := by
    intro e
    rw [← countP_collectEdges _ hg.keysNodup e, ← hperm.countP_eq]
    exact hsub.countP_le _
  refine ⟨(hs _).2.sublist hsub, ?_, hcount⟩
  intro e he
  have h1 : 0 < res.1.countP (fun a => decide (a = e)) :=
    List.countP_pos_iff.mpr ⟨e, he, by simp⟩
  have h2 := hcount e
  obtain ⟨p, hp, hpe⟩ := List.countP_pos_iff.mp (lt_of_lt_of_le h1 h2)
  simp only [decide_eq_true_eq] at hpe
  rw [← hpe]
  exact hp

/-- C34, at the five-edge graph of the specification, with the table read in insertion
order and insertion sort. -/
theorem findMST_sorted_subedges_witness :
    (∃ N, ∀ fuel, N ≤ fuel → (findMST id weightSort (build simpleGraphOps) fuel).isSome = true) ∧
    ∀ fuel res, findMST id weightSort (build simpleGraphOps) fuel = some res →
      res.1.Pairwise (fun a b => a.2.2 ≤ b.2.2) ∧
      (∀ e ∈ res.1, (e.2.1, e.2.2) ∈ adjOf (build simpleGraphOps).adjacencyList e.1) ∧
      ∀ e, res.1.countP (fun a => decide (a = e))
        ≤ (adjOf (build simpleGraphOps).adjacencyList e.1).countP
            (fun p => decide (p = (e.2.1, e.2.2))) :=
  findMST_sorted_subedges id weightSort isTableOrder_id isWeightSort_weightSort simpleGraphOps
    (by decide)

/-! ## Community detection: the visit order -/

theorem dfsOrder_nil (al : AdjList) (k : Nat) (seen : List Int) :
    dfsOrder al k [] seen = some [] := by
  cases k <;> rfl

theorem dfsOrder_mono (al : AdjList) : ∀ (k : Nat) (work seen l : List Int),
    dfsOrder al k work seen = some l → ∀ k2, k ≤ k2 → dfsOrder al k2 work seen = some l := by
  intro k
  induction k with
  | zero =>
    intro work seen l h k2 _
    cases work with
    | nil => rw [dfsOrder_nil] at h ⊢; exact h
    | cons x w => simp [dfsOrder] at h
  | succ k ih =>
    intro work seen l h k2 hk
    obtain ⟨j, rfl⟩ : ∃ j, k2 = j + 1 := ⟨k2 - 1, by omega⟩
    cases work with
    | nil => rw [dfsOrder_nil] at h ⊢; exact h
    | cons x w =>
      simp only [dfsOrder] at h ⊢
      by_cases hx : x ∈ seen
      · rw [if_pos hx] at h ⊢
        exact ih _ _ _ h j (by omega)
      · rw [if_neg hx] at h ⊢
        obtain ⟨l1, hl1, rfl⟩ := Option.map_eq_some'.mp h
        rw [ih _ _ _ hl1 j (by omega)]
        rfl

theorem dfsEdges_order (al : AdjList) (call : Int → DfsState → Option DfsState)
    (hcall : ∀ next s s1, call next s = some s1 → next ∉ s.visited →
      ∃ D, s1.visited = s.visited ++ next :: D ∧ s1.component = s.component ++ next :: D ∧
        ∀ work k out, dfsOrder al k work s1.visited = some out →
          ∃ k2, dfsOrder al k2 (next :: work) s.visited = some (next :: D ++ out)) :
    ∀ (es : List (Int × Int)) (st st1 : DfsState), dfsEdges call es st = some st1 →
      ∃ D, st1.visited = st.visited ++ D ∧ st1.component = st.component ++ D ∧
        ∀ work k out, dfsOrder al k work st1.visited = some out →
          ∃ k2, dfsOrder al k2 (es.map Prod.fst ++ work) st.visited = some (D ++ out) := by
  intro es
  induction es with
  | nil =>
    intro st st1 h
    simp only [dfsEdges, Option.some.injEq] at h
    subst h
    exact ⟨[], by simp, by simp, fun work k out hk => ⟨k, by simpa using hk⟩⟩
  | cons e rest ih =>
    intro st st1 h
    simp only [dfsEdges] at h
    by_cases hv : e.1 ∈ st.visited
    · rw [if_pos hv] at h
      obtain ⟨D, h1, h2, h3⟩ := ih st st1 h
      refine ⟨D, h1, h2, ?_⟩
      intro work k out hk
      obtain ⟨k2, hk2⟩ := h3 work k out hk
      refine ⟨k2 + 1, ?_⟩
      simp only [List.map_cons, List.cons_append, dfsOrder, if_pos hv]
      exact hk2
    · rw [if_neg hv] at h
      cases hc : call e.1 st with
      | none => rw [hc] at h; cases h
      | some s1 =>
        rw [hc] at h
        simp only [] at h
        obtain ⟨D1, a1, a2, a3⟩ := hcall e.1 st s1 hc hv
        obtain ⟨D2, b1, b2, b3⟩ := ih s1 st1 h
        refine ⟨e.1 :: D1 ++ D2, ?_, ?_, ?_⟩
        · rw [b1, a1]; simp
        · rw [b2, a2]; simp
        · intro work k out hk
          obtain ⟨k1, hk1⟩ := b3 work k out hk
          obtain ⟨k2, hk2⟩ := a3 _ k1 _ hk1
          refine ⟨k2, ?_⟩
          simp only [List.map_cons, List.cons_append, List.append_assoc] at hk2 ⊢
          exact hk2

theorem dfsUtil_order (al : AdjList) : ∀ (fuel : Nat) (node : Int) (st st1 : DfsState),
    dfsUtil al fuel node st = some st1 → node ∉ st.visited →
    ∃ D, st1.visited = st.visited ++ node :: D ∧ st1.component = st.component ++ node :: D ∧
      ∀ work k out, dfsOrder al k work st1.visited = some out →
        ∃ k2, dfsOrder al k2 (node :: work) st.visited = some (node :: D ++ out) := by
  intro fuel
  induction fuel with
  | zero => intro node st st1 h; simp [dfsUtil] at h
  | succ fuel ih =>
    intro node st st1 h hv
    simp only [dfsUtil] at h
    rw [setInsert_of_not_mem _ _ hv] at h
    obtain ⟨D, h1, h2, h3⟩ := dfsEdges_order al (fun next s => dfsUtil al fuel next s)
      (fun next s s1 hc hn => ih next s s1 hc hn) (adjOf al node) _ st1 h
    simp only [] at h1 h2 h3
    refine ⟨D, ?_, ?_, ?_⟩
    · rw [h1]; simp
    · rw [h2]; simp
    · intro work k out hk
      obtain ⟨k2, hk2⟩ := h3 work k out hk
      refine ⟨k2 + 1, ?_⟩
      simp only [dfsOrder, if_neg hv, hk2, Option.map_some', List.cons_append]

theorem visitOK_append (al : AdjList) : ∀ (cs ds : List (List Int)) (W : List Int),
    VisitOK al W (cs ++ ds) ↔ (VisitOK al W cs ∧ VisitOK al (W ++ cs.flatten) ds) := by
  intro cs
  induction cs with
  | nil => intro ds W; simp [VisitOK]
  | cons c cs ih =>
    intro ds W
    show (_ ∧ VisitOK al (W ++ c) (cs ++ ds)) ↔ ((_ ∧ VisitOK al (W ++ c) cs) ∧ _)
    rw [ih ds (W ++ c), List.flatten_cons, List.append_assoc, and_assoc]

theorem visitOK_singletons (al : AdjList) : ∀ (iso W : List Int),
    (∀ i ∈ iso, adjOf al i = []) → iso.Nodup → (∀ i ∈ iso, i ∉ W) →
    VisitOK al W (iso.map (fun i => [i])) := by
  intro iso
  induction iso with
  | nil => intro W _ _ _; simp [VisitOK]
  | cons i rest ih =>
    intro W hout hnd hW
    simp only [List.map_cons, VisitOK]
    have hi : i ∉ W := hW i (List.mem_cons_self _ _)
    refine ⟨⟨i, [], 1, rfl, ?_⟩, ?_⟩
    · simp only [dfsOrder, if_neg hi, hout i (List.mem_cons_self _ _), List.map_nil,
        List.nil_append, Option.map_some']
    · apply ih
      · exact fun j hj => hout j (List.mem_cons_of_mem _ hj)
      · exact (List.nodup_cons.mp hnd).2
      · intro j hj hm
        rcases List.mem_append.mp hm with h | h
        · exact hW j (List.mem_cons_of_mem _ hj) h
        · rw [List.mem_singleton] at h
          subst h
          exact (List.nodup_cons.mp hnd).1 hj

theorem visitOK_split (al : AdjList) (pre : List (List Int)) (c : List Int)
    (post : List (List Int)) (h : VisitOK al [] (pre ++ c :: post)) :
    ∃ first rest k, c = first :: rest ∧ dfsOrder al k [first] pre.flatten = some c := by
  rw [visitOK_append] at h
  simpa using h.2.1

theorem communitiesLoop_visit (g : GraphAnalysisTool) (fuel : Nat) :
    ∀ (rest : List Int) (st st1 : CommState),
      communitiesLoop g fuel rest st = some st1 → st.communities.flatten = st.visited →
      VisitOK g.adjacencyList [] st.communities →
      VisitOK g.adjacencyList [] st1.communities := by
  intro rest
  induction rest with
  | nil =>
    intro st st1 h _ hv
    simp only [communitiesLoop, Option.some.injEq] at h
    subst h
    exact hv
  | cons node rest ih =>
    intro st st1 h hflat hv
    simp only [communitiesLoop] at h
    by_cases hc : node ∉ st.visited ∧ isNodeIsolated g node = false
    · rw [if_pos hc] at h
      cases hd : dfsUtil g.adjacencyList fuel node
          { visited := st.visited, component := [], metrics := st.metrics } with
      | none => rw [hd] at h; cases h
      | some d =>
        rw [hd] at h
        simp only [] at h
        obtain ⟨D, h1, h2, h3⟩ := dfsUtil_order g.adjacencyList fuel node _ d hd hc.1
        simp only [List.nil_append] at h1 h2
        have hne : d.component ≠ [] := by rw [h2]; simp
        rw [if_pos hne] at h
        apply ih _ _ h
        · show (st.communities ++ [d.component]).flatten = d.visited
          rw [List.flatten_append, hflat, h1, h2]
          simp
        · show VisitOK g.adjacencyList [] (st.communities ++ [d.component])
          rw [visitOK_append]
          refine ⟨hv, ?_⟩
          obtain ⟨k2, hk2⟩ := h3 [] 0 [] (dfsOrder_nil _ _ _)
          simp only [List.append_nil] at hk2
          simp only [VisitOK, List.nil_append, and_true]
          refine ⟨node, D, k2, h2, ?_⟩
          rw [hflat, h2]
          exact hk2
    · rw [if_neg hc] at h
      exact ih _ _ h hflat hv

/-- C35: for every built graph and every iteration order of the registry, `findCommunities`
returns, and every returned component starts with a node, holds no node twice, holds
exactly the nodes reached from its first node along outgoing edges that belong to no
earlier component, and lists them in depth-first visit order from that first node, the
nodes of the earlier components counting as visited already. -/
theorem findCommunities_visit_order (nodeOrd : List Int → List Int)
    (hord : IsNodeOrder nodeOrd) (ops : List Op) :
    (∃ N, ∀ fuel, N ≤ fuel → (findCommunities nodeOrd (build ops) fuel).isSome = true) ∧
    ∀ fuel res, findCommunities nodeOrd (build ops) fuel = some res →
      ∀ pre c post, res.1 = pre ++ c :: post →
        ∃ first rest, c = first :: rest ∧ c.Nodup ∧
          (∀ x, x ∈ c ↔ (DReach (build ops).adjacencyList first x ∧ ∀ c2 ∈ pre, x ∉ c2)) ∧
          ∃ N, ∀ k, N ≤ k →
            dfsOrder (build ops).adjacencyList k [first] pre.flatten = some c := by
  have hg := build_storeOK ops
  refine ⟨⟨(build ops).nodes.length, fun fuel hf =>
    findCommunities_some nodeOrd hord _ hg fuel hf⟩, ?_⟩
  intro fuel res h pre c post hsplit
  obtain ⟨st, hloop, hres, hinv, _⟩ := findCommunities_spec nodeOrd hord _ hg fuel res h
  obtain ⟨hind, himem⟩ := isolated_facts nodeOrd hord _ hg
  have hfresh : ∀ i ∈ getIsolatedNodes nodeOrd (build ops), i ∉ st.visited := by
    intro i hi hm
    have h1 := hinv.nonIso i hm
    rw [((himem i).mp hi).2] at h1
    cases h1
  have hout : ∀ i ∈ getIsolatedNodes nodeOrd (build ops),
      adjOf (build ops).adjacencyList i = [] :=
    fun i hi => adjOf_nil_of_isolated _ i ((himem i).mp hi).2
  have hall : CompsOK (build ops).adjacencyList [] res.1 := by
    rw [hres, compsOK_append]
    refine ⟨hinv.comps, ?_⟩
    apply compsOK_singletons _ _ _ hout hind
    intro i hi hm
    rw [List.nil_append, hinv.flat] at hm
    exact hfresh i hi hm
  have hvis : VisitOK (build ops).adjacencyList [] res.1 := by
    rw [hres, visitOK_append]
    refine ⟨communitiesLoop_visit _ fuel _ _ st hloop rfl trivial, ?_⟩
    apply visitOK_singletons _ _ _ hout hind
    intro i hi hm
    rw [List.nil_append, hinv.flat] at hm
    exact hfresh i hi hm
  have hnd : res.1.flatten.Nodup := by
    rw [hres, List.flatten_append, hinv.flat, flatten_singletons]
    exact List.Nodup.append hinv.nodupV hind (fun x hx hi => hfresh x hi hx)
  rw [hsplit] at hall hvis hnd
  obtain ⟨first, rest, hc, hx⟩ := compsOK_split _ pre [] c post hall
  obtain ⟨first2, rest2, k, hc2, hk⟩ := visitOK_split _ pre c post hvis
  have hf : first2 = first := by
    rw [hc] at hc2
    exact (List.cons.inj hc2).1.symm
  subst hf
  refine ⟨first2, rest, hc, ?_, ?_, k, fun k2 hk2 => dfsOrder_mono _ k _ _ _ hk k2 hk2⟩
  · rw [List.flatten_append, List.flatten_cons] at hnd
    exact (List.nodup_append.mp (List.nodup_append.mp hnd).2.1).1
  · intro x
    rw [hx x]
    simp

/-- C35, at the graph built by `addEdge(0, 2, 1)`, `addEdge(1, 2, 1)`, with the registry read
in insertion order. -/
theorem findCommunities_visit_order_witness :
    (∃ N, ∀ fuel, N ≤ fuel → (findCommunities id (build sharedTargetOps) fuel).isSome = true) ∧
    ∀ fuel res, findCommunities id (build sharedTargetOps) fuel = some res →
      ∀ pre c post, res.1 = pre ++ c :: post →
        ∃ first rest, c = first :: rest ∧ c.Nodup ∧
          (∀ x, x ∈ c ↔
            (DReach (build sharedTargetOps).adjacencyList first x ∧ ∀ c2 ∈ pre, x ∉ c2)) ∧
          ∃ N, ∀ k, N ≤ k →
            dfsOrder (build sharedTargetOps).adjacencyList k [first] pre.flatten = some c :=
  findCommunities_visit_order id isNodeOrder_id sharedTargetOps

/-! ## Union-find: ranks along parent chains -/

theorem parentIter_rank (uf : UnionFind) (n : Int) (B : Nat) (hok : UFOK uf n B) :
    ∀ (k : Nat) (x : Int), 0 ≤ x → x < n →
      0 ≤ parentIter uf k x ∧ parentIter uf k x < n ∧
      vget uf.rank x ≤ vget uf.rank (parentIter uf k x) := by
  intro k
  induction k with
  | zero => intro x h0 h1; exact ⟨h0, h1, le_refl _⟩
  | succ k ih =>
    intro x h0 h1
    have hp := hok.parentRange x h0 h1
    obtain ⟨a, b, c⟩ := ih (vget uf.parent x) hp.1 hp.2
    refine ⟨a, b, ?_⟩
    show vget uf.rank x ≤ vget uf.rank (parentIter uf k (vget uf.parent x))
    by_cases hne : vget uf.parent x = x
    · rw [hne] at c ⊢; exact c
    · have := hok.rankStep x h0 h1 hne
      omega

theorem parentIter_cycle (uf : UnionFind) (n : Int) (B : Nat) (hok : UFOK uf n B)
    (k : Nat) (x : Int) (h0 : 0 ≤ x) (h1 : x < n) (hk : 0 < k)
    (hc : parentIter uf k x = x) : vget uf.parent x = x := by
  by_contra hne
  obtain ⟨k1, rfl⟩ : ∃ k1, k = k1 + 1 := ⟨k - 1, by omega⟩
  have hp := hok.parentRange x h0 h1
  have hr := (parentIter_rank uf n B hok k1 (vget uf.parent x) hp.1 hp.2).2.2
  have hc2 : parentIter uf k1 (vget uf.parent x) = x := hc
  rw [hc2] at hr
  have := hok.rankStep x h0 h1 hne
  omega

/-- C38: in every `UnionFind` state of size `n` (an `int`) reached from the constructor by
`find` and `unite` calls on indices in `[0, n)`: every element that is not its own parent
has a rank strictly below the rank of its parent; following the parent links one or more
times from `x` leads back to `x` only when `x` is a root, and always ends at a root; and
`find(x)` returns for every `x` in `[0, n)`. -/
theorem find_terminates_by_rank (n : Int) (hn : n ≤ INT_MAX) (uf : UnionFind)
    (hr : UFReach n uf) :
    (∀ x, 0 ≤ x → x < n → vget uf.parent x ≠ x →
      vget uf.rank x < vget uf.rank (vget uf.parent x)) ∧
    (∀ x k, 0 ≤ x → x < n → 0 < k → parentIter uf k x = x → vget uf.parent x = x) ∧
    (∀ x, 0 ≤ x → x < n → ∃ k, vget uf.parent (parentIter uf k x) = parentIter uf k x) ∧
    (∀ x, 0 ≤ x → x < n →
      ∃ N, ∀ fuel, N ≤ fuel → (UnionFind.find fuel uf x).isSome = true) := by
  obtain ⟨B, hok, _⟩ := uFReach_ok n hn uf hr
  refine ⟨hok.rankStep, ?_, ?_, ?_⟩
  · intro x k h0 h1 hk hc
    exact parentIter_cycle uf n B hok k x h0 h1 hk hc
  · intro x h0 h1
    obtain ⟨r, hroot⟩ := uFRoot_exists uf n B hok x h0 h1
    clear h0 h1
    induction hroot with
    | root h => exact ⟨0, h⟩
    | step _ _ ih =>
      obtain ⟨k, hk⟩ := ih
      exact ⟨k + 1, hk⟩
  · intro x h0 h1
    exact ⟨B + 1, fun fuel hf => find_some_of_fuel n B fuel uf x hok h0 h1 (by omega)⟩

theorem uFReach_linked : UFReach 3 { parent := [0, 0, 2], rank := [1, 0, 0] } :=
  @UFReach.unite 3 (UnionFind.init 3) _ 2 0 1 UFReach.init (by decide) (by decide) (by decide)
    (by decide) (by decide)

/-- C38, at the state reached by `unite(0, 1)` on three elements, where `1` is not a root. -/
theorem find_terminates_by_rank_witness :
    (∀ x, 0 ≤ x → x < 3 → vget [0, 0, 2] x ≠ x →
      vget [1, 0, 0] x < vget [1, 0, 0] (vget [0, 0, 2] x)) ∧
    (∀ x k, 0 ≤ x → x < 3 → 0 < k →
      parentIter { parent := [0, 0, 2], rank := [1, 0, 0] } k x = x → vget [0, 0, 2] x = x) ∧
    (∀ x, 0 ≤ x → x < 3 → ∃ k,
      vget [0, 0, 2] (parentIter { parent := [0, 0, 2], rank := [1, 0, 0] } k x)
        = parentIter { parent := [0, 0, 2], rank := [1, 0, 0] } k x) ∧
    (∀ x, 0 ≤ x → x < 3 → ∃ N, ∀ fuel, N ≤ fuel →
      (UnionFind.find fuel { parent := [0, 0, 2], rank := [1, 0, 0] } x).isSome = true) :=
  find_terminates_by_rank 3 (by decide) { parent := [0, 0, 2], rank := [1, 0, 0] }
    uFReach_linked

/-! ## Timer: the stored memory delta -/

theorem timer_memory_stored (op : String) (m : Metrics) (now0 now1 : Int) (entry exit : Nat) :
    (metricsGet (Timer.destroy (Timer.create op now0 entry) m now1 exit) op).map
        (fun r => r.memoryUsed)
      = some ((exit + 18446744073709551616 - entry) % 18446744073709551616) := by
  unfold Timer.destroy Timer.create
  rw [metricsGet_modify]
  rfl

theorem timer_memory_grow (op : String) (m : Metrics) (now0 now1 : Int) (entry exit : Nat)
    (h1 : entry ≤ exit) (h2 : exit < 18446744073709551616) :
    (metricsGet (Timer.destroy (Timer.create op now0 entry) m now1 exit) op).map
        (fun r => (r.memoryUsed : Int)) = some ((exit : Int) - entry) := by
  have h := timer_memory_stored op m now0 now1 entry exit
  cases hr : metricsGet (Timer.destroy (Timer.create op now0 entry) m now1 exit) op with
  | none => rw [hr] at h; cases h
  | some r =>
    rw [hr] at h
    simp only [Option.map_some', Option.some.injEq] at h ⊢
    rw [h]
    have : (exit + 18446744073709551616 - entry) % 18446744073709551616 = exit - entry := by
      omega
    rw [this]
    omega

theorem timer_memory_shrink (op : String) (m : Metrics) (now0 now1 : Int) (entry exit : Nat)
    (h1 : exit < entry) (h2 : entry < 18446744073709551616) :
    (metricsGet (Timer.destroy (Timer.create op now0 entry) m now1 exit) op).map
        (fun r => (r.memoryUsed : Int))
      = some ((exit : Int) - entry + 18446744073709551616) := by
  have h := timer_memory_stored op m now0 now1 entry exit
  cases hr : metricsGet (Timer.destroy (Timer.create op now0 entry) m now1 exit) op with
  | none => rw [hr] at h; cases h
  | some r =>
    rw [hr] at h
    simp only [Option.map_some', Option.some.injEq] at h ⊢
    rw [h]
    have : (exit + 18446744073709551616 - entry) % 18446744073709551616
        = exit + 18446744073709551616 - entry := by
      omega
    rw [this]
    omega

/-- C31 fails on the code: with the memory reading `2` when the `Timer` is constructed and
`1` when it is destroyed, the value stored in `memoryUsed` is `2^64 - 1`, not the signed
difference `1 - 2`. -/
theorem timer_memory_delta_wraps :
    (metricsGet
      (Timer.destroy (Timer.create "Minimum Spanning Tree" 0 2)
        [("Minimum Spanning Tree", { executionTime := 0, nodesProcessed := 3, memoryUsed := 0 })]
        5 1)
      "Minimum Spanning Tree").map (fun r => (r.memoryUsed : Int))
      = some 18446744073709551615 ∧
    (18446744073709551615 : Int) ≠ 1 - 2 := by
  constructor <;> decide

/-! ## Graph generators: the index record of `generateScaleFreeGraph` -/

theorem mem_countUp (lo hi x : Int) : x ∈ countUp lo hi ↔ lo ≤ x ∧ x < hi := by
  unfold countUp
  rw [List.mem_map]
  constructor
  · rintro ⟨k, hk, rfl⟩
    rw [List.mem_range] at hk
    have h1 : ((k : Nat) : Int) < ((hi - lo).toNat : Int) := by exact_mod_cast hk
    have h2 : (0 : Int) ≤ ((k : Nat) : Int) := Int.ofNat_nonneg k
    show lo ≤ lo + ((k : Nat) : Int) ∧ lo + ((k : Nat) : Int) < hi
    have h3 : ((hi - lo).toNat : Int) = hi - lo := Int.toNat_of_nonneg (by omega)
    constructor <;> omega
  · intro h
    have h3 : ((x - lo).toNat : Int) = x - lo := Int.toNat_of_nonneg (by omega)
    have h4 : ((hi - lo).toNat : Int) = hi - lo := Int.toNat_of_nonneg (by omega)
    refine ⟨(x - lo).toNat, ?_, ?_⟩
    · rw [List.mem_range]
      have : ((x - lo).toNat : Int) < ((hi - lo).toNat : Int) := by omega
      exact_mod_cast this
    · show lo + ((x - lo).toNat : Int) = x
      omega

theorem forEach_inv {σ : Type} (body : Int → σ → Option σ) (P : σ → Prop) :
    ∀ (l : List Int) (s s2 : σ), (∀ i ∈ l, ∀ a b, body i a = some b → P a → P b) →
      forEach body l s = some s2 → P s → P s2 := by
  intro l
  induction l with
  | nil =>
    intro s s2 _ h hs
    simp only [forEach, Option.some.injEq] at h
    subst h
    exact hs
  | cons i rest ih =>
    intro s s2 hb h hs
    simp only [forEach] at h
    cases hi : body i s with
    | none => rw [hi] at h; cases h
    | some s1 =>
      rw [hi] at h
      exact ih s1 s2 (fun j hj => hb j (List.mem_cons_of_mem _ hj)) h
        (hb i (List.mem_cons_self _ _) s s1 hi hs)

theorem sumDegrees_log (dc : List Int) : ∀ (js : List Int) (total : Int) (log : List Int),
    (sumDegrees dc js total log).2 = log ++ js := by
  intro js
  induction js with
  | nil => intro total log; simp [sumDegrees]
  | cons j rest ih =>
    intro total log
    simp only [sumDegrees]
    rw [ih]
    simp

theorem findTarget_facts (dc : List Int) (rv : Int) :
    ∀ (ks : List Int) (acc : Int) (log : List Int),
      ((findTarget dc rv ks acc log).1 = 0 ∨ (findTarget dc rv ks acc log).1 ∈ ks) ∧
      ∀ a ∈ (findTarget dc rv ks acc log).2, a ∈ log ∨ a ∈ ks := by
  intro ks
  induction ks with
  | nil => intro acc log; exact ⟨Or.inl rfl, fun a ha => Or.inl ha⟩
  | cons k rest ih =>
    intro acc log
    simp only [findTarget]
    split
    · refine ⟨Or.inr (List.mem_cons_self _ _), ?_⟩
      intro a ha
      rcases List.mem_append.mp ha with h | h
      · exact Or.inl h
      · rw [List.mem_singleton.mp h]; exact Or.inr (List.mem_cons_self _ _)
    · obtain ⟨h1, h2⟩ := ih (add32 acc (vget dc k)) (log ++ [k])
      refine ⟨?_, ?_⟩
      · rcases h1 with h | h
        · exact Or.inl h
        · exact Or.inr (List.mem_cons_of_mem _ h)
      · intro a ha
        rcases h2 a ha with h | h
        · rcases List.mem_append.mp h with h | h
          · exact Or.inl h
          · rw [List.mem_singleton.mp h]; exact Or.inr (List.mem_cons_self _ _)
        · exact Or.inr (List.mem_cons_of_mem _ h)

theorem attachStep_range (opts : GraphOptions) (n i : Int) (h3 : 3 ≤ i) (hi : i < n)
    (s s1 : ScaleFreeState) (h : attachStep opts i s = some s1)
    (hs : s.degreeCount.length = n.toNat ∧ ∀ a ∈ s.accessed, 0 ≤ a ∧ a < n) :
    s1.degreeCount.length = n.toNat ∧ ∀ a ∈ s1.accessed, 0 ≤ a ∧ a < n := by
  unfold attachStep at h
  cases hp : nextPick s.draws with
  | none => rw [hp] at h; cases h
  | some p =>
    obtain ⟨rv, d⟩ := p
    rw [hp] at h
    simp only [] at h
    obtain ⟨ht, hlog⟩ := findTarget_facts s.degreeCount rv (countUp 0 i) 0 s.accessed
    cases hw : addWeightedEdge opts i (findTarget s.degreeCount rv (countUp 0 i) 0 s.accessed).1
        (s.graph, d) with
    | none => rw [hw] at h; cases h
    | some gd =>
      rw [hw] at h
      simp only [Option.some.injEq] at h
      subst h
      have htr : 0 ≤ (findTarget s.degreeCount rv (countUp 0 i) 0 s.accessed).1 ∧
          (findTarget s.degreeCount rv (countUp 0 i) 0 s.accessed).1 < n := by
        rcases ht with h0 | hm
        · rw [h0]; omega
        · have := (mem_countUp 0 i _).mp hm
          omega
      refine ⟨?_, ?_⟩
      · show (vset (vset s.degreeCount i _) _ _).length = n.toNat
        rw [vset_length, vset_length]
        exact hs.1
      · intro a ha
        have ha2 : a ∈ (findTarget s.degreeCount rv (countUp 0 i) 0 s.accessed).2 ++
            [i, (findTarget s.degreeCount rv (countUp 0 i) 0 s.accessed).1] := ha
        rcases List.mem_append.mp ha2 with h | h
        · rcases hlog a h with h | h
          · exact hs.2 a h
          · have := (mem_countUp 0 i a).mp h
            omega
        · simp only [List.mem_cons, List.mem_singleton, List.not_mem_nil, or_false] at h
          rcases h with h | h
          · rw [h]; omega
          · rw [h]; exact htr

theorem growStep_range (opts : GraphOptions) (n i : Int) (h3 : 3 ≤ i) (hi : i < n)
    (s s1 : ScaleFreeState) (h : growStep opts i s = some s1)
    (hs : s.degreeCount.length = n.toNat ∧ ∀ a ∈ s.accessed, 0 ≤ a ∧ a < n) :
    s1.degreeCount.length = n.toNat ∧ ∀ a ∈ s1.accessed, 0 ≤ a ∧ a < n := by
  unfold growStep at h
  simp only [] at h
  refine forEach_inv (fun _ s1 => attachStep opts i s1)
    (fun t => t.degreeCount.length = n.toNat ∧ ∀ a ∈ t.accessed, 0 ≤ a ∧ a < n)
    _ _ s1 (fun _ _ a b hab ha => attachStep_range opts n i h3 hi a b hab ha) h ?_
  refine ⟨hs.1, ?_⟩
  intro a ha
  have ha2 : a ∈ (sumDegrees s.degreeCount (countUp 0 i) 0 s.accessed).2 := ha
  rw [sumDegrees_log] at ha2
  rcases List.mem_append.mp ha2 with h | h
  · exact hs.2 a h
  · have := (mem_countUp 0 i a).mp h
    omega

theorem scaleFree_in_range (opts : GraphOptions) (h3 : 3 ≤ opts.numNodes) (draws : Draws)
    (r : ScaleFreeState) (h : generateScaleFreeGraph opts draws = some r) :
    r.degreeCount.length = opts.numNodes.toNat ∧
    ∀ a ∈ r.accessed, 0 ≤ a ∧ a < opts.numNodes := by
  unfold generateScaleFreeGraph at h
  cases h1 : forEach (fun i s => forEach (fun j s1 => addWeightedEdge opts i j s1) (countUp 0 i)
      (addNode s.1 i, s.2)) (countUp 0 3) (GraphAnalysisTool.empty, draws) with
  | none => rw [h1] at h; cases h
  | some gd =>
    obtain ⟨g, d⟩ := gd
    rw [h1] at h
    simp only [] at h
    have hc : countUp 0 3 = [0, 1, 2] := by decide
    rw [hc] at h
    simp only [initDegrees] at h
    refine forEach_inv (growStep opts)
      (fun t => t.degreeCount.length = opts.numNodes.toNat ∧
        ∀ a ∈ t.accessed, 0 ≤ a ∧ a < opts.numNodes)
      _ _ r ?_ h ?_
    · intro i hi a b hab ha
      have := (mem_countUp 3 opts.numNodes i).mp hi
      exact growStep_range opts opts.numNodes i this.1 this.2 a b hab ha
    · refine ⟨?_, ?_⟩
      · show (vset (vset (vset _ 0 _) 1 _) 2 _).length = _
        rw [vset_length, vset_length, vset_length, List.length_replicate]
      · intro a ha
        simp only [List.nil_append, List.cons_append, List.mem_cons, List.mem_singleton,
          List.not_mem_nil, or_false] at ha
        rcases ha with h | h | h <;> rw [h] <;> omega

/-- C39 fails on the code: for `numNodes` equal to `0`, `1` or `2` the vector `degreeCount`
has that many elements and the initial loop writes it at the indices `0`, `1` and `2`. -/
theorem scaleFree_writes_past_end :
    (generateScaleFreeGraph { numNodes := 2, directed := true }
      { weights := [1, 1, 1], coins := [], picks := [] }).map
        (fun r => (r.degreeCount.length, r.accessed)) = some (2, [0, 1, 2]) ∧
    (generateScaleFreeGraph { numNodes := 1, directed := true }
      { weights := [1, 1, 1], coins := [], picks := [] }).map
        (fun r => (r.degreeCount.length, r.accessed)) = some (1, [0, 1, 2]) ∧
    (generateScaleFreeGraph { numNodes := 0, directed := true }
      { weights := [1, 1, 1], coins := [], picks := [] }).map
        (fun r => (r.degreeCount.length, r.accessed)) = some (0, [0, 1, 2]) := by decide

/-! ## Graph generators: the rewiring loops of `generateSmallWorldGraph` -/

theorem addEdge_keeps (g : GraphAnalysisTool) (a b w u : Int) (e : Int × Int)
    (h : e ∈ adjOf g.adjacencyList u) : e ∈ adjOf (addEdge g a b w).adjacencyList u := by
  by_cases hu : u = a
  · subst hu
    rw [adjOf_addEdge_src]
    exact List.mem_append_left _ h
  · rw [adjOf_addEdge_ne _ _ _ _ _ hu]
    exact h

theorem rewireStep_keeps (opts : GraphOptions) (i j : Int) (s s1 : GraphAnalysisTool × Draws)
    (h : rewireStep opts i j s = some s1) (u : Int) (e : Int × Int)
    (he : e ∈ adjOf s.1.adjacencyList u) : e ∈ adjOf s1.1.adjacencyList u := by
  unfold rewireStep at h
  cases hc : nextCoin s.2 with
  | none => rw [hc] at h; cases h
  | some cd =>
    obtain ⟨rewire, d⟩ := cd
    rw [hc] at h
    simp only [] at h
    cases rewire with
    | false =>
      simp only [Bool.false_eq_true, if_false, Option.some.injEq] at h
      subst h
      exact he
    | true =>
      simp only [if_true] at h
      cases ht : drawNewTarget i (Int.tmod (i + j) opts.numNodes) d.picks with
      | none => rw [ht] at h; cases h
      | some tp =>
        obtain ⟨newTarget, ps⟩ := tp
        rw [ht] at h
        simp only [] at h
        cases hw : nextWeight { d with picks := ps } with
        | none => rw [hw] at h; cases h
        | some wd =>
          obtain ⟨w1, d1⟩ := wd
          rw [hw] at h
          simp only [] at h
          cases hdir : opts.directed with
          | true =>
            rw [hdir] at h
            simp only [if_true, Option.some.injEq] at h
            subst h
            exact addEdge_keeps _ _ _ _ _ _ he
          | false =>
            rw [hdir] at h
            simp only [Bool.false_eq_true, if_false] at h
            cases hw2 : nextWeight d1 with
            | none => rw [hw2] at h; cases h
            | some wd2 =>
              obtain ⟨w2, d2⟩ := wd2
              rw [hw2] at h
              simp only [Option.some.injEq] at h
              subst h
              exact addEdge_keeps _ _ _ _ _ _ (addEdge_keeps _ _ _ _ _ _ he)

theorem smallWorld_keeps_ring (opts : GraphOptions) (draws : Draws)
    (r : GraphAnalysisTool × Draws) (h : generateSmallWorldGraph opts draws = some r) :
    ∃ ring, forEach (fun i s => forEach (fun j s1 => ringStep opts i j s1) [1, 2]
        (addNode s.1 i, s.2)) (countUp 0 opts.numNodes) (GraphAnalysisTool.empty, draws)
        = some ring ∧
      ∀ u e, e ∈ adjOf ring.1.adjacencyList u → e ∈ adjOf r.1.adjacencyList u := by
  unfold generateSmallWorldGraph at h
  cases h1 : forEach (fun i s => forEach (fun j s1 => ringStep opts i j s1) [1, 2]
      (addNode s.1 i, s.2)) (countUp 0 opts.numNodes) (GraphAnalysisTool.empty, draws) with
  | none => rw [h1] at h; cases h
  | some ring =>
    rw [h1] at h
    simp only [] at h
    refine ⟨ring, rfl, ?_⟩
    refine forEach_inv
      (fun i s1 => forEach (fun j s2 => rewireStep opts i j s2) [1, 2] s1)
      (fun t => ∀ u e, e ∈ adjOf ring.1.adjacencyList u → e ∈ adjOf t.1.adjacencyList u)
      _ _ r ?_ h (fun _ _ he => he)
    intro i _ a b hab ha
    refine forEach_inv (fun j s2 => rewireStep opts i j s2)
      (fun t => ∀ u e, e ∈ adjOf ring.1.adjacencyList u → e ∈ adjOf t.1.adjacencyList u)
      _ _ b ?_ hab ha
    intro j _ c d hcd hc u e he
    exact rewireStep_keeps opts i j c d hcd u e (hc u e he)

/-- C36 fails on the code: with four nodes, directed edges, and draws that rewire the ring
edge from `0` to `1` towards `3` and nothing else, the graph returned still holds the edge
from `0` to `1` and has `9` edges, not `2 * 4`. -/
theorem smallWorld_keeps_old_edge :
    (generateSmallWorldGraph { numNodes := 4, directed := true }
      { weights := [1, 1, 1, 1, 1, 1, 1, 1, 1],
        coins := [true, false, false, false, false, false, false, false],
        picks := [0, 1, 3] }).map (fun r => (r.1.numEdges, adjOf r.1.adjacencyList 0))
      = some (9, [(1, 1), (2, 1), (3, 1)]) := by decide

end GraphAnalysis
